import Mathlib

/-!
# ContentCompressor: a verification development

Shallow embedding of `Compressor.h` (namespace `zio`): the incremental MD5
hasher `zio::hashing::MD5` and the streaming `zio::compression::Compressor`.

Machine integers are natural numbers reduced explicitly modulo `2^w`.
A byte is a natural number; wherever the source reads a `uint8_t` the value
is reduced modulo 256.
-/

namespace zio
namespace hashing

/-! ## MD5 transform macros (Compressor.h lines 43-68)

In the source the working variables `a b c d`, the decoded block `x[16]`,
the state `_state[4]` and the shift amounts `S11 .. S44` are all declared
`uint64_t`, so every macro below is evaluated in 64-bit arithmetic. -/

/-- Reduction to a `uint64_t`. -/
def u64 (n : Nat) : Nat := n % 2 ^ 64

/-- Reduction to a `uint32_t`. -/
def u32 (n : Nat) : Nat := n % 2 ^ 32

/-- Bitwise complement `~x` of a `uint64_t`. -/
def not64 (x : Nat) : Nat := 2 ^ 64 - 1 - u64 x

/-- Macro `F(x, y, z) (((x) & (y)) | ((~x) & (z)))`. -/
def F (x y z : Nat) : Nat := (x &&& y) ||| (not64 x &&& z)

/-- Macro `G(x, y, z) (((x) & (z)) | ((y) & (~z)))`. -/
def G (x y z : Nat) : Nat := (x &&& z) ||| (y &&& not64 z)

/-- Macro `H(x, y, z) ((x) ^ (y) ^ (z))`. -/
def H (x y z : Nat) : Nat := x ^^^ y ^^^ z

/-- Macro `I(x, y, z) ((y) ^ ((x) | (~z)))`. -/
def I (x y z : Nat) : Nat := y ^^^ (x ||| not64 z)

/-- Macro `ROTATE_LEFT(x, n) (((x) << (n)) | ((x) >> (32-(n))))` on `uint64_t`
operands: the left shift wraps at 64 bits, not at 32. -/
def ROTATE_LEFT (x n : Nat) : Nat := u64 (x <<< n) ||| (x >>> (32 - n))

/-- Macro `FF`: `a += F(b,c,d) + x + ac; a = ROTATE_LEFT(a, s); a += b;`. -/
def FF (a b c d x s ac : Nat) : Nat :=
  u64 (ROTATE_LEFT (u64 (a + u64 (u64 (F b c d + x) + ac))) s + b)

/-- Macro `GG`. -/
def GG (a b c d x s ac : Nat) : Nat :=
  u64 (ROTATE_LEFT (u64 (a + u64 (u64 (G b c d + x) + ac))) s + b)

/-- Macro `HH`. -/
def HH (a b c d x s ac : Nat) : Nat :=
  u64 (ROTATE_LEFT (u64 (a + u64 (u64 (H b c d + x) + ac))) s + b)

/-- Macro `II`. -/
def II (a b c d x s ac : Nat) : Nat :=
  u64 (ROTATE_LEFT (u64 (a + u64 (u64 (I b c d + x) + ac))) s + b)

def MD5_BLOCK_SIZE : Nat := 64

def S11 : Nat := 7
def S12 : Nat := 12
def S13 : Nat := 17
def S14 : Nat := 22
def S21 : Nat := 5
def S22 : Nat := 9
def S23 : Nat := 14
def S24 : Nat := 20
def S31 : Nat := 4
def S32 : Nat := 11
def S33 : Nat := 16
def S34 : Nat := 23
def S41 : Nat := 6
def S42 : Nat := 10
def S43 : Nat := 15
def S44 : Nat := 21

/-- A byte read through a `uint8_t*`. -/
def byteAt (p : List Nat) (j : Nat) : Nat := p.getD j 0 % 256

/-- Source `_Decode(input, output, length)`: little-endian bytes to words,
`length / 4` words (`length` is always 64 here). -/
def _Decode (input : List Nat) (length : Nat) : List Nat :=
  (List.range (length / 4)).map fun i =>
    byteAt input (4 * i) ||| (byteAt input (4 * i + 1) <<< 8) |||
      (byteAt input (4 * i + 2) <<< 16) ||| (byteAt input (4 * i + 3) <<< 24)

/-- Source `_Encode(input, output, length)`: the low 32 bits of each
`uint64_t` word as four little-endian bytes, `length / 4` words. -/
def _Encode (input : List Nat) (length : Nat) : List Nat :=
  (List.range (length / 4)).flatMap fun i =>
    let w := input.getD i 0
    [w &&& 0xff, (w >>> 8) &&& 0xff, (w >>> 16) &&& 0xff, (w >>> 24) &&& 0xff]

/-- The four `uint64_t` words `_state[0..3]`. -/
structure Words where
  s0 : Nat
  s1 : Nat
  s2 : Nat
  s3 : Nat
  deriving DecidableEq, Repr

def Words.toList (w : Words) : List Nat := [w.s0, w.s1, w.s2, w.s3]

/-- Source `_Transform(block)` (lines 223-309). -/
def _Transform (st : Words) (block : List Nat) : Words :=
  let a := st.s0
  let b := st.s1
  let c := st.s2
  let d := st.s3
  let xs := _Decode block MD5_BLOCK_SIZE
  let x := fun i => xs.getD i 0
  /- Round 1 -/
  let a := FF a b c d (x 0) S11 0xd76aa478
  let d := FF d a b c (x 1) S12 0xe8c7b756
  let c := FF c d a b (x 2) S13 0x242070db
  let b := FF b c d a (x 3) S14 0xc1bdceee
  let a := FF a b c d (x 4) S11 0xf57c0faf
  let d := FF d a b c (x 5) S12 0x4787c62a
  let c := FF c d a b (x 6) S13 0xa8304613
  let b := FF b c d a (x 7) S14 0xfd469501
  let a := FF a b c d (x 8) S11 0x698098d8
  let d := FF d a b c (x 9) S12 0x8b44f7af
  let c := FF c d a b (x 10) S13 0xffff5bb1
  let b := FF b c d a (x 11) S14 0x895cd7be
  let a := FF a b c d (x 12) S11 0x6b901122
  let d := FF d a b c (x 13) S12 0xfd987193
  let c := FF c d a b (x 14) S13 0xa679438e
  let b := FF b c d a (x 15) S14 0x49b40821
  /- Round 2 -/
  let a := GG a b c d (x 1) S21 0xf61e2562
  let d := GG d a b c (x 6) S22 0xc040b340
  let c := GG c d a b (x 11) S23 0x265e5a51
  let b := GG b c d a (x 0) S24 0xe9b6c7aa
  let a := GG a b c d (x 5) S21 0xd62f105d
  let d := GG d a b c (x 10) S22 0x2441453
  let c := GG c d a b (x 15) S23 0xd8a1e681
  let b := GG b c d a (x 4) S24 0xe7d3fbc8
  let a := GG a b c d (x 9) S21 0x21e1cde6
  let d := GG d a b c (x 14) S22 0xc33707d6
  let c := GG c d a b (x 3) S23 0xf4d50d87
  let b := GG b c d a (x 8) S24 0x455a14ed
  let a := GG a b c d (x 13) S21 0xa9e3e905
  let d := GG d a b c (x 2) S22 0xfcefa3f8
  let c := GG c d a b (x 7) S23 0x676f02d9
  let b := GG b c d a (x 12) S24 0x8d2a4c8a
  /- Round 3 -/
  let a := HH a b c d (x 5) S31 0xfffa3942
  let d := HH d a b c (x 8) S32 0x8771f681
  let c := HH c d a b (x 11) S33 0x6d9d6122
  let b := HH b c d a (x 14) S34 0xfde5380c
  let a := HH a b c d (x 1) S31 0xa4beea44
  let d := HH d a b c (x 4) S32 0x4bdecfa9
  let c := HH c d a b (x 7) S33 0xf6bb4b60
  let b := HH b c d a (x 10) S34 0xbebfbc70
  let a := HH a b c d (x 13) S31 0x289b7ec6
  let d := HH d a b c (x 0) S32 0xeaa127fa
  let c := HH c d a b (x 3) S33 0xd4ef3085
  let b := HH b c d a (x 6) S34 0x4881d05
  let a := HH a b c d (x 9) S31 0xd9d4d039
  let d := HH d a b c (x 12) S32 0xe6db99e5
  let c := HH c d a b (x 15) S33 0x1fa27cf8
  let b := HH b c d a (x 2) S34 0xc4ac5665
  /- Round 4 -/
  let a := II a b c d (x 0) S41 0xf4292244
  let d := II d a b c (x 7) S42 0x432aff97
  let c := II c d a b (x 14) S43 0xab9423a7
  let b := II b c d a (x 5) S44 0xfc93a039
  let a := II a b c d (x 12) S41 0x655b59c3
  let d := II d a b c (x 3) S42 0x8f0ccc92
  let c := II c d a b (x 10) S43 0xffeff47d
  let b := II b c d a (x 1) S44 0x85845dd1
  let a := II a b c d (x 8) S41 0x6fa87e4f
  let d := II d a b c (x 15) S42 0xfe2ce6e0
  let c := II c d a b (x 6) S43 0xa3014314
  let b := II b c d a (x 13) S44 0x4e0811a1
  let a := II a b c d (x 4) S41 0xf7537e82
  let d := II d a b c (x 11) S42 0xbd3af235
  let c := II c d a b (x 2) S43 0x2ad7d2bb
  let b := II b c d a (x 9) S44 0xeb86d391
  { s0 := u64 (st.s0 + a), s1 := u64 (st.s1 + b), s2 := u64 (st.s2 + c), s3 := u64 (st.s3 + d) }

/-- Source `memcpy(dst + off, src, n)` where `src` is the list of the `n`
bytes copied: the bytes of `dst` from offset `off` on are replaced. -/
def memcpy (dst : List Nat) (off : Nat) (src : List Nat) : List Nat :=
  dst.take off ++ src ++ dst.drop (off + src.length)

/-- Class `zio::hashing::MD5` (lines 360-378): its mutable members.
`_count` is `uint64_t[2]`, `_state` is `uint64_t[4]`. -/
structure MD5 where
  _state : Words
  _count0 : Nat
  _count1 : Nat
  _buffer : List Nat
  _digest : List Nat
  _finished : Bool
  deriving DecidableEq, Repr

/-- Member `PADDING[MD5_BLOCK_SIZE] = { 0x80 }`. -/
def PADDING : List Nat := 0x80 :: List.replicate 63 0

/-- Member `HEX_LOWER_CASE[16]`, the digits `0` to `9` and `a` to `f`. -/
def HEX_LOWER_CASE : List Char := "0123456789abcdef".toList

/-- Member `HEX_UPPER_CASE[16]`, the digits `0` to `9` and `A` to `F`. -/
def HEX_UPPER_CASE : List Char := "0123456789ABCDEF".toList

namespace MD5

/-- Source `Reset()` (lines 108-119). `_buffer` and `_digest` are not touched. -/
def Reset (m : MD5) : MD5 :=
  { m with
    _finished := false
    _count0 := 0
    _count1 := 0
    _state := { s0 := 0x67452301, s1 := 0xefcdab89, s2 := 0x98badcfe, s3 := 0x10325476 } }

/-- Source constructor `MD5() : _finished(false) { Reset(); }`. The arrays
`_buffer` and `_digest` are not initialised by the constructor; their
indeterminate contents are the two arguments. -/
def new (buffer digest : List Nat) : MD5 :=
  Reset { _state := ⟨0, 0, 0, 0⟩, _count0 := 0, _count1 := 0,
          _buffer := buffer, _digest := digest, _finished := false }

/-- The loop `while (residue >= MD5_BLOCK_SIZE) { _Transform(buff); residue -= 64;
buff += 64; }` of `Update`; `buff` is the not yet consumed input, `residue`
its length. One unit of `fuel` per iteration; `Update` supplies
`buff.length`, which the loop cannot exhaust. -/
def updateLoop : Nat → Words → List Nat → Words × List Nat
  | 0, st, buff => (st, buff)
  | fuel + 1, st, buff =>
    if MD5_BLOCK_SIZE ≤ buff.length then
      updateLoop fuel (_Transform st buff) (buff.drop MD5_BLOCK_SIZE)
    else (st, buff)

/-- Source `Update(input, size)` (lines 121-160); the argument is the list of
the `size` bytes at `input`. -/
def Update (m : MD5) (input : List Nat) : MD5 :=
  let size := u64 input.length
  let index := (m._count0 >>> 3) &&& 0x3f
  let c0 := u64 (m._count0 + u64 (size <<< 3))
  let c1 := if c0 < u64 (size <<< 3) then u64 (m._count1 + 1) else m._count1
  let c1 := u64 (c1 + (size >>> 29))
  let partLen := MD5_BLOCK_SIZE - index
  if partLen ≤ size then
    let buffer := memcpy m._buffer index (input.take partLen)
    let st := _Transform m._state buffer
    let buff := input.drop partLen
    let r := updateLoop buff.length st buff
    { m with
      _finished := false
      _count0 := c0
      _count1 := c1
      _state := r.1
      _buffer := if 0 < r.2.length then memcpy buffer 0 r.2 else buffer }
  else
    { m with
      _finished := false
      _count0 := c0
      _count1 := c1
      _buffer := memcpy m._buffer index input }

/-- Source `Final()` (lines 162-198). The save and restore statements are
`memcpy(oldState, _state, 16)` and `memcpy(oldCount, _count, 8)` on arrays of
`uint64_t`: they cover `_state[0]`, `_state[1]` and `_count[0]` only, so
`_state[2]`, `_state[3]` and `_count[1]` keep the values the two `Update`
calls left. -/
def Final (m : MD5) : MD5 :=
  if m._finished then m
  else
    let bits := _Encode [m._count0, m._count1] 8
    let index := (m._count0 >>> 3) &&& 0x3f
    let nR := MD5_BLOCK_SIZE - 8
    let padLen := if index < nR then nR - index else MD5_BLOCK_SIZE + nR - index
    let m1 := Update m (PADDING.take padLen)
    let m2 := Update m1 bits
    { m2 with
      _digest := _Encode m2._state.toList 16
      _state := { m2._state with s0 := m._state.s0, s1 := m._state.s1 }
      _count0 := m._count0
      _finished := true }

/-- Source `Digest()` (lines 200-207): `if (_finished) { Final(); } return _digest;`.
Returns the hasher after the call and the bytes read from `_digest`. -/
def Digest (m : MD5) : MD5 × List Nat :=
  let m := if m._finished then Final m else m
  (m, m._digest)

/-- Source `_BytesToHexString(input, length, upperCase)` (lines 331-358). -/
def _BytesToHexString (input : List Nat) (length : Nat) (upperCase : Bool) : String :=
  String.mk <| (List.range length).flatMap fun i =>
    let t := byteAt input i
    let a := t / 16
    let b := t % 16
    if upperCase then [HEX_UPPER_CASE.getD a '0', HEX_UPPER_CASE.getD b '0']
    else [HEX_LOWER_CASE.getD a '0', HEX_LOWER_CASE.getD b '0']

/-- Source `ToHexString(upperCase)` (lines 209-216):
`if (_finished) { Final(); } return _BytesToHexString(_digest, 16, upperCase);`. -/
def ToHexString (m : MD5) (upperCase : Bool) : MD5 × String :=
  let m := if m._finished then Final m else m
  (m, _BytesToHexString m._digest 16 upperCase)

end MD5

end hashing

namespace compression

open hashing

/-- Source `enum class Mode` (lines 392-400). -/
inductive Mode where
  | None
  | Write
  | Append
  deriving DecidableEq, Repr

/-- Source `enum class Format` (lines 405-412); `DEFAULT = GZip`, `MIN = 0`,
`MAX = 1` are aliases. -/
inductive Format where
  | GZip
  | ZStd
  deriving DecidableEq, Repr

/-- A Win32 `HANDLE` as the source tests it: `nullptr`,
`INVALID_HANDLE_VALUE` (non-null, returned by a failed `CreateFileA`), or an
open file. -/
inductive Handle where
  | null
  | invalid
  | valid
  deriving DecidableEq, Repr

/-- How a call ends: it returns, it throws `std::exception(msg)` (the state
reached when the exception leaves is kept), it never returns, or it
dereferences a null pointer. -/
inductive Outcome (α : Type) where
  | ok (a : α)
  | raise (msg : String) (a : α)
  | hang
  | fault
  deriving DecidableEq, Repr

namespace Outcome

/-- Sequencing: the next statement runs only after a normal return. -/
def andThen {α : Type} (o : Outcome α) (f : α → Outcome α) : Outcome α :=
  match o with
  | ok a => f a
  | raise msg a => raise msg a
  | hang => hang
  | fault => fault

/-- Re-embedding of the state a callee worked on into the caller's state. -/
def lift {α β : Type} (o : Outcome α) (g : α → β) : Outcome β :=
  match o with
  | ok a => ok (g a)
  | raise msg a => raise msg (g a)
  | hang => hang
  | fault => fault

end Outcome

/-- One codec invocation: the chunk handed over and the end-of-stream flag. -/
abbrev Feed : Type := List Nat × Bool

/-- The external libraries (isa-l igzip and libzstd), a parameter of the
embedding. A streaming engine is deterministic: the bytes it emits in
response to a chunk are a function of all chunks and end-of-stream flags it
was handed since its initialisation, the last one included. Each call of the
engine delivers as many of the emitted, not yet delivered bytes as the
offered output space takes. -/
structure Lib where
  /-- Bytes `isal_deflate` emits for the last feed of the history. -/
  isal_deflate : List Feed → List Nat
  /-- Bytes `ZSTD_compressStream2` emits for the last feed of the history. -/
  ZSTD_compressStream2 : List Feed → List Nat
  /-- Value of `ZSTD_CStreamInSize()`. -/
  ZSTD_CStreamInSize : Nat
  /-- Value of `ZSTD_CStreamOutSize()`. -/
  ZSTD_CStreamOutSize : Nat

/-- One step of the reflected CRC-32 (polynomial `0xEDB88320`) on one bit. -/
def crcBit (x : Nat) : Nat :=
  if x &&& 1 = 1 then (x >>> 1) ^^^ 0xEDB88320 else x >>> 1

/-- The reflected CRC-32 register after one more byte. -/
def crcByte (crc b : Nat) : Nat :=
  crcBit (crcBit (crcBit (crcBit (crcBit (crcBit (crcBit (crcBit (crc ^^^ (b % 256)))))))))

/-- Modelled from the spec: isa-l `crc32_gzip_refl(init_crc, buf, len)`, the
CRC-32 of gzip (RFC 1952, reflected polynomial), continuing from the CRC
`init_crc` of the bytes seen before; the argument is the list of the `len`
bytes at `buf`. -/
def crc32_gzip_refl (init_crc : Nat) (buf : List Nat) : Nat :=
  (buf.foldl crcByte (u32 init_crc ^^^ 0xFFFFFFFF)) ^^^ 0xFFFFFFFF

/-- The four bytes `memcpy(dst, &w, 4)` copies from a `uint32_t` on the
little-endian target. -/
def le32 (w : Nat) : List Nat :=
  [w % 256, (w / 2 ^ 8) % 256, (w / 2 ^ 16) % 256, (w / 2 ^ 24) % 256]

/-- Modelled from the spec: the bytes `isal_write_gzip_header` produces for a
header initialised by `isal_gzip_header_init`: magic `1F 8B`, method `08`,
flags `00`, zero mtime, zero extra flags, OS byte `FF`. -/
def GZIP_HDR_DATA : List Nat := [0x1F, 0x8B, 0x08, 0x00, 0x00, 0x00, 0x00, 0x00, 0x00, 0xFF]

def IGZ_CHUNK_CAPACITY : Nat := 8192

def COMPRESS_BUFF_SIZE_LIMIT : Nat := 1 <<< 20

/-- The output side of a `Compressor`: the members `_WriteAndReset` reads or
writes, the target file, and three observation logs. `compressedBuffer` is the
filled part of the array, so `compressedBufferSize` is its length. -/
structure Sink where
  fMode : Mode
  fHandle : Handle
  fSize : Nat
  fCursor : Nat
  bGenMD5 : Bool
  md5x : MD5
  compressedBuffer : List Nat
  compressedBufferSizeLimit : Nat
  compressedBufferCapacity : Nat
  /-- Content of the target file, `none` when it does not exist. -/
  file : Option (List Nat)
  /-- Log: the byte ranges passed to `WriteFile`, in call order. -/
  written : List (List Nat)
  /-- Log: the byte ranges passed to `md5x.Update` by the compressor, in call order. -/
  hashed : List (List Nat)
  /-- Log: the largest end offset of a write into `compressedBuffer` so far. -/
  hiWater : Nat
  deriving DecidableEq, Repr

namespace Sink

/-- Member `compressedBufferSize`. -/
def compressedBufferSize (s : Sink) : Nat := s.compressedBuffer.length

/-- A write of `bytes` into `compressedBuffer + compressedBufferSize`,
followed by `compressedBufferSize += bytes.length`. -/
def store (s : Sink) (bytes : List Nat) : Sink :=
  { s with
    compressedBuffer := s.compressedBuffer ++ bytes
    hiWater := max s.hiWater (s.compressedBuffer.length + bytes.length) }

/-- Source `_WriteAndReset(append, flush)` (lines 1207-1255). `WriteFile`
fails on an invalid handle (`dwBytes = 0`) and otherwise writes the whole
range at the file pointer. -/
def _WriteAndReset (s : Sink) (append flush : Bool) : Outcome Sink :=
  if s.fHandle = Handle.null then
    Outcome.raise "FileHandle is null" s
  else if s.fMode ≠ Mode.Write ∧ s.fMode ≠ Mode.Append then
    Outcome.raise "FileMode must be \x27Write\x27 or \x27Append\x27" s
  else if s.compressedBufferSize = 0 then
    Outcome.ok s
  else
    let atEnd := append || s.fMode == Mode.Append
    let s := if atEnd then s
      else { s with fSize := 0, md5x := if s.bGenMD5 then s.md5x.Reset else s.md5x }
    let old := s.file.getD []
    let pos := if atEnd then old.length else 0
    let dwBytes := if s.fHandle = Handle.valid then s.compressedBufferSize else 0
    let file := if s.fHandle = Handle.valid then
        some (old.take pos ++ s.compressedBuffer ++ old.drop (pos + s.compressedBufferSize))
      else s.file
    let _ := flush
    Outcome.ok { s with
      file := file
      written := s.written ++ [s.compressedBuffer]
      md5x := if s.bGenMD5 then s.md5x.Update s.compressedBuffer else s.md5x
      hashed := if s.bGenMD5 then s.hashed ++ [s.compressedBuffer] else s.hashed
      compressedBuffer := []
      fSize := u64 (s.fSize + dwBytes)
      fCursor := u64 (s.fSize + dwBytes) }

/-- The recurring statement
`if (compressedBufferSize >= compressedBufferSizeLimit) { _WriteAndReset(); }`. -/
def flushIfFull (s : Sink) : Outcome Sink :=
  if s.compressedBufferSizeLimit ≤ s.compressedBufferSize then s._WriteAndReset true false
  else Outcome.ok s

/-- The drain loop of `_CompressAndWriteGZIP` and `_EndAndWriteGZIP`:
`do { availableOutputSize = limit - size; ...; isal_deflate(igzStream);
size += availableOutputSize - avail_out; if (size >= limit) _WriteAndReset(); }
while (avail_out == 0)`. `pending` are the bytes the engine still has to
deliver. One unit of fuel per iteration; running out of fuel is the loop not
terminating. -/
def drainGZIP : Nat → Sink → List Nat → Outcome Sink
  | 0, _, _ => Outcome.hang
  | fuel + 1, s, pending =>
    let availableOutputSize := u32 (s.compressedBufferSizeLimit + 2 ^ 32 - u32 s.compressedBufferSize)
    let produced := pending.take availableOutputSize
    let avail_out := availableOutputSize - produced.length
    (flushIfFull (s.store produced)).andThen fun s =>
      if avail_out = 0 then drainGZIP fuel s (pending.drop availableOutputSize)
      else Outcome.ok s

/-- The drain loop of `_CompressAndWriteZSTD` and `_EndAndWriteZSTD`:
`do { zstOutput.pos = 0; remain = ZSTD_compressStream2(...); size += pos;
if (size >= limit) _WriteAndReset(); finished = (remain == 0); } while (!finished)`
with `zstOutput.size = outputChunkSize`. -/
def drainZSTD (outputChunkSize : Nat) : Nat → Sink → List Nat → Outcome Sink
  | 0, _, _ => Outcome.hang
  | fuel + 1, s, pending =>
    let produced := pending.take outputChunkSize
    let remain := (pending.drop outputChunkSize).length
    (flushIfFull (s.store produced)).andThen fun s =>
      if remain = 0 then Outcome.ok s
      else drainZSTD outputChunkSize fuel s (pending.drop outputChunkSize)

end Sink

/-- Class `Compressor` (lines 487-1314): its members. `currentInputBuffer` is
the held part of the array, so `currentInputSize` is its length; a codec
context (`igzStream`, `zstCtx`) is `none` when the pointer is null and
otherwise holds the feeds the engine received since its initialisation. The
scratch members `zstInput`, `zstOutput` and `igzLevelBuff` carry nothing
between calls and are left out. -/
structure Compressor where
  fName : String
  cFormat : Format
  currentInputBuffer : List Nat
  inputBufferCursor : Nat
  inputChunkSize : Nat
  outputChunkSize : Nat
  bEndOfStream : Bool
  igzStream : Option (List Feed)
  zstCtx : Option (List Feed)
  igzCrc : Nat
  totalInputSize : Nat
  bClosed : Bool
  sink : Sink
  /-- Log: the codec invocations (chunk, end-of-stream flag), in call order. -/
  fed : List Feed
  /-- Log: how often the 8-byte gzip trailer was appended. -/
  trailers : Nat
  /-- Log: how often `DeleteFileA` was called. -/
  deleted : Nat
  deriving DecidableEq, Repr

/-- What the constructor finds outside the object: the target file, whether
`CreateFileA` is granted, and the indeterminate contents of the arrays of the
default-constructed `md5x`. -/
structure World where
  file : Option (List Nat)
  openOk : Bool
  md5Buffer : List Nat
  md5Digest : List Nat

namespace Compressor

/-- Member `currentInputSize`. -/
def currentInputSize (c : Compressor) : Nat := c.currentInputBuffer.length

/-- Re-embedding of a sink into the compressor that owns it. -/
def withSink (c : Compressor) (s : Sink) : Compressor := { c with sink := s }

/-- The finalisation block shared by `_CompressAndWriteGZIP` (lines 1019-1036)
and `_EndAndWriteGZIP` (lines 1076-1093): flush if full, append the CRC and the
low 32 bits of `totalInputSize`, write, finalise the digest, set `bEndOfStream`. -/
def gzipTrailer (c : Compressor) : Outcome Compressor :=
  (c.sink.flushIfFull.lift c.withSink).andThen fun c =>
    let inputSizeLo := c.totalInputSize &&& 0xFFFFFFFF
    let s := (c.sink.store (le32 (u32 c.igzCrc))).store (le32 inputSizeLo)
    let c := { c with sink := s, trailers := c.trailers + 1 }
    ((c.sink._WriteAndReset true false).lift c.withSink).andThen fun c =>
      let s := if c.sink.bGenMD5 then { c.sink with md5x := c.sink.md5x.Final } else c.sink
      Outcome.ok { c with sink := s, bEndOfStream := true }

/-- The stream set-up and drain loop shared by `_CompressAndWriteGZIP`
(lines 998-1015) and `_EndAndWriteGZIP` (lines 1057-1074): the chunk and the
end-of-stream flag are stored into `*igzStream` and `isal_deflate` is called
until it leaves output space unused. The fuel `pending.length + 2` exceeds
the number of iterations whenever the size limit is positive. -/
def deflateAll (lib : Lib) (c : Compressor) (input : List Nat) (isLast : Bool) :
    Outcome Compressor :=
  match c.igzStream with
  | none => Outcome.fault
  | some hist =>
    let c := { c with igzStream := some (hist ++ [(input, isLast)]), fed := c.fed ++ [(input, isLast)] }
    let pending := lib.isal_deflate (hist ++ [(input, isLast)])
    (Sink.drainGZIP (pending.length + 2) c.sink pending).lift c.withSink

/-- Source `_CompressAndWriteGZIP(input, size, isLast)` (lines 984-1038). -/
def _CompressAndWriteGZIP (lib : Lib) (c : Compressor) (input : List Nat) (isLast : Bool) :
    Outcome Compressor :=
  (c.sink.flushIfFull.lift c.withSink).andThen fun c =>
    if input.length = 0 ∨ (isLast = false ∧ input.length < c.inputChunkSize) then
      Outcome.ok c
    else
      let c := { c with igzCrc := crc32_gzip_refl c.igzCrc input }
      (deflateAll lib c input isLast).andThen fun c =>
        if isLast then gzipTrailer c else Outcome.ok c

/-- Source `_EndAndWriteGZIP()` (lines 1040-1094). -/
def _EndAndWriteGZIP (lib : Lib) (c : Compressor) : Outcome Compressor :=
  if c.bEndOfStream then Outcome.ok c
  else
    (c.sink.flushIfFull.lift c.withSink).andThen fun c =>
      let c := if 0 < c.currentInputSize then
          { c with igzCrc := crc32_gzip_refl c.igzCrc c.currentInputBuffer }
        else c
      (deflateAll lib c c.currentInputBuffer true).andThen gzipTrailer

/-- The finalisation block of `_CompressAndWriteZSTD` (lines 1134-1142) and
`_EndAndWriteZSTD` (lines 1183-1188). -/
def zstdEnd (c : Compressor) : Outcome Compressor :=
  ((c.sink._WriteAndReset true false).lift c.withSink).andThen fun c =>
    let s := if c.sink.bGenMD5 then { c.sink with md5x := c.sink.md5x.Final } else c.sink
    Outcome.ok { c with sink := s, bEndOfStream := true }

/-- The buffer set-up and compression loop shared by `_CompressAndWriteZSTD`
(lines 1108-1132) and `_EndAndWriteZSTD` (lines 1157-1181). The fuel
`pending.length + 1` exceeds the number of iterations whenever
`outputChunkSize` is positive. -/
def zstdAll (lib : Lib) (c : Compressor) (input : List Nat) (isLast : Bool) :
    Outcome Compressor :=
  match c.zstCtx with
  | none => Outcome.fault
  | some hist =>
    let c := { c with zstCtx := some (hist ++ [(input, isLast)]), fed := c.fed ++ [(input, isLast)] }
    let pending := lib.ZSTD_compressStream2 (hist ++ [(input, isLast)])
    (Sink.drainZSTD c.outputChunkSize (pending.length + 1) c.sink pending).lift c.withSink

/-- Source `_CompressAndWriteZSTD(input, size, isLast)` (lines 1096-1143). -/
def _CompressAndWriteZSTD (lib : Lib) (c : Compressor) (input : List Nat) (isLast : Bool) :
    Outcome Compressor :=
  (c.sink.flushIfFull.lift c.withSink).andThen fun c =>
    if input.length = 0 ∨ (isLast = false ∧ input.length < c.inputChunkSize) then
      Outcome.ok c
    else
      (zstdAll lib c input isLast).andThen fun c =>
        if isLast then zstdEnd c else Outcome.ok c

/-- Source `_EndAndWriteZSTD()` (lines 1145-1189). -/
def _EndAndWriteZSTD (lib : Lib) (c : Compressor) : Outcome Compressor :=
  if c.bEndOfStream then Outcome.ok c
  else
    (c.sink.flushIfFull.lift c.withSink).andThen fun c =>
      (zstdAll lib c c.currentInputBuffer true).andThen zstdEnd

/-- Source `_CompressAndWrite(input, size, isLast)` (lines 955-966). -/
def _CompressAndWrite (lib : Lib) (c : Compressor) (input : List Nat) (isLast : Bool) :
    Outcome Compressor :=
  match c.cFormat with
  | Format.GZip =>
    _CompressAndWriteGZIP lib c input (isLast && decide (input.length ≤ c.inputChunkSize))
  | Format.ZStd =>
    _CompressAndWriteZSTD lib c input (isLast && decide (input.length ≤ c.inputChunkSize))

/-- Source `_EndAndWrite()` (lines 968-982). -/
def _EndAndWrite (lib : Lib) (c : Compressor) : Outcome Compressor :=
  match c.cFormat with
  | Format.GZip => _EndAndWriteGZIP lib c
  | Format.ZStd => _EndAndWriteZSTD lib c

/-- Empties the held buffer: `currentInputSize = 0`. -/
def dropHeld (c : Compressor) : Compressor := { c with currentInputBuffer := [] }

/-- Replaces the held bytes. -/
def withHeld (c : Compressor) (b : List Nat) : Compressor := { c with currentInputBuffer := b }

/-- The first part of `Put` for `size > 0` (lines 844-868): merging the new
bytes with the held ones. Returns the state and the not yet consumed input
(`ptr`, `residue`). -/
def putHeld (lib : Lib) (c : Compressor) (data : List Nat) (isLast : Bool) :
    Outcome (Compressor × List Nat) :=
  if 0 < c.currentInputSize then
    if c.currentInputSize < c.inputChunkSize then
      let pad := min (c.inputChunkSize - c.currentInputSize) data.length
      let c := { c with currentInputBuffer := c.currentInputBuffer ++ data.take pad }
      let ptr := data.drop pad
      if (isLast = true ∧ 0 < c.currentInputSize) ∨ c.currentInputSize = c.inputChunkSize then
        (_CompressAndWrite lib c c.currentInputBuffer (isLast && decide (ptr.length = 0))).lift
          fun c => (c.dropHeld, ptr)
      else Outcome.ok (c, ptr)
    else
      (_CompressAndWrite lib c c.currentInputBuffer false).lift fun c => (c.dropHeld, data)
  else Outcome.ok (c, data)

/-- The slicing loop of `Put` (lines 869-874):
`while (residue >= inputChunkSize) { _CompressAndWrite(ptr, inputChunkSize,
isLast && residue <= inputChunkSize); ptr += inputChunkSize; residue -= inputChunkSize; }`.
One unit of fuel per iteration; running out of fuel is the loop not terminating. -/
def putLoop (lib : Lib) (isLast : Bool) : Nat → Compressor → List Nat →
    Outcome (Compressor × List Nat)
  | 0, c, ptr => if c.inputChunkSize ≤ ptr.length then Outcome.hang else Outcome.ok (c, ptr)
  | fuel + 1, c, ptr =>
    if c.inputChunkSize ≤ ptr.length then
      match _CompressAndWrite lib c (ptr.take c.inputChunkSize)
          (isLast && decide (ptr.length ≤ c.inputChunkSize)) with
      | Outcome.ok c => putLoop lib isLast fuel c (ptr.drop c.inputChunkSize)
      | Outcome.raise msg c => Outcome.raise msg (c, ptr)
      | Outcome.hang => Outcome.hang
      | Outcome.fault => Outcome.fault
    else Outcome.ok (c, ptr)

/-- The last part of `Put` for `size > 0` (lines 875-886). -/
def putTail (lib : Lib) (isLast : Bool) (c : Compressor) (ptr : List Nat) : Outcome Compressor :=
  if 0 < ptr.length then
    if isLast then _CompressAndWrite lib c ptr true
    else Outcome.ok { c with currentInputBuffer := c.currentInputBuffer ++ ptr }
  else Outcome.ok c

/-- Continues `Put` after a part that also tracks the unconsumed input. -/
def thenPtr (o : Outcome (Compressor × List Nat))
    (f : Compressor → List Nat → Outcome (Compressor × List Nat)) :
    Outcome (Compressor × List Nat) :=
  o.andThen fun p => f p.1 p.2

/-- Source `Put(data, size, isLast)` (lines 832-896); `data` is the list of
the `size` bytes at the pointer, `size` a `uint32_t`. -/
def Put (lib : Lib) (c : Compressor) (data : List Nat) (isLast : Bool) : Outcome Compressor :=
  if c.bEndOfStream = true ∧ 0 < data.length then
    Outcome.raise "end_of_stream" c
  else if 0 < data.length then
    let c := { c with totalInputSize := u64 (c.totalInputSize + data.length) }
    match thenPtr (putHeld lib c data isLast) (putLoop lib isLast data.length) with
    | Outcome.ok (c, ptr) => putTail lib isLast c ptr
    | Outcome.raise msg (c, _) => Outcome.raise msg c
    | Outcome.hang => Outcome.hang
    | Outcome.fault => Outcome.fault
  else if isLast = true ∧ 0 < c.currentInputSize then
    (_CompressAndWrite lib c c.currentInputBuffer true).lift dropHeld
  else Outcome.ok c

/-- The part of `Close` after the handle is closed (lines 784-823): the file
is deleted when no input was ever supplied, the codec contexts and buffers are
freed, the cursors and sizes are reset and `bClosed` is set. -/
def release (c : Compressor) : Compressor :=
  let c := if c.fName ≠ "" ∧ (c.sink.fMode = Mode.Write ∨ c.sink.fMode = Mode.Append)
        ∧ c.totalInputSize = 0 then
      { c with sink := { c.sink with file := none, fSize := 0 }, deleted := c.deleted + 1 }
    else c
  { c with
    zstCtx := none
    igzStream := none
    currentInputBuffer := []
    inputBufferCursor := 0
    bClosed := true
    sink := { c.sink with compressedBuffer := [], fCursor := 0 } }

/-- The statements `FlushFileBuffers(fHandle); CloseHandle(fHandle); fHandle = nullptr;`. -/
def closeHandle (c : Compressor) : Compressor :=
  { c with sink := { c.sink with fHandle := Handle.null } }

/-- Source `Close()` (lines 765-824). -/
def Close (lib : Lib) (c : Compressor) : Outcome Compressor :=
  if c.bClosed then Outcome.ok c
  else
    let closed : Outcome Compressor :=
      if c.sink.fHandle ≠ Handle.null then
        (if c.bEndOfStream = false then _EndAndWrite lib c else Outcome.ok c).andThen fun c =>
          Outcome.ok c.closeHandle
      else Outcome.ok c
    closed.andThen fun c => Outcome.ok c.release

/-- Source `InputSize()` (lines 901-904). -/
def InputSize (c : Compressor) : Nat := c.totalInputSize

/-- Source `FileSize(flushed)` (lines 910-920). -/
def FileSize (c : Compressor) (flushed : Bool) : Nat :=
  if flushed = true ∧ (c.sink.fMode = Mode.Write ∨ c.sink.fMode = Mode.Append)
      ∧ c.totalInputSize = 0 then 0
  else c.sink.fSize

/-- The member initialiser list shared by both constructors (lines 498-522,
618-642). -/
def init (outfile : String) (format : Format) (mode : Mode) (genMD5 : Bool) (w : World) :
    Compressor :=
  { fName := outfile
    cFormat := format
    currentInputBuffer := []
    inputBufferCursor := 0
    inputChunkSize := 0
    outputChunkSize := 0
    bEndOfStream := false
    igzStream := none
    zstCtx := none
    igzCrc := 0
    totalInputSize := 0
    bClosed := false
    fed := []
    trailers := 0
    deleted := 0
    sink :=
      { fMode := mode
        fHandle := Handle.null
        fSize := 0
        fCursor := 0
        bGenMD5 := genMD5
        md5x := MD5.new w.md5Buffer w.md5Digest
        compressedBuffer := []
        compressedBufferSizeLimit := 0
        compressedBufferCapacity := 0
        file := w.file
        written := []
        hashed := []
        hiWater := 0 } }

/-- The effect of `CreateFileA` in the constructor and in `Configure`:
`CREATE_ALWAYS` for `Write` (the file is created or truncated),
`OPEN_EXISTING` for `Append` (the file must exist). Returns the handle and
the file afterwards. -/
def CreateFileA (mode : Mode) (w : World) : Handle × Option (List Nat) :=
  match mode with
  | Mode.Write => if w.openOk then (Handle.valid, some []) else (Handle.invalid, w.file)
  | _ => if w.openOk ∧ w.file.isSome then (Handle.valid, w.file) else (Handle.invalid, w.file)

/-- The body shared by the constructor (lines 569-611) and `Configure`
(lines 714-756) once the file is open: allocation of the buffers and of the
codec context of the format, and for gzip the header written through
`_WriteAndReset`. -/
def setup (lib : Lib) (c : Compressor) : Outcome Compressor :=
  match c.cFormat with
  | Format.GZip =>
    let s := { c.sink with
      compressedBufferSizeLimit := COMPRESS_BUFF_SIZE_LIMIT
      compressedBufferCapacity := COMPRESS_BUFF_SIZE_LIMIT + IGZ_CHUNK_CAPACITY
      compressedBuffer := [] }
    let c := { c with
      inputChunkSize := IGZ_CHUNK_CAPACITY
      outputChunkSize := IGZ_CHUNK_CAPACITY
      currentInputBuffer := []
      igzStream := some []
      sink := s.store GZIP_HDR_DATA }
    ((c.sink._WriteAndReset true false).lift c.withSink).andThen fun c =>
      Outcome.ok { c with igzStream := some [] }
  | Format.ZStd =>
    let s := { c.sink with
      compressedBufferSizeLimit := COMPRESS_BUFF_SIZE_LIMIT
      compressedBufferCapacity := COMPRESS_BUFF_SIZE_LIMIT + lib.ZSTD_CStreamOutSize
      compressedBuffer := [] }
    Outcome.ok { c with
      inputChunkSize := lib.ZSTD_CStreamInSize
      outputChunkSize := lib.ZSTD_CStreamOutSize
      currentInputBuffer := []
      zstCtx := some []
      sink := s }

/-- Source constructor `Compressor(outfile, format, mode, genMD5)` (lines 497-612). -/
def new (lib : Lib) (outfile : String) (format : Format) (mode : Mode) (genMD5 : Bool)
    (w : World) : Outcome Compressor :=
  let c := init outfile format mode genMD5 w
  if mode = Mode.None ∨ outfile = "" then Outcome.ok c
  else
    let r := CreateFileA mode w
    let c := { c with sink := { c.sink with fHandle := r.1, file := r.2 } }
    if r.1 = Handle.invalid then Outcome.ok c
    else
      let c := if mode = Mode.Append then
          { c with sink := { c.sink with fSize := (r.2.getD []).length } }
        else c
      if mode = Mode.Write ∨ mode = Mode.Append then setup lib c else Outcome.ok c

end Compressor

/-- A call of the public interface. -/
inductive Op where
  | put (data : List Nat) (isLast : Bool)
  | close
  deriving DecidableEq, Repr

/-- Executes one call. -/
def Op.exec (lib : Lib) (c : Compressor) : Op → Outcome Compressor
  | Op.put data isLast => c.Put lib data isLast
  | Op.close => c.Close lib

/-- A caller that stops at the first call that does not return. -/
def run (lib : Lib) : Outcome Compressor → List Op → Outcome Compressor
  | o, [] => o
  | o, op :: ops => run lib (o.andThen fun c => op.exec lib c) ops

/-- A caller that catches every exception: it goes on with the state the
throwing call left. -/
def Outcome.caught {α : Type} : Outcome α → Outcome α
  | Outcome.raise _ a => Outcome.ok a
  | o => o

/-- Executes the calls in order, catching every exception. -/
def runCaught (lib : Lib) : Outcome Compressor → List Op → Outcome Compressor
  | o, [] => o
  | o, op :: ops => runCaught lib (o.andThen fun c => (op.exec lib c).caught) ops

/-- The calls `Put(d, size, false)` for the pieces `d` of a split. -/
def putsOf (pieces : List (List Nat)) : List Op := pieces.map fun d => Op.put d false

/-! ## Predicates used in the statements -/

/-- The sink of a successfully opened compressor: an open handle, a writing
mode, and a positive size limit that fits a `uint32_t`. -/
def SinkOK (s : Sink) : Prop :=
  s.fHandle = Handle.valid ∧ (s.fMode = Mode.Write ∨ s.fMode = Mode.Append) ∧
    0 < s.compressedBufferSizeLimit ∧ s.compressedBufferSizeLimit < 2 ^ 32

instance (s : Sink) : Decidable (SinkOK s) := by
  unfold SinkOK
  infer_instance

/-- Sink `t` is sink `s` after the bytes `out` were stored into the output
buffer, with any number of flushes in between: the configuration is the
same, the written ranges followed by the buffered bytes grew by `out`, the
file grew by what was written, and every written range was hashed when
digesting is enabled. -/
def Sink.Ext (s t : Sink) (out : List Nat) : Prop :=
  t.fHandle = s.fHandle ∧ t.fMode = s.fMode ∧
    t.compressedBufferSizeLimit = s.compressedBufferSizeLimit ∧
    t.compressedBufferCapacity = s.compressedBufferCapacity ∧
    t.bGenMD5 = s.bGenMD5 ∧
    (∃ ws, t.written = s.written ++ ws ∧
      t.hashed = s.hashed ++ (if s.bGenMD5 then ws else []) ∧
      ws.flatten ++ t.compressedBuffer = s.compressedBuffer ++ out ∧
      t.file.getD [] = s.file.getD [] ++ ws.flatten ∧
      (ws ≠ [] → t.file.isSome = true)) ∧
    (s.file.isSome = true → t.file.isSome = true)

/-- A successfully opened compressor that is neither finalised nor closed,
whatever it holds: the sink is open with room in the output buffer, the chunk
sizes are positive and the codec context of the format is allocated. -/
def Armed (c : Compressor) : Prop :=
  SinkOK c.sink ∧
    c.sink.compressedBuffer.length < c.sink.compressedBufferSizeLimit ∧
    0 < c.inputChunkSize ∧ 0 < c.outputChunkSize ∧
    (c.cFormat = Format.GZip → c.igzStream.isSome = true) ∧
    (c.cFormat = Format.ZStd → c.zstCtx.isSome = true) ∧
    c.bEndOfStream = false ∧ c.bClosed = false

instance (c : Compressor) : Decidable (Armed c) := by
  unfold Armed
  infer_instance

/-- A successfully opened compressor that is neither finalised nor closed,
between two calls: it holds less than one chunk. -/
def Ready (c : Compressor) : Prop :=
  Armed c ∧ c.currentInputBuffer.length < c.inputChunkSize

instance (c : Compressor) : Decidable (Ready c) := by
  unfold Ready
  infer_instance

/-- State `d` is state `c` after the codec of its format was handed the chunk
`x` with end-of-stream flag `l`: the invocation is logged, the gzip CRC
covers `x`, the output went to the sink, and with `l` set the stream was
finalised (for gzip with the trailer as the last bytes put out). Every other
member is unchanged. -/
def Fed (c d : Compressor) (x : List Nat) (l : Bool) : Prop :=
  ∃ (ig zs : Option (List Feed)) (t : Sink) (out : List Nat),
    d = { c with
      igzStream := ig
      zstCtx := zs
      sink := t
      igzCrc := if c.cFormat = Format.GZip ∧ x ≠ [] then crc32_gzip_refl c.igzCrc x else c.igzCrc
      fed := c.fed ++ [(x, l)]
      trailers := if c.cFormat = Format.GZip ∧ l = true then c.trailers + 1 else c.trailers
      bEndOfStream := l } ∧
    (c.cFormat = Format.GZip → ig.isSome = true ∧ zs = c.zstCtx) ∧
    (c.cFormat = Format.ZStd → zs.isSome = true ∧ ig = c.igzStream) ∧
    Sink.Ext c.sink t out ∧
    t.compressedBuffer.length < t.compressedBufferSizeLimit ∧
    (l = true → t.compressedBuffer = [] ∧
      (c.cFormat = Format.GZip → ∃ pre, out = pre ++
        (le32 (u32 (if x ≠ [] then crc32_gzip_refl c.igzCrc x else c.igzCrc)) ++
          le32 (c.totalInputSize &&& 0xFFFFFFFF))))

/-- The call `_CompressAndWrite(x, size, l)` on state `c` returns with state
`d` and is a codec invocation. -/
def FedBy (lib : Lib) (c d : Compressor) (x : List Nat) (l : Bool) : Prop :=
  c._CompressAndWrite lib x l = Outcome.ok d ∧ Fed c d x l

/-- State `d` is state `c` after the calls `_CompressAndWrite(x, size, l)` for
the chunks and flags `fs`, in order, each one a codec invocation. -/
inductive FedAll (lib : Lib) : Compressor → List Feed → Compressor → Prop where
  | nil (c : Compressor) : FedAll lib c [] c
  | cons {c d e : Compressor} {x : List Nat} {l : Bool} {fs : List Feed} :
      FedBy lib c d x l → FedAll lib d fs e → FedAll lib c ((x, l) :: fs) e

/-- The codec invocations of the slicing loop of `Put` on the unconsumed
input `ptr`, read off the loop. -/
def sliceFeeds (C : Nat) (isLast : Bool) : Nat → List Nat → List Feed
  | 0, _ => []
  | fuel + 1, ptr =>
    if C ≤ ptr.length then
      (ptr.take C, isLast && decide (ptr.length ≤ C)) :: sliceFeeds C isLast fuel (ptr.drop C)
    else []

/-- The input the slicing loop of `Put` leaves unconsumed. -/
def sliceRest (C : Nat) : Nat → List Nat → List Nat
  | 0, ptr => ptr
  | fuel + 1, ptr => if C ≤ ptr.length then sliceRest C fuel (ptr.drop C) else ptr

/-- The codec invocation of the first part of `Put` (merging with the held
bytes), the bytes held afterwards and the unconsumed input, read off the code. -/
def heldFeeds (C : Nat) (held data : List Nat) (isLast : Bool) :
    List Feed × List Nat × List Nat :=
  if 0 < held.length then
    if held.length < C then
      let pad := min (C - held.length) data.length
      let buf := held ++ data.take pad
      let ptr := data.drop pad
      if (isLast = true ∧ 0 < buf.length) ∨ buf.length = C then
        ([(buf, isLast && decide (ptr.length = 0))], [], ptr)
      else ([], buf, ptr)
    else ([(held, false)], [], data)
  else ([], held, data)

/-- The codec invocations of `Put(data, size, isLast)` on a compressor with
chunk capacity `C` that holds `held`, and the bytes held afterwards, read off
the code. -/
def putFeeds (C : Nat) (held data : List Nat) (isLast : Bool) : List Feed × List Nat :=
  if 0 < data.length then
    let h := heldFeeds C held data isLast
    let fs := h.1 ++ sliceFeeds C isLast data.length h.2.2
    let r := sliceRest C data.length h.2.2
    if 0 < r.length then
      if isLast then (fs ++ [(r, true)], h.2.1) else (fs, h.2.1 ++ r)
    else (fs, h.2.1)
  else if isLast = true ∧ 0 < held.length then ([(held, true)], [])
  else ([], held)

/-- The statement `totalInputSize += size` of `Put`, executed when `size > 0`. -/
def Compressor.accept (c : Compressor) (size : Nat) : Compressor :=
  if 0 < size then { c with totalInputSize := u64 (c.totalInputSize + size) } else c

/-- No invocation of the list carries the end-of-stream flag. -/
def OpenFeeds (fs : List Feed) : Prop := ∀ f ∈ fs, f.2 = false

/-- The last invocation of the list, and only the last, carries the
end-of-stream flag. -/
def ClosedFeeds (fs : List Feed) : Prop :=
  ∃ init x, fs = init ++ [(x, true)] ∧ ∀ f ∈ init, f.2 = false

/-- A finalised compressor: the end of the stream was written and nothing is held. -/
def Finished (c : Compressor) : Prop :=
  c.bEndOfStream = true ∧ c.currentInputBuffer = []

instance (c : Compressor) : Decidable (Finished c) := by
  unfold Finished
  infer_instance

/-- The arguments with which the constructor opens its file successfully. -/
def Opens (lib : Lib) (outfile : String) (mode : Mode) (w : World) : Prop :=
  outfile ≠ "" ∧ (mode = Mode.Write ∨ mode = Mode.Append) ∧
    (Compressor.CreateFileA mode w).1 = Handle.valid ∧
    0 < lib.ZSTD_CStreamInSize ∧ 0 < lib.ZSTD_CStreamOutSize

instance (lib : Lib) (outfile : String) (mode : Mode) (w : World) :
    Decidable (Opens lib outfile mode w) := by
  unfold Opens
  infer_instance

/-- The chunks of a list of codec invocations, concatenated in order. -/
def feedBytes (fs : List Feed) : List Nat := (fs.map Prod.fst).flatten

/-- The chunks handed to the codec, concatenated in call order. -/
def Compressor.fedBytes (c : Compressor) : List Nat := feedBytes c.fed

/-- The bytes carried by the `Put` calls of a sequence of calls, in order. -/
def inputOf : List Op → List Nat
  | [] => []
  | Op.put data _ :: ops => data ++ inputOf ops
  | Op.close :: ops => inputOf ops

/-- The 8-byte gzip trailer of the input `S`: its CRC-32 and its length modulo
`2^32`, both little-endian. -/
def gzipTrailerOf (S : List Nat) : List Nat :=
  le32 (crc32_gzip_refl 0 S) ++ le32 (S.length % 2 ^ 32)

/-- The bookkeeping of a successfully opened compressor that has accepted the
input `S`: it is ready or finalised; the chunks handed to the codec followed
by the held bytes are `S`; the input count is the length of `S`; the gzip CRC
covers the chunks handed over; before finalisation no invocation was flagged
and no trailer appended; after it exactly the last invocation was flagged and,
for gzip, one trailer was appended, the last bytes written; and with
digesting enabled the ranges hashed are the ranges written. -/
def Inv (S : List Nat) (c : Compressor) : Prop :=
  (Ready c ∨ Finished c) ∧
    c.fedBytes ++ c.currentInputBuffer = S ∧
    c.totalInputSize = u64 S.length ∧
    (c.cFormat = Format.GZip → c.igzCrc = crc32_gzip_refl 0 c.fedBytes) ∧
    (c.bEndOfStream = false → OpenFeeds c.fed ∧ c.trailers = 0) ∧
    (c.bEndOfStream = true → ClosedFeeds c.fed ∧
      (c.cFormat = Format.GZip → c.trailers = 1 ∧
        ∃ pre, c.sink.written.flatten = pre ++ gzipTrailerOf S) ∧
      (c.cFormat = Format.ZStd → c.trailers = 0)) ∧
    (c.sink.bGenMD5 = true → c.sink.hashed = c.sink.written)

/-! ## A concrete codec and world for evaluating runs -/

/-- A toy streaming engine: for each chunk it emits the chunk length, the
end-of-stream flag and the chunk itself. -/
def demoCodec (hist : List Feed) : List Nat :=
  match hist.getLast? with
  | some (x, l) => x.length :: (if l then 1 else 0) :: x
  | none => []

/-- A library with the toy engine for both formats and small zstd chunk sizes. -/
def demoLib : Lib :=
  { isal_deflate := demoCodec
    ZSTD_compressStream2 := demoCodec
    ZSTD_CStreamInSize := 4
    ZSTD_CStreamOutSize := 3 }

/-- A world in which the target file does not exist yet and can be created. -/
def demoWorld : World :=
  { file := none
    openOk := true
    md5Buffer := List.replicate 64 0
    md5Digest := List.replicate 16 0 }

/-- The state a call leaves behind, when it returns or throws, has the
property `P`; a call that hangs or faults leaves none. -/
def Outcome.Leaves {α : Type} (P : α → Prop) : Outcome α → Prop
  | Outcome.ok a => P a
  | Outcome.raise _ a => P a
  | Outcome.hang => True
  | Outcome.fault => True

/-- A compressor whose file was not opened (default-constructed, or the open
failed): no valid handle, no codec context, an empty output buffer, nothing
written or hashed, and not finalised. -/
def Inert (c : Compressor) : Prop :=
  c.sink.fHandle ≠ Handle.valid ∧ c.sink.compressedBuffer = [] ∧ c.igzStream = none ∧
    c.zstCtx = none ∧ c.bEndOfStream = false ∧ c.sink.hashed = [] ∧ c.sink.written = []

/-- The state a call leaves behind, or `a` when it leaves none. -/
def Outcome.stateOr {α : Type} (o : Outcome α) (a : α) : α :=
  match o with
  | Outcome.ok b => b
  | Outcome.raise _ b => b
  | Outcome.hang => a
  | Outcome.fault => a

/-- A zstd compressor with digesting, freshly opened on a new file. -/
def demoOpen : Compressor :=
  (Compressor.new demoLib "out.zst" Format.ZStd Mode.Write true demoWorld).stateOr
    (Compressor.init "" Format.ZStd Mode.None false demoWorld)

/-- The compressor `demoOpen` after `Put([1, 2, 3], 3, true)`. -/
def demoFinal : Compressor := (demoOpen.Put demoLib [1, 2, 3] true).stateOr demoOpen

/-- Replaces the input count `totalInputSize`. -/
def Compressor.withTotal (c : Compressor) (n : Nat) : Compressor := { c with totalInputSize := n }

/-- The full chunks of capacity `C` cut off a whole input `xs`, from the
front, as invocations; the flag of a chunk is `l` when nothing follows it. -/
def chunkFeeds (C : Nat) (l : Bool) (xs : List Nat) : List Feed := sliceFeeds C l xs.length xs

/-- What is left of `xs` after its full chunks of capacity `C`. -/
def chunkRest (C : Nat) (xs : List Nat) : List Nat := sliceRest C xs.length xs

/-- The invocations that compress the whole input `xs` and finalise the
stream: the full chunks in order, then the leftover partial chunk if there is
one; the end-of-stream flag is on the last of them. -/
def finalFeeds (C : Nat) (xs : List Nat) : List Feed :=
  chunkFeeds C true xs ++ (if 0 < (chunkRest C xs).length then [(chunkRest C xs, true)] else [])

/-- The input chunk capacity the constructor sets for a format (lines 572, 597). -/
def chunkCapacity (lib : Lib) (format : Format) : Nat :=
  match format with
  | Format.GZip => IGZ_CHUNK_CAPACITY
  | Format.ZStd => lib.ZSTD_CStreamInSize

/-- The compressor `demoOpen` after `Close()`. -/
def demoClosed : Compressor := (demoOpen.Close demoLib).stateOr demoOpen

/-- A compressor bound to the open file `outfile` in mode `mode`, not closed,
whose file exists and was never deleted. -/
def Bound (outfile : String) (mode : Mode) (c : Compressor) : Prop :=
  c.fName = outfile ∧ c.sink.fMode = mode ∧ c.sink.fHandle = Handle.valid ∧
    c.sink.file.isSome = true ∧ c.bClosed = false ∧ c.deleted = 0

/-- Source default constructor `Compressor()` (lines 617-645): the member
initialiser list with no file name, format `GZip`, mode `None` and no
digesting; the body is empty. -/
def Compressor.newDefault (w : World) : Compressor :=
  Compressor.init "" Format.GZip Mode.None false w

/-- Source `Configure(outfile, mode, genMD5)` (lines 662-759); `w` is what
`CreateFileA` finds. The parameters select the branches and open the file;
no statement of the function assigns the members `fName`, `fMode` or
`bGenMD5`, and `genMD5` is not read at all. `throw *this` throws a copy of the
object rather than a `std::exception`; it is the exception with the empty
message. The body after the open is the one of the constructor. -/
def Compressor.Configure (lib : Lib) (c : Compressor) (outfile : String) (mode : Mode)
    (genMD5 : Bool) (w : World) : Outcome Compressor :=
  let _ := genMD5
  if c.sink.fHandle ≠ Handle.null then Outcome.raise "configure_invalid_overwrite" c
  else if mode = Mode.None ∨ outfile = "" then Outcome.raise "" c
  else
    let r := Compressor.CreateFileA mode w
    let c := { c with sink := { c.sink with fHandle := r.1, file := r.2 } }
    if r.1 = Handle.invalid then Outcome.ok c
    else
      let c := if mode = Mode.Append then
          { c with sink := { c.sink with fSize := (r.2.getD []).length } }
        else c
      if mode = Mode.Write ∨ mode = Mode.Append then Compressor.setup lib c else Outcome.ok c

/-- The output buffer of a compressor is within its bounds: it holds fewer
bytes than the flush threshold, the threshold is `COMPRESS_BUFF_SIZE_LIMIT`,
the capacity is the threshold plus one output chunk, no write into the buffer
ever ended beyond the capacity, and for gzip an output chunk has room for the
8-byte trailer. -/
def Fits (c : Compressor) : Prop :=
  c.sink.compressedBuffer.length < c.sink.compressedBufferSizeLimit ∧
    c.sink.compressedBufferSizeLimit = COMPRESS_BUFF_SIZE_LIMIT ∧
    c.sink.compressedBufferCapacity = COMPRESS_BUFF_SIZE_LIMIT + c.outputChunkSize ∧
    c.sink.hiWater ≤ c.sink.compressedBufferCapacity ∧
    (c.cFormat = Format.GZip → 8 ≤ c.outputChunkSize)

instance (c : Compressor) : Decidable (Fits c) := by
  unfold Fits
  infer_instance

/-- An unopened compressor into whose output buffer nothing was ever written. -/
def Idle (c : Compressor) : Prop := Inert c ∧ c.sink.hiWater = 0

/-- State `d` agrees with state `c` on the members that no codec invocation
and no flush writes: the file name, the format, the chunk sizes, the input
count, the closed flag and the deletion log. -/
def Compressor.Frame (c d : Compressor) : Prop :=
  d.fName = c.fName ∧ d.cFormat = c.cFormat ∧ d.inputChunkSize = c.inputChunkSize ∧
    d.outputChunkSize = c.outputChunkSize ∧ d.totalInputSize = c.totalInputSize ∧
    d.bClosed = c.bClosed ∧ d.deleted = c.deleted

/-- A property of the sink that is kept by every store into the output
buffer, by every flush `_WriteAndReset()`, whether it returns or throws, and
by every update of the digest. -/
def Sink.Keeps (P : Sink → Prop) : Prop :=
  (∀ (s : Sink) (b : List Nat), P s → P (s.store b)) ∧
    (∀ s : Sink, P s → (s._WriteAndReset true false).Leaves P) ∧
    (∀ (s : Sink) (m : MD5), P s → P { s with md5x := m })

/-- What a part of a call leaves of state `c`: the sink property `P` and the
frame of `c`. -/
def Compressor.Kept (P : Sink → Prop) (c d : Compressor) : Prop := P d.sink ∧ c.Frame d

/-- The `size` argument of a call, `0` for `Close()`. -/
def Op.size : Op → Nat
  | Op.put data _ => data.length
  | Op.close => 0

/-- The sum of the sizes of the `Put` calls of a sequence that return
normally; the calls are executed in order from state `c`, every exception
being caught. -/
def returnedSize (lib : Lib) : Compressor → List Op → Nat
  | _, [] => 0
  | c, op :: ops =>
    match op.exec lib c with
    | Outcome.ok d => op.size + returnedSize lib d ops
    | Outcome.raise _ d => returnedSize lib d ops
    | Outcome.hang => 0
    | Outcome.fault => 0

/-- The sum of the byte counts `WriteFile` reported for the ranges written so far. -/
def Sink.bytesWritten (s : Sink) : Nat := (s.written.map List.length).sum

/-- The size of the file the constructor finds, which it records in Append
mode only (lines 562-567). -/
def preSize (mode : Mode) (w : World) : Nat :=
  if mode = Mode.Append then (w.file.getD []).length else 0

/-- The sink of an open file whose recorded size `fSize` is `pre` plus the
byte counts of the ranges written, as a `uint64_t`. -/
def Sink.Tallied (pre : Nat) (s : Sink) : Prop :=
  s.fHandle = Handle.valid ∧ s.fSize = u64 (pre + s.bytesWritten)

/-- The C runtime, a parameter of the embedding: `_splitpath_s(path, drive,
dir, fname, ext)` delivers the drive, the directory, the base name and the
extension (with its dot) of a path. -/
structure Crt where
  /-- The four components `_splitpath_s` stores for a path. -/
  _splitpath_s : String → String × String × String × String

/-- Source `GetHashStr(md5fx, delim)` (lines 929-952). Returns the compressor
after the call, whose `md5x` went through `ToHexString()`, and the string. -/
def Compressor.GetHashStr (crt : Crt) (c : Compressor) (md5fx : Bool) (delim : String) :
    Compressor × String :=
  if c.sink.bGenMD5 = true ∧ c.fName ≠ "" then
    let r := c.sink.md5x.ToHexString false
    let c := { c with sink := { c.sink with md5x := r.1 } }
    let hash := r.2
    if md5fx then
      let p := crt._splitpath_s c.fName
      (c, hash ++ delim ++ p.2.2.1 ++ p.2.2.2)
    else (c, hash)
  else (c, "")

/-! ## The static function `ZStd2GZip` (lines 1322-1424) -/

/-- The zstd decoder (libzstd), a parameter of the embedding. -/
structure Decoder where
  /-- Value of `ZSTD_DStreamInSize()`. -/
  ZSTD_DStreamInSize : Nat
  /-- Value of `ZSTD_DStreamOutSize()`. -/
  ZSTD_DStreamOutSize : Nat
  /-- One call `ZSTD_decompressStream(zstDtx, &zstOutput, &zstInput)` with
  `zstOutput.pos = 0`: from the input the decoder consumed in earlier calls,
  the number of bytes it delivered in earlier calls, the bytes `src[pos..size)`
  on offer and `zstOutput.size`, the number of bytes it consumes and the bytes
  it writes to `dst`. -/
  ZSTD_decompressStream : List Nat → Nat → List Nat → Nat → Nat × List Nat

/-- The local variables of `ZStd2GZip` that live across loop iterations, the
output file and one observation log. `igzStream` holds the submissions the
deflate engine received (the range `next_in[0..avail_in)` and the
end-of-stream flag of each `isal_deflate` call), `pending` the bytes the
engine emitted and could not deliver yet. -/
structure Transcoder where
  /-- Input consumed by `zstDtx` so far. -/
  zstDtx : List Nat
  igzStream : List Feed
  pending : List Nat
  crc : Nat
  totalSize : Nat
  /-- Content of the output file. -/
  ofile : List Nat
  /-- Log: the bytes the decoder delivered, in call order. -/
  decoded : List Nat
  deriving DecidableEq, Repr

namespace Transcoder

/-- The drain loop of `ZStd2GZip` (lines 1389-1404):
`do { igzStream->end_of_stream = isLastChunk; next_in = igzInputChunkBuffer;
avail_in = zstOutput.pos; next_out = igzOutputChunkBuffer;
avail_out = zstOutputChunkSize; isal_deflate(igzStream);
outputSize = zstOutputChunkSize - avail_out; totalSize += zstOutput.pos;
if (outputSize > 0) WriteFile(...); } while (avail_out == 0)`. Every iteration
assigns `next_in` and `avail_in` anew, so every iteration submits the whole
chunk. One unit of fuel per iteration; running out of fuel is the loop not
having terminated within that many iterations. -/
def drain (lib : Lib) (zstOutputChunkSize : Nat) (chunk : List Nat) (isLastChunk : Bool) :
    Nat → Transcoder → Outcome Transcoder
  | 0, _ => Outcome.hang
  | fuel + 1, t =>
    let hist := t.igzStream ++ [(chunk, isLastChunk)]
    let emitted := t.pending ++ lib.isal_deflate hist
    let delivered := emitted.take zstOutputChunkSize
    let avail_out := zstOutputChunkSize - delivered.length
    let outputSize := zstOutputChunkSize - avail_out
    let t := { t with
      igzStream := hist
      pending := emitted.drop zstOutputChunkSize
      totalSize := u64 (t.totalSize + chunk.length)
      ofile := if 0 < outputSize then t.ofile ++ delivered else t.ofile }
    if avail_out = 0 then drain lib zstOutputChunkSize chunk isLastChunk fuel t
    else Outcome.ok t

/-- The loop `while (zstInput.pos < zstInput.size)` of `ZStd2GZip`
(lines 1382-1405) on the bytes `src[pos..size)` of the chunk read last;
`residue` is the number of bytes of the input file not read yet. -/
def decode (lib : Lib) (dec : Decoder) (fuel : Nat) (residue : Nat) :
    Nat → Transcoder → List Nat → Outcome Transcoder
  | 0, t, src => if 0 < src.length then Outcome.hang else Outcome.ok t
  | n + 1, t, src =>
    if 0 < src.length then
      let r := dec.ZSTD_decompressStream t.zstDtx t.decoded.length src dec.ZSTD_DStreamOutSize
      let used := min r.1 src.length
      let out := r.2.take dec.ZSTD_DStreamOutSize
      let rest := src.drop used
      let isLastChunk := decide (residue = 0) && decide (rest.length = 0)
      let t := { t with
        zstDtx := t.zstDtx ++ src.take used
        crc := crc32_gzip_refl t.crc out
        decoded := t.decoded ++ out }
      (drain lib dec.ZSTD_DStreamOutSize out isLastChunk fuel t).andThen fun t =>
        decode lib dec fuel residue n t rest
    else Outcome.ok t

/-- The loop `while (residue > 0)` of `ZStd2GZip` (lines 1377-1406) on the
bytes of the input file not read yet: `ReadFile` delivers the next
`zstInputChunkSize` bytes, or what is left. -/
def read (lib : Lib) (dec : Decoder) (fuel : Nat) : Nat → Transcoder → List Nat →
    Outcome Transcoder
  | 0, t, unread => if 0 < unread.length then Outcome.hang else Outcome.ok t
  | n + 1, t, unread =>
    if 0 < unread.length then
      let src := unread.take dec.ZSTD_DStreamInSize
      let rest := unread.drop dec.ZSTD_DStreamInSize
      (decode lib dec fuel rest.length fuel t src).andThen fun t => read lib dec fuel n t rest
    else Outcome.ok t

end Transcoder

/-- Source `ZStd2GZip(infile, outfile)` (lines 1322-1424); `infile` is the
content of the input file, `none` when it cannot be opened, `outOk` whether
the output file can be created, `fuel` the number of iterations granted to
each loop. Returns the `bool` result and the transcoder variables, whose
`ofile` is the output file. -/
def ZStd2GZip (lib : Lib) (dec : Decoder) (fuel : Nat) (infile : Option (List Nat))
    (outOk : Bool) : Outcome (Bool × Transcoder) :=
  let t : Transcoder :=
    { zstDtx := [], igzStream := [], pending := [], crc := 0, totalSize := 0, ofile := [],
      decoded := [] }
  match infile with
  | none => Outcome.ok (false, t)
  | some content =>
    if outOk = false then Outcome.ok (false, t)
    else
      let t := { t with ofile := [0x1F, 0x8B, 0x08, 0x00, 0x00, 0x00, 0x00, 0x00, 0x00, 0xFF] }
      (Transcoder.read lib dec fuel fuel t content).lift fun t =>
        let sizeLo := t.totalSize &&& 0xFFFFFFFF
        (true, { t with ofile := t.ofile ++ le32 (u32 t.crc) ++ le32 sizeLo })

/-- A toy decoder with chunk sizes 4: the compressed format is the data
itself, each call copies as many bytes as are on offer and fit the output. -/
def demoDecoder : Decoder :=
  { ZSTD_DStreamInSize := 4
    ZSTD_DStreamOutSize := 4
    ZSTD_decompressStream := fun _ _ src size => (min src.length size, src.take size) }

/-- A toy deflate engine with a one-chunk history: a chunk equal to the one
submitted just before is emitted as the single byte 255, any other chunk as
its length, its end-of-stream flag and its bytes. -/
def demoDeflate (hist : List Feed) : List Nat :=
  match hist.reverse with
  | (x, l) :: (y, _) :: _ => if x = y then [255] else x.length :: (if l then 1 else 0) :: x
  | [(x, l)] => x.length :: (if l then 1 else 0) :: x
  | [] => []

/-- The library with the toy deflate engine `demoDeflate`. -/
def demoLib2 : Lib :=
  { isal_deflate := demoDeflate
    ZSTD_compressStream2 := demoCodec
    ZSTD_CStreamInSize := 4
    ZSTD_CStreamOutSize := 3 }

/-- A hasher state reached from a freshly constructed hasher (whose arrays
have their declared sizes) by calls of `Update`, `Final` and `Reset`; the
`size` of an `Update` is a `size_t`. -/
inductive MD5.Reached : MD5 → Prop
  | fresh (buffer digest : List Nat) : buffer.length = 64 → MD5.Reached (MD5.new buffer digest)
  | update {m : MD5} (input : List Nat) : MD5.Reached m → input.length < 2 ^ 64 →
      MD5.Reached (m.Update input)
  | final {m : MD5} : MD5.Reached m → MD5.Reached m.Final
  | reset {m : MD5} : MD5.Reached m → MD5.Reached m.Reset

/-- Two hashers that agree on everything a later `Update` or `Final` reads:
the state words, the bit count and the pending bytes of the block buffer. -/
def MD5.Alike (a b : MD5) : Prop :=
  a._state = b._state ∧ a._count0 = b._count0 ∧ a._count1 = b._count1 ∧
    a._buffer.length = 64 ∧ b._buffer.length = 64 ∧
    a._buffer.take ((a._count0 >>> 3) &&& 0x3f) = b._buffer.take ((a._count0 >>> 3) &&& 0x3f)

/-- The sink of an open file whose content is `P` followed by the ranges
written so far, in order. -/
def Sink.Appended (P : List Nat) (s : Sink) : Prop :=
  s.fHandle = Handle.valid ∧ s.file = some (P ++ s.written.flatten)

/-- The array `bits` of `Final()` (line 176): `_Encode(_count, bits, 8)`, the
eight length bytes that `Final()` appends after the padding. -/
def MD5.bits (m : MD5) : List Nat := _Encode [m._count0, m._count1] 8

/-- The codec invocations as the claim on split independence words them, for
the input `S` and the chunk capacity `C`: `⌊|S| / C⌋` consecutive `C`-byte
slices of `S` without the end-of-stream flag, then one invocation with the
flag that carries the remaining `|S| mod C` bytes. -/
def claimedInvocations (C : Nat) (S : List Nat) : List Feed :=
  (List.range (S.length / C)).map (fun i => ((S.drop (i * C)).take C, false)) ++
    [(S.drop (S.length / C * C), true)]

/-! ## Conversions of `Format` (lines 417-480) -/

/-- The enumerator `Format::DEFAULT = GZip`. -/
def Format.DEFAULT : Format := Format.GZip

/-- The enumerator `Format::MIN = 0`, as the `int` it is compared with. -/
def Format.MIN : Int := 0

/-- The enumerator `Format::MAX = 1`, as the `int` it is compared with. -/
def Format.MAX : Int := 1

/-- The cast `(int)format`: `GZip = 0`, `ZStd = 1`. -/
def Format.toInt : Format → Int
  | Format.GZip => 0
  | Format.ZStd => 1

/-- The cast `(Format)format` of an `int` that is 0 or 1. -/
def Format.ofInt (format : Int) : Format := if format = 0 then Format.GZip else Format.ZStd

/-- Source `Convert(const int format)` (lines 417-425). -/
def Convert (format : Int) : Format :=
  if format < Format.MIN ∨ format > Format.MAX then Format.DEFAULT else Format.ofInt format

/-- Modelled from the spec: C runtime `isdigit(c)`, the decimal digits `0` to `9`. -/
def isdigit (c : Char) : Bool := c.isDigit

/-- The C string that `format.c_str()` hands to a C runtime function, as the
function reads it: the characters before the first NUL. -/
def c_str (s : String) : List Char := s.toList.takeWhile fun c => c.toNat != 0

/-- Modelled from the spec: C runtime `_stricmp(string1, string2)`, the
comparison of the two C strings after conversion of each character to lower
case: 0 when they are equal, otherwise negative or positive by their order. -/
def _stricmp (string1 string2 : String) : Int :=
  if (c_str string1).map Char.toLower = (c_str string2).map Char.toLower then 0
  else if (c_str string1).map Char.toLower < (c_str string2).map Char.toLower then -1
  else 1

/-- Modelled from the spec: C runtime `atoi(str)` on a string that starts with
a digit: the value of its leading decimal digits, `INT_MAX` when that value
does not fit an `int`. -/
def atoi (str : String) : Int :=
  let n : Nat := ((c_str str).takeWhile isdigit).foldl (fun n c => 10 * n + (c.toNat - 48)) 0
  if n ≤ 2147483647 then (n : Int) else 2147483647

/-- The loop `for (auto i = 1; i < format.length(); ++i) if (!isdigit(format[i]))
return Format::DEFAULT;` of the string overload of `Convert`, on the characters
from index 1 on: whether it runs to its end. -/
def restAreDigits : List Char → Bool
  | [] => true
  | c :: cs => if isdigit c then restAreDigits cs else false

/-- Source `Convert(const std::string format)` (lines 430-464), the string
overload of `Convert`. -/
def ConvertStr (format : String) : Format :=
  if format = "" then Format.DEFAULT
  else if _stricmp format "gzip" = 0 then Format.GZip
  else if _stricmp format "zstd" = 0 then Format.ZStd
  else
    match format.toList with
    | [] => Format.DEFAULT
    | c :: cs =>
      if isdigit c then
        if restAreDigits cs then Convert (atoi format) else Format.DEFAULT
      else Format.DEFAULT

/-- Source `ToString(Format format)` (lines 469-480); the `default` label of
the switch is reached by no enumerator. -/
def Format.ToString : Format → String
  | Format.GZip => "gzip"
  | Format.ZStd => "zstd"

/-- State `d` is state `c` after at most `n` more codec invocations, with the
chunk capacity unchanged. -/
def Compressor.Within (n : Nat) (c d : Compressor) : Prop :=
  d.fed.length ≤ c.fed.length + n ∧ d.inputChunkSize = c.inputChunkSize

/-! # Proofs -/

set_option maxRecDepth 100000

/-! ## Outcomes -/

@[simp] theorem Outcome.andThen_ok {α : Type} (a : α) (f : α → Outcome α) :
    (Outcome.ok a).andThen f = f a := rfl

@[simp] theorem Outcome.andThen_raise {α : Type} (m : String) (a : α) (f : α → Outcome α) :
    (Outcome.raise m a).andThen f = Outcome.raise m a := rfl

@[simp] theorem Outcome.andThen_hang {α : Type} (f : α → Outcome α) :
    (Outcome.hang).andThen f = Outcome.hang := rfl

@[simp] theorem Outcome.andThen_fault {α : Type} (f : α → Outcome α) :
    (Outcome.fault).andThen f = Outcome.fault := rfl

@[simp] theorem Outcome.lift_ok {α β : Type} (a : α) (g : α → β) :
    (Outcome.ok a).lift g = Outcome.ok (g a) := rfl

@[simp] theorem Outcome.lift_raise {α β : Type} (m : String) (a : α) (g : α → β) :
    (Outcome.raise m a).lift g = Outcome.raise m (g a) := rfl

@[simp] theorem Outcome.lift_hang {α β : Type} (g : α → β) :
    (Outcome.hang : Outcome α).lift g = Outcome.hang := rfl

@[simp] theorem Outcome.lift_fault {α β : Type} (g : α → β) :
    (Outcome.fault : Outcome α).lift g = Outcome.fault := rfl

/-! ## The sink -/

theorem Sink.Ext.refl (s : Sink) : Sink.Ext s s [] := by
  refine ⟨rfl, rfl, rfl, rfl, rfl, ⟨[], ?_, ?_, ?_, ?_, ?_⟩, fun h => h⟩
  · simp
  · simp
  · simp
  · simp
  · simp

theorem Sink.Ext.trans {s t u : Sink} {o₁ o₂ : List Nat}
    (h₁ : Sink.Ext s t o₁) (h₂ : Sink.Ext t u o₂) : Sink.Ext s u (o₁ ++ o₂) := by
  obtain ⟨a1, a2, a3, a4, a5, ⟨ws, b1, b2, b3, b4, b5⟩, a6⟩ := h₁
  obtain ⟨c1, c2, c3, c4, c5, ⟨vs, d1, d2, d3, d4, d5⟩, c6⟩ := h₂
  refine ⟨c1.trans a1, c2.trans a2, c3.trans a3, c4.trans a4, c5.trans a5,
    ⟨ws ++ vs, ?_, ?_, ?_, ?_, ?_⟩, fun h => c6 (a6 h)⟩
  · rw [d1, b1, List.append_assoc]
  · rw [d2, b2, a5]
    cases s.bGenMD5 <;> simp
  · rw [List.flatten_append, List.append_assoc, d3, ← List.append_assoc, b3, List.append_assoc]
  · rw [d4, b4, List.flatten_append, List.append_assoc]
  · intro h
    by_cases hv : vs = []
    · subst hv
      have hw : ws ≠ [] := by simpa using h
      have := b5 hw
      exact c6 this
    · exact d5 hv

theorem Sink.store_ext (s : Sink) (b : List Nat) : Sink.Ext s (s.store b) b := by
  refine ⟨rfl, rfl, rfl, rfl, rfl, ⟨[], ?_, ?_, ?_, ?_, ?_⟩, fun h => h⟩ <;> simp [Sink.store]

theorem SinkOK.of_ext {s t : Sink} {o : List Nat} (h : SinkOK s) (e : Sink.Ext s t o) :
    SinkOK t := by
  obtain ⟨a1, a2, a3, a4, _⟩ := e
  obtain ⟨h1, h2, h3, h4⟩ := h
  exact ⟨a1.trans h1, by rw [a2]; exact h2, by rw [a3]; exact h3, by rw [a3]; exact h4⟩

theorem Sink.writeAndReset_ok (s : Sink) (h : SinkOK s) :
    ∃ t, s._WriteAndReset true false = Outcome.ok t ∧ Sink.Ext s t [] ∧
      t.compressedBuffer = [] := by
  obtain ⟨h1, h2, h3, h4⟩ := h
  unfold Sink._WriteAndReset
  have hm : ¬ (s.fMode ≠ Mode.Write ∧ s.fMode ≠ Mode.Append) := by
    rcases h2 with h2 | h2 <;> simp [h2]
  simp only [h1, hm, if_false]
  by_cases hz : s.compressedBufferSize = 0
  · have hb : s.compressedBuffer = [] := List.length_eq_zero.mp hz
    simp only [hz, if_true]
    exact ⟨s, by simp, Sink.Ext.refl s, hb⟩
  · simp only [hz, if_false]
    refine ⟨_, by simp; rfl, ?_, rfl⟩
    refine ⟨rfl, rfl, rfl, rfl, rfl, ⟨[s.compressedBuffer], ?_, ?_, ?_, ?_, ?_⟩, ?_⟩
    · simp
    · cases s.bGenMD5 <;> simp
    · simp
    · simp [Sink.compressedBufferSize, h1, List.drop_eq_nil_of_le]
    · simp [h1]
    · simp [h1]

theorem Sink.flushIfFull_ok (s : Sink) (h : SinkOK s) :
    ∃ t, s.flushIfFull = Outcome.ok t ∧ Sink.Ext s t [] ∧
      t.compressedBuffer.length < t.compressedBufferSizeLimit := by
  unfold Sink.flushIfFull
  by_cases hf : s.compressedBufferSizeLimit ≤ s.compressedBufferSize
  · obtain ⟨t, ht, he, hb⟩ := Sink.writeAndReset_ok s h
    refine ⟨t, by simp [hf, ht], he, ?_⟩
    have := (SinkOK.of_ext h he).2.2.1
    simpa [hb] using this
  · refine ⟨s, by simp [hf], Sink.Ext.refl s, ?_⟩
    simpa [Sink.compressedBufferSize] using hf

theorem Sink.drainGZIP_ok (fuel : Nat) : ∀ (s : Sink) (pending : List Nat), SinkOK s →
    s.compressedBuffer.length < s.compressedBufferSizeLimit → pending.length + 2 ≤ fuel →
    ∃ t, Sink.drainGZIP fuel s pending = Outcome.ok t ∧ Sink.Ext s t pending ∧
      t.compressedBuffer.length < t.compressedBufferSizeLimit := by
  induction fuel with
  | zero => intro s pending _ _ hf; omega
  | succ fuel ih =>
    intro s pending hs hroom hf
    obtain ⟨h1, h2, h3, h4⟩ := hs
    have hav : u32 (s.compressedBufferSizeLimit + 2 ^ 32 - u32 s.compressedBufferSize)
        = s.compressedBufferSizeLimit - s.compressedBuffer.length := by
      unfold u32 Sink.compressedBufferSize
      rw [Nat.mod_eq_of_lt (by omega : s.compressedBuffer.length < 2 ^ 32)]
      omega
    unfold Sink.drainGZIP
    simp only [hav]
    have hst : SinkOK (s.store (pending.take (s.compressedBufferSizeLimit - s.compressedBuffer.length))) :=
      SinkOK.of_ext ⟨h1, h2, h3, h4⟩ (Sink.store_ext _ _)
    obtain ⟨t, ht, he, hb⟩ := Sink.flushIfFull_ok _ hst
    rw [ht]
    simp only [Outcome.andThen_ok]
    have he' := (Sink.store_ext s _).trans he
    have htok := SinkOK.of_ext ⟨h1, h2, h3, h4⟩ he'
    by_cases hp : s.compressedBufferSizeLimit - s.compressedBuffer.length ≤ pending.length
    · have hlen : (pending.take (s.compressedBufferSizeLimit - s.compressedBuffer.length)).length
          = s.compressedBufferSizeLimit - s.compressedBuffer.length := by
        simp [List.length_take]; omega
      simp only [hlen, Nat.sub_self, if_true]
      obtain ⟨u, hu, hue, hub⟩ := ih t (pending.drop (s.compressedBufferSizeLimit - s.compressedBuffer.length))
        htok hb (by simp [List.length_drop]; omega)
      refine ⟨u, hu, ?_, hub⟩
      have := he'.trans hue
      simpa [List.take_append_drop] using this
    · have hlen : (pending.take (s.compressedBufferSizeLimit - s.compressedBuffer.length))
          = pending := by
        apply List.take_of_length_le; omega
      have hne : ¬ (s.compressedBufferSizeLimit - s.compressedBuffer.length - pending.length = 0) := by
        omega
      simp only [hlen, hne, if_false]
      refine ⟨t, rfl, ?_, hb⟩
      simpa [hlen] using he'

theorem Sink.drainZSTD_ok (n : Nat) (hn : 0 < n) (fuel : Nat) :
    ∀ (s : Sink) (pending : List Nat), SinkOK s →
    pending.length + 1 ≤ fuel →
    ∃ t, Sink.drainZSTD n fuel s pending = Outcome.ok t ∧ Sink.Ext s t pending ∧
      t.compressedBuffer.length < t.compressedBufferSizeLimit := by
  induction fuel with
  | zero => intro s pending _ hf; omega
  | succ fuel ih =>
    intro s pending hs hf
    unfold Sink.drainZSTD
    have hst : SinkOK (s.store (pending.take n)) := SinkOK.of_ext hs (Sink.store_ext _ _)
    obtain ⟨t, ht, he, hb⟩ := Sink.flushIfFull_ok _ hst
    simp only [ht, Outcome.andThen_ok]
    have he' := (Sink.store_ext s _).trans he
    have htok := SinkOK.of_ext hs he'
    by_cases hp : (pending.drop n).length = 0
    · simp only [hp, if_true]
      refine ⟨t, rfl, ?_, hb⟩
      have hnil : pending.drop n = [] := List.length_eq_zero.mp hp
      have : pending.take n = pending := by
        have := List.take_append_drop n pending
        rw [hnil, List.append_nil] at this
        exact this
      simpa [this] using he'
    · simp only [hp, if_false]
      have hl : n ≤ pending.length ∧ 0 < pending.length := by
        simp [List.length_drop] at hp; omega
      obtain ⟨u, hu, hue, hub⟩ := ih t (pending.drop n) htok (by simp [List.length_drop]; omega)
      refine ⟨u, hu, ?_, hub⟩
      have := he'.trans hue
      simpa [List.take_append_drop] using this

theorem Sink.Ext.md5 {s t : Sink} {o : List Nat} (h : Sink.Ext s t o) (m : MD5) :
    Sink.Ext s { t with md5x := m } o := h

/-! ## One codec invocation -/

theorem Compressor.deflateAll_ok (lib : Lib) (c : Compressor) (x : List Nat) (l : Bool)
    (hs : SinkOK c.sink)
    (hroom : c.sink.compressedBuffer.length < c.sink.compressedBufferSizeLimit)
    (hig : c.igzStream.isSome = true) :
    ∃ ig t out, c.deflateAll lib x l = Outcome.ok
        { c with igzStream := ig, fed := c.fed ++ [(x, l)], sink := t } ∧
      ig.isSome = true ∧ Sink.Ext c.sink t out ∧
      t.compressedBuffer.length < t.compressedBufferSizeLimit := by
  unfold Compressor.deflateAll
  cases hc : c.igzStream with
  | none => simp [hc] at hig
  | some hist =>
    simp only []
    obtain ⟨t, ht, he, hb⟩ := Sink.drainGZIP_ok ((lib.isal_deflate (hist ++ [(x, l)])).length + 2)
      c.sink (lib.isal_deflate (hist ++ [(x, l)])) hs hroom (Nat.le_refl _)
    refine ⟨some (hist ++ [(x, l)]), t, _, ?_, rfl, he, hb⟩
    simp [ht, Compressor.withSink]

theorem Compressor.zstdAll_ok (lib : Lib) (c : Compressor) (x : List Nat) (l : Bool)
    (hs : SinkOK c.sink) (hout : 0 < c.outputChunkSize)
    (hz : c.zstCtx.isSome = true) :
    ∃ zs t out, c.zstdAll lib x l = Outcome.ok
        { c with zstCtx := zs, fed := c.fed ++ [(x, l)], sink := t } ∧
      zs.isSome = true ∧ Sink.Ext c.sink t out ∧
      t.compressedBuffer.length < t.compressedBufferSizeLimit := by
  unfold Compressor.zstdAll
  cases hc : c.zstCtx with
  | none => simp [hc] at hz
  | some hist =>
    simp only []
    obtain ⟨t, ht, he, hb⟩ := Sink.drainZSTD_ok c.outputChunkSize hout
      ((lib.ZSTD_compressStream2 (hist ++ [(x, l)])).length + 1)
      c.sink (lib.ZSTD_compressStream2 (hist ++ [(x, l)])) hs (Nat.le_refl _)
    refine ⟨some (hist ++ [(x, l)]), t, _, ?_, rfl, he, hb⟩
    simp [ht, Compressor.withSink]

theorem Compressor.gzipTrailer_ok (c : Compressor) (hs : SinkOK c.sink) :
    ∃ t, c.gzipTrailer = Outcome.ok
        { c with sink := t, trailers := c.trailers + 1, bEndOfStream := true } ∧
      Sink.Ext c.sink t (le32 (u32 c.igzCrc) ++ le32 (c.totalInputSize &&& 0xFFFFFFFF)) ∧
      t.compressedBuffer = [] := by
  unfold Compressor.gzipTrailer
  obtain ⟨t1, ht1, he1, hb1⟩ := Sink.flushIfFull_ok c.sink hs
  simp only [ht1, Outcome.lift_ok, Outcome.andThen_ok, Compressor.withSink]
  have hs1 := SinkOK.of_ext hs he1
  have e2 := (Sink.store_ext t1 (le32 (u32 c.igzCrc))).trans
    (Sink.store_ext _ (le32 (c.totalInputSize &&& 0xFFFFFFFF)))
  have hs2 := SinkOK.of_ext hs1 e2
  obtain ⟨t3, ht3, he3, hb3⟩ := Sink.writeAndReset_ok _ hs2
  simp only [ht3, Outcome.lift_ok, Outcome.andThen_ok]
  have e := (he1.trans e2).trans he3
  simp only [List.nil_append, List.append_nil] at e
  by_cases hg : t3.bGenMD5 = true
  · refine ⟨{ t3 with md5x := t3.md5x.Final }, ?_, e, hb3⟩
    simp [hg, Compressor.withSink]
  · refine ⟨t3, ?_, e, hb3⟩
    simp [hg, Compressor.withSink]

theorem Compressor.zstdEnd_ok (c : Compressor) (hs : SinkOK c.sink) :
    ∃ t, c.zstdEnd = Outcome.ok { c with sink := t, bEndOfStream := true } ∧
      Sink.Ext c.sink t [] ∧ t.compressedBuffer = [] := by
  unfold Compressor.zstdEnd
  obtain ⟨t3, ht3, he3, hb3⟩ := Sink.writeAndReset_ok _ hs
  simp only [ht3, Outcome.lift_ok, Outcome.andThen_ok]
  by_cases hg : t3.bGenMD5 = true
  · refine ⟨{ t3 with md5x := t3.md5x.Final }, ?_, he3, hb3⟩
    simp [hg, Compressor.withSink]
  · refine ⟨t3, ?_, he3, hb3⟩
    simp [hg, Compressor.withSink]

theorem Compressor.compressAndWrite_fed (lib : Lib) (c : Compressor) (x : List Nat) (l : Bool)
    (ha : Armed c) (hx : 0 < x.length) (hle : x.length ≤ c.inputChunkSize)
    (hl : l = true ∨ x.length = c.inputChunkSize) :
    ∃ d, c._CompressAndWrite lib x l = Outcome.ok d ∧ Fed c d x l := by
  obtain ⟨hs, hroom, hC, hO, hig, hzs, heos, hcl⟩ := ha
  have hxne : x ≠ [] := by
    intro h; simp [h] at hx
  have hflag : (l && decide (x.length ≤ c.inputChunkSize)) = l := by simp [hle]
  have hguard : ¬ (x.length = 0 ∨ (l = false ∧ x.length < c.inputChunkSize)) := by
    rintro (h | ⟨h1, h2⟩)
    · omega
    · rcases hl with hl | hl
      · simp [hl] at h1
      · omega
  obtain ⟨t1, ht1, he1, hb1⟩ := Sink.flushIfFull_ok c.sink hs
  have hs1 := SinkOK.of_ext hs he1
  unfold Compressor._CompressAndWrite
  cases hf : c.cFormat with
  | GZip =>
    simp only [hflag]
    unfold Compressor._CompressAndWriteGZIP
    simp only [ht1, Outcome.lift_ok, Outcome.andThen_ok, Compressor.withSink, hguard, if_false]
    obtain ⟨ig, t2, out2, h2, hig2, he2, hb2⟩ := Compressor.deflateAll_ok lib
      { c with sink := t1, igzCrc := crc32_gzip_refl c.igzCrc x } x l hs1 hb1 (hig hf)
    simp only [h2, Outcome.andThen_ok]
    cases l with
    | false =>
      refine ⟨_, rfl, ig, c.zstCtx, t2, out2, ?_, ?_, ?_, ?_, hb2, ?_⟩
      · simp [hf, hxne, heos]
      · intro _; exact ⟨hig2, rfl⟩
      · intro h; simp [hf] at h
      · simpa using he1.trans he2
      · intro h; simp at h
    | true =>
      have hs2 : SinkOK t2 := SinkOK.of_ext hs1 he2
      obtain ⟨t3, h3, he3, hb3⟩ := Compressor.gzipTrailer_ok
        { c with sink := t2, igzCrc := crc32_gzip_refl c.igzCrc x, igzStream := ig,
                 fed := c.fed ++ [(x, true)] } hs2
      simp only [if_true]
      refine ⟨_, h3, ig, c.zstCtx, t3, _, ?_, ?_, ?_, (he1.trans he2).trans he3, ?_, ?_⟩
      · simp [hf, hxne]
      · intro _; exact ⟨hig2, rfl⟩
      · intro h; simp [hf] at h
      · have := (SinkOK.of_ext hs2 he3).2.2.1
        simpa [hb3] using this
      · intro _
        refine ⟨hb3, fun _ => ⟨out2, ?_⟩⟩
        simp [hxne]
  | ZStd =>
    simp only [hflag]
    unfold Compressor._CompressAndWriteZSTD
    simp only [ht1, Outcome.lift_ok, Outcome.andThen_ok, Compressor.withSink, hguard, if_false]
    obtain ⟨zs, t2, out2, h2, hz2, he2, hb2⟩ := Compressor.zstdAll_ok lib
      { c with sink := t1 } x l hs1 hO (hzs hf)
    simp only [h2, Outcome.andThen_ok]
    cases l with
    | false =>
      refine ⟨_, rfl, c.igzStream, zs, t2, out2, ?_, ?_, ?_, ?_, hb2, ?_⟩
      · simp [hf, heos]
      · intro h; simp [hf] at h
      · intro _; exact ⟨hz2, rfl⟩
      · simpa using he1.trans he2
      · intro h; simp at h
    | true =>
      have hs2 : SinkOK t2 := SinkOK.of_ext hs1 he2
      obtain ⟨t3, h3, he3, hb3⟩ := Compressor.zstdEnd_ok
        { c with sink := t2, zstCtx := zs, fed := c.fed ++ [(x, true)] } hs2
      simp only [if_true]
      refine ⟨_, h3, c.igzStream, zs, t3, _, ?_, ?_, ?_, (he1.trans he2).trans he3, ?_, ?_⟩
      · simp [hf]
      · intro h; simp [hf] at h
      · intro _; exact ⟨hz2, rfl⟩
      · have := (SinkOK.of_ext hs2 he3).2.2.1
        simpa [hb3] using this
      · intro _
        refine ⟨hb3, fun h => ?_⟩
        simp [hf] at h

/-! ## Members a codec invocation does not read -/

theorem Outcome.lift_lift {α β γ : Type} (o : Outcome α) (g : α → β) (k : β → γ) :
    (o.lift g).lift k = o.lift (fun a => k (g a)) := by
  cases o <;> rfl

theorem Outcome.lift_andThen_comm {α : Type} (o : Outcome α) (g : α → α)
    (f f' : α → Outcome α) (h : ∀ a, f' (g a) = (f a).lift g) :
    (o.lift g).andThen f' = (o.andThen f).lift g := by
  cases o with
  | ok a => simp [h]
  | raise m a => simp
  | hang => simp
  | fault => simp

theorem Compressor.deflateAll_held (lib : Lib) (c : Compressor) (b : List Nat)
    (x : List Nat) (l : Bool) :
    Compressor.deflateAll lib (c.withHeld b) x l
      = (c.deflateAll lib x l).lift (fun d => d.withHeld b) := by
  unfold Compressor.deflateAll
  cases h : c.igzStream with
  | none =>
    have : (c.withHeld b).igzStream = none := h
    simp [this]
  | some hist =>
    have : (c.withHeld b).igzStream = some hist := h
    simp only [this, Outcome.lift_lift]
    rfl

theorem Compressor.zstdAll_held (lib : Lib) (c : Compressor) (b : List Nat)
    (x : List Nat) (l : Bool) :
    Compressor.zstdAll lib (c.withHeld b) x l
      = (c.zstdAll lib x l).lift (fun d => d.withHeld b) := by
  unfold Compressor.zstdAll
  cases h : c.zstCtx with
  | none =>
    have : (c.withHeld b).zstCtx = none := h
    simp [this]
  | some hist =>
    have : (c.withHeld b).zstCtx = some hist := h
    simp only [this, Outcome.lift_lift]
    rfl

theorem Compressor.zstdEnd_held (c : Compressor) (b : List Nat) :
    Compressor.zstdEnd (c.withHeld b) = c.zstdEnd.lift (fun d => d.withHeld b) := by
  unfold Compressor.zstdEnd
  have hs : (c.withHeld b).sink = c.sink := rfl
  rw [hs]
  cases h : c.sink._WriteAndReset true false <;> simp [Compressor.withSink, Compressor.withHeld]

theorem Compressor.gzipTrailer_held (c : Compressor) (b : List Nat) :
    Compressor.gzipTrailer (c.withHeld b) = c.gzipTrailer.lift (fun d => d.withHeld b) := by
  unfold Compressor.gzipTrailer
  have hs : (c.withHeld b).sink = c.sink := rfl
  rw [hs]
  cases h : c.sink.flushIfFull with
  | ok t =>
    simp only [Outcome.lift_ok, Outcome.andThen_ok, Compressor.withSink, Compressor.withHeld]
    cases h2 : ((t.store (le32 (u32 c.igzCrc))).store
        (le32 (c.totalInputSize &&& 0xFFFFFFFF)))._WriteAndReset true false <;>
      simp [Compressor.withSink]
  | raise m t => simp [Compressor.withSink, Compressor.withHeld]
  | hang => simp
  | fault => simp

theorem Compressor.compressAndWriteGZIP_held (lib : Lib) (c : Compressor) (b : List Nat)
    (x : List Nat) (l : Bool) :
    Compressor._CompressAndWriteGZIP lib (c.withHeld b) x l
      = (c._CompressAndWriteGZIP lib x l).lift (fun d => d.withHeld b) := by
  unfold Compressor._CompressAndWriteGZIP
  have hs : (c.withHeld b).sink = c.sink := rfl
  rw [hs]
  cases h1 : c.sink.flushIfFull with
  | ok t =>
    simp only [Outcome.lift_ok, Outcome.andThen_ok]
    by_cases hg : x.length = 0 ∨ (l = false ∧ x.length < (c.withSink t).inputChunkSize)
    · have hg' : x.length = 0 ∨
          (l = false ∧ x.length < ((c.withHeld b).withSink t).inputChunkSize) := hg
      rw [if_pos hg, if_pos hg']
      rfl
    · have hg' : ¬ (x.length = 0 ∨
          (l = false ∧ x.length < ((c.withHeld b).withSink t).inputChunkSize)) := hg
      rw [if_neg hg, if_neg hg']
      have h2 := Compressor.deflateAll_held lib
        { c.withSink t with igzCrc := crc32_gzip_refl (c.withSink t).igzCrc x } b x l
      have h2' : Compressor.deflateAll lib
          { (c.withHeld b).withSink t with
            igzCrc := crc32_gzip_refl ((c.withHeld b).withSink t).igzCrc x } x l
          = (Compressor.deflateAll lib
              { c.withSink t with igzCrc := crc32_gzip_refl (c.withSink t).igzCrc x } x l).lift
            (fun d => d.withHeld b) := h2
      rw [h2']
      apply Outcome.lift_andThen_comm
      intro a
      cases l with
      | false => rfl
      | true => exact Compressor.gzipTrailer_held a b
  | raise m t => simp [Compressor.withHeld, Compressor.withSink]
  | hang => simp
  | fault => simp

theorem Compressor.compressAndWriteZSTD_held (lib : Lib) (c : Compressor) (b : List Nat)
    (x : List Nat) (l : Bool) :
    Compressor._CompressAndWriteZSTD lib (c.withHeld b) x l
      = (c._CompressAndWriteZSTD lib x l).lift (fun d => d.withHeld b) := by
  unfold Compressor._CompressAndWriteZSTD
  have hs : (c.withHeld b).sink = c.sink := rfl
  rw [hs]
  cases h1 : c.sink.flushIfFull with
  | ok t =>
    simp only [Outcome.lift_ok, Outcome.andThen_ok]
    by_cases hg : x.length = 0 ∨ (l = false ∧ x.length < (c.withSink t).inputChunkSize)
    · have hg' : x.length = 0 ∨
          (l = false ∧ x.length < ((c.withHeld b).withSink t).inputChunkSize) := hg
      rw [if_pos hg, if_pos hg']
      rfl
    · have hg' : ¬ (x.length = 0 ∨
          (l = false ∧ x.length < ((c.withHeld b).withSink t).inputChunkSize)) := hg
      rw [if_neg hg, if_neg hg']
      have h2' : Compressor.zstdAll lib ((c.withHeld b).withSink t) x l
          = (Compressor.zstdAll lib (c.withSink t) x l).lift (fun d => d.withHeld b) :=
        Compressor.zstdAll_held lib (c.withSink t) b x l
      rw [h2']
      apply Outcome.lift_andThen_comm
      intro a
      cases l with
      | false => rfl
      | true => exact Compressor.zstdEnd_held a b
  | raise m t => simp [Compressor.withHeld, Compressor.withSink]
  | hang => simp
  | fault => simp

/-- A codec invocation does not read the held bytes. -/
theorem Compressor.compressAndWrite_held (lib : Lib) (c : Compressor) (b : List Nat)
    (x : List Nat) (l : Bool) :
    Compressor._CompressAndWrite lib (c.withHeld b) x l
      = (c._CompressAndWrite lib x l).lift (fun d => d.withHeld b) := by
  unfold Compressor._CompressAndWrite
  cases hf : c.cFormat with
  | GZip =>
    have : (c.withHeld b).cFormat = Format.GZip := hf
    simp only [this]
    exact Compressor.compressAndWriteGZIP_held lib c b x _
  | ZStd =>
    have : (c.withHeld b).cFormat = Format.ZStd := hf
    simp only [this]
    exact Compressor.compressAndWriteZSTD_held lib c b x _

/-! ## Consequences of an invocation -/

theorem Fed.chunk {c d : Compressor} {x : List Nat} {l : Bool} (h : Fed c d x l) :
    d.inputChunkSize = c.inputChunkSize := by
  obtain ⟨ig, zs, t, out, rfl, _⟩ := h; rfl

theorem Fed.held {c d : Compressor} {x : List Nat} {l : Bool} (h : Fed c d x l) :
    d.currentInputBuffer = c.currentInputBuffer := by
  obtain ⟨ig, zs, t, out, rfl, _⟩ := h; rfl

theorem Fed.total {c d : Compressor} {x : List Nat} {l : Bool} (h : Fed c d x l) :
    d.totalInputSize = c.totalInputSize := by
  obtain ⟨ig, zs, t, out, rfl, _⟩ := h; rfl

theorem Fed.format {c d : Compressor} {x : List Nat} {l : Bool} (h : Fed c d x l) :
    d.cFormat = c.cFormat := by
  obtain ⟨ig, zs, t, out, rfl, _⟩ := h; rfl

theorem Fed.eos {c d : Compressor} {x : List Nat} {l : Bool} (h : Fed c d x l) :
    d.bEndOfStream = l := by
  obtain ⟨ig, zs, t, out, rfl, _⟩ := h; rfl

theorem Fed.log {c d : Compressor} {x : List Nat} {l : Bool} (h : Fed c d x l) :
    d.fed = c.fed ++ [(x, l)] := by
  obtain ⟨ig, zs, t, out, rfl, _⟩ := h; rfl

theorem Fed.closed {c d : Compressor} {x : List Nat} {l : Bool} (h : Fed c d x l) :
    d.bClosed = c.bClosed := by
  obtain ⟨ig, zs, t, out, rfl, _⟩ := h; rfl

theorem Fed.name {c d : Compressor} {x : List Nat} {l : Bool} (h : Fed c d x l) :
    d.fName = c.fName := by
  obtain ⟨ig, zs, t, out, rfl, _⟩ := h; rfl

theorem Fed.sinkExt {c d : Compressor} {x : List Nat} {l : Bool} (h : Fed c d x l) :
    ∃ out, Sink.Ext c.sink d.sink out := by
  obtain ⟨ig, zs, t, out, rfl, _, _, he, _⟩ := h
  exact ⟨out, he⟩

theorem Fed.armed {c d : Compressor} {x : List Nat} (ha : Armed c) (h : Fed c d x false) :
    Armed d := by
  obtain ⟨hs, hroom, hC, hO, hig, hzs, heos, hcl⟩ := ha
  obtain ⟨ig, zs, t, out, rfl, h1, h2, he, hb, _⟩ := h
  refine ⟨SinkOK.of_ext hs he, hb, hC, hO, ?_, ?_, rfl, hcl⟩
  · intro hf
    exact (h1 hf).1
  · intro hf
    exact (h2 hf).1

/-- Replacing the held bytes commutes with a codec invocation. -/
theorem FedBy.setHeld_by {lib : Lib} {c d : Compressor} {x : List Nat} {l : Bool}
    (h : FedBy lib c d x l) (b : List Nat) :
    FedBy lib (c.withHeld b) (d.withHeld b) x l := by
  obtain ⟨he, ig, zs, t, out, rfl, h1, h2, hx, hb, h3⟩ := h
  refine ⟨?_, ig, zs, t, out, rfl, h1, h2, hx, hb, h3⟩
  rw [Compressor.compressAndWrite_held, he]
  rfl

theorem Fed.setHeld {c d : Compressor} {x : List Nat} {l : Bool} (h : Fed c d x l)
    (b : List Nat) :
    Fed { c with currentInputBuffer := b } { d with currentInputBuffer := b } x l := by
  obtain ⟨ig, zs, t, out, rfl, h1, h2, he, hb, h3⟩ := h
  exact ⟨ig, zs, t, out, rfl, h1, h2, he, hb, h3⟩

theorem Armed.setHeld_armed {c : Compressor} (h : Armed c) (b : List Nat) :
    Armed { c with currentInputBuffer := b } := h

theorem FedAll.concat {lib : Lib} {c d e : Compressor} {fs gs : List Feed} (h₁ : FedAll lib c fs d)
    (h₂ : FedAll lib d gs e) : FedAll lib c (fs ++ gs) e := by
  induction h₁ with
  | nil c => simpa using h₂
  | cons hf _ ih => exact FedAll.cons hf (ih h₂)

theorem FedAll.single {lib : Lib} {c d : Compressor} {x : List Nat} {l : Bool}
    (h : FedBy lib c d x l) :
    FedAll lib c [(x, l)] d := FedAll.cons h (FedAll.nil d)

theorem FedAll.setHeld_all {lib : Lib} {c d : Compressor} {fs : List Feed} (h : FedAll lib c fs d) (b : List Nat) :
    FedAll lib { c with currentInputBuffer := b } fs { d with currentInputBuffer := b } := by
  induction h with
  | nil c => exact FedAll.nil _
  | cons hf _ ih => exact FedAll.cons (hf.setHeld_by b) ih

theorem FedAll.chunk_all {lib : Lib} {c d : Compressor} {fs : List Feed} (h : FedAll lib c fs d) :
    d.inputChunkSize = c.inputChunkSize := by
  induction h with
  | nil c => rfl
  | cons hf _ ih => rw [ih, hf.2.chunk]

theorem FedAll.held_all {lib : Lib} {c d : Compressor} {fs : List Feed} (h : FedAll lib c fs d) :
    d.currentInputBuffer = c.currentInputBuffer := by
  induction h with
  | nil c => rfl
  | cons hf _ ih => rw [ih, hf.2.held]

theorem FedAll.total_all {lib : Lib} {c d : Compressor} {fs : List Feed} (h : FedAll lib c fs d) :
    d.totalInputSize = c.totalInputSize := by
  induction h with
  | nil c => rfl
  | cons hf _ ih => rw [ih, hf.2.total]

theorem FedAll.format_all {lib : Lib} {c d : Compressor} {fs : List Feed} (h : FedAll lib c fs d) :
    d.cFormat = c.cFormat := by
  induction h with
  | nil c => rfl
  | cons hf _ ih => rw [ih, hf.2.format]

theorem FedAll.closed_all {lib : Lib} {c d : Compressor} {fs : List Feed} (h : FedAll lib c fs d) :
    d.bClosed = c.bClosed := by
  induction h with
  | nil c => rfl
  | cons hf _ ih => rw [ih, hf.2.closed]

theorem FedAll.name_all {lib : Lib} {c d : Compressor} {fs : List Feed} (h : FedAll lib c fs d) :
    d.fName = c.fName := by
  induction h with
  | nil c => rfl
  | cons hf _ ih => rw [ih, hf.2.name]

theorem FedAll.log_all {lib : Lib} {c d : Compressor} {fs : List Feed} (h : FedAll lib c fs d) :
    d.fed = c.fed ++ fs := by
  induction h with
  | nil c => simp
  | cons hf _ ih => rw [ih, hf.2.log]; simp

theorem FedAll.armed_all {lib : Lib} {c d : Compressor} {fs : List Feed} (h : FedAll lib c fs d) (ha : Armed c)
    (hfl : ∀ f ∈ fs, f.2 = false) : Armed d := by
  induction h with
  | nil c => exact ha
  | cons hf _ ih =>
    have h1 := hfl _ (List.mem_cons_self _ _)
    simp only at h1
    subst h1
    exact ih (hf.2.armed ha) (fun f hm => hfl f (List.mem_cons_of_mem _ hm))

theorem FedAll.sinkExt_all {lib : Lib} {c d : Compressor} {fs : List Feed} (h : FedAll lib c fs d) :
    ∃ out, Sink.Ext c.sink d.sink out := by
  induction h with
  | nil c => exact ⟨[], Sink.Ext.refl _⟩
  | cons hf _ ih =>
    obtain ⟨o1, h1⟩ := hf.2.sinkExt
    obtain ⟨o2, h2⟩ := ih
    exact ⟨o1 ++ o2, h1.trans h2⟩

/-! ## The slicing loop -/

theorem sliceFeeds_nil (C : Nat) (hC : 0 < C) (l : Bool) (fuel : Nat) :
    sliceFeeds C l fuel [] = [] := by
  cases fuel <;> simp [sliceFeeds]; omega

theorem sliceRest_nil (C : Nat) (fuel : Nat) : sliceRest C fuel [] = [] := by
  induction fuel with
  | zero => rfl
  | succ n ih => simp [sliceRest, ih]

theorem Compressor.putLoop_nil (lib : Lib) (l : Bool) (fuel : Nat) (c : Compressor)
    (hC : 0 < c.inputChunkSize) :
    Compressor.putLoop lib l fuel c [] = Outcome.ok (c, []) := by
  cases fuel <;> simp [Compressor.putLoop] <;> omega

theorem Compressor.putLoop_ok (lib : Lib) (l : Bool) (fuel : Nat) :
    ∀ (c : Compressor) (ptr : List Nat), Armed c → ptr.length ≤ fuel →
    ∃ d, Compressor.putLoop lib l fuel c ptr
        = Outcome.ok (d, sliceRest c.inputChunkSize fuel ptr) ∧
      FedAll lib c (sliceFeeds c.inputChunkSize l fuel ptr) d := by
  induction fuel with
  | zero =>
    intro c ptr ha hf
    have hp : ptr = [] := List.length_eq_zero.mp (Nat.le_zero.mp hf)
    subst hp
    refine ⟨c, ?_, ?_⟩
    · rw [Compressor.putLoop_nil lib l 0 c ha.2.2.1, sliceRest_nil]
    · rw [sliceFeeds_nil _ ha.2.2.1]; exact FedAll.nil c
  | succ fuel ih =>
    intro c ptr ha hf
    have hC := ha.2.2.1
    by_cases hge : c.inputChunkSize ≤ ptr.length
    · have hlen : (ptr.take c.inputChunkSize).length = c.inputChunkSize := by
        simp [List.length_take]; omega
      by_cases hl : (l && decide (ptr.length ≤ c.inputChunkSize)) = true
      · -- the flagged slice is the last one
        obtain ⟨d, hd, hfd⟩ := Compressor.compressAndWrite_fed lib c (ptr.take c.inputChunkSize)
          true ha (by omega) (by omega) (Or.inl rfl)
        have hle : ptr.length ≤ c.inputChunkSize := by
          simp at hl; exact hl.2
        have hnil : ptr.drop c.inputChunkSize = [] := List.drop_eq_nil_of_le hle
        refine ⟨d, ?_, ?_⟩
        · simp only [Compressor.putLoop, hge, if_true, hl, hd, sliceRest]
          rw [hfd.chunk, hnil, Compressor.putLoop_nil lib l fuel d (by rw [hfd.chunk]; exact hC),
            sliceRest_nil]
        · simp only [sliceFeeds, hge, if_true, hl, hnil]
          rw [sliceFeeds_nil _ hC]
          exact FedAll.single ⟨hd, hfd⟩
      · have hl' : (l && decide (ptr.length ≤ c.inputChunkSize)) = false := by
          simpa using hl
        obtain ⟨d, hd, hfd⟩ := Compressor.compressAndWrite_fed lib c (ptr.take c.inputChunkSize)
          false ha (by omega) (by omega) (Or.inr hlen)
        obtain ⟨e, he, hfe⟩ := ih d (ptr.drop c.inputChunkSize) (hfd.armed ha)
          (by simp [List.length_drop]; omega)
        refine ⟨e, ?_, ?_⟩
        · simp only [Compressor.putLoop, hge, if_true, hl', hd, sliceRest]
          rw [hfd.chunk] at he ⊢
          exact he
        · simp only [sliceFeeds, hge, if_true, hl']
          rw [hfd.chunk] at hfe
          exact FedAll.cons ⟨hd, hfd⟩ hfe
    · refine ⟨c, ?_, ?_⟩
      · simp [Compressor.putLoop, sliceRest, hge]
      · simp only [sliceFeeds, hge, if_false]
        exact FedAll.nil c

/-! ## `Put` on a ready compressor -/

theorem FedAll.dropHeld {lib : Lib} {c d : Compressor} {fs : List Feed} (h : FedAll lib c fs d) :
    FedAll lib c.dropHeld fs d.dropHeld := h.setHeld_all []

theorem sliceRest_of_lt (C fuel : Nat) (ptr : List Nat) (h : ptr.length < C) :
    sliceRest C fuel ptr = ptr := by
  cases fuel with
  | zero => rfl
  | succ n => simp [sliceRest]; omega

theorem sliceFeeds_of_lt (C : Nat) (l : Bool) (fuel : Nat) (ptr : List Nat)
    (h : ptr.length < C) : sliceFeeds C l fuel ptr = [] := by
  cases fuel with
  | zero => rfl
  | succ n => simp [sliceFeeds]; omega

/-- When the slicing loop leaves input over, none of its invocations is flagged. -/
theorem sliceFeeds_open (C : Nat) (l : Bool) (fuel : Nat) :
    ∀ ptr : List Nat, sliceRest C fuel ptr ≠ [] → OpenFeeds (sliceFeeds C l fuel ptr) := by
  induction fuel with
  | zero => intro ptr _ f hf; simp [sliceFeeds] at hf
  | succ n ih =>
    intro ptr hr f hf
    by_cases hge : C ≤ ptr.length
    · simp only [sliceFeeds, hge, if_true, List.mem_cons] at hf
      simp only [sliceRest, hge, if_true] at hr
      rcases hf with hf | hf
      · subst hf
        by_cases hle : ptr.length ≤ C
        · exfalso
          apply hr
          rw [List.drop_eq_nil_of_le hle, sliceRest_nil]
        · simp [hle]
      · exact ih _ hr f hf
    · simp [sliceFeeds, hge] at hf

theorem Compressor.putHeld_ok (lib : Lib) (c : Compressor) (data : List Nat) (l : Bool)
    (hr : Ready c) :
    ∃ d, c.putHeld lib data l = Outcome.ok
        (d, (heldFeeds c.inputChunkSize c.currentInputBuffer data l).2.2) ∧
      FedAll lib c.dropHeld (heldFeeds c.inputChunkSize c.currentInputBuffer data l).1 d.dropHeld ∧
      d.currentInputBuffer = (heldFeeds c.inputChunkSize c.currentInputBuffer data l).2.1 ∧
      (OpenFeeds (heldFeeds c.inputChunkSize c.currentInputBuffer data l).1 ∨
        ((heldFeeds c.inputChunkSize c.currentInputBuffer data l).2.2 = [] ∧
          d.bEndOfStream = true ∧ d.currentInputBuffer = [] ∧
          ClosedFeeds (heldFeeds c.inputChunkSize c.currentInputBuffer data l).1 ∧ l = true)) := by
  obtain ⟨ha, hh⟩ := hr
  unfold Compressor.putHeld heldFeeds
  simp only [Compressor.currentInputSize]
  by_cases h0 : 0 < c.currentInputBuffer.length
  · simp only [h0, if_true, hh]
    obtain ⟨pad, hp⟩ : ∃ pad, min (c.inputChunkSize - c.currentInputBuffer.length) data.length
        = pad := ⟨_, rfl⟩
    simp only [hp]
    have hlen : (c.currentInputBuffer ++ data.take pad).length
        = c.currentInputBuffer.length + pad := by
      simp [List.length_append, List.length_take]; omega
    by_cases hcond : (l = true ∧ 0 < (c.currentInputBuffer ++ data.take pad).length) ∨
        (c.currentInputBuffer ++ data.take pad).length = c.inputChunkSize
    · simp only [hcond, if_true]
      have hflag : (l && decide ((data.drop pad).length = 0)) = true
          ∨ (c.currentInputBuffer ++ data.take pad).length = c.inputChunkSize := by
        rcases hcond with ⟨h1, _⟩ | h2
        · by_cases hfull : c.currentInputBuffer.length + pad = c.inputChunkSize
          · right; rw [hlen]; exact hfull
          · left
            simp only [h1, Bool.true_and, decide_eq_true_eq, List.length_drop]
            omega
        · right; exact h2
      obtain ⟨d, hd1, hfd⟩ := Compressor.compressAndWrite_fed lib
        (c.dropHeld.withHeld (c.currentInputBuffer ++ data.take pad))
        (c.currentInputBuffer ++ data.take pad)
        (l && decide ((data.drop pad).length = 0))
        (ha.setHeld_armed _) (by rw [hlen]; omega)
        (by rw [hlen]; show _ ≤ c.inputChunkSize; omega) hflag
      refine ⟨d.dropHeld, ?_, ?_, rfl, ?_⟩
      · have : (c.dropHeld.withHeld (c.currentInputBuffer ++ data.take pad))
            = { c with currentInputBuffer := c.currentInputBuffer ++ data.take pad } := rfl
        rw [this] at hd1
        simp only [hd1, Outcome.lift_ok]
      · exact FedAll.single (FedBy.setHeld_by ⟨hd1, hfd⟩ [])
      · cases hfl : (l && decide ((data.drop pad).length = 0))
        · left
          intro f hf
          simp only [List.mem_singleton] at hf
          subst hf
          rfl
        · right
          refine ⟨?_, ?_, rfl, ⟨[], _, rfl, by simp⟩, ?_⟩
          · simp only [Bool.and_eq_true, decide_eq_true_eq] at hfl
            exact List.length_eq_zero.mp hfl.2
          rotate_left
          · simp only [Bool.and_eq_true, decide_eq_true_eq] at hfl
            exact hfl.1
          · rw [hfl] at hfd
            exact hfd.eos
    · simp only [hcond, if_false]
      refine ⟨_, rfl, FedAll.nil _, rfl, Or.inl ?_⟩
      intro f hf
      simp at hf
  · simp only [h0, if_false]
    refine ⟨c, rfl, FedAll.nil _, rfl, Or.inl ?_⟩
    intro f hf
    simp at hf

theorem sliceRest_lt (C : Nat) (hC : 0 < C) (fuel : Nat) :
    ∀ ptr : List Nat, ptr.length ≤ fuel → (sliceRest C fuel ptr).length < C := by
  induction fuel with
  | zero =>
    intro ptr h
    have : ptr = [] := List.length_eq_zero.mp (Nat.le_zero.mp h)
    subst this
    simpa [sliceRest] using hC
  | succ n ih =>
    intro ptr h
    by_cases hge : C ≤ ptr.length
    · simp only [sliceRest, hge, if_true]
      exact ih _ (by simp [List.length_drop]; omega)
    · simp only [sliceRest, hge, if_false]
      omega

theorem sliceFeeds_closed (C : Nat) (hC : 0 < C) (fuel : Nat) :
    ∀ ptr : List Nat, ptr.length ≤ fuel → ptr ≠ [] → sliceRest C fuel ptr = [] →
      ClosedFeeds (sliceFeeds C true fuel ptr) := by
  induction fuel with
  | zero =>
    intro ptr h hne
    exact absurd (List.length_eq_zero.mp (Nat.le_zero.mp h)) hne
  | succ n ih =>
    intro ptr h hne hr
    have hpos : 0 < ptr.length := List.length_pos.mpr hne
    by_cases hge : C ≤ ptr.length
    · simp only [sliceRest, hge, if_true] at hr
      simp only [sliceFeeds, hge, if_true, Bool.true_and]
      by_cases hle : ptr.length ≤ C
      · have hnil : ptr.drop C = [] := List.drop_eq_nil_of_le hle
        rw [hnil, sliceFeeds_nil C hC]
        exact ⟨[], ptr.take C, by simp [hle], by simp⟩
      · have hne' : ptr.drop C ≠ [] := by
          intro hn
          have := congrArg List.length hn
          simp [List.length_drop] at this
          omega
        obtain ⟨init, x, he, hi⟩ := ih (ptr.drop C) (by simp [List.length_drop]; omega) hne' hr
        refine ⟨(ptr.take C, false) :: init, x, by simp [hle, he], ?_⟩
        intro f hf
        rcases List.mem_cons.mp hf with hf | hf
        · subst hf; rfl
        · exact hi f hf
    · simp only [sliceRest, hge, if_false] at hr
      exact absurd hr hne

theorem sliceFeeds_open_of_not_last (C : Nat) (fuel : Nat) :
    ∀ ptr : List Nat, OpenFeeds (sliceFeeds C false fuel ptr) := by
  induction fuel with
  | zero => intro ptr f hf; simp [sliceFeeds] at hf
  | succ n ih =>
    intro ptr f hf
    by_cases hge : C ≤ ptr.length
    · simp only [sliceFeeds, hge, if_true, List.mem_cons] at hf
      rcases hf with hf | hf
      · subst hf; rfl
      · exact ih _ f hf
    · simp [sliceFeeds, hge] at hf

theorem OpenFeeds.append {fs gs : List Feed} (h₁ : OpenFeeds fs) (h₂ : OpenFeeds gs) :
    OpenFeeds (fs ++ gs) := by
  intro f hf
  rcases List.mem_append.mp hf with hf | hf
  · exact h₁ f hf
  · exact h₂ f hf

theorem OpenFeeds.nil : OpenFeeds [] := by
  intro f hf; simp at hf

theorem OpenFeeds.append_closed {fs gs : List Feed} (h₁ : OpenFeeds fs) (h₂ : ClosedFeeds gs) :
    ClosedFeeds (fs ++ gs) := by
  obtain ⟨init, x, he, hi⟩ := h₂
  refine ⟨fs ++ init, x, by simp [he], ?_⟩
  intro f hf
  rcases List.mem_append.mp hf with hf | hf
  · exact h₁ f hf
  · exact hi f hf

theorem OpenFeeds.snoc_closed {fs : List Feed} (h₁ : OpenFeeds fs) (x : List Nat) :
    ClosedFeeds (fs ++ [(x, true)]) := ⟨fs, x, rfl, h₁⟩

theorem FedAll.eos_snoc {lib : Lib} {d : Compressor} {x : List Nat} {l : Bool} :
    ∀ (init : List Feed) (c : Compressor), FedAll lib c (init ++ [(x, l)]) d →
      d.bEndOfStream = l
  | [], _, h => by
    cases h with
    | cons hf hr =>
      cases hr
      exact hf.2.eos
  | _ :: as, _, h => by
    cases h with
    | cons hf hr => exact FedAll.eos_snoc as _ hr

theorem FedAll.eos_of_closed {lib : Lib} {c d : Compressor} {fs : List Feed} (h : FedAll lib c fs d)
    (hc : ClosedFeeds fs) : d.bEndOfStream = true := by
  obtain ⟨init, x, he, _⟩ := hc
  subst he
  exact FedAll.eos_snoc init c h

theorem heldFeeds_facts (C : Nat) (held data : List Nat) (l : Bool) (hh : held.length < C) :
    ((heldFeeds C held data l).2.2 ≠ [] → (heldFeeds C held data l).2.1 = []) ∧
      (heldFeeds C held data l).2.1.length < C ∧
      (heldFeeds C held data l).2.2.length ≤ data.length := by
  unfold heldFeeds
  by_cases h0 : 0 < held.length
  · simp only [h0, if_true, hh]
    obtain ⟨pad, hp⟩ : ∃ pad, min (C - held.length) data.length = pad := ⟨_, rfl⟩
    simp only [hp]
    by_cases hcond : (l = true ∧ 0 < (held ++ data.take pad).length) ∨
        (held ++ data.take pad).length = C
    · simp only [hcond, if_true]
      refine ⟨fun _ => trivial, by simpa using (by omega : 0 < C), by simp [List.length_drop]⟩
    · simp only [hcond, if_false]
      have hlen : (held ++ data.take pad).length = held.length + pad := by
        simp [List.length_append, List.length_take]; omega
      have hnc : ¬ (held.length + pad = C) := by
        intro h; exact hcond (Or.inr (hlen.trans h))
      refine ⟨?_, ?_, by simp [List.length_drop]⟩
      · intro hne
        exfalso
        apply hne
        apply List.drop_eq_nil_of_le
        omega
      · rw [hlen]; omega
  · simp only [h0, if_false]
    have : held = [] := List.length_eq_zero.mp (by omega)
    exact ⟨fun _ => this, by omega, Nat.le_refl _⟩

theorem Armed.of_dropHeld {c : Compressor} (h : Armed c.dropHeld) : Armed c := h

theorem Compressor.putTail_ok (lib : Lib) (l : Bool) (c : Compressor) (r : List Nat)
    (ha : 0 < r.length → l = true → Armed c) (hr : r.length < c.inputChunkSize) :
    ∃ d, c.putTail lib l r = Outcome.ok d ∧
      FedAll lib c.dropHeld (if 0 < r.length ∧ l = true then [(r, true)] else []) d.dropHeld ∧
      d.currentInputBuffer
        = (if 0 < r.length ∧ l = false then c.currentInputBuffer ++ r else c.currentInputBuffer) := by
  unfold Compressor.putTail
  by_cases h0 : 0 < r.length
  · cases l with
    | true =>
      obtain ⟨d, hd, hfd⟩ := Compressor.compressAndWrite_fed lib c r true (ha h0 rfl) h0
        (Nat.le_of_lt hr) (Or.inl rfl)
      refine ⟨d, by simp [h0, hd], ?_, ?_⟩
      · simp only [h0, and_self, if_true]
        exact FedAll.single (FedBy.setHeld_by ⟨hd, hfd⟩ [])
      · simp [hfd.held]
    | false =>
      refine ⟨c.withHeld (c.currentInputBuffer ++ r), by simp [h0, Compressor.withHeld], ?_, ?_⟩
      · simp only [Bool.false_eq_true, and_false, if_false]
        exact FedAll.nil _
      · simp [h0, Compressor.withHeld]
  · refine ⟨c, by simp [h0], ?_, ?_⟩
    · simp only [h0, false_and, if_false]
      exact FedAll.nil _
    · simp [h0]

/-- With `isLast` set and input present, a first part of `Put` that flags
nothing leaves input to consume. -/
theorem heldFeeds_open_last (C : Nat) (held data : List Nat) (hd : 0 < data.length)
    (ho : OpenFeeds (heldFeeds C held data true).1) (hh : held.length < C) :
    (heldFeeds C held data true).2.2 ≠ [] := by
  unfold heldFeeds at ho ⊢
  by_cases h0 : 0 < held.length
  · simp only [h0, if_true, hh] at ho ⊢
    obtain ⟨pad, hp⟩ : ∃ pad, min (C - held.length) data.length = pad := ⟨_, rfl⟩
    simp only [hp] at ho ⊢
    have hcond : (True ∧ 0 < (held ++ data.take pad).length) ∨
        (held ++ data.take pad).length = C := by
      left
      exact ⟨trivial, by simp [List.length_append]; omega⟩
    simp only [hcond, if_true] at ho ⊢
    have := ho _ (List.mem_singleton.mpr rfl)
    simp only [Bool.true_and, decide_eq_false_iff_not] at this
    intro hn
    exact this (by simp [hn])
  · simp only [h0, if_false]
    intro hn
    simp [hn] at hd

theorem Compressor.Put_ready (lib : Lib) (c : Compressor) (data : List Nat) (l : Bool)
    (hr : Ready c) :
    ∃ d, c.Put lib data l = Outcome.ok d ∧
      FedAll lib (c.accept data.length).dropHeld
        (putFeeds c.inputChunkSize c.currentInputBuffer data l).1 d.dropHeld ∧
      d.currentInputBuffer = (putFeeds c.inputChunkSize c.currentInputBuffer data l).2 ∧
      ((l = true ∧ (0 < data.length ∨ 0 < c.currentInputBuffer.length)) →
        ClosedFeeds (putFeeds c.inputChunkSize c.currentInputBuffer data l).1 ∧
          d.bEndOfStream = true ∧ d.currentInputBuffer = []) ∧
      (¬ (l = true ∧ (0 < data.length ∨ 0 < c.currentInputBuffer.length)) →
        OpenFeeds (putFeeds c.inputChunkSize c.currentInputBuffer data l).1 ∧ Ready d) := by
  obtain ⟨ha, hh⟩ := hr
  have hC := ha.2.2.1
  have heos : c.bEndOfStream = false := ha.2.2.2.2.2.2.1
  unfold Compressor.Put
  have hne : ¬ (c.bEndOfStream = true ∧ 0 < data.length) := by simp [heos]
  simp only [hne, if_false]
  by_cases hd : 0 < data.length
  · simp only [hd, if_true]
    have hacc : c.accept data.length
        = { c with totalInputSize := u64 (c.totalInputSize + data.length) } := by
      simp [Compressor.accept, hd]
    rw [hacc]
    obtain ⟨c0, hc0⟩ : ∃ c0, c0 = { c with totalInputSize := u64 (c.totalInputSize + data.length) } :=
      ⟨_, rfl⟩
    rw [← hc0]
    have ha0 : Armed c0 := by rw [hc0]; exact ha
    have hch0 : c0.inputChunkSize = c.inputChunkSize := by rw [hc0]
    have hhe0 : c0.currentInputBuffer = c.currentInputBuffer := by rw [hc0]
    obtain ⟨d1, h1, hf1, hh1, hcase1⟩ := Compressor.putHeld_ok lib c0 data l
      ⟨ha0, by rw [hch0, hhe0]; exact hh⟩
    rw [hch0, hhe0] at h1 hf1 hh1 hcase1
    obtain ⟨hfa, hfb, hfc⟩ := heldFeeds_facts c.inputChunkSize c.currentInputBuffer data l hh
    unfold putFeeds
    simp only [hd, if_true]
    rcases hH : heldFeeds c.inputChunkSize c.currentInputBuffer data l with ⟨fs1, hd1, ptr⟩
    simp only [hH] at h1 hf1 hh1 hcase1 hfa hfb hfc
    simp only [Compressor.thenPtr, h1, Outcome.andThen_ok]
    have hch1 : d1.inputChunkSize = c.inputChunkSize := by
      have := hf1.chunk_all
      simpa [Compressor.dropHeld, hch0] using this
    rcases hcase1 with hopen | ⟨hp, he1, hhn, hcl, hl⟩
    · -- nothing flagged so far
      have ha1 : Armed d1 := Armed.of_dropHeld (hf1.armed_all ha0 hopen)
      obtain ⟨d2, h2, hf2⟩ := Compressor.putLoop_ok lib l data.length d1 ptr ha1 hfc
      rw [hch1] at h2 hf2
      simp only [h2]
      have hch2 : d2.inputChunkSize = c.inputChunkSize := by rw [hf2.chunk_all, hch1]
      have hrlt := sliceRest_lt c.inputChunkSize hC data.length ptr hfc
      obtain ⟨d3, h3, hf3, hh3⟩ := Compressor.putTail_ok lib l d2
        (sliceRest c.inputChunkSize data.length ptr)
        (fun h0 _ => hf2.armed_all ha1
          (sliceFeeds_open c.inputChunkSize l data.length ptr
            (by intro hn; simp [hn] at h0)))
        (by rw [hch2]; exact hrlt)
      have hall := (hf1.concat hf2.dropHeld).concat hf3
      have hheld2 : d2.currentInputBuffer = hd1 := by rw [hf2.held_all, hh1]
      rw [hheld2] at hh3
      refine ⟨d3, h3, ?_, ?_, ?_, ?_⟩
      · by_cases hr0 : 0 < (sliceRest c.inputChunkSize data.length ptr).length
        · cases l <;> simpa [hr0] using hall
        · simpa [hr0] using hall
      · by_cases hr0 : 0 < (sliceRest c.inputChunkSize data.length ptr).length
        · cases l <;> simp [hr0, hh3]
        · simp [hr0, hh3]
      · rintro ⟨hl, _⟩
        subst hl
        have hpne : ptr ≠ [] := by
          have := heldFeeds_open_last c.inputChunkSize c.currentInputBuffer data hd
            (by rw [hH]; exact hopen) hh
          rw [hH] at this
          exact this
        have hd1nil : hd1 = [] := hfa hpne
        by_cases hr0 : 0 < (sliceRest c.inputChunkSize data.length ptr).length
        · have hso := sliceFeeds_open c.inputChunkSize true data.length ptr
            (by intro hn; simp [hn] at hr0)
          have hclosed : ClosedFeeds ((fs1 ++ sliceFeeds c.inputChunkSize true data.length ptr)
              ++ [(sliceRest c.inputChunkSize data.length ptr, true)]) :=
            (hopen.append hso).snoc_closed _
          simp only [hr0, if_true, and_self] at hall hh3 ⊢
          refine ⟨hclosed, ?_, ?_⟩
          · have := hall.eos_of_closed hclosed
            simpa [Compressor.dropHeld] using this
          · simp at hh3
            rw [hh3, hd1nil]
        · have hrn : sliceRest c.inputChunkSize data.length ptr = [] :=
            List.length_eq_zero.mp (by omega)
          have hsc := sliceFeeds_closed c.inputChunkSize hC data.length ptr hfc hpne hrn
          have hclosed := hopen.append_closed hsc
          simp only [hr0, if_false, false_and, List.append_nil] at hall hh3 ⊢
          refine ⟨hclosed, ?_, ?_⟩
          · have := hall.eos_of_closed hclosed
            simpa [Compressor.dropHeld] using this
          · rw [hh3, hd1nil]
      · intro hnl
        have hl : l = false := by
          cases l
          · rfl
          · exact (hnl (by simp [hd])).elim
        subst hl
        have hso := sliceFeeds_open_of_not_last c.inputChunkSize data.length ptr
        have hopen2 := hopen.append hso
        have hfs : (if 0 < (sliceRest c.inputChunkSize data.length ptr).length ∧ false = true
            then [(sliceRest c.inputChunkSize data.length ptr, true)] else []) = ([] : List Feed) := by
          simp
        rw [hfs, List.append_nil] at hall
        have ha3 : Armed d3 := Armed.of_dropHeld (hall.armed_all ha0 hopen2)
        have hch3 : d3.inputChunkSize = c.inputChunkSize := by
          have := hall.chunk_all
          simpa [Compressor.dropHeld, hch0] using this
        by_cases hr0 : 0 < (sliceRest c.inputChunkSize data.length ptr).length
        · have hpne : ptr ≠ [] := by
            intro hn
            rw [hn, sliceRest_nil] at hr0
            simp at hr0
          have hd1nil : hd1 = [] := hfa hpne
          simp only [hr0, if_true, Bool.false_eq_true, if_false]
          refine ⟨hopen2, ha3, ?_⟩
          rw [hh3, hch3, hd1nil]
          simpa [hr0] using hrlt
        · simp only [hr0, if_false]
          refine ⟨hopen2, ha3, ?_⟩
          rw [hh3, hch3]
          simpa [hr0] using hfb
    · -- the merged chunk was the final one
      subst hp
      have hC1 : 0 < d1.inputChunkSize := by rw [hch1]; exact hC
      rw [Compressor.putLoop_nil lib l data.length d1 hC1]
      simp only [Compressor.putTail, List.length_nil, Nat.lt_irrefl, if_false]
      rw [sliceFeeds_nil _ hC, sliceRest_nil]
      simp only [List.length_nil, Nat.lt_irrefl, if_false, List.append_nil]
      refine ⟨d1, rfl, hf1, hh1, fun _ => ⟨hcl, he1, hhn⟩, ?_⟩
      intro hnl
      exact (hnl (by simp [hd, hl])).elim
  · simp only [hd, if_false]
    have hdn : data = [] := List.length_eq_zero.mp (by omega)
    subst hdn
    have hacc : c.accept ([] : List Nat).length = c := by simp [Compressor.accept]
    rw [hacc]
    unfold putFeeds
    simp only [List.length_nil, Nat.lt_irrefl, if_false, Compressor.currentInputSize]
    by_cases hl : l = true ∧ 0 < c.currentInputBuffer.length
    · simp only [hl, and_self, if_true]
      obtain ⟨d, hd1, hfd⟩ := Compressor.compressAndWrite_fed lib c c.currentInputBuffer true
        ha hl.2 (Nat.le_of_lt hh) (Or.inl rfl)
      refine ⟨d.dropHeld, by simp [hd1], FedAll.single (FedBy.setHeld_by ⟨hd1, hfd⟩ []), rfl, ?_, ?_⟩
      · intro _
        refine ⟨⟨[], _, rfl, by simp⟩, ?_, rfl⟩
        simpa [Compressor.dropHeld] using hfd.eos
      · intro hnl
        exact (hnl (by simp [hl])).elim
    · simp only [hl, if_false]
      refine ⟨c, rfl, FedAll.nil _, rfl, ?_, ?_⟩
      · rintro ⟨h1, h2 | h2⟩
        · simp at h2
        · exact absurd ⟨h1, h2⟩ hl
      · intro _
        exact ⟨OpenFeeds.nil, ha, hh⟩

/-! ## Finalisation by `Close` -/

theorem Compressor.endAndWrite_fed (lib : Lib) (c : Compressor) (ha : Armed c) :
    ∃ d, c._EndAndWrite lib = Outcome.ok d ∧ Fed c d c.currentInputBuffer true := by
  obtain ⟨hs, hroom, hC, hO, hig, hzs, heos, hcl⟩ := ha
  obtain ⟨t1, ht1, he1, hb1⟩ := Sink.flushIfFull_ok c.sink hs
  have hs1 := SinkOK.of_ext hs he1
  unfold Compressor._EndAndWrite
  cases hf : c.cFormat with
  | GZip =>
    unfold Compressor._EndAndWriteGZIP
    simp only [heos, Bool.false_eq_true, if_false, ht1, Outcome.lift_ok, Outcome.andThen_ok,
      Compressor.withSink, Compressor.currentInputSize]
    by_cases h0 : 0 < c.currentInputBuffer.length
    · have hne : c.currentInputBuffer ≠ [] := by
        intro h; simp [h] at h0
      simp only [h0, if_true]
      obtain ⟨ig, t2, out2, h2, hig2, he2, hb2⟩ := Compressor.deflateAll_ok lib
        { c with sink := t1, igzCrc := crc32_gzip_refl c.igzCrc c.currentInputBuffer }
        c.currentInputBuffer true hs1 hb1 (hig hf)
      simp only [heos] at h2
      simp only [h2, Outcome.andThen_ok]
      have hs2 : SinkOK t2 := SinkOK.of_ext hs1 he2
      obtain ⟨t3, h3, he3, hb3⟩ := Compressor.gzipTrailer_ok
        { c with sink := t2, igzCrc := crc32_gzip_refl c.igzCrc c.currentInputBuffer,
                 igzStream := ig, fed := c.fed ++ [(c.currentInputBuffer, true)] } hs2
      simp only [heos] at h3
      refine ⟨_, h3, ig, c.zstCtx, t3, _, ?_, ?_, ?_, (he1.trans he2).trans he3, ?_, ?_⟩
      · simp [hf, hne]
      · intro _; exact ⟨hig2, rfl⟩
      · intro h; simp [hf] at h
      · have := (SinkOK.of_ext hs2 he3).2.2.1
        simpa [hb3] using this
      · intro _
        refine ⟨hb3, fun _ => ⟨out2, ?_⟩⟩
        simp [hne]
    · have hnil : c.currentInputBuffer = [] := List.length_eq_zero.mp (by omega)
      simp only [h0, if_false]
      obtain ⟨ig, t2, out2, h2, hig2, he2, hb2⟩ := Compressor.deflateAll_ok lib
        { c with sink := t1 } c.currentInputBuffer true hs1 hb1 (hig hf)
      simp only [heos] at h2
      simp only [h2, Outcome.andThen_ok]
      have hs2 : SinkOK t2 := SinkOK.of_ext hs1 he2
      obtain ⟨t3, h3, he3, hb3⟩ := Compressor.gzipTrailer_ok
        { c with sink := t2, igzStream := ig,
                 fed := c.fed ++ [(c.currentInputBuffer, true)] } hs2
      simp only [heos] at h3
      refine ⟨_, h3, ig, c.zstCtx, t3, _, ?_, ?_, ?_, (he1.trans he2).trans he3, ?_, ?_⟩
      · simp [hf, hnil]
      · intro _; exact ⟨hig2, rfl⟩
      · intro h; simp [hf] at h
      · have := (SinkOK.of_ext hs2 he3).2.2.1
        simpa [hb3] using this
      · intro _
        refine ⟨hb3, fun _ => ⟨out2, ?_⟩⟩
        simp [hnil]
  | ZStd =>
    unfold Compressor._EndAndWriteZSTD
    simp only [heos, Bool.false_eq_true, if_false, ht1, Outcome.lift_ok, Outcome.andThen_ok,
      Compressor.withSink]
    obtain ⟨zs, t2, out2, h2, hz2, he2, hb2⟩ := Compressor.zstdAll_ok lib
      { c with sink := t1 } c.currentInputBuffer true hs1 hO (hzs hf)
    simp only [heos] at h2
    simp only [h2, Outcome.andThen_ok]
    have hs2 : SinkOK t2 := SinkOK.of_ext hs1 he2
    obtain ⟨t3, h3, he3, hb3⟩ := Compressor.zstdEnd_ok
      { c with sink := t2, zstCtx := zs, fed := c.fed ++ [(c.currentInputBuffer, true)] } hs2
    simp only [heos] at h3
    refine ⟨_, h3, c.igzStream, zs, t3, _, ?_, ?_, ?_, (he1.trans he2).trans he3, ?_, ?_⟩
    · simp [hf]
    · intro h; simp [hf] at h
    · intro _; exact ⟨hz2, rfl⟩
    · have := (SinkOK.of_ext hs2 he3).2.2.1
      simpa [hb3] using this
    · intro _
      refine ⟨hb3, fun h => ?_⟩
      simp [hf] at h

theorem Compressor.Close_ready (lib : Lib) (c : Compressor) (hr : Ready c) :
    ∃ d, c._EndAndWrite lib = Outcome.ok d ∧ Fed c d c.currentInputBuffer true ∧
      c.Close lib = Outcome.ok d.closeHandle.release := by
  obtain ⟨ha, hh⟩ := hr
  obtain ⟨d, hd, hfd⟩ := Compressor.endAndWrite_fed lib c ha
  refine ⟨d, hd, hfd, ?_⟩
  obtain ⟨hs, hroom, hC, hO, hig, hzs, heos, hcl⟩ := ha
  unfold Compressor.Close
  have hne : c.sink.fHandle ≠ Handle.null := by rw [hs.1]; decide
  simp [hcl, hne, heos, hd]

theorem Compressor.Close_finished (lib : Lib) (c : Compressor) (hf : Finished c) :
    (c.Close lib = Outcome.ok c ∧ c.bClosed = true) ∨ c.Close lib = Outcome.ok c.release ∨
      c.Close lib = Outcome.ok c.closeHandle.release := by
  obtain ⟨heos, _⟩ := hf
  unfold Compressor.Close
  by_cases hcl : c.bClosed = true
  · left; simp [hcl]
  · right
    by_cases hn : c.sink.fHandle = Handle.null
    · left; simp [hcl, hn]
    · right; simp [hcl, hn, heos]

theorem Compressor.Put_finished (lib : Lib) (c : Compressor) (data : List Nat) (l : Bool)
    (hf : Finished c) :
    (0 < data.length → c.Put lib data l = Outcome.raise "end_of_stream" c) ∧
      (data.length = 0 → c.Put lib data l = Outcome.ok c) := by
  obtain ⟨heos, hh⟩ := hf
  unfold Compressor.Put
  constructor
  · intro hd
    simp [heos, hd]
  · intro hd
    simp [hd, hh, Compressor.currentInputSize]

/-! ## The gzip CRC -/

theorem crcBit_lt (x : Nat) (h : x < 2 ^ 32) : crcBit x < 2 ^ 32 := by
  unfold crcBit
  have h1 : x >>> 1 < 2 ^ 32 := by
    rw [Nat.shiftRight_eq_div_pow]
    exact Nat.lt_of_le_of_lt (Nat.div_le_self _ _) h
  split
  · exact Nat.xor_lt_two_pow h1 (by norm_num)
  · exact h1

theorem crcByte_lt (crc b : Nat) (h : crc < 2 ^ 32) : crcByte crc b < 2 ^ 32 := by
  unfold crcByte
  have h0 : crc ^^^ (b % 256) < 2 ^ 32 :=
    Nat.xor_lt_two_pow h (Nat.lt_of_lt_of_le (Nat.mod_lt _ (by norm_num)) (by norm_num))
  exact crcBit_lt _ (crcBit_lt _ (crcBit_lt _ (crcBit_lt _ (crcBit_lt _ (crcBit_lt _
    (crcBit_lt _ (crcBit_lt _ h0)))))))

theorem crcFold_lt (buf : List Nat) : ∀ crc : Nat, crc < 2 ^ 32 →
    buf.foldl crcByte crc < 2 ^ 32 := by
  induction buf with
  | nil => intro crc h; exact h
  | cons b bs ih => intro crc h; exact ih _ (crcByte_lt crc b h)

theorem u32_xor_mask_lt (x : Nat) : u32 x ^^^ 0xFFFFFFFF < 2 ^ 32 :=
  Nat.xor_lt_two_pow (Nat.mod_lt _ (by norm_num)) (by norm_num)

theorem crc32_gzip_refl_lt (init : Nat) (buf : List Nat) :
    crc32_gzip_refl init buf < 2 ^ 32 := by
  unfold crc32_gzip_refl
  exact Nat.xor_lt_two_pow (crcFold_lt buf _ (u32_xor_mask_lt init)) (by norm_num)

/-- The CRC of a concatenation is the CRC of the second part continued from
the CRC of the first. -/
theorem crc32_gzip_refl_append (init : Nat) (a b : List Nat) :
    crc32_gzip_refl (crc32_gzip_refl init a) b = crc32_gzip_refl init (a ++ b) := by
  unfold crc32_gzip_refl
  have hlt := crcFold_lt a _ (u32_xor_mask_lt init)
  have h1 : u32 (List.foldl crcByte (u32 init ^^^ 0xFFFFFFFF) a ^^^ 0xFFFFFFFF)
      = List.foldl crcByte (u32 init ^^^ 0xFFFFFFFF) a ^^^ 0xFFFFFFFF := by
    unfold u32
    exact Nat.mod_eq_of_lt (Nat.xor_lt_two_pow hlt (by norm_num))
  rw [h1, Nat.xor_assoc, Nat.xor_self, Nat.xor_zero, List.foldl_append]

theorem crc32_gzip_refl_nil : crc32_gzip_refl 0 [] = 0 := by decide

theorem le32_u32 (x : Nat) : le32 (u32 x) = le32 x := by
  unfold le32 u32
  have h0 : x % 2 ^ 32 % 256 = x % 256 := by omega
  have h1 : x % 2 ^ 32 / 2 ^ 8 % 256 = x / 2 ^ 8 % 256 := by omega
  have h2 : x % 2 ^ 32 / 2 ^ 16 % 256 = x / 2 ^ 16 % 256 := by omega
  have h3 : x % 2 ^ 32 / 2 ^ 24 % 256 = x / 2 ^ 24 % 256 := by omega
  rw [h0, h1, h2, h3]

theorem and_mask32 (x : Nat) : x &&& 0xFFFFFFFF = x % 2 ^ 32 := by
  have := Nat.and_pow_two_sub_one_eq_mod x 32
  simpa using this

theorem u64_mod32 (n : Nat) : u64 n % 2 ^ 32 = n % 2 ^ 32 := by
  unfold u64
  omega

theorem u64_add_u64 (a b : Nat) : u64 (u64 a + b) = u64 (a + b) := by
  unfold u64
  omega

/-! ## The bytes of the invocations of `Put` -/

theorem feedBytes_append (fs gs : List Feed) :
    feedBytes (fs ++ gs) = feedBytes fs ++ feedBytes gs := by
  simp [feedBytes]

theorem feedBytes_nil : feedBytes [] = [] := rfl

theorem feedBytes_single (x : List Nat) (l : Bool) : feedBytes [(x, l)] = x := by
  simp [feedBytes]

theorem feedBytes_cons (x : List Nat) (l : Bool) (fs : List Feed) :
    feedBytes ((x, l) :: fs) = x ++ feedBytes fs := by
  simp [feedBytes]

theorem slice_bytes (C : Nat) (l : Bool) (fuel : Nat) : ∀ ptr : List Nat,
    feedBytes (sliceFeeds C l fuel ptr) ++ sliceRest C fuel ptr = ptr := by
  induction fuel with
  | zero => intro ptr; simp [sliceFeeds, sliceRest, feedBytes]
  | succ n ih =>
    intro ptr
    by_cases hge : C ≤ ptr.length
    · simp only [sliceFeeds, sliceRest, hge, if_true, feedBytes_cons, List.append_assoc, ih]
      exact List.take_append_drop C ptr
    · simp [sliceFeeds, sliceRest, hge, feedBytes]

theorem heldFeeds_bytes (C : Nat) (held data : List Nat) (l : Bool) :
    feedBytes (heldFeeds C held data l).1 ++ (heldFeeds C held data l).2.1
      ++ (heldFeeds C held data l).2.2 = held ++ data := by
  unfold heldFeeds
  by_cases h0 : 0 < held.length
  · simp only [h0, if_true]
    by_cases hh : held.length < C
    · simp only [hh, if_true]
      obtain ⟨pad, hp⟩ : ∃ pad, min (C - held.length) data.length = pad := ⟨_, rfl⟩
      simp only [hp]
      split
      · simp [feedBytes]
      · simp [feedBytes]
    · simp [hh, feedBytes]
  · simp [h0, feedBytes]

theorem putFeeds_bytes (C : Nat) (hC : 0 < C) (held data : List Nat) (l : Bool)
    (hh : held.length < C) :
    feedBytes (putFeeds C held data l).1 ++ (putFeeds C held data l).2 = held ++ data := by
  have hb := heldFeeds_bytes C held data l
  obtain ⟨hfa, _, _⟩ := heldFeeds_facts C held data l hh
  unfold putFeeds
  by_cases hd : 0 < data.length
  · simp only [hd, if_true]
    rcases hH : heldFeeds C held data l with ⟨fs1, hd1, ptr⟩
    simp only [hH] at hb hfa
    have hs := slice_bytes C l data.length ptr
    by_cases hp : ptr = []
    · subst hp
      rw [sliceFeeds_nil C hC, sliceRest_nil] at *
      simp only [List.length_nil, Nat.lt_irrefl, if_false, List.append_nil] at hb ⊢
      exact hb
    · have hn : hd1 = [] := hfa hp
      subst hn
      simp only [List.append_nil] at hb
      by_cases hr0 : 0 < (sliceRest C data.length ptr).length
      · cases l
        · simp only [hr0, if_true, Bool.false_eq_true, if_false, List.nil_append,
            feedBytes_append, List.append_assoc, hs]
          exact hb
        · simp only [hr0, if_true, feedBytes_append, feedBytes_single, List.append_nil,
            List.append_assoc, hs]
          exact hb
      · have hrn : sliceRest C data.length ptr = [] := List.length_eq_zero.mp (by omega)
        rw [hrn] at hs
        simp only [hrn, List.length_nil, Nat.lt_irrefl, if_false, List.append_nil,
          feedBytes_append] at hs ⊢
        rw [hs]
        exact hb
  · have hdn : data = [] := List.length_eq_zero.mp (by omega)
    subst hdn
    simp only [List.length_nil, Nat.lt_irrefl, if_false]
    split
    · simp [feedBytes]
    · simp [feedBytes]

/-! ## Bookkeeping along codec invocations -/

theorem Fed.crc {c d : Compressor} {x : List Nat} {l : Bool} (h : Fed c d x l)
    (hf : c.cFormat = Format.GZip) (A : List Nat) (hc : c.igzCrc = crc32_gzip_refl 0 A) :
    d.igzCrc = crc32_gzip_refl 0 (A ++ x) := by
  obtain ⟨ig, zs, t, out, rfl, _⟩ := h
  by_cases hx : x = []
  · subst hx
    simpa using hc
  · simp only [hf, hx, ne_eq, not_false_eq_true, and_self, if_true]
    rw [hc, crc32_gzip_refl_append]

theorem Fed.trailers {c d : Compressor} {x : List Nat} {l : Bool} (h : Fed c d x l) :
    d.trailers = if c.cFormat = Format.GZip ∧ l = true then c.trailers + 1 else c.trailers := by
  obtain ⟨ig, zs, t, out, rfl, _⟩ := h
  rfl

theorem Sink.Ext.hashed {s t : Sink} {o : List Nat} (h : Sink.Ext s t o) :
    t.bGenMD5 = s.bGenMD5 ∧ ((s.bGenMD5 = true → s.hashed = s.written) →
      (t.bGenMD5 = true → t.hashed = t.written)) := by
  obtain ⟨_, _, _, _, a5, ⟨ws, b1, b2, _⟩, _⟩ := h
  refine ⟨a5, fun hs ht => ?_⟩
  rw [a5] at ht
  rw [b1, b2, hs ht, ht]
  simp

theorem Fed.trailerBytes {c d : Compressor} {x : List Nat} (h : Fed c d x true)
    (hf : c.cFormat = Format.GZip) :
    ∃ pre, d.sink.written.flatten
      = pre ++ (le32 (u32 d.igzCrc) ++ le32 (c.totalInputSize &&& 0xFFFFFFFF)) := by
  obtain ⟨ig, zs, t, out, rfl, _, _, he, _, h3⟩ := h
  obtain ⟨hb, h4⟩ := h3 rfl
  obtain ⟨pre, hp⟩ := h4 hf
  obtain ⟨_, _, _, _, _, ⟨ws, b1, _, b3, _⟩, _⟩ := he
  rw [hb, List.append_nil] at b3
  refine ⟨c.sink.written.flatten ++ c.sink.compressedBuffer ++ pre, ?_⟩
  simp only [b1, List.flatten_append, b3, hp, hf, true_and]
  by_cases hx : x = []
  · simp [hx]
  · simp [hx]

theorem FedAll.snoc_inv {lib : Lib} {d : Compressor} {x : List Nat} {l : Bool} :
    ∀ (init : List Feed) (c : Compressor), FedAll lib c (init ++ [(x, l)]) d →
      ∃ e, FedAll lib c init e ∧ FedBy lib e d x l
  | [], c, h => by
    cases h with
    | cons hf hr =>
      cases hr
      exact ⟨c, FedAll.nil c, hf⟩
  | _ :: as, _, h => by
    cases h with
    | cons hf hr =>
      obtain ⟨e, he, hfe⟩ := FedAll.snoc_inv as _ hr
      exact ⟨e, FedAll.cons hf he, hfe⟩

theorem FedAll.crc_all {lib : Lib} {c d : Compressor} {fs : List Feed} (h : FedAll lib c fs d)
    (hf : c.cFormat = Format.GZip) :
    ∀ A : List Nat, c.igzCrc = crc32_gzip_refl 0 A →
      d.igzCrc = crc32_gzip_refl 0 (A ++ feedBytes fs) := by
  induction h with
  | nil c => intro A hc; simpa [feedBytes] using hc
  | cons hfd _ ih =>
    intro A hc
    have := ih (by rw [hfd.2.format]; exact hf) _ (hfd.2.crc hf A hc)
    rw [this, feedBytes_cons, List.append_assoc]

theorem FedAll.trailers_open {lib : Lib} {c d : Compressor} {fs : List Feed}
    (h : FedAll lib c fs d) (ho : OpenFeeds fs) : d.trailers = c.trailers := by
  induction h with
  | nil c => rfl
  | cons hfd _ ih =>
    have h1 := ho _ (List.mem_cons_self _ _)
    simp only at h1
    subst h1
    rw [ih (fun f hm => ho f (List.mem_cons_of_mem _ hm)), hfd.2.trailers]
    simp

theorem FedAll.trailers_closed {lib : Lib} {c d : Compressor} {fs : List Feed}
    (h : FedAll lib c fs d) (hc : ClosedFeeds fs) :
    d.trailers = if c.cFormat = Format.GZip then c.trailers + 1 else c.trailers := by
  obtain ⟨init, x, he, hi⟩ := hc
  subst he
  obtain ⟨e, h1, h2⟩ := FedAll.snoc_inv init c h
  rw [h2.2.trailers, h1.trailers_open hi, h1.format_all]
  simp

theorem FedAll.hashed_all {lib : Lib} {c d : Compressor} {fs : List Feed} (h : FedAll lib c fs d)
    (hc : c.sink.bGenMD5 = true → c.sink.hashed = c.sink.written) :
    d.sink.bGenMD5 = true → d.sink.hashed = d.sink.written := by
  obtain ⟨out, he⟩ := h.sinkExt_all
  exact he.hashed.2 hc

theorem FedAll.trailerBytes_all {lib : Lib} {c d : Compressor} {fs : List Feed}
    (h : FedAll lib c fs d) (hc : ClosedFeeds fs) (hf : c.cFormat = Format.GZip) :
    ∃ pre, d.sink.written.flatten
      = pre ++ (le32 (u32 d.igzCrc) ++ le32 (c.totalInputSize &&& 0xFFFFFFFF)) := by
  obtain ⟨init, x, he, hi⟩ := hc
  subst he
  obtain ⟨e, h1, h2⟩ := FedAll.snoc_inv init c h
  have := h2.2.trailerBytes (by rw [h1.format_all]; exact hf)
  rw [h1.total_all] at this
  exact this

/-! ## The bookkeeping invariant is kept by every call -/

theorem Compressor.accept_eq (c : Compressor) (n : Nat) :
    c.accept n = { c with totalInputSize := (c.accept n).totalInputSize } := by
  unfold Compressor.accept
  split <;> rfl

theorem Compressor.accept_total (c : Compressor) (S data : List Nat)
    (h : c.totalInputSize = u64 S.length) :
    (c.accept data.length).totalInputSize = u64 (S ++ data).length := by
  unfold Compressor.accept
  by_cases hd : 0 < data.length
  · simp only [hd, if_true, h, List.length_append]
    exact u64_add_u64 _ _
  · have : data = [] := List.length_eq_zero.mp (by omega)
    subst this
    simpa using h

theorem Compressor.release_eq (c : Compressor) :
    ∃ s n, c.release =
        { c with
          zstCtx := none
          igzStream := none
          currentInputBuffer := []
          inputBufferCursor := 0
          bClosed := true
          sink := s
          deleted := n } ∧
      s.written = c.sink.written ∧ s.hashed = c.sink.hashed ∧ s.bGenMD5 = c.sink.bGenMD5 ∧
      s.fHandle = c.sink.fHandle := by
  unfold Compressor.release
  split
  · exact ⟨_, _, rfl, rfl, rfl, rfl, rfl⟩
  · exact ⟨_, _, rfl, rfl, rfl, rfl, rfl⟩

/-- A finalised state that agrees with a state satisfying the invariant on
the members the invariant reads satisfies it too. -/
theorem Inv.transfer {S : List Nat} {c e : Compressor} (h : Inv S c) (hfin : Finished c)
    (h1 : e.fed = c.fed) (h2 : e.currentInputBuffer = [])
    (h3 : e.totalInputSize = c.totalInputSize) (h4 : e.igzCrc = c.igzCrc)
    (h5 : e.cFormat = c.cFormat) (h6 : e.bEndOfStream = c.bEndOfStream)
    (h7 : e.trailers = c.trailers) (h8 : e.sink.written = c.sink.written)
    (h9 : e.sink.hashed = c.sink.hashed) (h10 : e.sink.bGenMD5 = c.sink.bGenMD5) :
    Inv S e := by
  obtain ⟨_, i2, i3, i4, i5, i6, i7⟩ := h
  obtain ⟨f1, f2⟩ := hfin
  have hb : e.fedBytes = c.fedBytes := by unfold Compressor.fedBytes; rw [h1]
  refine ⟨Or.inr ⟨by rw [h6]; exact f1, h2⟩, ?_, ?_, ?_, ?_, ?_, ?_⟩
  · rw [hb, h2, ← f2]; exact i2
  · rw [h3]; exact i3
  · rw [h5, h4, hb]; exact i4
  · rw [h6, h1, h7]; exact i5
  · rw [h6, h1, h5, h7, h8]; exact i6
  · rw [h10, h9, h8]; exact i7

theorem Inv.release {S : List Nat} {c : Compressor} (h : Inv S c) (hfin : Finished c) :
    Inv S c.release ∧ c.release.bClosed = true := by
  obtain ⟨s, n, he, hw, hh, hg, _⟩ := Compressor.release_eq c
  rw [he]
  exact ⟨h.transfer hfin rfl rfl rfl rfl rfl rfl rfl hw hh hg, rfl⟩

theorem Compressor.release_genMD5 (c : Compressor) :
    c.release.sink.bGenMD5 = c.sink.bGenMD5 := by
  obtain ⟨s, n, he, _, _, hg, _⟩ := Compressor.release_eq c
  rw [he]
  exact hg

theorem Inv.closeHandle {S : List Nat} {c : Compressor} (h : Inv S c) (hfin : Finished c) :
    Inv S c.closeHandle ∧ Finished c.closeHandle :=
  ⟨h.transfer hfin rfl hfin.2 rfl rfl rfl rfl rfl rfl rfl rfl, hfin⟩

theorem Inv.put {S : List Nat} {c : Compressor} (lib : Lib) (data : List Nat) (l : Bool)
    (h : Inv S c) :
    (∃ d, c.Put lib data l = Outcome.ok d ∧ Inv (S ++ data) d ∧
        d.sink.bGenMD5 = c.sink.bGenMD5) ∨
      (c.Put lib data l = Outcome.raise "end_of_stream" c ∧ Finished c ∧ 0 < data.length) := by
  obtain ⟨hrf, i2, i3, i4, i5, i6, i7⟩ := h
  rcases hrf with hr | hfin
  · left
    have heos : c.bEndOfStream = false := hr.1.2.2.2.2.2.2.1
    have hC : 0 < c.inputChunkSize := hr.1.2.2.1
    obtain ⟨d, hd, hfa, hheld, hclosed, hopen⟩ := Compressor.Put_ready lib c data l hr
    have hbytes := putFeeds_bytes c.inputChunkSize hC c.currentInputBuffer data l hr.2
    rcases hP : putFeeds c.inputChunkSize c.currentInputBuffer data l with ⟨fs, r⟩
    simp only [hP] at hfa hheld hclosed hopen hbytes
    have hacc := Compressor.accept_eq c data.length
    have hlog : d.fed = c.fed ++ fs := by
      have := hfa.log_all
      rw [hacc] at this
      exact this
    have hfmt : d.cFormat = c.cFormat := by
      have := hfa.format_all
      rw [hacc] at this
      exact this
    have htot : d.totalInputSize = u64 (S ++ data).length := by
      have := hfa.total_all
      rw [← Compressor.accept_total c S data i3]
      exact this
    have hfb : d.fedBytes = c.fedBytes ++ feedBytes fs := by
      unfold Compressor.fedBytes
      rw [hlog, feedBytes_append]
    have hall : d.fedBytes ++ d.currentInputBuffer = S ++ data := by
      rw [hfb, hheld, List.append_assoc, hbytes, ← List.append_assoc, i2]
    have hcrc : d.cFormat = Format.GZip → d.igzCrc = crc32_gzip_refl 0 d.fedBytes := by
      intro hg
      rw [hfmt] at hg
      have := hfa.crc_all (by rw [hacc]; exact hg) c.fedBytes (by rw [hacc]; exact i4 hg)
      rw [hfb]
      exact this
    have hhash : d.sink.bGenMD5 = true → d.sink.hashed = d.sink.written := by
      have := hfa.hashed_all (by rw [hacc]; exact i7)
      exact this
    have htr0 : ((c.accept data.length).dropHeld).trailers = c.trailers := by
      rw [hacc]; rfl
    have hfmt0 : ((c.accept data.length).dropHeld).cFormat = c.cFormat := by
      rw [hacc]; rfl
    have htot0 : ((c.accept data.length).dropHeld).totalInputSize
        = u64 (S ++ data).length := Compressor.accept_total c S data i3
    have hgen : d.sink.bGenMD5 = c.sink.bGenMD5 := by
      obtain ⟨out, he⟩ := hfa.sinkExt_all
      have := he.hashed.1
      rw [hacc] at this
      exact this
    refine ⟨d, hd, ?_, hgen⟩
    by_cases hcl : l = true ∧ (0 < data.length ∨ 0 < c.currentInputBuffer.length)
    · obtain ⟨hcf, hde, hdh⟩ := hclosed hcl
      have hS : d.fedBytes = S ++ data := by
        rw [← hall, hdh, List.append_nil]
      refine ⟨Or.inr ⟨hde, hdh⟩, hall, htot, hcrc, ?_, ?_, hhash⟩
      · intro hn; rw [hde] at hn; exact absurd hn (by decide)
      · intro _
        refine ⟨?_, ?_, ?_⟩
        · rw [hlog]; exact (i5 heos).1.append_closed hcf
        · intro hg
          rw [hfmt] at hg
          constructor
          · have := hfa.trailers_closed hcf
            rw [htr0, hfmt0, (i5 heos).2] at this
            simpa [hg] using this
          · obtain ⟨pre, hp⟩ := hfa.trailerBytes_all hcf (by rw [hfmt0]; exact hg)
            refine ⟨pre, ?_⟩
            have hp' : d.dropHeld.sink.written = d.sink.written := rfl
            have hc' : d.dropHeld.igzCrc = d.igzCrc := rfl
            rw [hp', hc', htot0, hcrc (by rw [hfmt]; exact hg), hS, le32_u32, and_mask32,
              u64_mod32] at hp
            exact hp
        · intro hz
          rw [hfmt] at hz
          have := hfa.trailers_closed hcf
          rw [htr0, hfmt0, (i5 heos).2] at this
          simpa [hz] using this
    · obtain ⟨hof, hrd⟩ := hopen hcl
      have hde : d.bEndOfStream = false := hrd.1.2.2.2.2.2.2.1
      refine ⟨Or.inl hrd, hall, htot, hcrc, ?_, ?_, hhash⟩
      · intro _
        refine ⟨?_, ?_⟩
        · rw [hlog]; exact (i5 heos).1.append hof
        · have := hfa.trailers_open hof
          rw [htr0, (i5 heos).2] at this
          exact this
      · intro hn; rw [hde] at hn; exact absurd hn (by decide)
  · by_cases hd : 0 < data.length
    · right
      exact ⟨(Compressor.Put_finished lib c data l hfin).1 hd, hfin, hd⟩
    · left
      have hd0 : data.length = 0 := by omega
      have hdn : data = [] := List.length_eq_zero.mp hd0
      refine ⟨c, (Compressor.Put_finished lib c data l hfin).2 hd0, ?_, rfl⟩
      subst hdn
      rw [List.append_nil]
      exact ⟨Or.inr hfin, i2, i3, i4, i5, i6, i7⟩

theorem Inv.close {S : List Nat} {c : Compressor} (lib : Lib) (h : Inv S c) :
    ∃ e, c.Close lib = Outcome.ok e ∧ Inv S e ∧ Finished e ∧ e.bClosed = true ∧
      e.sink.bGenMD5 = c.sink.bGenMD5 := by
  have h0 := h
  obtain ⟨hrf, i2, i3, i4, i5, i6, i7⟩ := h
  rcases hrf with hr | hfin
  · have heos : c.bEndOfStream = false := hr.1.2.2.2.2.2.2.1
    obtain ⟨d, _, hfd, hcl⟩ := Compressor.Close_ready lib c hr
    have hfb : feedBytes d.fed = S := by
      rw [hfd.log, feedBytes_append, feedBytes_single]
      exact i2
    have hcrc : d.cFormat = Format.GZip → d.igzCrc = crc32_gzip_refl 0 S := by
      intro hg
      rw [hfd.format] at hg
      rw [hfd.crc hg c.fedBytes (i4 hg), i2]
    have hinv : Inv S (d.withHeld []) := by
      refine ⟨Or.inr ⟨hfd.eos, rfl⟩, ?_, ?_, ?_, ?_, ?_, ?_⟩
      · show feedBytes d.fed ++ [] = S
        rw [List.append_nil, hfb]
      · show d.totalInputSize = _
        rw [hfd.total, i3]
      · intro hg
        show d.igzCrc = crc32_gzip_refl 0 (feedBytes d.fed)
        rw [hfb]
        exact hcrc hg
      · intro hn
        have : d.bEndOfStream = false := hn
        rw [hfd.eos] at this
        exact absurd this (by decide)
      · intro _
        refine ⟨?_, ?_, ?_⟩
        · show ClosedFeeds d.fed
          rw [hfd.log]
          exact (i5 heos).1.snoc_closed _
        · intro hg
          have hg' : c.cFormat = Format.GZip := by rw [← hfd.format]; exact hg
          constructor
          · show d.trailers = 1
            rw [hfd.trailers, (i5 heos).2]
            simp [hg']
          · obtain ⟨pre, hp⟩ := hfd.trailerBytes hg'
            refine ⟨pre, ?_⟩
            show d.sink.written.flatten = _
            rw [hp, hcrc hg, le32_u32, and_mask32, i3, u64_mod32]
            rfl
        · intro hz
          have hz' : c.cFormat = Format.ZStd := by rw [← hfd.format]; exact hz
          show d.trailers = 0
          rw [hfd.trailers, (i5 heos).2]
          simp [hz']
      · obtain ⟨out, he⟩ := hfd.sinkExt
        exact he.hashed.2 i7
    have hfinD : Finished (d.withHeld []) := ⟨hfd.eos, rfl⟩
    obtain ⟨hi1, hf1⟩ := Inv.closeHandle hinv hfinD
    obtain ⟨hi2, hc2⟩ := Inv.release hi1 hf1
    have hsame : (d.withHeld []).closeHandle.release = d.closeHandle.release := by
      unfold Compressor.release
      simp only [Compressor.withHeld, Compressor.closeHandle]
      split <;> rfl
    rw [hsame] at hi2 hc2
    have hgen : d.closeHandle.release.sink.bGenMD5 = c.sink.bGenMD5 := by
      rw [Compressor.release_genMD5]
      obtain ⟨out, he⟩ := hfd.sinkExt
      exact he.hashed.1
    refine ⟨_, hcl, hi2, ?_, hc2, hgen⟩
    rcases hi2.1 with hr2 | hf2
    · have := hr2.1.2.2.2.2.2.2.2
      rw [hc2] at this
      exact absurd this (by decide)
    · exact hf2
  · rcases Compressor.Close_finished lib c hfin with ⟨h1, h2⟩ | h1 | h1
    · exact ⟨c, h1, h0, hfin, h2, rfl⟩
    · obtain ⟨hi, hc⟩ := Inv.release h0 hfin
      refine ⟨_, h1, hi, ?_, hc, Compressor.release_genMD5 c⟩
      rcases hi.1 with hr2 | hf2
      · have := hr2.1.2.2.2.2.2.2.2
        rw [hc] at this
        exact absurd this (by decide)
      · exact hf2
    · obtain ⟨hi1, hf1⟩ := Inv.closeHandle h0 hfin
      obtain ⟨hi, hc⟩ := Inv.release hi1 hf1
      refine ⟨_, h1, hi, ?_, hc, Compressor.release_genMD5 c.closeHandle⟩
      rcases hi.1 with hr2 | hf2
      · have := hr2.1.2.2.2.2.2.2.2
        rw [hc] at this
        exact absurd this (by decide)
      · exact hf2

/-! ## The constructor -/

theorem limit_pos : 0 < COMPRESS_BUFF_SIZE_LIMIT := by decide

theorem limit_lt : COMPRESS_BUFF_SIZE_LIMIT < 2 ^ 32 := by decide

theorem igz_pos : 0 < IGZ_CHUNK_CAPACITY := by decide

/-- A successful constructor call leaves a ready compressor that has accepted
no input, with the chunk capacity of its format. -/
theorem Compressor.new_ok (lib : Lib) (outfile : String) (format : Format) (mode : Mode)
    (genMD5 : Bool) (w : World) (h : Opens lib outfile mode w) :
    ∃ c, Compressor.new lib outfile format mode genMD5 w = Outcome.ok c ∧ Inv [] c ∧
      Ready c ∧ c.cFormat = format ∧ c.sink.bGenMD5 = genMD5 ∧ c.fed = [] ∧
      c.currentInputBuffer = [] ∧ c.totalInputSize = 0 ∧ c.fName = outfile ∧
      c.sink.fMode = mode ∧
      c.inputChunkSize = (match format with
        | Format.GZip => IGZ_CHUNK_CAPACITY
        | Format.ZStd => lib.ZSTD_CStreamInSize) := by
  obtain ⟨hname, hmode, hopen, hin, hout⟩ := h
  have hnn : ¬ (mode = Mode.None ∨ outfile = "") := by
    rintro (h | h)
    · rcases hmode with hm | hm <;> simp [hm] at h
    · exact hname h
  have hni : ¬ ((Compressor.CreateFileA mode w).1 = Handle.invalid) := by
    rw [hopen]; decide
  unfold Compressor.new
  simp only [hnn, if_false, hni, hmode, if_true]
  obtain ⟨c1, hc1⟩ : ∃ c1 : Compressor, c1 = (if mode = Mode.Append then
      { Compressor.init outfile format mode genMD5 w with
        sink := { (Compressor.init outfile format mode genMD5 w).sink with
          fHandle := (Compressor.CreateFileA mode w).1
          file := (Compressor.CreateFileA mode w).2
          fSize := ((Compressor.CreateFileA mode w).2.getD []).length } }
    else
      { Compressor.init outfile format mode genMD5 w with
        sink := { (Compressor.init outfile format mode genMD5 w).sink with
          fHandle := (Compressor.CreateFileA mode w).1
          file := (Compressor.CreateFileA mode w).2 } }) := ⟨_, rfl⟩
  have hgoal : (if mode = Mode.Append then
      { ({ Compressor.init outfile format mode genMD5 w with
            sink := { (Compressor.init outfile format mode genMD5 w).sink with
              fHandle := (Compressor.CreateFileA mode w).1
              file := (Compressor.CreateFileA mode w).2 } } : Compressor) with
        sink := { ({ Compressor.init outfile format mode genMD5 w with
            sink := { (Compressor.init outfile format mode genMD5 w).sink with
              fHandle := (Compressor.CreateFileA mode w).1
              file := (Compressor.CreateFileA mode w).2 } } : Compressor).sink with
          fSize := ((Compressor.CreateFileA mode w).2.getD []).length } }
    else
      ({ Compressor.init outfile format mode genMD5 w with
        sink := { (Compressor.init outfile format mode genMD5 w).sink with
          fHandle := (Compressor.CreateFileA mode w).1
          file := (Compressor.CreateFileA mode w).2 } } : Compressor)) = c1 := by
    rw [hc1]
  rw [hgoal]
  have f1 : c1.sink.fHandle = Handle.valid := by
    rw [hc1]; split <;> exact hopen
  have f2 : c1.sink.fMode = mode := by
    rw [hc1]; split <;> rfl
  have f3 : c1.cFormat = format := by
    rw [hc1]; split <;> rfl
  have f4 : c1.sink.bGenMD5 = genMD5 := by
    rw [hc1]; split <;> rfl
  have f5 : c1.fed = [] ∧ c1.totalInputSize = 0 ∧ c1.fName = outfile ∧ c1.igzCrc = 0 ∧
      c1.trailers = 0 ∧ c1.bEndOfStream = false ∧ c1.bClosed = false ∧
      c1.sink.written = [] ∧ c1.sink.hashed = [] := by
    rw [hc1]; split <;> exact ⟨rfl, rfl, rfl, rfl, rfl, rfl, rfl, rfl, rfl⟩
  obtain ⟨g1, g2, g3, g4, g5, g6, g7, g8, g9⟩ := f5
  unfold Compressor.setup
  cases format with
  | GZip =>
    simp only [f3]
    have hsok : SinkOK (({ c1.sink with
        compressedBufferSizeLimit := COMPRESS_BUFF_SIZE_LIMIT
        compressedBufferCapacity := COMPRESS_BUFF_SIZE_LIMIT + IGZ_CHUNK_CAPACITY
        compressedBuffer := [] } : Sink).store GZIP_HDR_DATA) := by
      refine ⟨f1, ?_, limit_pos, limit_lt⟩
      show c1.sink.fMode = Mode.Write ∨ c1.sink.fMode = Mode.Append
      rw [f2]; exact hmode
    obtain ⟨t, ht, he, hb⟩ := Sink.writeAndReset_ok _ hsok
    simp only [ht, Outcome.lift_ok, Outcome.andThen_ok, Compressor.withSink]
    have htok := SinkOK.of_ext hsok he
    have hlim : t.compressedBufferSizeLimit = COMPRESS_BUFF_SIZE_LIMIT := he.2.2.1
    have hhash : t.bGenMD5 = true → t.hashed = t.written := by
      apply he.hashed.2
      intro _
      show c1.sink.hashed = c1.sink.written
      rw [g8, g9]
    have hgen : t.bGenMD5 = genMD5 := by
      rw [he.hashed.1]; exact f4
    have hmd : t.fMode = mode := by
      rw [he.2.1]; exact f2
    refine ⟨_, rfl, ?_, ?_, rfl, hgen, g1, rfl, g2, g3, hmd, rfl⟩
    · refine ⟨Or.inl ⟨⟨htok, ?_, igz_pos, igz_pos, fun _ => rfl, fun h => by simp at h,
        g6, g7⟩, igz_pos⟩, ?_, ?_, ?_, ?_, ?_, hhash⟩
      · rw [hb, hlim]; exact limit_pos
      · show feedBytes c1.fed ++ [] = []
        rw [g1]; rfl
      · show c1.totalInputSize = _
        rw [g2]; rfl
      · intro _
        show c1.igzCrc = crc32_gzip_refl 0 (feedBytes c1.fed)
        rw [g4, g1]; exact crc32_gzip_refl_nil.symm
      · intro _
        refine ⟨?_, g5⟩
        show OpenFeeds c1.fed
        rw [g1]; exact OpenFeeds.nil
      · intro hn
        have : c1.bEndOfStream = true := hn
        rw [g6] at this
        exact absurd this (by decide)
    · refine ⟨⟨htok, ?_, igz_pos, igz_pos, fun _ => rfl, fun h => by simp at h,
        g6, g7⟩, igz_pos⟩
      rw [hb, hlim]; exact limit_pos
  | ZStd =>
    simp only [f3]
    have hsok : SinkOK ({ c1.sink with
        compressedBufferSizeLimit := COMPRESS_BUFF_SIZE_LIMIT
        compressedBufferCapacity := COMPRESS_BUFF_SIZE_LIMIT + lib.ZSTD_CStreamOutSize
        compressedBuffer := [] } : Sink) := by
      refine ⟨f1, ?_, limit_pos, limit_lt⟩
      show c1.sink.fMode = Mode.Write ∨ c1.sink.fMode = Mode.Append
      rw [f2]; exact hmode
    refine ⟨_, rfl, ?_,
      ⟨⟨hsok, limit_pos, hin, hout, fun h => by simp at h, fun _ => rfl, g6, g7⟩, hin⟩,
      rfl, f4, g1, rfl, g2, g3, f2, rfl⟩
    refine ⟨Or.inl ⟨⟨hsok, limit_pos, hin, hout, fun h => by simp at h, fun _ => rfl, g6, g7⟩,
      hin⟩, ?_, ?_, ?_, ?_, ?_, ?_⟩
    · show feedBytes c1.fed ++ [] = []
      rw [g1]; rfl
    · show c1.totalInputSize = _
      rw [g2]; rfl
    · intro h; simp at h
    · intro _
      refine ⟨?_, g5⟩
      show OpenFeeds c1.fed
      rw [g1]; exact OpenFeeds.nil
    · intro hn
      have : c1.bEndOfStream = true := hn
      rw [g6] at this
      exact absurd this (by decide)
    · intro _
      show c1.sink.hashed = c1.sink.written
      rw [g8, g9]

/-! ## Sequences of calls -/

theorem run_ok_cons (lib : Lib) (c : Compressor) (op : Op) (ops : List Op) :
    run lib (Outcome.ok c) (op :: ops) = run lib (op.exec lib c) ops := rfl

theorem run_raise (lib : Lib) (m : String) (c : Compressor) (ops : List Op) :
    run lib (Outcome.raise m c) ops = Outcome.raise m c := by
  induction ops with
  | nil => rfl
  | cons op ops ih => exact ih

theorem run_append (lib : Lib) (ops₁ ops₂ : List Op) : ∀ o : Outcome Compressor,
    run lib o (ops₁ ++ ops₂) = run lib (run lib o ops₁) ops₂ := by
  induction ops₁ with
  | nil => intro o; rfl
  | cons op ops ih => intro o; exact ih _

theorem inputOf_append (a b : List Op) : inputOf (a ++ b) = inputOf a ++ inputOf b := by
  induction a with
  | nil => rfl
  | cons op ops ih =>
    cases op with
    | put data l => simp [inputOf, ih]
    | close => simpa [inputOf] using ih

/-- From a state that satisfies the bookkeeping invariant, a sequence of calls
either stops at a `Put` that raises "end_of_stream" on a finalised state, or
returns in a state that satisfies the invariant for the accepted input. -/
theorem Inv.over_run (lib : Lib) (ops : List Op) : ∀ (S : List Nat) (c : Compressor), Inv S c →
    (∃ d, run lib (Outcome.ok c) ops = Outcome.ok d ∧ Inv (S ++ inputOf ops) d ∧
        (c.bEndOfStream = true → d.bEndOfStream = true) ∧
        d.sink.bGenMD5 = c.sink.bGenMD5) ∨
      (∃ d, run lib (Outcome.ok c) ops = Outcome.raise "end_of_stream" d ∧ Finished d) := by
  induction ops with
  | nil =>
    intro S c h
    left
    exact ⟨c, rfl, by simpa [inputOf] using h, fun h => h, rfl⟩
  | cons op ops ih =>
    intro S c h
    rw [run_ok_cons]
    cases op with
    | put data l =>
      rcases h.put lib data l with ⟨d, hd, hi, hg⟩ | ⟨hr, hf, _⟩
      · have hmono : c.bEndOfStream = true → d.bEndOfStream = true := by
          intro he
          rcases h.1 with hr | hfin
          · have := hr.1.2.2.2.2.2.2.1
            rw [he] at this
            exact absurd this (by decide)
          · by_cases hd0 : 0 < data.length
            · have := (Compressor.Put_finished lib c data l hfin).1 hd0
              rw [this] at hd
              cases hd
            · have := (Compressor.Put_finished lib c data l hfin).2 (by omega)
              rw [this] at hd
              cases hd
              exact he
        rcases ih _ d hi with ⟨e, he, hie, hm, hg2⟩ | ⟨e, he, hfe⟩
        · left
          refine ⟨e, ?_, ?_, fun h => hm (hmono h), hg2.trans hg⟩
          · show run lib (c.Put lib data l) ops = _
            rw [hd]; exact he
          · simpa [inputOf, List.append_assoc] using hie
        · right
          refine ⟨e, ?_, hfe⟩
          show run lib (c.Put lib data l) ops = _
          rw [hd]; exact he
      · right
        refine ⟨c, ?_, hf⟩
        show run lib (c.Put lib data l) ops = _
        rw [hr, run_raise]
    | close =>
      obtain ⟨d, hd, hi, hfd, _, hg⟩ := h.close lib
      rcases ih _ d hi with ⟨e, he, hie, hm, hg2⟩ | ⟨e, he, hfe⟩
      · left
        refine ⟨e, ?_, ?_, fun _ => hm hfd.1, hg2.trans hg⟩
        · show run lib (c.Close lib) ops = _
          rw [hd]; exact he
        · simpa [inputOf] using hie
      · right
        refine ⟨e, ?_, hfe⟩
        show run lib (c.Close lib) ops = _
        rw [hd]; exact he

theorem runCaught_ok_cons (lib : Lib) (c : Compressor) (op : Op) (ops : List Op) :
    runCaught lib (Outcome.ok c) (op :: ops) = runCaught lib ((op.exec lib c).caught) ops := rfl

/-- From a state that satisfies the bookkeeping invariant, a sequence of calls
whose exceptions are caught always returns, in a state that satisfies the
invariant for the accepted input. -/
theorem Inv.over_runCaught (lib : Lib) (ops : List Op) : ∀ (S : List Nat) (c : Compressor),
    Inv S c → ∃ d T, runCaught lib (Outcome.ok c) ops = Outcome.ok d ∧ Inv T d ∧
      d.sink.bGenMD5 = c.sink.bGenMD5 := by
  induction ops with
  | nil => intro S c h; exact ⟨c, S, rfl, h, rfl⟩
  | cons op ops ih =>
    intro S c h
    rw [runCaught_ok_cons]
    cases op with
    | put data l =>
      rcases h.put lib data l with ⟨d, hd, hi, hg⟩ | ⟨hr, _, _⟩
      · obtain ⟨e, T, he, hie, hg2⟩ := ih _ d hi
        refine ⟨e, T, ?_, hie, hg2.trans hg⟩
        show runCaught lib ((c.Put lib data l).caught) ops = _
        rw [hd]; exact he
      · obtain ⟨e, T, he, hie, hg2⟩ := ih _ c h
        refine ⟨e, T, ?_, hie, hg2⟩
        show runCaught lib ((c.Put lib data l).caught) ops = _
        rw [hr]; exact he
    | close =>
      obtain ⟨d, hd, hi, _, _, hg⟩ := h.close lib
      obtain ⟨e, T, he, hie, hg2⟩ := ih _ d hi
      refine ⟨e, T, ?_, hie, hg2.trans hg⟩
      show runCaught lib ((c.Close lib).caught) ops = _
      rw [hd]; exact he

/-! ## The MD5 hasher -/

theorem md5_update_count0 (m : MD5) (a : List Nat) :
    (m.Update a)._count0 = u64 (m._count0 + u64 (u64 a.length <<< 3)) := by
  unfold MD5.Update
  simp only []
  split <;> rfl

theorem md5_update_count1 (m : MD5) (a : List Nat) :
    (m.Update a)._count1 =
      u64 ((if u64 (m._count0 + u64 (u64 a.length <<< 3)) < u64 (u64 a.length <<< 3)
          then u64 (m._count1 + 1) else m._count1) + (u64 a.length >>> 29)) := by
  unfold MD5.Update
  simp only []
  split <;> rfl

/-- C1, evaluated on the code: a freshly constructed hasher that is fed nothing
and finalised with `Final()` reports, through `ToHexString(false)`, the string
`e4c23762ed2823a27e62a64b95c024e7`, which is not the RFC 1321 digest
`d41d8cd98f00b204e9800998ecf8427e` of the empty message. The working
variables of `_Transform` are `uint64_t`, so `ROTATE_LEFT` keeps the bits it
shifts past bit 31 and they reach the low 32 bits in later rounds. -/
theorem md5_empty_message_hex :
    ((MD5.new (List.replicate 64 0) (List.replicate 16 0)).Final.ToHexString false).2
        = "e4c23762ed2823a27e62a64b95c024e7"
      ∧ ((MD5.new (List.replicate 64 0) (List.replicate 16 0)).Final.ToHexString false).2
        ≠ "d41d8cd98f00b204e9800998ecf8427e" := by
  decide

/-- C2, evaluated on the code: fed to a fresh hasher, two `Update` calls of
`2^28` bytes each leave the high word `_count[1]` of the bit count at `0`, a
single `Update` of the same `2^29` bytes leaves it at `1`, and the low word
`_count[0]` is `2^32` in both cases. `_count[0]` is a `uint64_t`, so the carry
test of `Update` never fires and only `size >> 29` of each call reaches
`_count[1]`. -/
theorem md5_split_changes_bit_count :
    (((MD5.new (List.replicate 64 0) (List.replicate 16 0)).Update
        (List.replicate (2 ^ 28) 0)).Update (List.replicate (2 ^ 28) 0))._count1 = 0
      ∧ ((MD5.new (List.replicate 64 0) (List.replicate 16 0)).Update
        (List.replicate (2 ^ 28) 0 ++ List.replicate (2 ^ 28) 0))._count1 = 1
      ∧ (((MD5.new (List.replicate 64 0) (List.replicate 16 0)).Update
        (List.replicate (2 ^ 28) 0)).Update (List.replicate (2 ^ 28) 0))._count0 = 2 ^ 32
      ∧ ((MD5.new (List.replicate 64 0) (List.replicate 16 0)).Update
        (List.replicate (2 ^ 28) 0 ++ List.replicate (2 ^ 28) 0))._count0 = 2 ^ 32 := by
  refine ⟨?_, ?_, ?_, ?_⟩
  · rw [md5_update_count1, md5_update_count0, md5_update_count1]
    simp only [List.length_replicate]
    decide
  · rw [md5_update_count1]
    simp only [List.length_append, List.length_replicate]
    decide
  · rw [md5_update_count0, md5_update_count0]
    simp only [List.length_replicate]
    decide
  · rw [md5_update_count0]
    simp only [List.length_append, List.length_replicate]
    decide

/-- C10, evaluated on the code: on a fresh hasher fed the one byte `0x61`,
on which `Final()` has not been called, `Digest()` returns the sixteen bytes
the array `_digest` held at construction (here zeros) and `ToHexString(false)`
their hex string, while `Final()` followed by `Digest()` or
`ToHexString(false)` returns the digest computed from the input. Both
accessors test `if (_finished) Final();`, so they finalise only a hasher that
is finalised already. -/
theorem md5_digest_skips_final :
    (((MD5.new (List.replicate 64 0) (List.replicate 16 0)).Update [0x61]).Digest).2
        = List.replicate 16 0
      ∧ (((MD5.new (List.replicate 64 0) (List.replicate 16 0)).Update [0x61]).Final.Digest).2
        ≠ List.replicate 16 0
      ∧ (((MD5.new (List.replicate 64 0) (List.replicate 16 0)).Update [0x61]).ToHexString
          false).2 = "00000000000000000000000000000000"
      ∧ (((MD5.new (List.replicate 64 0) (List.replicate 16 0)).Update [0x61]).Final.ToHexString
          false).2 = "793a9bc07e209b286fa416d6ee29a85d" := by
  decide

/-! ## Calls on a compressor that is not finalised -/

theorem Inv.ready {S : List Nat} {c : Compressor} (h : Inv S c) (he : c.bEndOfStream = false) :
    Ready c := by
  rcases h.1 with hr | hf
  · exact hr
  · rw [hf.1] at he
    exact absurd he (by decide)

theorem Inv.finished {S : List Nat} {c : Compressor} (h : Inv S c) (he : c.bEndOfStream = true) :
    Finished c := by
  rcases h.1 with hr | hf
  · have := hr.1.2.2.2.2.2.2.1
    rw [he] at this
    exact absurd this (by decide)
  · exact hf

theorem Inv.put_open {S : List Nat} {c : Compressor} (lib : Lib) (data : List Nat) (l : Bool)
    (h : Inv S c) (he : c.bEndOfStream = false) :
    ∃ d, c.Put lib data l = Outcome.ok d ∧ Inv (S ++ data) d ∧
      (l = false → d.bEndOfStream = false) := by
  obtain ⟨d, hd, _, _, _, hopen⟩ := Compressor.Put_ready lib c data l (h.ready he)
  rcases h.put lib data l with ⟨d', hd', hi, _⟩ | ⟨_, hf, _⟩
  · rw [hd] at hd'
    cases hd'
    refine ⟨d, hd, hi, fun hl => ?_⟩
    have hn : ¬ (l = true ∧ (0 < data.length ∨ 0 < c.currentInputBuffer.length)) := by
      rw [hl]
      exact fun hh => absurd hh.1 (by decide)
    exact (hopen hn).2.1.2.2.2.2.2.2.1
  · rw [hf.1] at he
    exact absurd he (by decide)

theorem inputOf_putsOf (pieces : List (List Nat)) : inputOf (putsOf pieces) = pieces.flatten := by
  induction pieces with
  | nil => rfl
  | cons p ps ih =>
    show p ++ inputOf (putsOf ps) = _
    rw [ih]
    rfl

theorem Inv.over_putsOf (lib : Lib) (pieces : List (List Nat)) :
    ∀ (S : List Nat) (c : Compressor), Inv S c → c.bEndOfStream = false →
      ∃ d, run lib (Outcome.ok c) (putsOf pieces) = Outcome.ok d ∧
        Inv (S ++ pieces.flatten) d ∧ d.bEndOfStream = false := by
  induction pieces with
  | nil =>
    intro S c h he
    exact ⟨c, rfl, by simpa using h, he⟩
  | cons p ps ih =>
    intro S c h he
    obtain ⟨d, hd, hi, hopen⟩ := h.put_open lib p false he
    obtain ⟨e, hrun, hie, hee⟩ := ih _ d hi (hopen rfl)
    refine ⟨e, ?_, ?_, hee⟩
    · show run lib (c.Put lib p false) (putsOf ps) = _
      rw [hd]
      exact hrun
    · simpa [List.append_assoc] using hie

/-! ## Claims about whole call sequences -/

/-- C3 (round trip over an abstract codec): on a successfully opened
compressor of either format, a sequence of calls followed by `Close` either
hands the codec chunks whose concatenation, in call order, is exactly the
input carried by the `Put` calls, the last invocation and no other flagged as
the end of the stream, or one of its `Put` calls raised "end_of_stream" on a
finalised compressor. A sequence of `Put` calls of which at most the last
carries `isLast` never raises, so its chunks are the input. -/
theorem fed_chunks_are_the_input (lib : Lib) (outfile : String) (format : Format)
    (mode : Mode) (genMD5 : Bool) (w : World) (h : Opens lib outfile mode w) (ops : List Op) :
    ((∃ d, run lib (Compressor.new lib outfile format mode genMD5 w) (ops ++ [Op.close])
          = Outcome.ok d ∧ d.fedBytes = inputOf ops ∧ ClosedFeeds d.fed) ∨
      (∃ d, run lib (Compressor.new lib outfile format mode genMD5 w) ops
          = Outcome.raise "end_of_stream" d ∧ Finished d)) ∧
    (∀ (pieces : List (List Nat)) (last : List Nat) (l : Bool),
      ops = putsOf pieces ++ [Op.put last l] →
        ∃ d, run lib (Compressor.new lib outfile format mode genMD5 w) (ops ++ [Op.close])
          = Outcome.ok d ∧ d.fedBytes = pieces.flatten ++ last ∧ ClosedFeeds d.fed) := by
  obtain ⟨c, hc, hinv, hr, _⟩ := Compressor.new_ok lib outfile format mode genMD5 w h
  rw [hc]
  constructor
  · rcases Inv.over_run lib ops [] c hinv with ⟨d, hd, hi, _, _⟩ | hraise
    · left
      obtain ⟨e, he, hie, hfe, _, _⟩ := hi.close lib
      refine ⟨e, ?_, ?_, (hie.2.2.2.2.2.1 hfe.1).1⟩
      · rw [run_append, hd]
        show run lib (d.Close lib) [] = _
        rw [he]
        rfl
      · have := hie.2.1
        rw [hfe.2, List.append_nil] at this
        simpa using this
    · exact Or.inr hraise
  · intro pieces last l hops
    subst hops
    obtain ⟨d1, hd1, hi1, he1⟩ := Inv.over_putsOf lib pieces [] c hinv hr.1.2.2.2.2.2.2.1
    obtain ⟨d2, hd2, hi2, _⟩ := hi1.put_open lib last l he1
    obtain ⟨e, he, hie, hfe, _, _⟩ := hi2.close lib
    refine ⟨e, ?_, ?_, (hie.2.2.2.2.2.1 hfe.1).1⟩
    · rw [run_append, run_append, hd1]
      show run lib (run lib (d1.Put lib last l) []) [Op.close] = _
      rw [hd2]
      show run lib (d2.Close lib) [] = _
      rw [he]
      rfl
    · have := hie.2.1
      rw [hfe.2, List.append_nil] at this
      simpa using this

theorem fed_chunks_are_the_input_witness :
    Opens demoLib "out.zst" Mode.Write demoWorld ∧
    (((∃ d, run demoLib (Compressor.new demoLib "out.zst" Format.ZStd Mode.Write true demoWorld)
          ([Op.put [1, 2, 3, 4, 5] false, Op.put [6, 7] true] ++ [Op.close])
          = Outcome.ok d ∧
          d.fedBytes = inputOf [Op.put [1, 2, 3, 4, 5] false, Op.put [6, 7] true] ∧
          ClosedFeeds d.fed) ∨
      (∃ d, run demoLib (Compressor.new demoLib "out.zst" Format.ZStd Mode.Write true demoWorld)
          [Op.put [1, 2, 3, 4, 5] false, Op.put [6, 7] true]
          = Outcome.raise "end_of_stream" d ∧ Finished d)) ∧
    (∀ (pieces : List (List Nat)) (last : List Nat) (l : Bool),
      [Op.put [1, 2, 3, 4, 5] false, Op.put [6, 7] true] = putsOf pieces ++ [Op.put last l] →
        ∃ d, run demoLib (Compressor.new demoLib "out.zst" Format.ZStd Mode.Write true demoWorld)
          ([Op.put [1, 2, 3, 4, 5] false, Op.put [6, 7] true] ++ [Op.close])
          = Outcome.ok d ∧ d.fedBytes = pieces.flatten ++ last ∧ ClosedFeeds d.fed)) :=
  ⟨by decide, fed_chunks_are_the_input demoLib "out.zst" Format.ZStd Mode.Write true demoWorld
    (by decide) [Op.put [1, 2, 3, 4, 5] false, Op.put [6, 7] true]⟩

/-! ## The format tag is never reassigned -/

theorem Compressor.release_format (c : Compressor) : c.release.cFormat = c.cFormat := by
  obtain ⟨s, n, he, _⟩ := Compressor.release_eq c
  rw [he]

theorem Inv.put_format {S : List Nat} {c d : Compressor} (lib : Lib) (data : List Nat)
    (l : Bool) (h : Inv S c) (hd : c.Put lib data l = Outcome.ok d) : d.cFormat = c.cFormat := by
  rcases h.1 with hr | hfin
  · obtain ⟨d', hd', hfa, _⟩ := Compressor.Put_ready lib c data l hr
    rw [hd] at hd'
    cases hd'
    have := hfa.format_all
    rw [Compressor.accept_eq] at this
    exact this
  · by_cases hd0 : 0 < data.length
    · have := (Compressor.Put_finished lib c data l hfin).1 hd0
      rw [this] at hd
      cases hd
    · have := (Compressor.Put_finished lib c data l hfin).2 (by omega)
      rw [this] at hd
      cases hd
      rfl

theorem Inv.close_format {S : List Nat} {c d : Compressor} (lib : Lib) (h : Inv S c)
    (hd : c.Close lib = Outcome.ok d) : d.cFormat = c.cFormat := by
  rcases h.1 with hr | hfin
  · obtain ⟨d', _, hfed, hcl⟩ := Compressor.Close_ready lib c hr
    rw [hd] at hcl
    cases hcl
    rw [Compressor.release_format]
    exact hfed.format
  · rcases Compressor.Close_finished lib c hfin with ⟨h1, _⟩ | h1 | h1
    · rw [hd] at h1
      cases h1
      rfl
    · rw [hd] at h1
      cases h1
      exact Compressor.release_format c
    · rw [hd] at h1
      cases h1
      exact Compressor.release_format c.closeHandle

theorem Inv.run_format (lib : Lib) (ops : List Op) : ∀ (S : List Nat) (c d : Compressor),
    Inv S c → run lib (Outcome.ok c) ops = Outcome.ok d → d.cFormat = c.cFormat := by
  induction ops with
  | nil =>
    intro S c d _ hd
    cases hd
    rfl
  | cons op ops ih =>
    intro S c d h hd
    rw [run_ok_cons] at hd
    cases op with
    | put data l =>
      rcases h.put lib data l with ⟨e, he, hi, _⟩ | ⟨hr, _, _⟩
      · have hd2 : run lib (c.Put lib data l) ops = Outcome.ok d := hd
        rw [he] at hd2
        rw [ih _ e d hi hd2]
        exact h.put_format lib data l he
      · have hd2 : run lib (c.Put lib data l) ops = Outcome.ok d := hd
        rw [hr, run_raise] at hd2
        cases hd2
    | close =>
      obtain ⟨e, he, hi, _⟩ := h.close lib
      have hd2 : run lib (c.Close lib) ops = Outcome.ok d := hd
      rw [he] at hd2
      rw [ih _ e d hi hd2]
      exact h.close_format lib he

/-- C5 (finalise exactly once): a successfully opened compressor starts with
`bEndOfStream = false`, no codec invocation and no trailer. After any sequence
of calls followed by `Close`, unless one of its `Put` calls raised
"end_of_stream" on a finalised compressor, `bEndOfStream` is `true`, exactly
one codec invocation carried the end-of-stream flag and it is the last one,
and the gzip trailer was appended exactly once (never for zstd). Along any
sequence of calls, once `bEndOfStream` is `true` it is `true` after every
later call. -/
theorem finalised_exactly_once (lib : Lib) (outfile : String) (format : Format)
    (mode : Mode) (genMD5 : Bool) (w : World) (h : Opens lib outfile mode w) (ops : List Op) :
    (∃ c, Compressor.new lib outfile format mode genMD5 w = Outcome.ok c ∧
        c.bEndOfStream = false ∧ c.fed = [] ∧ c.trailers = 0) ∧
    ((∃ d, run lib (Compressor.new lib outfile format mode genMD5 w) (ops ++ [Op.close])
          = Outcome.ok d ∧ d.bEndOfStream = true ∧ ClosedFeeds d.fed ∧
          d.trailers = (match format with
            | Format.GZip => 1
            | Format.ZStd => 0)) ∨
      (∃ d, run lib (Compressor.new lib outfile format mode genMD5 w) ops
          = Outcome.raise "end_of_stream" d ∧ Finished d)) ∧
    (∀ (ops₁ ops₂ : List Op) (e e' : Compressor), ops ++ [Op.close] = ops₁ ++ ops₂ →
      run lib (Compressor.new lib outfile format mode genMD5 w) ops₁ = Outcome.ok e →
      run lib (Compressor.new lib outfile format mode genMD5 w) (ops₁ ++ ops₂) = Outcome.ok e' →
      e.bEndOfStream = true → e'.bEndOfStream = true) := by
  obtain ⟨c, hc, hinv, hr, hfmt, _, hfed, _⟩ :=
    Compressor.new_ok lib outfile format mode genMD5 w h
  rw [hc]
  have he0 : c.bEndOfStream = false := hr.1.2.2.2.2.2.2.1
  refine ⟨⟨c, rfl, he0, hfed, (hinv.2.2.2.2.1 he0).2⟩, ?_, ?_⟩
  · rcases Inv.over_run lib ops [] c hinv with ⟨d, hd, hi, _, _⟩ | hraise
    · left
      obtain ⟨e, he, hie, hfe, _, _⟩ := hi.close lib
      have hrun : run lib (Outcome.ok c) (ops ++ [Op.close]) = Outcome.ok e := by
        rw [run_append, hd]
        show run lib (d.Close lib) [] = _
        rw [he]
        rfl
      have hf : e.cFormat = format := by
        rw [Inv.run_format lib _ _ c e hinv hrun]
        exact hfmt
      refine ⟨e, hrun, hfe.1, (hie.2.2.2.2.2.1 hfe.1).1, ?_⟩
      cases format with
      | GZip => exact ((hie.2.2.2.2.2.1 hfe.1).2.1 hf).1
      | ZStd => exact (hie.2.2.2.2.2.1 hfe.1).2.2 hf
    · exact Or.inr hraise
  · intro ops₁ ops₂ e e' _ h1 h2 he
    rcases Inv.over_run lib ops₁ [] c hinv with ⟨d, hd, hi, _, _⟩ | ⟨d, hd, _⟩
    · rw [h1] at hd
      cases hd
      rw [run_append, h1] at h2
      rcases Inv.over_run lib ops₂ _ e hi with ⟨d', hd', _, hm, _⟩ | ⟨d', hd', _⟩
      · rw [h2] at hd'
        cases hd'
        exact hm he
      · rw [h2] at hd'
        cases hd'
    · rw [h1] at hd
      cases hd

theorem finalised_exactly_once_witness :
    Opens demoLib "out.gz" Mode.Write demoWorld ∧
    ((∃ c, Compressor.new demoLib "out.gz" Format.GZip Mode.Write false demoWorld = Outcome.ok c ∧
        c.bEndOfStream = false ∧ c.fed = [] ∧ c.trailers = 0) ∧
    ((∃ d, run demoLib (Compressor.new demoLib "out.gz" Format.GZip Mode.Write false demoWorld)
          ([Op.put [1, 2, 3] true, Op.put [] true] ++ [Op.close])
          = Outcome.ok d ∧ d.bEndOfStream = true ∧ ClosedFeeds d.fed ∧ d.trailers = 1) ∨
      (∃ d, run demoLib (Compressor.new demoLib "out.gz" Format.GZip Mode.Write false demoWorld)
          [Op.put [1, 2, 3] true, Op.put [] true]
          = Outcome.raise "end_of_stream" d ∧ Finished d)) ∧
    (∀ (ops₁ ops₂ : List Op) (e e' : Compressor),
      [Op.put [1, 2, 3] true, Op.put [] true] ++ [Op.close] = ops₁ ++ ops₂ →
      run demoLib (Compressor.new demoLib "out.gz" Format.GZip Mode.Write false demoWorld) ops₁
        = Outcome.ok e →
      run demoLib (Compressor.new demoLib "out.gz" Format.GZip Mode.Write false demoWorld)
        (ops₁ ++ ops₂) = Outcome.ok e' →
      e.bEndOfStream = true → e'.bEndOfStream = true)) :=
  ⟨by decide, finalised_exactly_once demoLib "out.gz" Format.GZip Mode.Write false demoWorld
    (by decide) [Op.put [1, 2, 3] true, Op.put [] true]⟩

/-- C8 (gzip trailer): on a successfully opened GZip compressor, unless a `Put`
raised "end_of_stream" on a finalised compressor, any sequence of calls
returns, and once the stream is finalised, by an `isLast` call among them or
by a following `Close`, the last 8 bytes passed to the file write are the
CRC-32 (reflected polynomial) of the whole input of the `Put` calls in
little-endian order followed by the input length modulo `2^32` in
little-endian order. -/
theorem gzip_trailer_is_crc_and_size (lib : Lib) (outfile : String) (mode : Mode)
    (genMD5 : Bool) (w : World) (h : Opens lib outfile mode w) (ops : List Op) :
    (∃ d e, run lib (Compressor.new lib outfile Format.GZip mode genMD5 w) ops = Outcome.ok d ∧
        (d.bEndOfStream = true →
          ∃ pre, d.sink.written.flatten = pre ++ gzipTrailerOf (inputOf ops)) ∧
        run lib (Compressor.new lib outfile Format.GZip mode genMD5 w) (ops ++ [Op.close])
          = Outcome.ok e ∧ e.bEndOfStream = true ∧
        (∃ pre, e.sink.written.flatten = pre ++ gzipTrailerOf (inputOf ops)) ∧
        (gzipTrailerOf (inputOf ops)).length = 8) ∨
      (∃ d, run lib (Compressor.new lib outfile Format.GZip mode genMD5 w) ops
          = Outcome.raise "end_of_stream" d ∧ Finished d) := by
  obtain ⟨c, hc, hinv, _, hfmt, _⟩ :=
    Compressor.new_ok lib outfile Format.GZip mode genMD5 w h
  rw [hc]
  rcases Inv.over_run lib ops [] c hinv with ⟨d, hd, hi, _, _⟩ | hraise
  · left
    obtain ⟨e, he, hie, hfe, _, _⟩ := hi.close lib
    have hrun : run lib (Outcome.ok c) (ops ++ [Op.close]) = Outcome.ok e := by
      rw [run_append, hd]
      show run lib (d.Close lib) [] = _
      rw [he]
      rfl
    have hfd : d.cFormat = Format.GZip := by
      rw [Inv.run_format lib _ _ c d hinv hd]
      exact hfmt
    have hfe2 : e.cFormat = Format.GZip := by
      rw [Inv.run_format lib _ _ c e hinv hrun]
      exact hfmt
    rw [List.nil_append] at hi hie
    exact ⟨d, e, hd, fun hed => ((hi.2.2.2.2.2.1 hed).2.1 hfd).2, hrun, hfe.1,
      ((hie.2.2.2.2.2.1 hfe.1).2.1 hfe2).2, rfl⟩
  · exact Or.inr hraise

theorem gzip_trailer_is_crc_and_size_witness :
    Opens demoLib "out.gz" Mode.Write demoWorld ∧
    gzipTrailerOf (inputOf [Op.put [0x61, 0x61, 0x61, 0x61] false,
        Op.put [0x61, 0x61, 0x61, 0x61, 0x61, 0x61] true])
      = [0xF0, 0xCD, 0x11, 0x4C, 10, 0, 0, 0] ∧
    ((∃ d e, run demoLib (Compressor.new demoLib "out.gz" Format.GZip Mode.Write true demoWorld)
          [Op.put [0x61, 0x61, 0x61, 0x61] false,
            Op.put [0x61, 0x61, 0x61, 0x61, 0x61, 0x61] true] = Outcome.ok d ∧
        (d.bEndOfStream = true →
          ∃ pre, d.sink.written.flatten = pre ++ gzipTrailerOf
            (inputOf [Op.put [0x61, 0x61, 0x61, 0x61] false,
              Op.put [0x61, 0x61, 0x61, 0x61, 0x61, 0x61] true])) ∧
        run demoLib (Compressor.new demoLib "out.gz" Format.GZip Mode.Write true demoWorld)
          ([Op.put [0x61, 0x61, 0x61, 0x61] false,
            Op.put [0x61, 0x61, 0x61, 0x61, 0x61, 0x61] true] ++ [Op.close])
          = Outcome.ok e ∧ e.bEndOfStream = true ∧
        (∃ pre, e.sink.written.flatten = pre ++ gzipTrailerOf
          (inputOf [Op.put [0x61, 0x61, 0x61, 0x61] false,
            Op.put [0x61, 0x61, 0x61, 0x61, 0x61, 0x61] true])) ∧
        (gzipTrailerOf (inputOf [Op.put [0x61, 0x61, 0x61, 0x61] false,
            Op.put [0x61, 0x61, 0x61, 0x61, 0x61, 0x61] true])).length = 8) ∨
      (∃ d, run demoLib (Compressor.new demoLib "out.gz" Format.GZip Mode.Write true demoWorld)
          [Op.put [0x61, 0x61, 0x61, 0x61] false,
            Op.put [0x61, 0x61, 0x61, 0x61, 0x61, 0x61] true]
          = Outcome.raise "end_of_stream" d ∧ Finished d)) :=
  ⟨by decide, by decide,
    gzip_trailer_is_crc_and_size demoLib "out.gz" Mode.Write true demoWorld (by decide)
      [Op.put [0x61, 0x61, 0x61, 0x61] false, Op.put [0x61, 0x61, 0x61, 0x61, 0x61, 0x61] true]⟩

/-! ## Compressors whose file was not opened -/

theorem Outcome.Leaves.andThen {α : Type} {P : α → Prop} {o : Outcome α} {f : α → Outcome α}
    (h : o.Leaves P) (hf : ∀ a, P a → (f a).Leaves P) : (o.andThen f).Leaves P := by
  cases o with
  | ok a => exact hf a h
  | raise m a => exact h
  | hang => trivial
  | fault => trivial

theorem Outcome.Leaves.lift {α β : Type} {Q : β → Prop} {o : Outcome α} {g : α → β}
    (h : o.Leaves fun a => Q (g a)) : (o.lift g).Leaves Q := by
  cases o with
  | ok a => exact h
  | raise m a => exact h
  | hang => trivial
  | fault => trivial

theorem Outcome.Leaves.mono {α : Type} {P Q : α → Prop} {o : Outcome α}
    (h : o.Leaves P) (hpq : ∀ a, P a → Q a) : o.Leaves Q := by
  cases o with
  | ok a => exact hpq a h
  | raise m a => exact hpq a h
  | hang => trivial
  | fault => trivial

theorem Sink.writeAndReset_idle (s : Sink) (a f : Bool) (hb : s.compressedBuffer = []) :
    (s._WriteAndReset a f).Leaves fun t => t = s := by
  unfold Sink._WriteAndReset
  split
  · exact rfl
  · split
    · exact rfl
    · rw [if_pos (by simp [Sink.compressedBufferSize, hb])]
      exact rfl

theorem Sink.flushIfFull_idle (s : Sink) (hb : s.compressedBuffer = []) :
    s.flushIfFull.Leaves fun t => t = s := by
  unfold Sink.flushIfFull
  split
  · exact Sink.writeAndReset_idle s true false hb
  · exact rfl

theorem Compressor.flush_idle (c : Compressor) (hb : c.sink.compressedBuffer = []) :
    (c.sink.flushIfFull.lift c.withSink).Leaves fun d => d = c :=
  Outcome.Leaves.lift ((Sink.flushIfFull_idle c.sink hb).mono fun t ht => by rw [ht]; rfl)

theorem Compressor.compressAndWrite_idle (lib : Lib) (c : Compressor) (x : List Nat) (l : Bool)
    (h : Inert c) : (c._CompressAndWrite lib x l).Leaves fun d => d = c := by
  obtain ⟨_, hb, hig, hzs, _⟩ := h
  unfold Compressor._CompressAndWrite
  split
  · unfold Compressor._CompressAndWriteGZIP
    refine (Compressor.flush_idle c hb).andThen fun a ha => ?_
    subst ha
    split
    · exact rfl
    · simp only [Compressor.deflateAll, hig]
      trivial
  · unfold Compressor._CompressAndWriteZSTD
    refine (Compressor.flush_idle c hb).andThen fun a ha => ?_
    subst ha
    split
    · exact rfl
    · simp only [Compressor.zstdAll, hzs]
      trivial

theorem Compressor.endAndWrite_idle (lib : Lib) (c : Compressor) (h : Inert c) :
    (c._EndAndWrite lib).Leaves fun d => d = c := by
  obtain ⟨_, hb, hig, hzs, _⟩ := h
  unfold Compressor._EndAndWrite
  split
  · unfold Compressor._EndAndWriteGZIP
    split
    · exact rfl
    · refine (Compressor.flush_idle c hb).andThen fun a ha => ?_
      subst ha
      have hn : ∀ (c' : Compressor) (x : List Nat) (l : Bool), c'.igzStream = none →
          Compressor.deflateAll lib c' x l = Outcome.fault := by
        intro c' x l h'
        simp only [Compressor.deflateAll, h']
      simp only []
      rw [hn _ _ _ (by split <;> exact hig)]
      trivial
  · unfold Compressor._EndAndWriteZSTD
    split
    · exact rfl
    · refine (Compressor.flush_idle c hb).andThen fun a ha => ?_
      subst ha
      simp only [Compressor.zstdAll, hzs]
      trivial

theorem Inert.release_inert {c : Compressor} (h : Inert c) : Inert c.release := by
  unfold Compressor.release
  split <;> exact ⟨h.1, rfl, rfl, rfl, h.2.2.2.2.1, h.2.2.2.2.2.1, h.2.2.2.2.2.2⟩

theorem Inert.closeHandle_inert {c : Compressor} (h : Inert c) : Inert c.closeHandle :=
  ⟨by simp [Compressor.closeHandle], h.2.1, h.2.2.1, h.2.2.2.1, h.2.2.2.2.1, h.2.2.2.2.2.1,
    h.2.2.2.2.2.2⟩

theorem Compressor.compressAndWrite_inert (lib : Lib) (c : Compressor) (x : List Nat) (l : Bool)
    (h : Inert c) : (c._CompressAndWrite lib x l).Leaves Inert :=
  (Compressor.compressAndWrite_idle lib c x l h).mono fun d hd => by rw [hd]; exact h

theorem Compressor.putHeld_inert (lib : Lib) (c : Compressor) (data : List Nat) (l : Bool)
    (h : Inert c) : (c.putHeld lib data l).Leaves fun p => Inert p.1 := by
  unfold Compressor.putHeld
  split
  · split
    · simp only []
      split
      · refine Outcome.Leaves.lift ?_
        refine (Compressor.compressAndWrite_inert lib _ _ _ ?_).mono fun d hd => ?_
        · exact h
        · exact hd
      · exact h
    · refine Outcome.Leaves.lift ?_
      exact (Compressor.compressAndWrite_inert lib c _ _ h).mono fun d hd => hd
  · exact h

theorem Compressor.putLoop_inert (lib : Lib) (l : Bool) : ∀ (fuel : Nat) (c : Compressor)
    (ptr : List Nat), Inert c → (Compressor.putLoop lib l fuel c ptr).Leaves fun p => Inert p.1
  | 0, c, ptr, h => by
    unfold Compressor.putLoop
    split
    · trivial
    · exact h
  | fuel + 1, c, ptr, h => by
    unfold Compressor.putLoop
    split
    · have hcw := Compressor.compressAndWrite_inert lib c (ptr.take c.inputChunkSize)
        (l && decide (ptr.length ≤ c.inputChunkSize)) h
      revert hcw
      cases c._CompressAndWrite lib (ptr.take c.inputChunkSize)
          (l && decide (ptr.length ≤ c.inputChunkSize)) with
      | ok d => intro hd; exact Compressor.putLoop_inert lib l fuel d _ hd
      | raise m d => intro hd; exact hd
      | hang => intro _; trivial
      | fault => intro _; trivial
    · exact h

theorem Compressor.putTail_inert (lib : Lib) (l : Bool) (c : Compressor) (ptr : List Nat)
    (h : Inert c) : (Compressor.putTail lib l c ptr).Leaves Inert := by
  unfold Compressor.putTail
  split
  · split
    · exact Compressor.compressAndWrite_inert lib c ptr true h
    · exact h
  · exact h

theorem Compressor.Put_inert (lib : Lib) (c : Compressor) (data : List Nat) (l : Bool)
    (h : Inert c) : (c.Put lib data l).Leaves Inert := by
  unfold Compressor.Put
  split
  · exact h
  · split
    · simp only []
      have h1 : (Compressor.thenPtr
          (Compressor.putHeld lib { c with totalInputSize := u64 (c.totalInputSize + data.length) }
            data l) (Compressor.putLoop lib l data.length)).Leaves fun p => Inert p.1 := by
        unfold Compressor.thenPtr
        have h0 : Inert { c with totalInputSize := u64 (c.totalInputSize + data.length) } := h
        exact (Compressor.putHeld_inert lib _ data l h0).andThen fun p hp =>
          Compressor.putLoop_inert lib l data.length p.1 p.2 hp
      revert h1
      cases Compressor.thenPtr
          (Compressor.putHeld lib { c with totalInputSize := u64 (c.totalInputSize + data.length) }
            data l) (Compressor.putLoop lib l data.length) with
      | ok p => intro hp; exact Compressor.putTail_inert lib l p.1 p.2 hp
      | raise m p => intro hp; exact hp
      | hang => intro _; trivial
      | fault => intro _; trivial
    · split
      · refine Outcome.Leaves.lift ?_
        exact (Compressor.compressAndWrite_inert lib c _ true h).mono fun d hd => hd
      · exact h

theorem Compressor.Close_inert (lib : Lib) (c : Compressor) (h : Inert c) :
    (c.Close lib).Leaves Inert := by
  unfold Compressor.Close
  split
  · exact h
  · simp only []
    refine Outcome.Leaves.andThen ?_ fun a ha => ha.release_inert
    split
    · refine Outcome.Leaves.andThen ?_ fun a ha => ha.closeHandle_inert
      split
      · exact (Compressor.endAndWrite_idle lib c h).mono fun d hd => by rw [hd]; exact h
      · exact h
    · exact h

theorem Outcome.Leaves.caught {α : Type} {P : α → Prop} {o : Outcome α} (h : o.Leaves P) :
    o.caught.Leaves P := by
  cases o with
  | ok a => exact h
  | raise m a => exact h
  | hang => trivial
  | fault => trivial

theorem Op.exec_inert (lib : Lib) (c : Compressor) (op : Op) (h : Inert c) :
    (op.exec lib c).Leaves Inert := by
  cases op with
  | put data l => exact Compressor.Put_inert lib c data l h
  | close => exact Compressor.Close_inert lib c h

theorem runCaught_inert (lib : Lib) (ops : List Op) : ∀ o : Outcome Compressor,
    o.Leaves Inert → (runCaught lib o ops).Leaves Inert := by
  induction ops with
  | nil => intro o h; exact h
  | cons op ops ih =>
    intro o h
    exact ih _ (h.andThen fun c hc => (Op.exec_inert lib c op hc).caught)

/-- The constructor either opens its file, or returns an unopened compressor. -/
theorem Compressor.new_cases (lib : Lib) (outfile : String) (format : Format) (mode : Mode)
    (genMD5 : Bool) (w : World)
    (hlib : 0 < lib.ZSTD_CStreamInSize ∧ 0 < lib.ZSTD_CStreamOutSize) :
    Opens lib outfile mode w ∨
      ∃ c, Compressor.new lib outfile format mode genMD5 w = Outcome.ok c ∧ Inert c := by
  by_cases h1 : mode = Mode.None ∨ outfile = ""
  · right
    refine ⟨Compressor.init outfile format mode genMD5 w, ?_, ?_⟩
    · unfold Compressor.new
      simp only [h1, if_true]
    · exact ⟨by simp [Compressor.init], rfl, rfl, rfl, rfl, rfl, rfl⟩
  · by_cases h2 : (Compressor.CreateFileA mode w).1 = Handle.invalid
    · right
      refine ⟨
        { Compressor.init outfile format mode genMD5 w with
          sink :=
            { (Compressor.init outfile format mode genMD5 w).sink with
              fHandle := (Compressor.CreateFileA mode w).1
              file := (Compressor.CreateFileA mode w).2 } }, ?_, ?_⟩
      · unfold Compressor.new
        simp only [h1, if_false, h2, if_true]
      · exact ⟨by simp [h2], rfl, rfl, rfl, rfl, rfl, rfl⟩
    · left
      have hm : mode = Mode.Write ∨ mode = Mode.Append := by
        cases mode with
        | None => exact absurd (Or.inl rfl) h1
        | Write => exact Or.inl rfl
        | Append => exact Or.inr rfl
      refine ⟨fun he => h1 (Or.inr he), hm, ?_, hlib.1, hlib.2⟩
      revert h2
      unfold Compressor.CreateFileA
      cases mode with
      | None => exact absurd (Or.inl rfl) h1
      | Write => simp only []; split <;> simp
      | Append => simp only []; split <;> simp

/-- Whatever the constructor arguments, every state a sequence of calls
leaves, exceptions caught, either satisfies the bookkeeping invariant for
some input or belongs to an unopened compressor. -/
theorem reach_cases (lib : Lib) (outfile : String) (format : Format) (mode : Mode)
    (genMD5 : Bool) (w : World)
    (hlib : 0 < lib.ZSTD_CStreamInSize ∧ 0 < lib.ZSTD_CStreamOutSize) (ops : List Op) :
    (∃ d T, runCaught lib (Compressor.new lib outfile format mode genMD5 w) ops = Outcome.ok d ∧
        Inv T d ∧ d.sink.bGenMD5 = genMD5) ∨
      (runCaught lib (Compressor.new lib outfile format mode genMD5 w) ops).Leaves Inert := by
  rcases Compressor.new_cases lib outfile format mode genMD5 w hlib with ho | ⟨c, hc, hi⟩
  · left
    obtain ⟨c, hc, hinv, _, _, hg, _⟩ := Compressor.new_ok lib outfile format mode genMD5 w ho
    obtain ⟨d, T, hd, hid, hgd⟩ := Inv.over_runCaught lib ops [] c hinv
    rw [hc]
    exact ⟨d, T, hd, hid, hgd.trans hg⟩
  · right
    rw [hc]
    exact runCaught_inert lib ops _ hi

/-- C9 (the digest covers exactly the persisted bytes): whatever the
constructor arguments, with digesting enabled every state a sequence of
`Put` and `Close` calls leaves, exceptions caught, has hashed exactly the byte
ranges it passed to the file write, range by range and in the same order (so
the concatenations agree, gzip header and trailer included, and input bytes
are hashed only as part of a written range); and on a successfully opened
compressor every such sequence does leave a state. -/
theorem digest_covers_written_bytes (lib : Lib) (outfile : String) (format : Format)
    (mode : Mode) (w : World)
    (hlib : 0 < lib.ZSTD_CStreamInSize ∧ 0 < lib.ZSTD_CStreamOutSize) (ops : List Op) :
    (runCaught lib (Compressor.new lib outfile format mode true w) ops).Leaves
        (fun d => d.sink.hashed = d.sink.written ∧
          d.sink.hashed.flatten = d.sink.written.flatten) ∧
      (Opens lib outfile mode w →
        ∃ d, runCaught lib (Compressor.new lib outfile format mode true w) ops = Outcome.ok d ∧
          d.sink.hashed = d.sink.written) := by
  constructor
  · rcases reach_cases lib outfile format mode true w hlib ops with ⟨d, T, hd, hi, hg⟩ | hin
    · rw [hd]
      have := hi.2.2.2.2.2.2 hg
      exact ⟨this, by rw [this]⟩
    · exact hin.mono fun d hd => ⟨by rw [hd.2.2.2.2.2.1, hd.2.2.2.2.2.2],
        by rw [hd.2.2.2.2.2.1, hd.2.2.2.2.2.2]⟩
  · intro ho
    obtain ⟨c, hc, hinv, _, _, hg, _⟩ := Compressor.new_ok lib outfile format mode true w ho
    obtain ⟨d, T, hd, hid, hgd⟩ := Inv.over_runCaught lib ops [] c hinv
    rw [hc]
    exact ⟨d, hd, hid.2.2.2.2.2.2 (hgd.trans hg)⟩

theorem digest_covers_written_bytes_witness :
    (0 < demoLib.ZSTD_CStreamInSize ∧ 0 < demoLib.ZSTD_CStreamOutSize) ∧
    Opens demoLib "out.gz" Mode.Write demoWorld ∧
    ((runCaught demoLib (Compressor.new demoLib "out.gz" Format.GZip Mode.Write true demoWorld)
        [Op.put [1, 2, 3] true, Op.put [4] false, Op.close]).Leaves
        (fun d => d.sink.hashed = d.sink.written ∧
          d.sink.hashed.flatten = d.sink.written.flatten) ∧
      (Opens demoLib "out.gz" Mode.Write demoWorld →
        ∃ d, runCaught demoLib
            (Compressor.new demoLib "out.gz" Format.GZip Mode.Write true demoWorld)
            [Op.put [1, 2, 3] true, Op.put [4] false, Op.close] = Outcome.ok d ∧
          d.sink.hashed = d.sink.written)) :=
  ⟨by decide, by decide,
    digest_covers_written_bytes demoLib "out.gz" Format.GZip Mode.Write demoWorld (by decide)
      [Op.put [1, 2, 3] true, Op.put [4] false, Op.close]⟩

/-- C6 (Put after finalisation): in every state with `bEndOfStream = true`, a
`Put` with `size > 0` raises "end_of_stream" and leaves the state, every
member and the file included, as it was; a `Put` with `size = 0` returns
without raising and without any effect when nothing is held, and nothing is
held in any finalised state that a sequence of calls on a constructed
compressor, exceptions caught, can leave. -/
theorem put_after_end_of_stream (lib : Lib) (c : Compressor) (data : List Nat) (l : Bool)
    (h : c.bEndOfStream = true) :
    (0 < data.length → c.Put lib data l = Outcome.raise "end_of_stream" c) ∧
      (data.length = 0 → c.currentInputBuffer = [] → c.Put lib data l = Outcome.ok c) ∧
      (0 < lib.ZSTD_CStreamInSize ∧ 0 < lib.ZSTD_CStreamOutSize →
        ∀ (outfile : String) (format : Format) (mode : Mode) (genMD5 : Bool) (w : World)
          (ops : List Op),
          runCaught lib (Compressor.new lib outfile format mode genMD5 w) ops = Outcome.ok c →
            c.currentInputBuffer = []) := by
  refine ⟨fun hd => ?_, fun hd hh => ?_, fun hlib outfile format mode genMD5 w ops hrun => ?_⟩
  · unfold Compressor.Put
    rw [if_pos ⟨h, hd⟩]
  · unfold Compressor.Put
    rw [if_neg (by omega), if_neg (by omega),
      if_neg (by simp [Compressor.currentInputSize, hh])]
  · rcases reach_cases lib outfile format mode genMD5 w hlib ops with ⟨d, T, hd, hi, _⟩ | hin
    · rw [hrun] at hd
      cases hd
      exact (hi.finished h).2
    · rw [hrun] at hin
      have : c.bEndOfStream = false := hin.2.2.2.2.1
      rw [h] at this
      exact absurd this (by decide)

theorem put_after_end_of_stream_witness :
    demoFinal.bEndOfStream = true ∧
    ((0 < [7, 8].length → demoFinal.Put demoLib [7, 8] false
        = Outcome.raise "end_of_stream" demoFinal) ∧
      ([7, 8].length = 0 → demoFinal.currentInputBuffer = [] →
        demoFinal.Put demoLib [7, 8] false = Outcome.ok demoFinal) ∧
      (0 < demoLib.ZSTD_CStreamInSize ∧ 0 < demoLib.ZSTD_CStreamOutSize →
        ∀ (outfile : String) (format : Format) (mode : Mode) (genMD5 : Bool) (w : World)
          (ops : List Op),
          runCaught demoLib (Compressor.new demoLib outfile format mode genMD5 w) ops
              = Outcome.ok demoFinal →
            demoFinal.currentInputBuffer = [])) :=
  ⟨by decide, put_after_end_of_stream demoLib demoFinal [7, 8] false (by decide)⟩

/-- C7 as stated fails: on a freshly and successfully opened zstd compressor,
which holds nothing, `Put(data, 0, true)` returns with the state unchanged and
`bEndOfStream` still `false`, and the later `Put` of the one byte `5` returns
normally and holds that byte instead of raising. -/
theorem put_empty_last_leaves_stream_open :
    Opens demoLib "out.zst" Mode.Write demoWorld ∧
      Compressor.new demoLib "out.zst" Format.ZStd Mode.Write true demoWorld
        = Outcome.ok demoOpen ∧
      Ready demoOpen ∧
      demoOpen.Put demoLib [] true = Outcome.ok demoOpen ∧
      demoOpen.bEndOfStream = false ∧
      demoOpen.Put demoLib [5] false
        = Outcome.ok { demoOpen with currentInputBuffer := [5], totalInputSize := 1 } := by
  decide

/-- C7, amended: on a successfully opened compressor that is not finalised,
`Put(data, size, true)` with `size > 0`, or with `size = 0` while bytes are
held, returns with the stream finalised and nothing held, so that every later
`Put` with non-zero size raises "end_of_stream" and leaves the state, the file
included, unchanged; with `size = 0` and nothing held the call returns
without any effect. -/
theorem put_last_finalises (lib : Lib) (c : Compressor) (data : List Nat) (hr : Ready c) :
    (0 < data.length ∨ 0 < c.currentInputBuffer.length →
      ∃ d, c.Put lib data true = Outcome.ok d ∧ d.bEndOfStream = true ∧
        d.currentInputBuffer = [] ∧
        ∀ (data' : List Nat) (l' : Bool), 0 < data'.length →
          d.Put lib data' l' = Outcome.raise "end_of_stream" d) ∧
      (data.length = 0 → c.currentInputBuffer.length = 0 →
        c.Put lib data true = Outcome.ok c) := by
  constructor
  · intro hne
    obtain ⟨d, hd, _, _, hfin, _⟩ := Compressor.Put_ready lib c data true hr
    obtain ⟨_, he, hh⟩ := hfin ⟨rfl, hne⟩
    exact ⟨d, hd, he, hh, fun data' l' hd' =>
      (Compressor.Put_finished lib d data' l' ⟨he, hh⟩).1 hd'⟩
  · intro hd hh
    unfold Compressor.Put
    rw [if_neg (by omega), if_neg (by omega),
      if_neg (by simp [Compressor.currentInputSize, hh])]

theorem put_last_finalises_witness :
    Ready demoOpen ∧
    ((0 < [1, 2, 3].length ∨ 0 < demoOpen.currentInputBuffer.length →
      ∃ d, demoOpen.Put demoLib [1, 2, 3] true = Outcome.ok d ∧ d.bEndOfStream = true ∧
        d.currentInputBuffer = [] ∧
        ∀ (data' : List Nat) (l' : Bool), 0 < data'.length →
          d.Put demoLib data' l' = Outcome.raise "end_of_stream" d) ∧
      ([1, 2, 3].length = 0 → demoOpen.currentInputBuffer.length = 0 →
        demoOpen.Put demoLib [1, 2, 3] true = Outcome.ok demoOpen)) :=
  ⟨by decide, put_last_finalises demoLib demoOpen [1, 2, 3] (by decide)⟩

/-! ## The input count is read only by a final invocation -/

theorem Compressor.deflateAll_total (lib : Lib) (c : Compressor) (n : Nat)
    (x : List Nat) (l : Bool) :
    Compressor.deflateAll lib (c.withTotal n) x l
      = (c.deflateAll lib x l).lift (fun d => d.withTotal n) := by
  unfold Compressor.deflateAll
  cases h : c.igzStream with
  | none =>
    have : (c.withTotal n).igzStream = none := h
    simp [this]
  | some hist =>
    have : (c.withTotal n).igzStream = some hist := h
    simp only [this, Outcome.lift_lift]
    rfl

theorem Compressor.zstdAll_total (lib : Lib) (c : Compressor) (n : Nat)
    (x : List Nat) (l : Bool) :
    Compressor.zstdAll lib (c.withTotal n) x l
      = (c.zstdAll lib x l).lift (fun d => d.withTotal n) := by
  unfold Compressor.zstdAll
  cases h : c.zstCtx with
  | none =>
    have : (c.withTotal n).zstCtx = none := h
    simp [this]
  | some hist =>
    have : (c.withTotal n).zstCtx = some hist := h
    simp only [this, Outcome.lift_lift]
    rfl

theorem Compressor.compressAndWriteGZIP_total (lib : Lib) (c : Compressor) (n : Nat)
    (x : List Nat) :
    Compressor._CompressAndWriteGZIP lib (c.withTotal n) x false
      = (c._CompressAndWriteGZIP lib x false).lift (fun d => d.withTotal n) := by
  unfold Compressor._CompressAndWriteGZIP
  have hs : (c.withTotal n).sink = c.sink := rfl
  rw [hs]
  cases h1 : c.sink.flushIfFull with
  | ok t =>
    simp only [Outcome.lift_ok, Outcome.andThen_ok]
    by_cases hg : x.length = 0 ∨ (True ∧ x.length < (c.withSink t).inputChunkSize)
    · have hg' : x.length = 0 ∨
          (True ∧ x.length < ((c.withTotal n).withSink t).inputChunkSize) := hg
      rw [if_pos hg, if_pos hg']
      rfl
    · have hg' : ¬ (x.length = 0 ∨
          (True ∧ x.length < ((c.withTotal n).withSink t).inputChunkSize)) := hg
      rw [if_neg hg, if_neg hg']
      have h2 := Compressor.deflateAll_total lib
        { c.withSink t with igzCrc := crc32_gzip_refl (c.withSink t).igzCrc x } n x false
      have h2' : Compressor.deflateAll lib
          { (c.withTotal n).withSink t with
            igzCrc := crc32_gzip_refl ((c.withTotal n).withSink t).igzCrc x } x false
          = (Compressor.deflateAll lib
              { c.withSink t with igzCrc := crc32_gzip_refl (c.withSink t).igzCrc x } x false).lift
            (fun d => d.withTotal n) := h2
      rw [h2']
      apply Outcome.lift_andThen_comm
      intro a
      rfl
  | raise m t => simp [Compressor.withTotal, Compressor.withSink]
  | hang => simp
  | fault => simp

theorem Compressor.compressAndWriteZSTD_total (lib : Lib) (c : Compressor) (n : Nat)
    (x : List Nat) :
    Compressor._CompressAndWriteZSTD lib (c.withTotal n) x false
      = (c._CompressAndWriteZSTD lib x false).lift (fun d => d.withTotal n) := by
  unfold Compressor._CompressAndWriteZSTD
  have hs : (c.withTotal n).sink = c.sink := rfl
  rw [hs]
  cases h1 : c.sink.flushIfFull with
  | ok t =>
    simp only [Outcome.lift_ok, Outcome.andThen_ok]
    by_cases hg : x.length = 0 ∨ (True ∧ x.length < (c.withSink t).inputChunkSize)
    · have hg' : x.length = 0 ∨
          (True ∧ x.length < ((c.withTotal n).withSink t).inputChunkSize) := hg
      rw [if_pos hg, if_pos hg']
      rfl
    · have hg' : ¬ (x.length = 0 ∨
          (True ∧ x.length < ((c.withTotal n).withSink t).inputChunkSize)) := hg
      rw [if_neg hg, if_neg hg']
      have h2' : Compressor.zstdAll lib ((c.withTotal n).withSink t) x false
          = (Compressor.zstdAll lib (c.withSink t) x false).lift (fun d => d.withTotal n) :=
        Compressor.zstdAll_total lib (c.withSink t) n x false
      rw [h2']
      apply Outcome.lift_andThen_comm
      intro a
      rfl
  | raise m t => simp [Compressor.withTotal, Compressor.withSink]
  | hang => simp
  | fault => simp

/-- A codec invocation that is not the final one does not read the input count. -/
theorem Compressor.compressAndWrite_total (lib : Lib) (c : Compressor) (n : Nat)
    (x : List Nat) :
    Compressor._CompressAndWrite lib (c.withTotal n) x false
      = (c._CompressAndWrite lib x false).lift (fun d => d.withTotal n) := by
  unfold Compressor._CompressAndWrite
  cases hf : c.cFormat with
  | GZip =>
    have : (c.withTotal n).cFormat = Format.GZip := hf
    simp only [this, Bool.false_and]
    exact Compressor.compressAndWriteGZIP_total lib c n x
  | ZStd =>
    have : (c.withTotal n).cFormat = Format.ZStd := hf
    simp only [this, Bool.false_and]
    exact Compressor.compressAndWriteZSTD_total lib c n x

theorem FedBy.setTotal {lib : Lib} {c d : Compressor} {x : List Nat}
    (h : FedBy lib c d x false) (n : Nat) :
    FedBy lib (c.withTotal n) (d.withTotal n) x false := by
  obtain ⟨he, ig, zs, t, out, rfl, h1, h2, hx, hb, _⟩ := h
  refine ⟨?_, ig, zs, t, out, rfl, h1, h2, hx, hb, fun hl => absurd hl (by decide)⟩
  rw [Compressor.compressAndWrite_total, he]
  rfl

theorem FedAll.setTotal_all {lib : Lib} {c d : Compressor} {fs : List Feed}
    (h : FedAll lib c fs d) (ho : OpenFeeds fs) (n : Nat) :
    FedAll lib (c.withTotal n) fs (d.withTotal n) := by
  induction h with
  | nil c => exact FedAll.nil _
  | @cons c d e x l fs hf _ ih =>
    have hl : l = false := ho (x, l) (List.mem_cons_self _ _)
    subst hl
    exact FedAll.cons (hf.setTotal n) (ih fun f hf' => ho f (List.mem_cons_of_mem _ hf'))

/-- The calls determine the state: two sequences of the same invocations from
the same state end in the same state. -/
theorem FedAll.unique {lib : Lib} {c d e : Compressor} {fs : List Feed}
    (h₁ : FedAll lib c fs d) (h₂ : FedAll lib c fs e) : d = e := by
  induction h₁ with
  | nil c =>
    cases h₂
    rfl
  | cons hf _ ih =>
    cases h₂ with
    | cons hf' h' =>
      have := hf.1.symm.trans hf'.1
      cases this
      exact ih h'

/-! ## Slicing a whole input -/

theorem slice_fuel (C : Nat) (hC : 0 < C) (l : Bool) : ∀ (n m : Nat) (xs : List Nat),
    xs.length ≤ n → xs.length ≤ m →
      sliceFeeds C l n xs = sliceFeeds C l m xs ∧ sliceRest C n xs = sliceRest C m xs := by
  intro n
  induction n with
  | zero =>
    intro m xs hn _
    have : xs = [] := List.length_eq_zero.mp (Nat.le_zero.mp hn)
    subst this
    rw [sliceFeeds_nil C hC, sliceFeeds_nil C hC, sliceRest_nil, sliceRest_nil]
    exact ⟨rfl, rfl⟩
  | succ n ih =>
    intro m xs hn hm
    cases m with
    | zero =>
      have : xs = [] := List.length_eq_zero.mp (Nat.le_zero.mp hm)
      subst this
      rw [sliceFeeds_nil C hC, sliceFeeds_nil C hC, sliceRest_nil, sliceRest_nil]
      exact ⟨rfl, rfl⟩
    | succ m =>
      by_cases hge : C ≤ xs.length
      · have hd : (xs.drop C).length ≤ n := by rw [List.length_drop]; omega
        have hd' : (xs.drop C).length ≤ m := by rw [List.length_drop]; omega
        obtain ⟨h1, h2⟩ := ih m (xs.drop C) hd hd'
        simp [sliceFeeds, sliceRest, hge, h1, h2]
      · simp [sliceFeeds, sliceRest, hge]

theorem chunkFeeds_of_lt (C : Nat) (l : Bool) (xs : List Nat) (h : xs.length < C) :
    chunkFeeds C l xs = [] := sliceFeeds_of_lt C l _ xs h

theorem chunkRest_of_lt (C : Nat) (xs : List Nat) (h : xs.length < C) :
    chunkRest C xs = xs := sliceRest_of_lt C _ xs h

theorem chunkFeeds_of_ge (C : Nat) (hC : 0 < C) (l : Bool) (xs : List Nat)
    (h : C ≤ xs.length) :
    chunkFeeds C l xs
      = (xs.take C, l && decide (xs.length ≤ C)) :: chunkFeeds C l (xs.drop C) := by
  obtain ⟨n, hn⟩ : ∃ n, xs.length = n + 1 := ⟨xs.length - 1, by omega⟩
  have hd : (xs.drop C).length ≤ n := by rw [List.length_drop]; omega
  have key : sliceFeeds C l (n + 1) xs
      = (xs.take C, l && decide (xs.length ≤ C)) :: sliceFeeds C l n (xs.drop C) := by
    simp [sliceFeeds, h]
  show sliceFeeds C l xs.length xs = _ :: sliceFeeds C l (xs.drop C).length (xs.drop C)
  rw [show sliceFeeds C l xs.length xs = sliceFeeds C l (n + 1) xs from by rw [hn], key,
    (slice_fuel C hC l n (xs.drop C).length (xs.drop C) hd (Nat.le_refl _)).1]

theorem chunkRest_of_ge (C : Nat) (hC : 0 < C) (xs : List Nat) (h : C ≤ xs.length) :
    chunkRest C xs = chunkRest C (xs.drop C) := by
  obtain ⟨n, hn⟩ : ∃ n, xs.length = n + 1 := ⟨xs.length - 1, by omega⟩
  have hd : (xs.drop C).length ≤ n := by rw [List.length_drop]; omega
  have key : sliceRest C (n + 1) xs = sliceRest C n (xs.drop C) := by
    simp [sliceRest, h]
  show sliceRest C xs.length xs = sliceRest C (xs.drop C).length (xs.drop C)
  rw [show sliceRest C xs.length xs = sliceRest C (n + 1) xs from by rw [hn], key,
    (slice_fuel C hC false n (xs.drop C).length (xs.drop C) hd (Nat.le_refl _)).2]

theorem chunkRest_lt (C : Nat) (hC : 0 < C) (xs : List Nat) : (chunkRest C xs).length < C :=
  sliceRest_lt C hC _ xs (Nat.le_refl _)

theorem chunkRest_length (C : Nat) (hC : 0 < C) : ∀ (n : Nat) (xs : List Nat),
    xs.length ≤ n → (chunkRest C xs).length = xs.length % C := by
  intro n
  induction n with
  | zero =>
    intro xs hn
    have : xs = [] := List.length_eq_zero.mp (Nat.le_zero.mp hn)
    subst this
    rw [chunkRest_of_lt C [] hC]
    simp
  | succ n ih =>
    intro xs hn
    by_cases hge : C ≤ xs.length
    · rw [chunkRest_of_ge C hC xs hge, ih (xs.drop C) (by rw [List.length_drop]; omega),
        List.length_drop]
      exact (Nat.mod_eq_sub_mod hge).symm
    · rw [chunkRest_of_lt C xs (by omega)]
      exact (Nat.mod_eq_of_lt (by omega)).symm

theorem chunk_append (C : Nat) (hC : 0 < C) : ∀ (n : Nat) (xs ys : List Nat), xs.length ≤ n →
    chunkFeeds C false (xs ++ ys)
        = chunkFeeds C false xs ++ chunkFeeds C false (chunkRest C xs ++ ys) ∧
      chunkRest C (xs ++ ys) = chunkRest C (chunkRest C xs ++ ys) := by
  intro n
  induction n with
  | zero =>
    intro xs ys hn
    have : xs = [] := List.length_eq_zero.mp (Nat.le_zero.mp hn)
    subst this
    rw [chunkRest_of_lt C [] hC, chunkFeeds_of_lt C false [] hC]
    exact ⟨rfl, rfl⟩
  | succ n ih =>
    intro xs ys hn
    by_cases hge : C ≤ xs.length
    · have hge' : C ≤ (xs ++ ys).length := by rw [List.length_append]; omega
      obtain ⟨h1, h2⟩ := ih (xs.drop C) ys (by rw [List.length_drop]; omega)
      rw [chunkFeeds_of_ge C hC false _ hge', chunkRest_of_ge C hC _ hge',
        chunkFeeds_of_ge C hC false _ hge, chunkRest_of_ge C hC _ hge,
        List.take_append_of_le_length hge, List.drop_append_of_le_length hge, h1, h2]
      simp
    · rw [chunkRest_of_lt C xs (by omega), chunkFeeds_of_lt C false xs (by omega)]
      exact ⟨rfl, rfl⟩

theorem finalFeeds_of_gt (C : Nat) (hC : 0 < C) (xs : List Nat) (h : C < xs.length) :
    finalFeeds C xs = (xs.take C, false) :: finalFeeds C (xs.drop C) := by
  unfold finalFeeds
  rw [chunkFeeds_of_ge C hC true xs (by omega), chunkRest_of_ge C hC xs (by omega)]
  have : decide (xs.length ≤ C) = false := by simp; omega
  rw [this]
  rfl

theorem final_append (C : Nat) (hC : 0 < C) : ∀ (n : Nat) (xs ys : List Nat), xs.length ≤ n →
    chunkRest C xs ++ ys ≠ [] →
      finalFeeds C (xs ++ ys) = chunkFeeds C false xs ++ finalFeeds C (chunkRest C xs ++ ys) := by
  intro n
  induction n with
  | zero =>
    intro xs ys hn _
    have : xs = [] := List.length_eq_zero.mp (Nat.le_zero.mp hn)
    subst this
    rw [chunkRest_of_lt C [] hC, chunkFeeds_of_lt C false [] hC]
    rfl
  | succ n ih =>
    intro xs ys hn hne
    by_cases hge : C ≤ xs.length
    · have hr := chunkRest_of_ge C hC xs hge
      have hgt : C < (xs ++ ys).length := by
        rw [List.length_append]
        by_contra hcon
        have hx : xs.length = C := by omega
        have hy : ys = [] := List.length_eq_zero.mp (by omega)
        have hd : xs.drop C = [] := List.drop_of_length_le (by omega)
        rw [hr, hd, chunkRest_of_lt C [] hC, hy] at hne
        exact hne rfl
      rw [hr] at hne
      rw [finalFeeds_of_gt C hC _ hgt, chunkFeeds_of_ge C hC false _ hge, hr,
        List.take_append_of_le_length hge, List.drop_append_of_le_length hge,
        ih (xs.drop C) ys (by rw [List.length_drop]; omega) hne]
      simp
    · rw [chunkRest_of_lt C xs (by omega), chunkFeeds_of_lt C false xs (by omega)]
      rfl

/-! ## The invocations of `Put` as slices of the held bytes followed by the input -/

theorem heldFeeds_empty (C : Nat) (x : List Nat) (l : Bool) :
    heldFeeds C [] x l = ([], [], x) := by
  simp [heldFeeds]

theorem heldFeeds_full (C : Nat) (h x : List Nat) (l : Bool) (h0 : 0 < h.length)
    (hh : h.length < C) (hx : C - h.length ≤ x.length) :
    heldFeeds C h x l
      = ([((h ++ x).take C, l && decide (((h ++ x).drop C).length = 0))], [],
          (h ++ x).drop C) := by
  have ht : (h ++ x).take C = h ++ x.take (C - h.length) := by
    rw [List.take_append_eq_append_take, List.take_of_length_le (by omega)]
  have hd : (h ++ x).drop C = x.drop (C - h.length) := by
    rw [List.drop_append_eq_append_drop, List.drop_of_length_le (by omega), List.nil_append]
  have hb : (h ++ x.take (C - h.length)).length = C := by
    rw [List.length_append, List.length_take]
    omega
  rw [ht, hd]
  unfold heldFeeds
  simp only [h0, hh, if_true, Nat.min_eq_left hx, hb, or_true]

theorem heldFeeds_short (C : Nat) (h x : List Nat) (l : Bool) (h0 : 0 < h.length)
    (hx : h.length + x.length < C) :
    heldFeeds C h x l = if l = true then ([(h ++ x, true)], [], []) else ([], h ++ x, []) := by
  have hpad : min (C - h.length) x.length = x.length := Nat.min_eq_right (by omega)
  have hb : (h ++ x).length ≠ C := by rw [List.length_append]; omega
  have hb0 : 0 < (h ++ x).length := by rw [List.length_append]; omega
  unfold heldFeeds
  simp only [h0, show h.length < C by omega, if_true, hpad, List.take_length, List.drop_length,
    hb, or_false, hb0, and_true]
  cases l <;> simp

theorem putFeeds_false (C : Nat) (hC : 0 < C) (h x : List Nat) (hh : h.length < C) :
    putFeeds C h x false = (chunkFeeds C false (h ++ x), chunkRest C (h ++ x)) := by
  by_cases hx : 0 < x.length
  · have key : ∀ (H : List Feed × List Nat × List Nat),
        (if 0 < (sliceRest C x.length H.2.2).length then
            (if false = true then
              (H.1 ++ sliceFeeds C false x.length H.2.2 ++ [(sliceRest C x.length H.2.2, true)],
                H.2.1)
            else (H.1 ++ sliceFeeds C false x.length H.2.2,
              H.2.1 ++ sliceRest C x.length H.2.2))
          else (H.1 ++ sliceFeeds C false x.length H.2.2, H.2.1))
        = (H.1 ++ sliceFeeds C false x.length H.2.2, H.2.1 ++ sliceRest C x.length H.2.2) := by
      intro H
      by_cases hr : 0 < (sliceRest C x.length H.2.2).length
      · simp [hr]
      · have : sliceRest C x.length H.2.2 = [] := List.length_eq_zero.mp (by omega)
        simp [this]
    have hput : putFeeds C h x false
        = ((heldFeeds C h x false).1 ++ sliceFeeds C false x.length (heldFeeds C h x false).2.2,
            (heldFeeds C h x false).2.1 ++ sliceRest C x.length (heldFeeds C h x false).2.2) := by
      unfold putFeeds
      rw [if_pos hx]
      exact key _
    rw [hput]
    by_cases h0 : 0 < h.length
    · by_cases hfull : C - h.length ≤ x.length
      · have hge : C ≤ (h ++ x).length := by rw [List.length_append]; omega
        have hdl : ((h ++ x).drop C).length ≤ x.length := by
          rw [List.length_drop, List.length_append]; omega
        rw [heldFeeds_full C h x false h0 hh hfull, chunkFeeds_of_ge C hC false _ hge,
          chunkRest_of_ge C hC _ hge]
        simp only [Bool.false_and, List.nil_append, List.singleton_append]
        rw [(slice_fuel C hC false x.length _ _ hdl (Nat.le_refl _)).1,
          (slice_fuel C hC false x.length _ _ hdl (Nat.le_refl _)).2]
        rfl
      · have hlt : (h ++ x).length < C := by rw [List.length_append]; omega
        rw [heldFeeds_short C h x false h0 (by omega), chunkFeeds_of_lt C false _ hlt,
          chunkRest_of_lt C _ hlt]
        simp [sliceFeeds_nil C hC, sliceRest_nil]
    · have : h = [] := List.length_eq_zero.mp (by omega)
      subst this
      rw [heldFeeds_empty]
      rfl
  · have : x = [] := List.length_eq_zero.mp (by omega)
    subst this
    rw [List.append_nil, chunkFeeds_of_lt C false h hh, chunkRest_of_lt C h hh]
    simp [putFeeds]

theorem putFeeds_true (C : Nat) (hC : 0 < C) (h x : List Nat) (hh : h.length < C)
    (hne : h ++ x ≠ []) :
    putFeeds C h x true = (finalFeeds C (h ++ x), []) := by
  by_cases hx : 0 < x.length
  · have key : ∀ (H : List Feed × List Nat × List Nat), H.2.1 = [] →
        (if 0 < (sliceRest C x.length H.2.2).length then
            (if true = true then
              (H.1 ++ sliceFeeds C true x.length H.2.2 ++ [(sliceRest C x.length H.2.2, true)],
                H.2.1)
            else (H.1 ++ sliceFeeds C true x.length H.2.2,
              H.2.1 ++ sliceRest C x.length H.2.2))
          else (H.1 ++ sliceFeeds C true x.length H.2.2, H.2.1))
        = (H.1 ++ (sliceFeeds C true x.length H.2.2 ++
            (if 0 < (sliceRest C x.length H.2.2).length then
              [(sliceRest C x.length H.2.2, true)] else [])), []) := by
      intro H hH
      by_cases hr : 0 < (sliceRest C x.length H.2.2).length
      · simp [hr, hH]
      · simp [hr, hH]
    have hput : (heldFeeds C h x true).2.1 = [] → putFeeds C h x true
        = ((heldFeeds C h x true).1 ++ (sliceFeeds C true x.length (heldFeeds C h x true).2.2 ++
            (if 0 < (sliceRest C x.length (heldFeeds C h x true).2.2).length then
              [(sliceRest C x.length (heldFeeds C h x true).2.2, true)] else [])), []) := by
      intro hH
      unfold putFeeds
      rw [if_pos hx]
      exact key _ hH
    by_cases h0 : 0 < h.length
    · by_cases hfull : C - h.length ≤ x.length
      · have hge : C ≤ (h ++ x).length := by rw [List.length_append]; omega
        have hdl : ((h ++ x).drop C).length ≤ x.length := by
          rw [List.length_drop, List.length_append]; omega
        rw [hput (by rw [heldFeeds_full C h x true h0 hh hfull]),
          heldFeeds_full C h x true h0 hh hfull]
        simp only []
        rw [(slice_fuel C hC true x.length _ _ hdl (Nat.le_refl _)).1,
          (slice_fuel C hC true x.length _ _ hdl (Nat.le_refl _)).2]
        unfold finalFeeds
        rw [chunkFeeds_of_ge C hC true _ hge, chunkRest_of_ge C hC _ hge]
        have hflag : decide (((h ++ x).drop C).length = 0) = decide ((h ++ x).length ≤ C) := by
          rw [List.length_drop]
          apply decide_eq_decide.mpr
          omega
        rw [hflag]
        rfl
      · have hlt : (h ++ x).length < C := by rw [List.length_append]; omega
        rw [hput (by rw [heldFeeds_short C h x true h0 (by omega)]; rfl),
          heldFeeds_short C h x true h0 (by omega)]
        unfold finalFeeds
        rw [chunkFeeds_of_lt C true _ hlt, chunkRest_of_lt C _ hlt]
        simp [sliceFeeds_nil C hC, sliceRest_nil, h0]
    · have : h = [] := List.length_eq_zero.mp (by omega)
      subst this
      rw [hput (by rw [heldFeeds_empty]), heldFeeds_empty]
      rfl
  · have : x = [] := List.length_eq_zero.mp (by omega)
    subst this
    rw [List.append_nil] at hne ⊢
    have h0 : 0 < h.length := List.length_pos.mpr hne
    unfold finalFeeds
    rw [chunkFeeds_of_lt C true h hh, chunkRest_of_lt C h hh]
    simp [putFeeds, h0]

/-- The invocations of one `Put` of `a ++ b` are those of a `Put` of `a`
without `isLast` followed by those of a `Put` of `b`, unless that second `Put`
is an empty one with `isLast` that finds nothing held. -/
theorem putFeeds_append (C : Nat) (hC : 0 < C) (h a b : List Nat) (l : Bool)
    (hh : h.length < C)
    (hl : l = true → 0 < b.length ∨ 0 < (putFeeds C h a false).2.length) :
    putFeeds C h (a ++ b) l
      = ((putFeeds C h a false).1 ++ (putFeeds C (putFeeds C h a false).2 b l).1,
          (putFeeds C (putFeeds C h a false).2 b l).2) := by
  rw [putFeeds_false C hC h a hh] at hl ⊢
  have hr := chunkRest_lt C hC (h ++ a)
  cases l with
  | false =>
    obtain ⟨h1, h2⟩ := chunk_append C hC _ (h ++ a) b (Nat.le_refl _)
    rw [putFeeds_false C hC h (a ++ b) hh, putFeeds_false C hC _ b hr, ← List.append_assoc,
      h1, h2]
  | true =>
    have hne1 : chunkRest C (h ++ a) ++ b ≠ [] := by
      intro hcon
      obtain ⟨e1, e2⟩ := List.append_eq_nil.mp hcon
      rcases hl rfl with hb | hb
      · rw [e2] at hb
        exact absurd hb (by simp)
      · simp only [] at hb
        rw [e1] at hb
        exact absurd hb (by simp)
    have hne0 : h ++ (a ++ b) ≠ [] := by
      intro hcon
      obtain ⟨e1, e2⟩ := List.append_eq_nil.mp hcon
      obtain ⟨e3, e4⟩ := List.append_eq_nil.mp e2
      rw [e1, e3, e4, List.append_nil, List.append_nil, chunkRest_of_lt C [] hC] at hne1
      exact hne1 rfl
    rw [putFeeds_true C hC h (a ++ b) hh hne0, putFeeds_true C hC _ b hr hne1,
      ← List.append_assoc, final_append C hC _ (h ++ a) b (Nat.le_refl _) hne1]

theorem Compressor.eq_of_dropHeld {e e' : Compressor} (h1 : e.dropHeld = e'.dropHeld)
    (h2 : e.currentInputBuffer = e'.currentInputBuffer) : e = e' := by
  cases e
  cases e'
  simp only [Compressor.dropHeld, Compressor.mk.injEq] at h1 h2 ⊢
  simp only [h1, h2, and_self]

theorem Compressor.accept_accept (c : Compressor) (m n : Nat) :
    ((c.accept m).accept n).totalInputSize = (c.accept (m + n)).totalInputSize := by
  unfold Compressor.accept
  by_cases hm : 0 < m
  · by_cases hn : 0 < n
    · simp only [hm, hn, if_true, show 0 < m + n by omega]
      unfold u64
      omega
    · have : n = 0 := by omega
      subst this
      simp [hm]
  · have : m = 0 := by omega
    subst this
    simp

/-- Two consecutive `Put` calls, the first without `isLast`, have the effect
of one `Put` of the concatenated bytes, unless the second is an empty `Put`
with `isLast` that finds nothing held. -/
theorem Compressor.Put_merge (lib : Lib) (c : Compressor) (a b : List Nat) (l : Bool)
    (hr : Ready c)
    (hl : l = true → 0 < b.length ∨
      0 < (putFeeds c.inputChunkSize c.currentInputBuffer a false).2.length) :
    (c.Put lib a false).andThen (fun d => d.Put lib b l) = c.Put lib (a ++ b) l := by
  obtain ⟨d, hd, hfa1, hh1, _, hopen1⟩ := Compressor.Put_ready lib c a false hr
  obtain ⟨ho1, hrd⟩ := hopen1 (fun hh => absurd hh.1 (by decide))
  obtain ⟨e, he, hfa2, hh2, _, _⟩ := Compressor.Put_ready lib d b l hrd
  obtain ⟨e', he', hfa3, hh3, _, _⟩ := Compressor.Put_ready lib c (a ++ b) l hr
  have hC : d.inputChunkSize = c.inputChunkSize := by
    have := hfa1.chunk_all
    rw [Compressor.accept_eq] at this
    exact this
  have hP := putFeeds_append c.inputChunkSize hr.1.2.2.1 c.currentInputBuffer a b l hr.2 hl
  rw [hC, hh1] at hfa2 hh2
  rw [hP] at hfa3 hh3
  have htot : d.totalInputSize = (c.accept a.length).totalInputSize := by
    have := hfa1.total_all
    exact this
  have hT : (d.accept b.length).totalInputSize = (c.accept (a ++ b).length).totalInputSize := by
    rw [List.length_append, ← Compressor.accept_accept]
    unfold Compressor.accept
    split <;> simp [htot, Compressor.accept]
  have hs1 := hfa1.setTotal_all ho1 (c.accept (a ++ b).length).totalInputSize
  have e1 : ((c.accept a.length).dropHeld).withTotal (c.accept (a ++ b).length).totalInputSize
      = (c.accept (a ++ b).length).dropHeld := by
    rw [Compressor.accept_eq c a.length, Compressor.accept_eq c (a ++ b).length]
    rfl
  have e2 : (d.dropHeld).withTotal (c.accept (a ++ b).length).totalInputSize
      = (d.accept b.length).dropHeld := by
    rw [Compressor.accept_eq d b.length, hT]
    rfl
  rw [e1, e2] at hs1
  have huniq := FedAll.unique (hs1.concat hfa2) hfa3
  have hee : e = e' := Compressor.eq_of_dropHeld huniq (hh2.trans hh3.symm)
  rw [hd, Outcome.andThen_ok, he, he', hee]

/-! ## Splitting the input over several `Put` calls -/

theorem Compressor.Put_nil_false (lib : Lib) (c : Compressor) :
    c.Put lib [] false = Outcome.ok c := by
  simp [Compressor.Put]

theorem run_putsOf_merge (lib : Lib) (pieces : List (List Nat)) : ∀ c : Compressor, Ready c →
    run lib (Outcome.ok c) (putsOf pieces) = c.Put lib pieces.flatten false := by
  induction pieces with
  | nil =>
    intro c _
    rw [List.flatten_nil, Compressor.Put_nil_false]
    rfl
  | cons p ps ih =>
    intro c hr
    obtain ⟨d, hd, _, _, _, hopen⟩ := Compressor.Put_ready lib c p false hr
    have hrd : Ready d := (hopen (fun hh => absurd hh.1 (by decide))).2
    have hm := Compressor.Put_merge lib c p ps.flatten false hr (fun hh => absurd hh (by decide))
    rw [hd, Outcome.andThen_ok] at hm
    show run lib (c.Put lib p false) (putsOf ps) = _
    rw [hd, ih d hrd, List.flatten_cons, hm]

/-- C4 as stated fails: on a zstd compressor with chunk capacity 4, the split
`Put([1,2,3,4], 4, false); Put(empty, 0, true)` hands the codec the chunk
without the end-of-stream flag, writes nothing to the file and leaves the
stream open, and after `Close` the file holds the output of two invocations;
the single `Put([1,2,3,4], 4, true)` hands the codec the chunk with the flag
and the file holds the output of that one invocation, before and after
`Close`. -/
theorem empty_last_put_changes_the_file :
    (run demoLib (Compressor.new demoLib "out.zst" Format.ZStd Mode.Write true demoWorld)
        (putsOf [[1, 2, 3, 4]] ++ [Op.put [] true])).lift
        (fun c => (c.fed, c.sink.file, c.bEndOfStream))
      = Outcome.ok ([([1, 2, 3, 4], false)], some [], false) ∧
    (run demoLib (Compressor.new demoLib "out.zst" Format.ZStd Mode.Write true demoWorld)
        [Op.put ([[1, 2, 3, 4]].flatten ++ []) true]).lift
        (fun c => (c.fed, c.sink.file, c.bEndOfStream))
      = Outcome.ok ([([1, 2, 3, 4], true)], some [4, 1, 1, 2, 3, 4], true) ∧
    (run demoLib (Compressor.new demoLib "out.zst" Format.ZStd Mode.Write true demoWorld)
        (putsOf [[1, 2, 3, 4]] ++ [Op.put [] true] ++ [Op.close])).lift
        (fun c => (c.fed, c.sink.file))
      = Outcome.ok ([([1, 2, 3, 4], false), ([], true)], some [4, 0, 1, 2, 3, 4, 0, 1]) ∧
    (run demoLib (Compressor.new demoLib "out.zst" Format.ZStd Mode.Write true demoWorld)
        ([Op.put ([[1, 2, 3, 4]].flatten ++ []) true] ++ [Op.close])).lift
        (fun c => (c.fed, c.sink.file))
      = Outcome.ok ([([1, 2, 3, 4], true)], some [4, 1, 1, 2, 3, 4]) := by
  refine ⟨?_, ?_, ?_, ?_⟩ <;> decide

/-- C4, amended: on a successfully opened compressor, for every input and
every way of splitting it into `Put` calls without `isLast` followed by a last
`Put` with `isLast`, provided the last `Put` is not an empty one that finds
nothing held (it carries bytes, or the bytes before it are not a whole number
of chunks), the calls end in the same state as the single `Put` of the whole
input with `isLast`: the same file bytes, the same written ranges and the same
codec invocations, which are the full chunks of the input in order followed
by its leftover partial chunk, the last of them flagged as the end of the
stream. -/
theorem split_puts_equal_single_put (lib : Lib) (outfile : String) (format : Format)
    (mode : Mode) (genMD5 : Bool) (w : World) (h : Opens lib outfile mode w)
    (pieces : List (List Nat)) (last : List Nat)
    (hl : 0 < last.length ∨ pieces.flatten.length % chunkCapacity lib format ≠ 0) :
    run lib (Compressor.new lib outfile format mode genMD5 w)
        (putsOf pieces ++ [Op.put last true])
      = run lib (Compressor.new lib outfile format mode genMD5 w)
        [Op.put (pieces.flatten ++ last) true] ∧
    ∃ d, run lib (Compressor.new lib outfile format mode genMD5 w)
        [Op.put (pieces.flatten ++ last) true] = Outcome.ok d ∧
      d.bEndOfStream = true ∧
      d.fed = finalFeeds (chunkCapacity lib format) (pieces.flatten ++ last) := by
  obtain ⟨c, hc, _, hr, _, _, hfed, hheld, _, _, _, hchunk⟩ :=
    Compressor.new_ok lib outfile format mode genMD5 w h
  have hcap : c.inputChunkSize = chunkCapacity lib format := hchunk
  have hC : 0 < chunkCapacity lib format := hcap ▸ hr.1.2.2.1
  rw [hc]
  have hrest : (putFeeds c.inputChunkSize c.currentInputBuffer pieces.flatten false).2.length
      = pieces.flatten.length % chunkCapacity lib format := by
    rw [hcap, hheld, putFeeds_false _ hC [] _ (by simpa using hC)]
    exact chunkRest_length _ hC _ _ (Nat.le_refl _)
  have hS : 0 < (pieces.flatten ++ last).length := by
    rw [List.length_append]
    rcases hl with h1 | h1
    · omega
    · have : pieces.flatten.length ≠ 0 := fun h0 => h1 (by rw [h0]; simp)
      omega
  constructor
  · have hm := Compressor.Put_merge lib c pieces.flatten last true hr (fun _ => by
      rcases hl with h1 | h1
      · exact Or.inl h1
      · right
        rw [hrest]
        omega)
    rw [run_append, run_putsOf_merge lib pieces c hr]
    exact hm
  · obtain ⟨d, hd, hfa, _, hfin, _⟩ :=
      Compressor.Put_ready lib c (pieces.flatten ++ last) true hr
    refine ⟨d, hd, (hfin ⟨rfl, Or.inl hS⟩).2.1, ?_⟩
    have hlog := hfa.log_all
    rw [hcap, hheld, putFeeds_true _ hC [] _ (by simpa using hC)
      (by simpa using List.length_pos.mp hS), Compressor.accept_eq] at hlog
    have hlog' : d.fed = c.fed ++ finalFeeds (chunkCapacity lib format)
        ([] ++ (pieces.flatten ++ last)) := hlog
    rw [hlog', hfed]
    rfl

theorem split_puts_equal_single_put_witness :
    Opens demoLib "out.zst" Mode.Write demoWorld ∧
    (0 < ([] : List Nat).length ∨
      [[1, 2, 3, 4, 5], [6]].flatten.length % chunkCapacity demoLib Format.ZStd ≠ 0) ∧
    (run demoLib (Compressor.new demoLib "out.zst" Format.ZStd Mode.Write true demoWorld)
        (putsOf [[1, 2, 3, 4, 5], [6]] ++ [Op.put [] true])
      = run demoLib (Compressor.new demoLib "out.zst" Format.ZStd Mode.Write true demoWorld)
        [Op.put ([[1, 2, 3, 4, 5], [6]].flatten ++ []) true] ∧
    ∃ d, run demoLib (Compressor.new demoLib "out.zst" Format.ZStd Mode.Write true demoWorld)
        [Op.put ([[1, 2, 3, 4, 5], [6]].flatten ++ []) true] = Outcome.ok d ∧
      d.bEndOfStream = true ∧
      d.fed = finalFeeds (chunkCapacity demoLib Format.ZStd)
        ([[1, 2, 3, 4, 5], [6]].flatten ++ [])) :=
  ⟨by decide, by decide,
    split_puts_equal_single_put demoLib "out.zst" Format.ZStd Mode.Write true demoWorld
      (by decide) [[1, 2, 3, 4, 5], [6]] [] (by decide)⟩

/-! ## Idempotence of `Final` and `Close` -/

/-- C11 (Final is idempotent): for every hasher state, `Final()` leaves the
`_finished` flag set, and a second `Final()` right after it returns at its
first test with every member (digest bytes, state words, bit count, buffer,
flag) as the first call left it, so no padding is processed again. -/
theorem md5_final_twice (m : MD5) :
    m.Final._finished = true ∧ m.Final.Final = m.Final ∧
      ∀ m' : MD5, m'._finished = true → m'.Final = m' := by
  have hret : ∀ m' : MD5, m'._finished = true → m'.Final = m' := by
    intro m' h'
    unfold MD5.Final
    rw [if_pos h']
  have hfin : m.Final._finished = true := by
    unfold MD5.Final
    split
    · assumption
    · rfl
  exact ⟨hfin, hret _ hfin, hret⟩

theorem Outcome.andThen_eq_ok {α : Type} {o : Outcome α} {f : α → Outcome α} {b : α}
    (h : o.andThen f = Outcome.ok b) : ∃ a, o = Outcome.ok a ∧ f a = Outcome.ok b := by
  cases o with
  | ok a => exact ⟨a, rfl, h⟩
  | raise m a => cases h
  | hang => cases h
  | fault => cases h

theorem Outcome.lift_eq_ok {α β : Type} {o : Outcome α} {g : α → β} {b : β}
    (h : o.lift g = Outcome.ok b) : ∃ a, o = Outcome.ok a ∧ g a = b := by
  cases o with
  | ok a =>
    cases h
    exact ⟨a, rfl, rfl⟩
  | raise m a => cases h
  | hang => cases h
  | fault => cases h

theorem Compressor.release_closed (c : Compressor) : c.release.bClosed = true := by
  obtain ⟨s, n, he, _⟩ := Compressor.release_eq c
  rw [he]

theorem Compressor.Close_closed (lib : Lib) (c d : Compressor)
    (h : c.Close lib = Outcome.ok d) : d.bClosed = true := by
  unfold Compressor.Close at h
  split at h
  · cases h
    assumption
  · obtain ⟨a, _, ha⟩ := Outcome.andThen_eq_ok h
    cases ha
    exact Compressor.release_closed a

/-- C12 (Close is idempotent): whenever `Close()` returns, `bClosed` is set,
and a second `Close()` right after it returns at its first test with the
state exactly as the first call left it: no member changes, and the logs of
codec invocations, written ranges and file deletions do not grow. The first
`Close()` does return on a compressor that is ready, finalised, already
closed or bound to no file. -/
theorem close_twice (lib : Lib) (c : Compressor) :
    (∀ d, c.Close lib = Outcome.ok d → d.bClosed = true ∧ d.Close lib = Outcome.ok d) ∧
      (Ready c ∨ Finished c ∨ c.bClosed = true ∨ c.sink.fHandle = Handle.null →
        ∃ d, c.Close lib = Outcome.ok d) := by
  constructor
  · intro d h
    have hc := Compressor.Close_closed lib c d h
    refine ⟨hc, ?_⟩
    unfold Compressor.Close
    rw [if_pos hc]
  · rintro (hr | hf | hb | hn)
    · obtain ⟨d, _, _, hcl⟩ := Compressor.Close_ready lib c hr
      exact ⟨_, hcl⟩
    · rcases Compressor.Close_finished lib c hf with ⟨h1, _⟩ | h1 | h1
      · exact ⟨_, h1⟩
      · exact ⟨_, h1⟩
      · exact ⟨_, h1⟩
    · refine ⟨c, ?_⟩
      unfold Compressor.Close
      rw [if_pos hb]
    · by_cases hb : c.bClosed = true
      · refine ⟨c, ?_⟩
        unfold Compressor.Close
        rw [if_pos hb]
      · refine ⟨c.release, ?_⟩
        unfold Compressor.Close
        rw [if_neg hb]
        simp only [hn, ne_eq, not_true_eq_false, if_false]
        rfl

theorem close_twice_witness :
    demoOpen.Close demoLib = Outcome.ok demoClosed ∧ Ready demoOpen ∧
    ((∀ d, demoOpen.Close demoLib = Outcome.ok d →
        d.bClosed = true ∧ d.Close demoLib = Outcome.ok d) ∧
      (Ready demoOpen ∨ Finished demoOpen ∨ demoOpen.bClosed = true ∨
          demoOpen.sink.fHandle = Handle.null → ∃ d, demoOpen.Close demoLib = Outcome.ok d)) :=
  ⟨by decide, by decide, close_twice demoLib demoOpen⟩

/-! ## The chunks of a `Put` -/

theorem chunkFeeds_length (C : Nat) (hC : 0 < C) (l : Bool) : ∀ (n : Nat) (xs : List Nat),
    xs.length ≤ n → (chunkFeeds C l xs).length = xs.length / C := by
  intro n
  induction n with
  | zero =>
    intro xs hn
    have : xs = [] := List.length_eq_zero.mp (Nat.le_zero.mp hn)
    subst this
    rw [chunkFeeds_of_lt C l [] hC]
    simp
  | succ n ih =>
    intro xs hn
    by_cases hge : C ≤ xs.length
    · rw [chunkFeeds_of_ge C hC l xs hge, List.length_cons,
        ih (xs.drop C) (by rw [List.length_drop]; omega), List.length_drop]
      exact (Nat.div_eq_sub_div hC hge).symm
    · rw [chunkFeeds_of_lt C l xs (by omega)]
      exact (Nat.div_eq_of_lt (by omega)).symm

theorem chunkFeeds_mem (C : Nat) (hC : 0 < C) : ∀ (n : Nat) (xs : List Nat),
    xs.length ≤ n → ∀ f ∈ chunkFeeds C false xs, f.1.length = C ∧ f.2 = false := by
  intro n
  induction n with
  | zero =>
    intro xs hn f hf
    have : xs = [] := List.length_eq_zero.mp (Nat.le_zero.mp hn)
    subst this
    rw [chunkFeeds_of_lt C false [] hC] at hf
    cases hf
  | succ n ih =>
    intro xs hn f hf
    by_cases hge : C ≤ xs.length
    · rw [chunkFeeds_of_ge C hC false xs hge] at hf
      rcases List.mem_cons.mp hf with h1 | h1
      · subst h1
        exact ⟨by rw [List.length_take]; omega, rfl⟩
      · exact ih (xs.drop C) (by rw [List.length_drop]; omega) f h1
    · rw [chunkFeeds_of_lt C false xs (by omega)] at hf
      cases hf

theorem chunkRest_eq_drop (C : Nat) (hC : 0 < C) : ∀ (n : Nat) (xs : List Nat),
    xs.length ≤ n → chunkRest C xs = xs.drop (xs.length - xs.length % C) := by
  intro n
  induction n with
  | zero =>
    intro xs hn
    have : xs = [] := List.length_eq_zero.mp (Nat.le_zero.mp hn)
    subst this
    rw [chunkRest_of_lt C [] hC]
    rfl
  | succ n ih =>
    intro xs hn
    by_cases hge : C ≤ xs.length
    · have hm : xs.length % C = (xs.length - C) % C := Nat.mod_eq_sub_mod hge
      have hle : (xs.length - C) % C ≤ xs.length - C := Nat.mod_le _ _
      rw [chunkRest_of_ge C hC xs hge, ih (xs.drop C) (by rw [List.length_drop]; omega),
        List.length_drop, List.drop_drop, hm]
      congr 1
      omega
    · rw [chunkRest_of_lt C xs (by omega), Nat.mod_eq_of_lt (by omega), Nat.sub_self]
      rfl

/-- C15 (chunking of a non-final Put): on a successfully opened compressor
that is not finalised, with chunk capacity `C` and `h < C` bytes held,
`Put(data, size, false)`, with `size > 0` or not, returns having handed the codec
exactly `(h + size) / C` chunks, each of exactly `C` bytes and none flagged as
the end of the stream, which are the held bytes followed by the input cut
from the front, and it holds afterwards the last `(h + size) mod C` bytes of
the held bytes followed by the input. -/
theorem put_hands_over_full_chunks (lib : Lib) (c : Compressor) (data : List Nat)
    (hr : Ready c) :
    ∃ d chunks, c.Put lib data false = Outcome.ok d ∧ d.fed = c.fed ++ chunks ∧
      chunks.length = (c.currentInputBuffer.length + data.length) / c.inputChunkSize ∧
      (∀ f ∈ chunks, f.1.length = c.inputChunkSize ∧ f.2 = false) ∧
      feedBytes chunks ++ d.currentInputBuffer = c.currentInputBuffer ++ data ∧
      d.currentInputBuffer.length
        = (c.currentInputBuffer.length + data.length) % c.inputChunkSize ∧
      d.currentInputBuffer = (c.currentInputBuffer ++ data).drop
        ((c.currentInputBuffer ++ data).length
          - (c.currentInputBuffer.length + data.length) % c.inputChunkSize) ∧
      d.bEndOfStream = false := by
  have hC : 0 < c.inputChunkSize := hr.1.2.2.1
  obtain ⟨d, hput, hfa, hheld, _, hopen⟩ := Compressor.Put_ready lib c data false hr
  have hrd : Ready d := (hopen (fun hh => absurd hh.1 (by decide))).2
  rw [putFeeds_false _ hC _ _ hr.2] at hfa hheld
  have hlog : d.fed = c.fed ++ chunkFeeds c.inputChunkSize false (c.currentInputBuffer ++ data) := by
    have := hfa.log_all
    rw [Compressor.accept_eq] at this
    exact this
  refine ⟨d, _, hput, hlog, ?_, chunkFeeds_mem _ hC _ _ (Nat.le_refl _), ?_, ?_, ?_,
    hrd.1.2.2.2.2.2.2.1⟩
  · rw [chunkFeeds_length _ hC false _ _ (Nat.le_refl _), List.length_append]
  · rw [hheld]
    exact slice_bytes _ _ _ _
  · rw [hheld, chunkRest_length _ hC _ _ (Nat.le_refl _), List.length_append]
  · rw [hheld, chunkRest_eq_drop _ hC _ _ (Nat.le_refl _), List.length_append]

theorem put_hands_over_full_chunks_witness :
    Ready demoOpen ∧
    ∃ d chunks, demoOpen.Put demoLib [1, 2, 3, 4, 5, 6, 7, 8, 9] false = Outcome.ok d ∧
      d.fed = demoOpen.fed ++ chunks ∧
      chunks.length = (demoOpen.currentInputBuffer.length + [1, 2, 3, 4, 5, 6, 7, 8, 9].length)
        / demoOpen.inputChunkSize ∧
      (∀ f ∈ chunks, f.1.length = demoOpen.inputChunkSize ∧ f.2 = false) ∧
      feedBytes chunks ++ d.currentInputBuffer
        = demoOpen.currentInputBuffer ++ [1, 2, 3, 4, 5, 6, 7, 8, 9] ∧
      d.currentInputBuffer.length
        = (demoOpen.currentInputBuffer.length + [1, 2, 3, 4, 5, 6, 7, 8, 9].length)
          % demoOpen.inputChunkSize ∧
      d.currentInputBuffer = (demoOpen.currentInputBuffer ++ [1, 2, 3, 4, 5, 6, 7, 8, 9]).drop
        ((demoOpen.currentInputBuffer ++ [1, 2, 3, 4, 5, 6, 7, 8, 9]).length
          - (demoOpen.currentInputBuffer.length + [1, 2, 3, 4, 5, 6, 7, 8, 9].length)
            % demoOpen.inputChunkSize) ∧
      d.bEndOfStream = false :=
  ⟨by decide,
    put_hands_over_full_chunks demoLib demoOpen [1, 2, 3, 4, 5, 6, 7, 8, 9] (by decide)⟩

/-- C16 (an empty last Put flushes the held bytes): on a successfully opened
compressor that is not finalised and holds at least one byte,
`Put(data, 0, true)` returns having handed the codec exactly one more chunk,
the held bytes, with the end-of-stream flag set; afterwards nothing is held,
`bEndOfStream` is set and `InputSize()` is what it was. -/
theorem empty_last_put_flushes_held (lib : Lib) (c : Compressor) (hr : Ready c)
    (hh : 0 < c.currentInputBuffer.length) :
    ∃ d, c.Put lib [] true = Outcome.ok d ∧
      d.fed = c.fed ++ [(c.currentInputBuffer, true)] ∧ d.currentInputBuffer = [] ∧
      d.bEndOfStream = true ∧ d.InputSize = c.InputSize := by
  obtain ⟨d, hput, hfa, hheld, hfin, _⟩ := Compressor.Put_ready lib c [] true hr
  have hpf : putFeeds c.inputChunkSize c.currentInputBuffer [] true
      = ([(c.currentInputBuffer, true)], []) := by
    simp [putFeeds, hh]
  rw [hpf] at hfa hheld
  refine ⟨d, hput, ?_, hheld, (hfin ⟨rfl, Or.inr hh⟩).2.1, ?_⟩
  · have := hfa.log_all
    rw [Compressor.accept_eq] at this
    exact this
  · have := hfa.total_all
    exact this

theorem empty_last_put_flushes_held_witness :
    Ready ((demoOpen.Put demoLib [1, 2] false).stateOr demoOpen) ∧
    0 < ((demoOpen.Put demoLib [1, 2] false).stateOr demoOpen).currentInputBuffer.length ∧
    ∃ d, ((demoOpen.Put demoLib [1, 2] false).stateOr demoOpen).Put demoLib [] true
        = Outcome.ok d ∧
      d.fed = ((demoOpen.Put demoLib [1, 2] false).stateOr demoOpen).fed ++
        [(((demoOpen.Put demoLib [1, 2] false).stateOr demoOpen).currentInputBuffer, true)] ∧
      d.currentInputBuffer = [] ∧ d.bEndOfStream = true ∧
      d.InputSize = ((demoOpen.Put demoLib [1, 2] false).stateOr demoOpen).InputSize :=
  ⟨by decide, by decide,
    empty_last_put_flushes_held demoLib
      ((demoOpen.Put demoLib [1, 2] false).stateOr demoOpen) (by decide) (by decide)⟩

/-! ## `Close` on a compressor that is not finalised -/

/-- With bytes held, the final invocation on the held bytes and `_EndAndWrite`
are the same computation. -/
theorem Compressor.compressAndWrite_held_eq_end (lib : Lib) (c : Compressor)
    (he : c.bEndOfStream = false) (h0 : 0 < c.currentInputBuffer.length)
    (hle : c.currentInputBuffer.length ≤ c.inputChunkSize) :
    c._CompressAndWrite lib c.currentInputBuffer true = c._EndAndWrite lib := by
  have hne : c.currentInputBuffer.length ≠ 0 := by omega
  unfold Compressor._CompressAndWrite Compressor._EndAndWrite
  cases hf : c.cFormat with
  | GZip =>
    simp only []
    unfold Compressor._CompressAndWriteGZIP Compressor._EndAndWriteGZIP
    cases hfl : c.sink.flushIfFull with
    | ok t =>
      simp [he, hle, hne, h0, Compressor.withSink, Compressor.currentInputSize]
    | raise m t => simp [he]
    | hang => simp [he]
    | fault => simp [he]
  | ZStd =>
    simp only []
    unfold Compressor._CompressAndWriteZSTD Compressor._EndAndWriteZSTD
    cases hfl : c.sink.flushIfFull with
    | ok t =>
      simp [he, hle, hne, Compressor.withSink]
    | raise m t => simp [he]
    | hang => simp [he]
    | fault => simp [he]

theorem Compressor.Close_of_finalised (lib : Lib) (c : Compressor) (hc : c.bClosed = false)
    (hh : c.sink.fHandle ≠ Handle.null) (he : c.bEndOfStream = true) :
    c.Close lib = Outcome.ok c.closeHandle.release := by
  unfold Compressor.Close
  simp [hc, hh, he]

theorem Compressor.release_dropHeld (c : Compressor) :
    c.dropHeld.closeHandle.release = c.closeHandle.release := by
  unfold Compressor.release
  simp only [Compressor.dropHeld, Compressor.closeHandle]
  split <;> rfl

/-- C14 (Close finalises as a last Put would): on a successfully opened
compressor that is not finalised, whether it holds bytes or not, `Close()`
has exactly the outcome of `Put(data, 0, true)` followed by `Close()`: it
returns, in the same state, so with the same codec invocations, the same
ranges written to the file and the same digest state; the codec receives
exactly one more invocation, the held bytes (possibly none) flagged as the
end of the stream, and for gzip the trailer is appended after it. -/
theorem close_is_last_put_then_close (lib : Lib) (c : Compressor) (hr : Ready c) :
    (c.Put lib [] true).andThen (fun d => d.Close lib) = c.Close lib ∧
      ∃ e, c.Close lib = Outcome.ok e ∧ e.fed = c.fed ++ [(c.currentInputBuffer, true)] ∧
        e.trailers = (if c.cFormat = Format.GZip then c.trailers + 1 else c.trailers) ∧
        e.bEndOfStream = true := by
  obtain ⟨d, hend, hfed, hcl⟩ := Compressor.Close_ready lib c hr
  have hlog : d.closeHandle.release.fed = c.fed ++ [(c.currentInputBuffer, true)] := by
    obtain ⟨s, n, hrel, _⟩ := Compressor.release_eq d.closeHandle
    rw [hrel]
    exact hfed.log
  have htr : d.closeHandle.release.trailers
      = (if c.cFormat = Format.GZip then c.trailers + 1 else c.trailers) := by
    obtain ⟨s, n, hrel, _⟩ := Compressor.release_eq d.closeHandle
    rw [hrel]
    have := hfed.trailers
    simpa using this
  have heos : d.closeHandle.release.bEndOfStream = true := by
    obtain ⟨s, n, hrel, _⟩ := Compressor.release_eq d.closeHandle
    rw [hrel]
    exact hfed.eos
  refine ⟨?_, _, hcl, hlog, htr, heos⟩
  by_cases h0 : 0 < c.currentInputBuffer.length
  · have hput : c.Put lib [] true
        = (c._CompressAndWrite lib c.currentInputBuffer true).lift Compressor.dropHeld := by
      unfold Compressor.Put
      simp [Compressor.currentInputSize, h0]
    rw [hput, Compressor.compressAndWrite_held_eq_end lib c hr.1.2.2.2.2.2.2.1 h0
      (Nat.le_of_lt hr.2), hend, Outcome.lift_ok, Outcome.andThen_ok, hcl]
    have hc : d.dropHeld.bClosed = false := by
      show d.bClosed = false
      rw [hfed.closed]
      exact hr.1.2.2.2.2.2.2.2
    have hh : d.dropHeld.sink.fHandle ≠ Handle.null := by
      show d.sink.fHandle ≠ Handle.null
      obtain ⟨out, hext⟩ := hfed.sinkExt
      rw [hext.1, hr.1.1.1]
      decide
    have he : d.dropHeld.bEndOfStream = true := hfed.eos
    rw [Compressor.Close_of_finalised lib _ hc hh he, Compressor.release_dropHeld]
  · have hput : c.Put lib [] true = Outcome.ok c := by
      unfold Compressor.Put
      simp [Compressor.currentInputSize, h0]
    rw [hput, Outcome.andThen_ok]

theorem close_is_last_put_then_close_witness :
    Ready ((demoOpen.Put demoLib [1, 2] false).stateOr demoOpen) ∧
    ((((demoOpen.Put demoLib [1, 2] false).stateOr demoOpen).Put demoLib [] true).andThen
        (fun d => d.Close demoLib)
      = ((demoOpen.Put demoLib [1, 2] false).stateOr demoOpen).Close demoLib ∧
      ∃ e, ((demoOpen.Put demoLib [1, 2] false).stateOr demoOpen).Close demoLib
          = Outcome.ok e ∧
        e.fed = ((demoOpen.Put demoLib [1, 2] false).stateOr demoOpen).fed ++
          [(((demoOpen.Put demoLib [1, 2] false).stateOr demoOpen).currentInputBuffer, true)] ∧
        e.trailers = (if ((demoOpen.Put demoLib [1, 2] false).stateOr demoOpen).cFormat
            = Format.GZip
          then ((demoOpen.Put demoLib [1, 2] false).stateOr demoOpen).trailers + 1
          else ((demoOpen.Put demoLib [1, 2] false).stateOr demoOpen).trailers) ∧
        e.bEndOfStream = true) :=
  ⟨by decide, close_is_last_put_then_close demoLib
    ((demoOpen.Put demoLib [1, 2] false).stateOr demoOpen) (by decide)⟩

/-! ## Deletion of the file of an empty stream -/

theorem Fed.deleted_eq {c d : Compressor} {x : List Nat} {l : Bool} (h : Fed c d x l) :
    d.deleted = c.deleted := by
  obtain ⟨ig, zs, t, out, rfl, _⟩ := h; rfl

theorem FedAll.deleted_all {lib : Lib} {c d : Compressor} {fs : List Feed}
    (h : FedAll lib c fs d) : d.deleted = c.deleted := by
  induction h with
  | nil c => rfl
  | cons hf _ ih => rw [ih, hf.2.deleted_eq]

theorem Compressor.release_deletes (c : Compressor) (h1 : c.fName ≠ "")
    (h2 : c.sink.fMode = Mode.Write ∨ c.sink.fMode = Mode.Append) (h3 : c.totalInputSize = 0) :
    c.release.sink.file = none ∧ c.release.sink.fSize = 0 ∧
      c.release.deleted = c.deleted + 1 ∧ c.release.totalInputSize = 0 ∧
      c.release.sink.fMode = c.sink.fMode := by
  unfold Compressor.release
  simp [h1, h2, h3]

theorem Compressor.release_keeps (c : Compressor) (h3 : c.totalInputSize ≠ 0) :
    c.release.sink.file = c.sink.file ∧ c.release.deleted = c.deleted := by
  unfold Compressor.release
  simp [h3]

theorem Bound.of_fedAll {lib : Lib} {o : String} {m : Mode} {c d : Compressor}
    {fs : List Feed} (hb : Bound o m c) (h : FedAll lib c fs d) : Bound o m d := by
  obtain ⟨out, he⟩ := h.sinkExt_all
  obtain ⟨b1, b2, b3, b4, b5, b6⟩ := hb
  exact ⟨h.name_all.trans b1, he.2.1.trans b2, he.1.trans b3, he.2.2.2.2.2.2 b4,
    h.closed_all.trans b5, h.deleted_all.trans b6⟩

theorem Bound.put_bound {lib : Lib} {o : String} {m : Mode} {S : List Nat} {c d : Compressor}
    {data : List Nat} {l : Bool} (hb : Bound o m c) (hi : Inv S c)
    (hd : c.Put lib data l = Outcome.ok d) :
    Bound o m d ∧ (data = [] → d.totalInputSize = c.totalInputSize) := by
  rcases hi.1 with hr | hfin
  · obtain ⟨d', hd', hfa, _⟩ := Compressor.Put_ready lib c data l hr
    rw [hd] at hd'
    cases hd'
    have hb0 : Bound o m (c.accept data.length).dropHeld := by
      rw [Compressor.accept_eq]
      exact hb
    have hbd : Bound o m d.dropHeld := hb0.of_fedAll hfa
    refine ⟨hbd, fun he => ?_⟩
    subst he
    exact hfa.total_all
  · by_cases hd0 : 0 < data.length
    · have := (Compressor.Put_finished lib c data l hfin).1 hd0
      rw [this] at hd
      cases hd
    · have := (Compressor.Put_finished lib c data l hfin).2 (by omega)
      rw [this] at hd
      cases hd
      exact ⟨hb, fun _ => rfl⟩

theorem Bound.over_puts (lib : Lib) (o : String) (m : Mode) (ops : List Op) :
    ∀ (S : List Nat) (c : Compressor), (∀ op ∈ ops, op ≠ Op.close) → Inv S c → Bound o m c →
      ∃ d T, runCaught lib (Outcome.ok c) ops = Outcome.ok d ∧ Inv T d ∧ Bound o m d ∧
        (inputOf ops = [] → d.totalInputSize = c.totalInputSize) := by
  induction ops with
  | nil =>
    intro S c _ hi hb
    exact ⟨c, S, rfl, hi, hb, fun _ => rfl⟩
  | cons op ops ih =>
    intro S c hp hi hb
    have hp' : ∀ op' ∈ ops, op' ≠ Op.close := fun op' h' => hp op' (List.mem_cons_of_mem _ h')
    rw [runCaught_ok_cons]
    cases op with
    | put data l =>
      rcases hi.put lib data l with ⟨d, hd, hid, _⟩ | ⟨hraise, _, hpos⟩
      · obtain ⟨hbd, htot⟩ := hb.put_bound hi hd
        obtain ⟨e, T, he, hie, hbe, hte⟩ := ih _ d hp' hid hbd
        refine ⟨e, T, ?_, hie, hbe, fun hin => ?_⟩
        · show runCaught lib ((c.Put lib data l).caught) ops = _
          rw [hd]
          exact he
        · obtain ⟨h1, h2⟩ := List.append_eq_nil.mp (show data ++ inputOf ops = [] from hin)
          rw [hte h2, htot h1]
      · obtain ⟨e, T, he, hie, hbe, hte⟩ := ih _ c hp' hi hb
        refine ⟨e, T, ?_, hie, hbe, fun hin => ?_⟩
        · show runCaught lib ((c.Put lib data l).caught) ops = _
          rw [hraise]
          exact he
        · obtain ⟨h1, _⟩ := List.append_eq_nil.mp (show data ++ inputOf ops = [] from hin)
          rw [h1] at hpos
          exact absurd hpos (by simp)
    | close => exact absurd rfl (hp Op.close (List.mem_cons_self _ _))

theorem isSome_ite_some {α : Type} (b : Prop) [Decidable b] (x : α) (o : Option α)
    (h : o.isSome = true) : (if b then some x else o).isSome = true := by
  split
  · rfl
  · exact h

theorem Sink.writeAndReset_file (s : Sink) (a f : Bool) :
    (s._WriteAndReset a f).Leaves fun t => s.file.isSome = true → t.file.isSome = true := by
  unfold Sink._WriteAndReset
  split
  · exact fun h => h
  · split
    · exact fun h => h
    · split
      · exact fun h => h
      · intro h
        refine isSome_ite_some _ _ _ ?_
        split <;> exact h

theorem Compressor.createFile_some (mode : Mode) (w : World)
    (h : (Compressor.CreateFileA mode w).1 = Handle.valid) :
    (Compressor.CreateFileA mode w).2.isSome = true := by
  revert h
  unfold Compressor.CreateFileA
  cases mode with
  | None =>
    simp only []
    split
    · rename_i hc
      intro _
      exact hc.2
    · intro h
      cases h
  | Write =>
    simp only []
    split
    · intro _
      rfl
    · intro h
      cases h
  | Append =>
    simp only []
    split
    · rename_i hc
      intro _
      exact hc.2
    · intro h
      cases h

theorem Compressor.setup_file (lib : Lib) (c : Compressor) (hd : c.deleted = 0)
    (hf : c.sink.file.isSome = true) :
    (Compressor.setup lib c).Leaves fun d => d.deleted = 0 ∧ d.sink.file.isSome = true := by
  unfold Compressor.setup
  split
  · simp only []
    refine Outcome.Leaves.andThen (Outcome.Leaves.lift ?_) fun a ha => ha
    exact (Sink.writeAndReset_file _ true false).mono fun t ht => ⟨hd, ht hf⟩
  · exact ⟨hd, hf⟩

/-- A successful constructor call leaves the compressor bound to its file. -/
theorem Compressor.new_bound (lib : Lib) (outfile : String) (format : Format) (mode : Mode)
    (genMD5 : Bool) (w : World) (h : Opens lib outfile mode w) (c : Compressor)
    (hc : Compressor.new lib outfile format mode genMD5 w = Outcome.ok c) :
    Bound outfile mode c := by
  obtain ⟨c', hc', _, hr, _, _, _, _, _, hname, hmode, _⟩ :=
    Compressor.new_ok lib outfile format mode genMD5 w h
  rw [hc] at hc'
  cases hc'
  obtain ⟨hne, hm, hopen, _, _⟩ := h
  have hnn : ¬ (mode = Mode.None ∨ outfile = "") := by
    rintro (h | h)
    · rcases hm with hm | hm <;> simp [hm] at h
    · exact hne h
  have hni : ¬ ((Compressor.CreateFileA mode w).1 = Handle.invalid) := by
    rw [hopen]; decide
  have hl : (Compressor.new lib outfile format mode genMD5 w).Leaves
      fun d => d.deleted = 0 ∧ d.sink.file.isSome = true := by
    unfold Compressor.new
    simp only [hnn, if_false, hni, hm, if_true]
    apply Compressor.setup_file
    · split <;> rfl
    · split <;> exact Compressor.createFile_some mode w hopen
  rw [hc] at hl
  exact ⟨hname, hmode, hr.1.1.1, hl.2, hr.1.2.2.2.2.2.2.2, hl.1⟩

theorem run_not_ok (lib : Lib) (ops : List Op) : ∀ (o : Outcome Compressor) (c : Compressor),
    run lib o ops = Outcome.ok c → ∃ a, o = Outcome.ok a := by
  induction ops with
  | nil => intro o c h; exact ⟨c, h⟩
  | cons op ops ih =>
    intro o c h
    obtain ⟨b, hb⟩ := ih _ c h
    obtain ⟨a, ha, _⟩ := Outcome.andThen_eq_ok hb
    exact ⟨a, ha⟩

theorem run_ok_runCaught (lib : Lib) (ops : List Op) :
    ∀ (o : Outcome Compressor) (c : Compressor),
      run lib o ops = Outcome.ok c → runCaught lib o ops = Outcome.ok c := by
  induction ops with
  | nil => intro o c h; exact h
  | cons op ops ih =>
    intro o c h
    have h' : run lib (o.andThen fun a => op.exec lib a) ops = Outcome.ok c := h
    obtain ⟨b, hb⟩ := run_not_ok lib ops _ c h'
    obtain ⟨a, ha, hab⟩ := Outcome.andThen_eq_ok hb
    show runCaught lib (o.andThen fun a => (op.exec lib a).caught) ops = _
    rw [ha, Outcome.andThen_ok, hab]
    rw [hb] at h'
    exact ih _ c h'

/-- The outcome of `Close` on a bound compressor: the file is deleted exactly
when no input was counted. -/
theorem Bound.close_bound (lib : Lib) {o : String} {m : Mode} {S : List Nat} {c : Compressor}
    (hb : Bound o m c) (hi : Inv S c) (hne : o ≠ "")
    (hm : m = Mode.Write ∨ m = Mode.Append) :
    ∃ d, c.Close lib = Outcome.ok d ∧
      (c.totalInputSize = 0 → d.sink.file = none ∧ d.sink.fSize = 0 ∧ d.deleted = 1) ∧
      (c.totalInputSize ≠ 0 → d.sink.file.isSome = true ∧ d.deleted = 0) := by
  obtain ⟨b1, b2, b3, b4, b5, b6⟩ := hb
  have key : ∀ x : Compressor, x.fName = o → x.sink.fMode = m →
      x.totalInputSize = c.totalInputSize → x.sink.file.isSome = true → x.deleted = 0 →
      (c.totalInputSize = 0 → x.release.sink.file = none ∧ x.release.sink.fSize = 0 ∧
        x.release.deleted = 1) ∧
      (c.totalInputSize ≠ 0 → x.release.sink.file.isSome = true ∧ x.release.deleted = 0) := by
    intro x x1 x2 x3 x4 x5
    constructor
    · intro h0
      obtain ⟨r1, r2, r3, _⟩ := Compressor.release_deletes x (by rw [x1]; exact hne)
        (by rw [x2]; exact hm) (by rw [x3]; exact h0)
      exact ⟨r1, r2, by rw [r3, x5]⟩
    · intro h0
      obtain ⟨r1, r2⟩ := Compressor.release_keeps x (by rw [x3]; exact h0)
      exact ⟨by rw [r1]; exact x4, by rw [r2]; exact x5⟩
  rcases hi.1 with hr | hfin
  · obtain ⟨d, _, hfed, hcl⟩ := Compressor.Close_ready lib c hr
    obtain ⟨out, hext⟩ := hfed.sinkExt
    exact ⟨_, hcl, key d.closeHandle (hfed.name.trans b1) (hext.2.1.trans b2) hfed.total
      (hext.2.2.2.2.2.2 b4) (hfed.deleted_eq.trans b6)⟩
  · have hcl := Compressor.Close_of_finalised lib c b5 (by rw [b3]; decide) hfin.1
    exact ⟨_, hcl, key c.closeHandle b1 b2 rfl b4 b6⟩

/-- C13 (empty-stream cleanup): on a compressor successfully opened in Write
or Append mode on a non-empty file name, after any sequence of `Put` calls,
exceptions caught, `Close()` returns; if `InputSize()` is 0 at that point, as
it is when the calls carried no byte, the file is deleted, so that it does
not exist afterwards, and the recorded file size is 0; if `InputSize()` is
not 0 the file is not deleted and exists afterwards. When no `Put` raised,
`InputSize()` is the number of bytes carried, modulo `2^64`. -/
theorem empty_stream_cleanup (lib : Lib) (outfile : String) (format : Format)
    (mode : Mode) (genMD5 : Bool) (w : World) (h : Opens lib outfile mode w) (ops : List Op)
    (hp : ∀ op ∈ ops, op ≠ Op.close) :
    ∃ c d, runCaught lib (Compressor.new lib outfile format mode genMD5 w) ops = Outcome.ok c ∧
      c.Close lib = Outcome.ok d ∧
      (c.InputSize = 0 → d.sink.file = none ∧ d.sink.fSize = 0 ∧ d.deleted = 1) ∧
      (c.InputSize ≠ 0 → d.sink.file.isSome = true ∧ d.deleted = 0) ∧
      (inputOf ops = [] → c.InputSize = 0) ∧
      (∀ c', run lib (Compressor.new lib outfile format mode genMD5 w) ops = Outcome.ok c' →
        c' = c ∧ c.InputSize = (inputOf ops).length % 2 ^ 64) := by
  obtain ⟨c0, hc0, hinv, _, _, _, _, _, htot, _⟩ :=
    Compressor.new_ok lib outfile format mode genMD5 w h
  have hb0 := Compressor.new_bound lib outfile format mode genMD5 w h c0 hc0
  rw [hc0]
  obtain ⟨c, T, hrun, hic, hbc, htc⟩ := Bound.over_puts lib outfile mode ops [] c0 hp hinv hb0
  obtain ⟨d, hcl, hdel, hkeep⟩ := Bound.close_bound lib hbc hic h.1 h.2.1
  refine ⟨c, d, hrun, hcl, hdel, hkeep, fun hin => ?_, fun c' hc' => ?_⟩
  · show c.totalInputSize = 0
    rw [htc hin, htot]
  · have hcc := run_ok_runCaught lib ops _ c' hc'
    rw [hrun] at hcc
    cases hcc
    refine ⟨rfl, ?_⟩
    rcases Inv.over_run lib ops [] c0 hinv with ⟨e, he, hie, _⟩ | ⟨e, he, _⟩
    · rw [hc'] at he
      cases he
      exact hie.2.2.1
    · rw [hc'] at he
      cases he

theorem empty_stream_cleanup_witness :
    Opens demoLib "out.zst" Mode.Append
      { file := some [9, 9], openOk := true, md5Buffer := [], md5Digest := [] } ∧
    (∀ op ∈ [Op.put [] false, Op.put [] true], op ≠ Op.close) ∧
    ∃ c d, runCaught demoLib (Compressor.new demoLib "out.zst" Format.ZStd Mode.Append false
        { file := some [9, 9], openOk := true, md5Buffer := [], md5Digest := [] })
        [Op.put [] false, Op.put [] true] = Outcome.ok c ∧
      c.Close demoLib = Outcome.ok d ∧
      (c.InputSize = 0 → d.sink.file = none ∧ d.sink.fSize = 0 ∧ d.deleted = 1) ∧
      (c.InputSize ≠ 0 → d.sink.file.isSome = true ∧ d.deleted = 0) ∧
      (inputOf [Op.put [] false, Op.put [] true] = [] → c.InputSize = 0) ∧
      (∀ c', run demoLib (Compressor.new demoLib "out.zst" Format.ZStd Mode.Append false
          { file := some [9, 9], openOk := true, md5Buffer := [], md5Digest := [] })
          [Op.put [] false, Op.put [] true] = Outcome.ok c' →
        c' = c ∧ c.InputSize = (inputOf [Op.put [] false, Op.put [] true]).length % 2 ^ 64) :=
  ⟨by decide, by decide,
    empty_stream_cleanup demoLib "out.zst" Format.ZStd Mode.Append false
      { file := some [9, 9], openOk := true, md5Buffer := [], md5Digest := [] } (by decide)
      [Op.put [] false, Op.put [] true] (by decide)⟩

/-! ## `Configure` -/

/-- C17, evaluated on the code: on a default-constructed compressor, whatever
the libraries and the digest flag asked for, `Configure("out.gz", Write,
genMD5)` with a file that can be created does not return: it throws
"FileMode must be 'Write' or 'Append'" from the write of the gzip header,
because the member `fMode` still has the value `None` of the default
constructor; in the state it leaves, the file name is still empty, the
digest flag still off, and nothing was written. -/
theorem configure_after_default_raises (lib : Lib) (genMD5 : Bool) :
    ((Compressor.newDefault demoWorld).Configure lib "out.gz" Mode.Write genMD5 demoWorld).lift
        (fun c => (c.fName, c.sink.fMode, c.sink.bGenMD5, c.sink.written, c.sink.fHandle))
      = Outcome.raise "FileMode must be \x27Write\x27 or \x27Append\x27"
          ("", Mode.None, false, [], Handle.valid) := by
  rfl

/-- C18 (double configuration is an error): on every compressor whose file
handle is not null, `Configure` throws "configure_invalid_overwrite" and
leaves the state as it was; on a compressor whose handle is null, `Configure`
with mode `None` or with an empty file name throws as well and leaves the
state as it was. -/
theorem configure_twice_raises (lib : Lib) (c : Compressor) (outfile : String) (mode : Mode)
    (genMD5 : Bool) (w : World) :
    (c.sink.fHandle ≠ Handle.null →
      c.Configure lib outfile mode genMD5 w = Outcome.raise "configure_invalid_overwrite" c) ∧
    (c.sink.fHandle = Handle.null → mode = Mode.None ∨ outfile = "" →
      ∃ msg, c.Configure lib outfile mode genMD5 w = Outcome.raise msg c) := by
  constructor
  · intro h
    unfold Compressor.Configure
    simp only [h, ne_eq, not_false_eq_true, if_true]
  · intro h hm
    refine ⟨"", ?_⟩
    unfold Compressor.Configure
    simp only [h, ne_eq, not_true_eq_false, if_false, hm, if_true]

theorem configure_twice_raises_witness :
    demoOpen.sink.fHandle ≠ Handle.null ∧
    (Compressor.newDefault demoWorld).sink.fHandle = Handle.null ∧
    ((demoOpen.sink.fHandle ≠ Handle.null →
      demoOpen.Configure demoLib "other.zst" Mode.Write true demoWorld
        = Outcome.raise "configure_invalid_overwrite" demoOpen) ∧
    (demoOpen.sink.fHandle = Handle.null → Mode.Write = Mode.None ∨ "other.zst" = "" →
      ∃ msg, demoOpen.Configure demoLib "other.zst" Mode.Write true demoWorld
        = Outcome.raise msg demoOpen)) ∧
    (((Compressor.newDefault demoWorld).sink.fHandle ≠ Handle.null →
      (Compressor.newDefault demoWorld).Configure demoLib "" Mode.None true demoWorld
        = Outcome.raise "configure_invalid_overwrite" (Compressor.newDefault demoWorld)) ∧
    ((Compressor.newDefault demoWorld).sink.fHandle = Handle.null →
      Mode.None = Mode.None ∨ "" = "" →
      ∃ msg, (Compressor.newDefault demoWorld).Configure demoLib "" Mode.None true demoWorld
        = Outcome.raise msg (Compressor.newDefault demoWorld))) :=
  ⟨by decide, by decide,
    configure_twice_raises demoLib demoOpen "other.zst" Mode.Write true demoWorld,
    configure_twice_raises demoLib (Compressor.newDefault demoWorld) "" Mode.None true
      demoWorld⟩

/-! ## The bounds of the output buffer -/

theorem Sink.writeAndReset_geo {s t : Sink} {a f : Bool}
    (h : s._WriteAndReset a f = Outcome.ok t) :
    t.compressedBufferSizeLimit = s.compressedBufferSizeLimit ∧
      t.compressedBufferCapacity = s.compressedBufferCapacity ∧
      t.hiWater = s.hiWater ∧ t.compressedBuffer = [] := by
  unfold Sink._WriteAndReset at h
  split at h
  · cases h
  · split at h
    · cases h
    · split at h
      · rename_i hz
        cases h
        exact ⟨rfl, rfl, rfl, List.length_eq_zero.mp hz⟩
      · cases h
        refine ⟨?_, ?_, ?_, rfl⟩ <;> (simp only []; split <;> rfl)

theorem Sink.flushIfFull_geo {s t : Sink} (h : s.flushIfFull = Outcome.ok t) :
    t.compressedBufferSizeLimit = s.compressedBufferSizeLimit ∧
      t.compressedBufferCapacity = s.compressedBufferCapacity ∧
      t.hiWater = s.hiWater ∧
      (0 < s.compressedBufferSizeLimit →
        t.compressedBuffer.length < t.compressedBufferSizeLimit) ∧
      (s.compressedBufferSizeLimit ≤ s.compressedBuffer.length →
        t.compressedBuffer = [] ∧
          (s.compressedBuffer ≠ [] → t.written = s.written ++ [s.compressedBuffer])) ∧
      (s.compressedBuffer.length < s.compressedBufferSizeLimit → t = s) := by
  unfold Sink.flushIfFull at h
  split at h
  · rename_i hge
    obtain ⟨h1, h2, h3, h4⟩ := Sink.writeAndReset_geo h
    refine ⟨h1, h2, h3, fun hp => by rw [h4, h1]; exact hp, fun _ => ⟨h4, fun hne => ?_⟩,
      fun hlt => absurd hge (by simp only [Sink.compressedBufferSize]; omega)⟩
    unfold Sink._WriteAndReset at h
    split at h
    · cases h
    · split at h
      · cases h
      · split at h
        · rename_i hz
          exact absurd (List.length_eq_zero.mp hz) hne
        · cases h
          simp only []
          split <;> rfl
  · rename_i hlt
    cases h
    exact ⟨rfl, rfl, rfl, fun _ => by simpa [Sink.compressedBufferSize] using hlt,
      fun hge => absurd hge (by simpa [Sink.compressedBufferSize] using hlt), fun _ => rfl⟩

theorem Sink.drainGZIP_geo (fuel : Nat) : ∀ (s t : Sink) (p : List Nat),
    s.compressedBufferSizeLimit < 2 ^ 32 →
    s.compressedBuffer.length < s.compressedBufferSizeLimit →
    Sink.drainGZIP fuel s p = Outcome.ok t →
    t.compressedBufferSizeLimit = s.compressedBufferSizeLimit ∧
      t.compressedBufferCapacity = s.compressedBufferCapacity ∧
      t.hiWater ≤ max s.hiWater s.compressedBufferSizeLimit ∧
      t.compressedBuffer.length < t.compressedBufferSizeLimit := by
  induction fuel with
  | zero =>
    intro s t p _ _ h
    cases h
  | succ fuel ih =>
    intro s t p hlim hroom h
    have hav : u32 (s.compressedBufferSizeLimit + 2 ^ 32 - u32 s.compressedBufferSize)
        = s.compressedBufferSizeLimit - s.compressedBuffer.length := by
      unfold u32 Sink.compressedBufferSize
      rw [Nat.mod_eq_of_lt (by omega : s.compressedBuffer.length < 2 ^ 32)]
      omega
    unfold Sink.drainGZIP at h
    simp only [hav] at h
    obtain ⟨s1, hs1, h2⟩ := Outcome.andThen_eq_ok h
    obtain ⟨g1, g2, g3, g4, _, _⟩ := Sink.flushIfFull_geo hs1
    have hx : (p.take (s.compressedBufferSizeLimit - s.compressedBuffer.length)).length
        ≤ s.compressedBufferSizeLimit - s.compressedBuffer.length := List.length_take_le _ _
    have hw : s1.hiWater ≤ max s.hiWater s.compressedBufferSizeLimit := by
      rw [g3]
      show max s.hiWater (s.compressedBuffer.length +
        (p.take (s.compressedBufferSizeLimit - s.compressedBuffer.length)).length) ≤ _
      omega
    have hl1 : s1.compressedBufferSizeLimit = s.compressedBufferSizeLimit := g1
    have hc1 : s1.compressedBufferCapacity = s.compressedBufferCapacity := g2
    have hroom1 : s1.compressedBuffer.length < s1.compressedBufferSizeLimit :=
      g4 (by show 0 < s.compressedBufferSizeLimit; omega)
    split at h2
    · obtain ⟨i1, i2, i3, i4⟩ := ih s1 t _ (by rw [hl1]; exact hlim) hroom1 h2
      refine ⟨i1.trans hl1, i2.trans hc1, ?_, i4⟩
      rw [hl1] at i3
      omega
    · cases h2
      exact ⟨hl1, hc1, hw, hroom1⟩

theorem Sink.drainZSTD_geo (n : Nat) (fuel : Nat) : ∀ (s t : Sink) (p : List Nat),
    s.compressedBuffer.length < s.compressedBufferSizeLimit →
    Sink.drainZSTD n fuel s p = Outcome.ok t →
    t.compressedBufferSizeLimit = s.compressedBufferSizeLimit ∧
      t.compressedBufferCapacity = s.compressedBufferCapacity ∧
      t.hiWater ≤ max s.hiWater (s.compressedBufferSizeLimit + n) ∧
      t.compressedBuffer.length < t.compressedBufferSizeLimit := by
  induction fuel with
  | zero =>
    intro s t p _ h
    cases h
  | succ fuel ih =>
    intro s t p hroom h
    unfold Sink.drainZSTD at h
    simp only [] at h
    obtain ⟨s1, hs1, h2⟩ := Outcome.andThen_eq_ok h
    obtain ⟨g1, g2, g3, g4, _, _⟩ := Sink.flushIfFull_geo hs1
    have hx : (p.take n).length ≤ n := List.length_take_le _ _
    have hw : s1.hiWater ≤ max s.hiWater (s.compressedBufferSizeLimit + n) := by
      rw [g3]
      show max s.hiWater (s.compressedBuffer.length + (p.take n).length) ≤ _
      omega
    have hl1 : s1.compressedBufferSizeLimit = s.compressedBufferSizeLimit := g1
    have hc1 : s1.compressedBufferCapacity = s.compressedBufferCapacity := g2
    have hroom1 : s1.compressedBuffer.length < s1.compressedBufferSizeLimit :=
      g4 (by show 0 < s.compressedBufferSizeLimit; omega)
    split at h2
    · cases h2
      exact ⟨hl1, hc1, hw, hroom1⟩
    · obtain ⟨i1, i2, i3, i4⟩ := ih s1 t _ hroom1 h2
      refine ⟨i1.trans hl1, i2.trans hc1, ?_, i4⟩
      rw [hl1] at i3
      omega

theorem Fits.flush {c d : Compressor} (hf : Fits c)
    (h : c.sink.flushIfFull.lift c.withSink = Outcome.ok d) : d = c := by
  obtain ⟨t, ht, hd⟩ := Outcome.lift_eq_ok h
  have := (Sink.flushIfFull_geo ht).2.2.2.2.2 hf.1
  rw [this] at hd
  exact hd.symm

theorem Fits.of_sink {c d : Compressor} (hf : Fits c)
    (ho : d.outputChunkSize = c.outputChunkSize) (hc : d.cFormat = c.cFormat)
    (h1 : d.sink.compressedBufferSizeLimit = c.sink.compressedBufferSizeLimit)
    (h2 : d.sink.compressedBufferCapacity = c.sink.compressedBufferCapacity)
    (h3 : d.sink.hiWater ≤ max c.sink.hiWater c.sink.compressedBufferCapacity)
    (h4 : d.sink.compressedBuffer.length < d.sink.compressedBufferSizeLimit) :
    Fits d := by
  obtain ⟨f1, f2, f3, f4, f5⟩ := hf
  refine ⟨h4, h1.trans f2, ?_, ?_, fun hg => ?_⟩
  · rw [h2, f3, ho]
  · rw [h2]
    omega
  · rw [ho]
    exact f5 (hc.symm.trans hg)

theorem Fits.deflateAll {lib : Lib} {c d : Compressor} {x : List Nat} {l : Bool}
    (hf : Fits c) (h : c.deflateAll lib x l = Outcome.ok d) :
    Fits d ∧ d.cFormat = c.cFormat := by
  unfold Compressor.deflateAll at h
  split at h
  · cases h
  · obtain ⟨t, ht, hd⟩ := Outcome.lift_eq_ok h
    subst hd
    have hlim : c.sink.compressedBufferSizeLimit < 2 ^ 32 := by
      rw [hf.2.1]; exact limit_lt
    obtain ⟨g1, g2, g3, g4⟩ := Sink.drainGZIP_geo _ _ t _ hlim hf.1 ht
    refine ⟨Fits.of_sink hf rfl rfl g1 g2 ?_ g4, rfl⟩
    have h1 := hf.2.1
    have h2 := hf.2.2.1
    have : c.sink.compressedBufferSizeLimit ≤ c.sink.compressedBufferCapacity := by omega
    show t.hiWater ≤ max c.sink.hiWater c.sink.compressedBufferCapacity
    omega

theorem Fits.zstdAll {lib : Lib} {c d : Compressor} {x : List Nat} {l : Bool}
    (hf : Fits c) (h : c.zstdAll lib x l = Outcome.ok d) :
    Fits d ∧ d.cFormat = c.cFormat := by
  unfold Compressor.zstdAll at h
  split at h
  · cases h
  · obtain ⟨t, ht, hd⟩ := Outcome.lift_eq_ok h
    subst hd
    obtain ⟨g1, g2, g3, g4⟩ := Sink.drainZSTD_geo _ _ _ t _ hf.1 ht
    refine ⟨Fits.of_sink hf rfl rfl g1 g2 ?_ g4, rfl⟩
    have h1 := hf.2.1
    have h2 := hf.2.2.1
    show t.hiWater ≤ max c.sink.hiWater c.sink.compressedBufferCapacity
    have g3' : t.hiWater ≤ max c.sink.hiWater (c.sink.compressedBufferSizeLimit
      + c.outputChunkSize) := g3
    omega

theorem Fits.final_sink {c : Compressor} {t : Sink} (hf : Fits c) (e : Bool) (n : Nat)
    (h1 : t.compressedBufferSizeLimit = c.sink.compressedBufferSizeLimit)
    (h2 : t.compressedBufferCapacity = c.sink.compressedBufferCapacity)
    (h3 : t.hiWater ≤ c.sink.compressedBufferCapacity)
    (h4 : t.compressedBuffer = []) :
    Fits { c with
      sink := if t.bGenMD5 then { t with md5x := t.md5x.Final } else t
      trailers := n
      bEndOfStream := e } := by
  obtain ⟨f1, f2, f3, f4, f5⟩ := hf
  have hs : ∀ s' : Sink, s' = (if t.bGenMD5 then { t with md5x := t.md5x.Final } else t) →
      s'.compressedBuffer = t.compressedBuffer ∧
      s'.compressedBufferSizeLimit = t.compressedBufferSizeLimit ∧
      s'.compressedBufferCapacity = t.compressedBufferCapacity ∧ s'.hiWater = t.hiWater := by
    intro s' hs'
    rw [hs']
    split <;> exact ⟨rfl, rfl, rfl, rfl⟩
  obtain ⟨s1, s2, s3, s4⟩ := hs _ rfl
  refine ⟨?_, ?_, ?_, ?_, f5⟩
  · rw [s1, s2, h4, h1, f2]
    exact limit_pos
  · rw [s2, h1, f2]
  · rw [s3, h2, f3]
  · rw [s4, s3, h2]
    exact h3

theorem Fits.gzipTrailer {c d : Compressor} (hf : Fits c) (hg : c.cFormat = Format.GZip)
    (h : c.gzipTrailer = Outcome.ok d) : Fits d := by
  unfold Compressor.gzipTrailer at h
  obtain ⟨a, ha, h2⟩ := Outcome.andThen_eq_ok h
  have hac := hf.flush ha
  subst hac
  simp only [] at h2
  obtain ⟨b, hb, h3⟩ := Outcome.andThen_eq_ok h2
  obtain ⟨t, ht, hbt⟩ := Outcome.lift_eq_ok hb
  subst hbt
  cases h3
  obtain ⟨g1, g2, g3, g4⟩ := Sink.writeAndReset_geo ht
  have h8 := hf.2.2.2.2 hg
  have hroom := hf.1
  have hlim := hf.2.1
  have hcap := hf.2.2.1
  have hhw := hf.2.2.2.1
  refine Fits.final_sink hf true _ g1 g2 ?_ g4
  show t.hiWater ≤ a.sink.compressedBufferCapacity
  rw [g3]
  simp only [Sink.store, List.length_append, le32, List.length_cons, List.length_nil]
  omega

theorem Fits.zstdEnd {c d : Compressor} (hf : Fits c) (h : c.zstdEnd = Outcome.ok d) :
    Fits d := by
  unfold Compressor.zstdEnd at h
  obtain ⟨b, hb, h3⟩ := Outcome.andThen_eq_ok h
  obtain ⟨t, ht, hbt⟩ := Outcome.lift_eq_ok hb
  subst hbt
  cases h3
  obtain ⟨g1, g2, g3, g4⟩ := Sink.writeAndReset_geo ht
  refine Fits.final_sink hf true c.trailers g1 g2 ?_ g4
  show t.hiWater ≤ c.sink.compressedBufferCapacity
  rw [g3]
  exact hf.2.2.2.1

theorem Fits.compressAndWriteGZIP {lib : Lib} {c d : Compressor} {x : List Nat} {l : Bool}
    (hf : Fits c) (hg : c.cFormat = Format.GZip)
    (h : c._CompressAndWriteGZIP lib x l = Outcome.ok d) : Fits d := by
  unfold Compressor._CompressAndWriteGZIP at h
  obtain ⟨a, ha, h2⟩ := Outcome.andThen_eq_ok h
  have hac := hf.flush ha
  subst hac
  split at h2
  · cases h2
    exact hf
  · simp only [] at h2
    obtain ⟨e, he, h3⟩ := Outcome.andThen_eq_ok h2
    have hfa : Fits { a with igzCrc := crc32_gzip_refl a.igzCrc x } := hf
    obtain ⟨hfe, hce⟩ := hfa.deflateAll he
    split at h3
    · exact hfe.gzipTrailer (hce.trans hg) h3
    · cases h3
      exact hfe

theorem Fits.compressAndWriteZSTD {lib : Lib} {c d : Compressor} {x : List Nat} {l : Bool}
    (hf : Fits c) (h : c._CompressAndWriteZSTD lib x l = Outcome.ok d) : Fits d := by
  unfold Compressor._CompressAndWriteZSTD at h
  obtain ⟨a, ha, h2⟩ := Outcome.andThen_eq_ok h
  have hac := hf.flush ha
  subst hac
  split at h2
  · cases h2
    exact hf
  · obtain ⟨e, he, h3⟩ := Outcome.andThen_eq_ok h2
    obtain ⟨hfe, _⟩ := hf.zstdAll he
    split at h3
    · exact hfe.zstdEnd h3
    · cases h3
      exact hfe

/-- A codec invocation that returns keeps the output buffer within its bounds. -/
theorem Fits.compressAndWrite {lib : Lib} {c d : Compressor} {x : List Nat} {l : Bool}
    (hf : Fits c) (h : c._CompressAndWrite lib x l = Outcome.ok d) : Fits d := by
  unfold Compressor._CompressAndWrite at h
  split at h
  · rename_i hg
    exact hf.compressAndWriteGZIP hg h
  · exact hf.compressAndWriteZSTD h

theorem Fits.endAndWrite {lib : Lib} {c d : Compressor} (hf : Fits c)
    (h : c._EndAndWrite lib = Outcome.ok d) : Fits d := by
  unfold Compressor._EndAndWrite at h
  split at h
  · rename_i hg
    unfold Compressor._EndAndWriteGZIP at h
    split at h
    · cases h
      exact hf
    · obtain ⟨a, ha, h2⟩ := Outcome.andThen_eq_ok h
      have hac := hf.flush ha
      subst hac
      simp only [] at h2
      obtain ⟨e, he, h3⟩ := Outcome.andThen_eq_ok h2
      have hfa : Fits (if 0 < a.currentInputSize then
          { a with igzCrc := crc32_gzip_refl a.igzCrc a.currentInputBuffer } else a) := by
        split
        · exact hf
        · exact hf
      have hca : (if 0 < a.currentInputSize then
          { a with igzCrc := crc32_gzip_refl a.igzCrc a.currentInputBuffer } else a).cFormat
          = Format.GZip := by
        split
        · exact hg
        · exact hg
      obtain ⟨hfe, hce⟩ := hfa.deflateAll he
      exact hfe.gzipTrailer (hce.trans hca) h3
  · unfold Compressor._EndAndWriteZSTD at h
    split at h
    · cases h
      exact hf
    · obtain ⟨a, ha, h2⟩ := Outcome.andThen_eq_ok h
      have hac := hf.flush ha
      subst hac
      obtain ⟨e, he, h3⟩ := Outcome.andThen_eq_ok h2
      obtain ⟨hfe, _⟩ := hf.zstdAll he
      exact hfe.zstdEnd h3

theorem Fits.fedAll {lib : Lib} {c d : Compressor} {fs : List Feed} (hf : Fits c)
    (h : FedAll lib c fs d) : Fits d := by
  induction h with
  | nil c => exact hf
  | cons hfb _ ih => exact ih (hf.compressAndWrite hfb.1)

theorem Fits.release_fits {c : Compressor} (hf : Fits c) : Fits c.release := by
  obtain ⟨f1, f2, f3, f4, f5⟩ := hf
  unfold Compressor.release
  simp only []
  split
  · refine ⟨?_, f2, f3, f4, f5⟩
    show 0 < c.sink.compressedBufferSizeLimit
    omega
  · refine ⟨?_, f2, f3, f4, f5⟩
    show 0 < c.sink.compressedBufferSizeLimit
    omega

theorem Fits.closeHandle_fits {c : Compressor} (hf : Fits c) : Fits c.closeHandle := hf

theorem Fits.put_fits {lib : Lib} {S : List Nat} {c d : Compressor} {data : List Nat} {l : Bool}
    (hf : Fits c) (hi : Inv S c) (hd : c.Put lib data l = Outcome.ok d) : Fits d := by
  rcases hi.1 with hr | hfin
  · obtain ⟨d', hd', hfa, _⟩ := Compressor.Put_ready lib c data l hr
    rw [hd] at hd'
    cases hd'
    have hf0 : Fits (c.accept data.length).dropHeld := by
      rw [Compressor.accept_eq]
      exact hf
    have : Fits d.dropHeld := hf0.fedAll hfa
    exact this
  · by_cases hd0 : 0 < data.length
    · have := (Compressor.Put_finished lib c data l hfin).1 hd0
      rw [this] at hd
      cases hd
    · have := (Compressor.Put_finished lib c data l hfin).2 (by omega)
      rw [this] at hd
      cases hd
      exact hf

theorem Fits.close_fits {lib : Lib} {S : List Nat} {c d : Compressor}
    (hf : Fits c) (hi : Inv S c) (hd : c.Close lib = Outcome.ok d) : Fits d := by
  rcases hi.1 with hr | hfin
  · obtain ⟨d', hend, _, hcl⟩ := Compressor.Close_ready lib c hr
    rw [hd] at hcl
    cases hcl
    exact ((hf.endAndWrite hend).closeHandle_fits).release_fits
  · rcases Compressor.Close_finished lib c hfin with ⟨h1, _⟩ | h1 | h1
    · rw [hd] at h1
      cases h1
      exact hf
    · rw [hd] at h1
      cases h1
      exact hf.release_fits
    · rw [hd] at h1
      cases h1
      exact hf.closeHandle_fits.release_fits

theorem Fits.along_runCaught (lib : Lib) (ops : List Op) : ∀ (S : List Nat) (c : Compressor),
    Inv S c → Fits c →
      ∃ d T, runCaught lib (Outcome.ok c) ops = Outcome.ok d ∧ Inv T d ∧ Fits d := by
  induction ops with
  | nil => intro S c hi hf; exact ⟨c, S, rfl, hi, hf⟩
  | cons op ops ih =>
    intro S c hi hf
    rw [runCaught_ok_cons]
    cases op with
    | put data l =>
      rcases hi.put lib data l with ⟨d, hd, hid, _⟩ | ⟨hr, _, _⟩
      · obtain ⟨e, T, he, hie, hfe⟩ := ih _ d hid (hf.put_fits hi hd)
        refine ⟨e, T, ?_, hie, hfe⟩
        show runCaught lib ((c.Put lib data l).caught) ops = _
        rw [hd]; exact he
      · obtain ⟨e, T, he, hie, hfe⟩ := ih _ c hi hf
        refine ⟨e, T, ?_, hie, hfe⟩
        show runCaught lib ((c.Put lib data l).caught) ops = _
        rw [hr]; exact he
    | close =>
      obtain ⟨d, hd, hid, _⟩ := hi.close lib
      obtain ⟨e, T, he, hie, hfe⟩ := ih _ d hid (hf.close_fits hi hd)
      refine ⟨e, T, ?_, hie, hfe⟩
      show runCaught lib ((c.Close lib).caught) ops = _
      rw [hd]; exact he

theorem Compressor.setup_fits (lib : Lib) (c d : Compressor) (hw : c.sink.hiWater = 0)
    (h : Compressor.setup lib c = Outcome.ok d) : Fits d := by
  unfold Compressor.setup at h
  split at h
  · simp only [] at h
    obtain ⟨a, ha, h2⟩ := Outcome.andThen_eq_ok h
    obtain ⟨t, ht, hat⟩ := Outcome.lift_eq_ok ha
    subst hat
    cases h2
    obtain ⟨g1, g2, g3, g4⟩ := Sink.writeAndReset_geo ht
    have h8 : 8 ≤ IGZ_CHUNK_CAPACITY := by decide
    refine ⟨?_, g1, g2, ?_, fun _ => h8⟩
    · show t.compressedBuffer.length < t.compressedBufferSizeLimit
      rw [g4, g1]
      exact limit_pos
    · show t.hiWater ≤ t.compressedBufferCapacity
      rw [g3, g2]
      simp only [Sink.store, hw]
      decide
  · rename_i hz
    cases h
    refine ⟨limit_pos, rfl, rfl, ?_, fun hg => ?_⟩
    · show c.sink.hiWater ≤ _
      rw [hw]
      exact Nat.zero_le _
    · have : c.cFormat = Format.GZip := hg
      rw [hz] at this
      cases this

/-- A successful constructor call leaves the output buffer within its bounds. -/
theorem Compressor.new_fits (lib : Lib) (outfile : String) (format : Format) (mode : Mode)
    (genMD5 : Bool) (w : World) (h : Opens lib outfile mode w) (c : Compressor)
    (hc : Compressor.new lib outfile format mode genMD5 w = Outcome.ok c) : Fits c := by
  obtain ⟨hne, hm, hopen, _, _⟩ := h
  have hnn : ¬ (mode = Mode.None ∨ outfile = "") := by
    rintro (h | h)
    · rcases hm with hm | hm <;> simp [hm] at h
    · exact hne h
  have hni : ¬ ((Compressor.CreateFileA mode w).1 = Handle.invalid) := by
    rw [hopen]; decide
  unfold Compressor.new at hc
  simp only [hnn, if_false, hni, hm, if_true] at hc
  refine Compressor.setup_fits lib _ c ?_ hc
  split <;> rfl

/-- C19 (flush threshold): on a successfully opened compressor, after the
constructor and after every sequence of `Put` and `Close` calls, exceptions
caught, the output buffer holds strictly fewer bytes than the threshold
`COMPRESS_BUFF_SIZE_LIMIT = 2^20`; and the flush test executed after every
codec call, when it returns on a buffer filled to the threshold or beyond,
has written the whole buffer to the file as one range and reset it to empty,
and it does return, with room in the buffer, whenever the file is open. -/
theorem output_buffer_below_threshold (lib : Lib) (outfile : String) (format : Format)
    (mode : Mode) (genMD5 : Bool) (w : World) (h : Opens lib outfile mode w) (ops : List Op) :
    (∃ d, runCaught lib (Compressor.new lib outfile format mode genMD5 w) ops = Outcome.ok d ∧
        d.sink.compressedBuffer.length < COMPRESS_BUFF_SIZE_LIMIT ∧
        d.sink.compressedBufferSizeLimit = COMPRESS_BUFF_SIZE_LIMIT ∧
        COMPRESS_BUFF_SIZE_LIMIT = 2 ^ 20) ∧
    (∀ s t : Sink, s.flushIfFull = Outcome.ok t →
        s.compressedBufferSizeLimit ≤ s.compressedBuffer.length →
        t.compressedBuffer = [] ∧
          (s.compressedBuffer ≠ [] → t.written = s.written ++ [s.compressedBuffer])) ∧
    (∀ s : Sink, SinkOK s → ∃ t, s.flushIfFull = Outcome.ok t ∧
        t.compressedBuffer.length < t.compressedBufferSizeLimit) := by
  refine ⟨?_, fun s t ht hge => (Sink.flushIfFull_geo ht).2.2.2.2.1 hge, fun s hs => ?_⟩
  · obtain ⟨c, hc, hinv, _⟩ := Compressor.new_ok lib outfile format mode genMD5 w h
    have hf := Compressor.new_fits lib outfile format mode genMD5 w h c hc
    obtain ⟨d, T, hd, _, hfd⟩ := Fits.along_runCaught lib ops [] c hinv hf
    rw [hc]
    refine ⟨d, hd, ?_, hfd.2.1, by decide⟩
    have := hfd.1
    rw [hfd.2.1] at this
    exact this
  · obtain ⟨t, ht, _, hroom⟩ := Sink.flushIfFull_ok s hs
    exact ⟨t, ht, hroom⟩

theorem output_buffer_below_threshold_witness :
    Opens demoLib "out.gz" Mode.Write demoWorld ∧
    ((∃ d, runCaught demoLib
          (Compressor.new demoLib "out.gz" Format.GZip Mode.Write true demoWorld)
          [Op.put [1, 2, 3] false, Op.close, Op.put [4] true] = Outcome.ok d ∧
        d.sink.compressedBuffer.length < COMPRESS_BUFF_SIZE_LIMIT ∧
        d.sink.compressedBufferSizeLimit = COMPRESS_BUFF_SIZE_LIMIT ∧
        COMPRESS_BUFF_SIZE_LIMIT = 2 ^ 20) ∧
    (∀ s t : Sink, s.flushIfFull = Outcome.ok t →
        s.compressedBufferSizeLimit ≤ s.compressedBuffer.length →
        t.compressedBuffer = [] ∧
          (s.compressedBuffer ≠ [] → t.written = s.written ++ [s.compressedBuffer])) ∧
    (∀ s : Sink, SinkOK s → ∃ t, s.flushIfFull = Outcome.ok t ∧
        t.compressedBuffer.length < t.compressedBufferSizeLimit)) :=
  ⟨by decide, output_buffer_below_threshold demoLib "out.gz" Format.GZip Mode.Write true
    demoWorld (by decide) [Op.put [1, 2, 3] false, Op.close, Op.put [4] true]⟩

/-! ## The output buffer of a compressor whose file was not opened -/

theorem Idle.release_quiet {c : Compressor} (h : Idle c) : Idle c.release := by
  refine ⟨h.1.release_inert, ?_⟩
  unfold Compressor.release
  split <;> exact h.2

theorem Idle.closeHandle_quiet {c : Compressor} (h : Idle c) : Idle c.closeHandle :=
  ⟨h.1.closeHandle_inert, h.2⟩

theorem Compressor.compressAndWrite_quiet (lib : Lib) (c : Compressor) (x : List Nat)
    (l : Bool) (h : Idle c) : (c._CompressAndWrite lib x l).Leaves Idle :=
  (Compressor.compressAndWrite_idle lib c x l h.1).mono fun d hd => by rw [hd]; exact h

theorem Compressor.putHeld_quiet (lib : Lib) (c : Compressor) (data : List Nat) (l : Bool)
    (h : Idle c) : (c.putHeld lib data l).Leaves fun p => Idle p.1 := by
  unfold Compressor.putHeld
  split
  · split
    · simp only []
      split
      · refine Outcome.Leaves.lift ?_
        refine (Compressor.compressAndWrite_quiet lib _ _ _ ?_).mono fun d hd => ?_
        · exact h
        · exact hd
      · exact h
    · refine Outcome.Leaves.lift ?_
      exact (Compressor.compressAndWrite_quiet lib c _ _ h).mono fun d hd => hd
  · exact h

theorem Compressor.putLoop_quiet (lib : Lib) (l : Bool) : ∀ (fuel : Nat) (c : Compressor)
    (ptr : List Nat), Idle c → (Compressor.putLoop lib l fuel c ptr).Leaves fun p => Idle p.1
  | 0, c, ptr, h => by
    unfold Compressor.putLoop
    split
    · trivial
    · exact h
  | fuel + 1, c, ptr, h => by
    unfold Compressor.putLoop
    split
    · have hcw := Compressor.compressAndWrite_quiet lib c (ptr.take c.inputChunkSize)
        (l && decide (ptr.length ≤ c.inputChunkSize)) h
      revert hcw
      cases c._CompressAndWrite lib (ptr.take c.inputChunkSize)
          (l && decide (ptr.length ≤ c.inputChunkSize)) with
      | ok d => intro hd; exact Compressor.putLoop_quiet lib l fuel d _ hd
      | raise m d => intro hd; exact hd
      | hang => intro _; trivial
      | fault => intro _; trivial
    · exact h

theorem Compressor.putTail_quiet (lib : Lib) (l : Bool) (c : Compressor) (ptr : List Nat)
    (h : Idle c) : (Compressor.putTail lib l c ptr).Leaves Idle := by
  unfold Compressor.putTail
  split
  · split
    · exact Compressor.compressAndWrite_quiet lib c ptr true h
    · exact h
  · exact h

theorem Compressor.Put_quiet (lib : Lib) (c : Compressor) (data : List Nat) (l : Bool)
    (h : Idle c) : (c.Put lib data l).Leaves Idle := by
  unfold Compressor.Put
  split
  · exact h
  · split
    · simp only []
      have h1 : (Compressor.thenPtr
          (Compressor.putHeld lib { c with totalInputSize := u64 (c.totalInputSize + data.length) }
            data l) (Compressor.putLoop lib l data.length)).Leaves fun p => Idle p.1 := by
        unfold Compressor.thenPtr
        have h0 : Idle { c with totalInputSize := u64 (c.totalInputSize + data.length) } := h
        exact (Compressor.putHeld_quiet lib _ data l h0).andThen fun p hp =>
          Compressor.putLoop_quiet lib l data.length p.1 p.2 hp
      revert h1
      cases Compressor.thenPtr
          (Compressor.putHeld lib { c with totalInputSize := u64 (c.totalInputSize + data.length) }
            data l) (Compressor.putLoop lib l data.length) with
      | ok p => intro hp; exact Compressor.putTail_quiet lib l p.1 p.2 hp
      | raise m p => intro hp; exact hp
      | hang => intro _; trivial
      | fault => intro _; trivial
    · split
      · refine Outcome.Leaves.lift ?_
        exact (Compressor.compressAndWrite_quiet lib c _ true h).mono fun d hd => hd
      · exact h

theorem Compressor.Close_quiet (lib : Lib) (c : Compressor) (h : Idle c) :
    (c.Close lib).Leaves Idle := by
  unfold Compressor.Close
  split
  · exact h
  · simp only []
    refine Outcome.Leaves.andThen ?_ fun a ha => ha.release_quiet
    split
    · refine Outcome.Leaves.andThen ?_ fun a ha => ha.closeHandle_quiet
      split
      · exact (Compressor.endAndWrite_idle lib c h.1).mono fun d hd => by rw [hd]; exact h
      · exact h
    · exact h

theorem runCaught_quiet (lib : Lib) (ops : List Op) : ∀ o : Outcome Compressor,
    o.Leaves Idle → (runCaught lib o ops).Leaves Idle := by
  induction ops with
  | nil => intro o h; exact h
  | cons op ops ih =>
    intro o h
    refine ih _ (h.andThen fun c hc => Outcome.Leaves.caught ?_)
    cases op with
    | put data l => exact Compressor.Put_quiet lib c data l hc
    | close => exact Compressor.Close_quiet lib c hc

/-- The constructor either opens its file, or returns an unopened compressor
with an untouched output buffer. -/
theorem Compressor.new_cases_quiet (lib : Lib) (outfile : String) (format : Format)
    (mode : Mode) (genMD5 : Bool) (w : World)
    (hlib : 0 < lib.ZSTD_CStreamInSize ∧ 0 < lib.ZSTD_CStreamOutSize) :
    Opens lib outfile mode w ∨
      ∃ c, Compressor.new lib outfile format mode genMD5 w = Outcome.ok c ∧ Idle c := by
  by_cases ho : Opens lib outfile mode w
  · exact Or.inl ho
  · right
    rcases Compressor.new_cases lib outfile format mode genMD5 w hlib with ho' | ⟨c, hc, hi⟩
    · exact absurd ho' ho
    · refine ⟨c, hc, hi, ?_⟩
      have hl : (Compressor.new lib outfile format mode genMD5 w).Leaves
          fun d => d.sink.fHandle ≠ Handle.valid → d.sink.hiWater = 0 := by
        unfold Compressor.new
        simp only []
        split
        · exact fun _ => rfl
        · split
          · exact fun _ => rfl
          · rename_i hnn hni
            have hnull : (Compressor.CreateFileA mode w).1 ≠ Handle.null := by
              unfold Compressor.CreateFileA
              cases mode <;> simp only [] <;> split <;> simp
            have hv : (Compressor.CreateFileA mode w).1 = Handle.valid := by
              cases hcf : (Compressor.CreateFileA mode w).1 with
              | null => exact absurd hcf hnull
              | invalid => exact absurd hcf hni
              | valid => rfl
            exfalso
            exact ho ⟨fun he => hnn (Or.inr he), by
              cases mode with
              | None => exact absurd (Or.inl rfl) hnn
              | Write => exact Or.inl rfl
              | Append => exact Or.inr rfl, hv, hlib.1, hlib.2⟩
      rw [hc] at hl
      exact hl hi.1

/-- C20 (the output buffer never overflows): the codec being handed back at
most the output space it is offered, for every choice of constructor
arguments and of either format, after the constructor and after every
sequence of `Put` and `Close` calls, exceptions caught, no write into the
output buffer, by the codec, by the gzip header or by the two halves of the
gzip trailer, has ended at an offset beyond `compressedBufferCapacity`; and
when the file was opened the calls all return and that capacity is the flush
threshold plus one output chunk. -/
theorem output_buffer_never_overflows (lib : Lib) (outfile : String) (format : Format)
    (mode : Mode) (genMD5 : Bool) (w : World)
    (hlib : 0 < lib.ZSTD_CStreamInSize ∧ 0 < lib.ZSTD_CStreamOutSize) (ops : List Op) :
    (runCaught lib (Compressor.new lib outfile format mode genMD5 w) ops).Leaves
        (fun d => d.sink.hiWater ≤ d.sink.compressedBufferCapacity) ∧
      (Opens lib outfile mode w →
        ∃ d, runCaught lib (Compressor.new lib outfile format mode genMD5 w) ops = Outcome.ok d ∧
          d.sink.hiWater ≤ d.sink.compressedBufferCapacity ∧
          d.sink.compressedBufferCapacity = COMPRESS_BUFF_SIZE_LIMIT + d.outputChunkSize) := by
  have hopen : Opens lib outfile mode w →
      ∃ d, runCaught lib (Compressor.new lib outfile format mode genMD5 w) ops = Outcome.ok d ∧
        d.sink.hiWater ≤ d.sink.compressedBufferCapacity ∧
        d.sink.compressedBufferCapacity = COMPRESS_BUFF_SIZE_LIMIT + d.outputChunkSize := by
    intro h
    obtain ⟨c, hc, hinv, _⟩ := Compressor.new_ok lib outfile format mode genMD5 w h
    have hf := Compressor.new_fits lib outfile format mode genMD5 w h c hc
    obtain ⟨d, T, hd, _, hfd⟩ := Fits.along_runCaught lib ops [] c hinv hf
    rw [hc]
    exact ⟨d, hd, hfd.2.2.2.1, hfd.2.2.1⟩
  refine ⟨?_, hopen⟩
  rcases Compressor.new_cases_quiet lib outfile format mode genMD5 w hlib with ho | ⟨c, hc, hi⟩
  · obtain ⟨d, hd, hle, _⟩ := hopen ho
    rw [hd]
    exact hle
  · rw [hc]
    refine (runCaught_quiet lib ops (Outcome.ok c) hi).mono fun d hd => ?_
    rw [hd.2]
    exact Nat.zero_le _

theorem output_buffer_never_overflows_witness :
    (0 < demoLib.ZSTD_CStreamInSize ∧ 0 < demoLib.ZSTD_CStreamOutSize) ∧
    (runCaught demoLib (Compressor.new demoLib "out.zst" Format.ZStd Mode.Write false demoWorld)
        [Op.put [1, 2, 3, 4, 5, 6, 7, 8, 9] true, Op.close]).Leaves
        (fun d => d.sink.hiWater ≤ d.sink.compressedBufferCapacity) ∧
      (Opens demoLib "out.zst" Mode.Write demoWorld →
        ∃ d, runCaught demoLib
            (Compressor.new demoLib "out.zst" Format.ZStd Mode.Write false demoWorld)
            [Op.put [1, 2, 3, 4, 5, 6, 7, 8, 9] true, Op.close] = Outcome.ok d ∧
          d.sink.hiWater ≤ d.sink.compressedBufferCapacity ∧
          d.sink.compressedBufferCapacity = COMPRESS_BUFF_SIZE_LIMIT + d.outputChunkSize) :=
  ⟨by decide, output_buffer_never_overflows demoLib "out.zst" Format.ZStd Mode.Write false
    demoWorld (by decide) [Op.put [1, 2, 3, 4, 5, 6, 7, 8, 9] true, Op.close]⟩

/-! ## What the parts of a call leave untouched -/

theorem Outcome.Leaves.bind {α : Type} {P Q : α → Prop} {o : Outcome α} {f : α → Outcome α}
    (h : o.Leaves P) (hpq : ∀ a, P a → Q a) (hf : ∀ a, P a → (f a).Leaves Q) :
    (o.andThen f).Leaves Q := by
  cases o with
  | ok a => exact hf a h
  | raise m a => exact hpq a h
  | hang => trivial
  | fault => trivial

theorem Compressor.frame_refl (c : Compressor) : c.Frame c := ⟨rfl, rfl, rfl, rfl, rfl, rfl, rfl⟩

theorem Compressor.frame_trans {c d e : Compressor} (h₁ : c.Frame d) (h₂ : d.Frame e) :
    c.Frame e :=
  ⟨h₂.1.trans h₁.1, h₂.2.1.trans h₁.2.1, h₂.2.2.1.trans h₁.2.2.1,
    h₂.2.2.2.1.trans h₁.2.2.2.1, h₂.2.2.2.2.1.trans h₁.2.2.2.2.1,
    h₂.2.2.2.2.2.1.trans h₁.2.2.2.2.2.1, h₂.2.2.2.2.2.2.trans h₁.2.2.2.2.2.2⟩

theorem Compressor.kept_refl {P : Sink → Prop} {c : Compressor} (h : P c.sink) : c.Kept P c :=
  ⟨h, c.frame_refl⟩

theorem Compressor.kept_trans {P : Sink → Prop} {c d e : Compressor} (h₁ : c.Kept P d)
    (h₂ : d.Kept P e) : c.Kept P e :=
  ⟨h₂.1, Compressor.frame_trans h₁.2 h₂.2⟩

/-- Sequencing of two parts that each keep the sink property and the frame. -/
theorem Compressor.kept_step {P : Sink → Prop} {c : Compressor} {o : Outcome Compressor}
    {f : Compressor → Outcome Compressor} (h : o.Leaves (c.Kept P))
    (hf : ∀ a, P a.sink → (f a).Leaves (a.Kept P)) : (o.andThen f).Leaves (c.Kept P) :=
  h.bind (fun _ ha => ha) fun a ha => (hf a ha.1).mono fun _ hb => Compressor.kept_trans ha hb

theorem Sink.flushIfFull_kept {P : Sink → Prop} (hk : Sink.Keeps P) (s : Sink) (h : P s) :
    s.flushIfFull.Leaves P := by
  unfold Sink.flushIfFull
  split
  · exact hk.2.1 s h
  · exact h

theorem Sink.drainGZIP_kept {P : Sink → Prop} (hk : Sink.Keeps P) : ∀ (fuel : Nat) (s : Sink)
    (p : List Nat), P s → (Sink.drainGZIP fuel s p).Leaves P
  | 0, _, _, _ => trivial
  | fuel + 1, s, p, h => by
    unfold Sink.drainGZIP
    simp only []
    refine (Sink.flushIfFull_kept hk _ (hk.1 s _ h)).andThen fun t ht => ?_
    split
    · exact Sink.drainGZIP_kept hk fuel t _ ht
    · exact ht

theorem Sink.drainZSTD_kept {P : Sink → Prop} (hk : Sink.Keeps P) (n : Nat) : ∀ (fuel : Nat)
    (s : Sink) (p : List Nat), P s → (Sink.drainZSTD n fuel s p).Leaves P
  | 0, _, _, _ => trivial
  | fuel + 1, s, p, h => by
    unfold Sink.drainZSTD
    simp only []
    refine (Sink.flushIfFull_kept hk _ (hk.1 s _ h)).andThen fun t ht => ?_
    split
    · exact ht
    · exact Sink.drainZSTD_kept hk n fuel t _ ht

theorem Compressor.flush_kept {P : Sink → Prop} (hk : Sink.Keeps P) (c : Compressor)
    (h : P c.sink) : (c.sink.flushIfFull.lift c.withSink).Leaves (c.Kept P) :=
  Outcome.Leaves.lift ((Sink.flushIfFull_kept hk c.sink h).mono fun _ ht => ⟨ht, c.frame_refl⟩)

theorem Compressor.deflateAll_kept {P : Sink → Prop} (hk : Sink.Keeps P) (lib : Lib)
    (c : Compressor) (x : List Nat) (l : Bool) (h : P c.sink) :
    (Compressor.deflateAll lib c x l).Leaves (c.Kept P) := by
  unfold Compressor.deflateAll
  split
  · trivial
  · simp only []
    refine Outcome.Leaves.lift ?_
    exact (Sink.drainGZIP_kept hk _ _ _ h).mono fun _ ht => ⟨ht, c.frame_refl⟩

theorem Compressor.deflateAll_kept_of {P : Sink → Prop} (hk : Sink.Keeps P) (lib : Lib)
    (c a : Compressor) (x : List Nat) (l : Bool) (hs : P a.sink) (hf : c.Frame a) :
    (Compressor.deflateAll lib a x l).Leaves (c.Kept P) :=
  (Compressor.deflateAll_kept hk lib a x l hs).mono fun _ hd =>
    ⟨hd.1, Compressor.frame_trans hf hd.2⟩

theorem Compressor.zstdAll_kept {P : Sink → Prop} (hk : Sink.Keeps P) (lib : Lib)
    (c : Compressor) (x : List Nat) (l : Bool) (h : P c.sink) :
    (Compressor.zstdAll lib c x l).Leaves (c.Kept P) := by
  unfold Compressor.zstdAll
  split
  · trivial
  · simp only []
    refine Outcome.Leaves.lift ?_
    exact (Sink.drainZSTD_kept hk _ _ _ _ h).mono fun _ ht => ⟨ht, c.frame_refl⟩

theorem Compressor.zstdEnd_kept {P : Sink → Prop} (hk : Sink.Keeps P) (c : Compressor)
    (h : P c.sink) : c.zstdEnd.Leaves (c.Kept P) := by
  unfold Compressor.zstdEnd
  refine Compressor.kept_step ?_ fun a ha => ?_
  · exact Outcome.Leaves.lift ((hk.2.1 c.sink h).mono fun _ ht => ⟨ht, c.frame_refl⟩)
  · refine ⟨?_, a.frame_refl⟩
    show P (if a.sink.bGenMD5 then { a.sink with md5x := a.sink.md5x.Final } else a.sink)
    split
    · exact hk.2.2 _ _ ha
    · exact ha

theorem Compressor.gzipTrailer_kept {P : Sink → Prop} (hk : Sink.Keeps P) (c : Compressor)
    (h : P c.sink) : c.gzipTrailer.Leaves (c.Kept P) := by
  unfold Compressor.gzipTrailer
  refine Compressor.kept_step (Compressor.flush_kept hk c h) fun a ha => ?_
  simp only []
  refine Compressor.kept_step ?_ fun b hb => ?_
  · refine Outcome.Leaves.lift ?_
    refine (hk.2.1 _ (hk.1 _ _ (hk.1 _ _ ha))).mono fun _ ht => ⟨ht, a.frame_refl⟩
  · refine ⟨?_, b.frame_refl⟩
    show P (if b.sink.bGenMD5 then { b.sink with md5x := b.sink.md5x.Final } else b.sink)
    split
    · exact hk.2.2 _ _ hb
    · exact hb

theorem Compressor.compressAndWrite_kept {P : Sink → Prop} (hk : Sink.Keeps P) (lib : Lib)
    (c : Compressor) (x : List Nat) (l : Bool) (h : P c.sink) :
    (c._CompressAndWrite lib x l).Leaves (c.Kept P) := by
  unfold Compressor._CompressAndWrite
  split
  · unfold Compressor._CompressAndWriteGZIP
    refine Compressor.kept_step (Compressor.flush_kept hk c h) fun a ha => ?_
    split
    · exact Compressor.kept_refl ha
    · simp only []
      refine Compressor.kept_step ?_ fun b hb => ?_
      · exact Compressor.deflateAll_kept_of hk lib a _ x _ ha a.frame_refl
      · split
        · exact Compressor.gzipTrailer_kept hk b hb
        · exact Compressor.kept_refl hb
  · unfold Compressor._CompressAndWriteZSTD
    refine Compressor.kept_step (Compressor.flush_kept hk c h) fun a ha => ?_
    split
    · exact Compressor.kept_refl ha
    · refine Compressor.kept_step (Compressor.zstdAll_kept hk lib a x _ ha) fun b hb => ?_
      split
      · exact Compressor.zstdEnd_kept hk b hb
      · exact Compressor.kept_refl hb

theorem Compressor.endAndWrite_kept {P : Sink → Prop} (hk : Sink.Keeps P) (lib : Lib)
    (c : Compressor) (h : P c.sink) : (c._EndAndWrite lib).Leaves (c.Kept P) := by
  unfold Compressor._EndAndWrite
  split
  · unfold Compressor._EndAndWriteGZIP
    split
    · exact Compressor.kept_refl h
    · refine Compressor.kept_step (Compressor.flush_kept hk c h) fun a ha => ?_
      simp only []
      refine Compressor.kept_step ?_ fun b hb => Compressor.gzipTrailer_kept hk b hb
      split
      · exact Compressor.deflateAll_kept_of hk lib a _ _ true ha a.frame_refl
      · exact Compressor.deflateAll_kept hk lib a _ true ha
  · unfold Compressor._EndAndWriteZSTD
    split
    · exact Compressor.kept_refl h
    · refine Compressor.kept_step (Compressor.flush_kept hk c h) fun a ha => ?_
      exact Compressor.kept_step (Compressor.zstdAll_kept hk lib a _ true ha) fun b hb =>
        Compressor.zstdEnd_kept hk b hb

theorem Compressor.compressAndWrite_kept_of {P : Sink → Prop} (hk : Sink.Keeps P) (lib : Lib)
    (c a : Compressor) (x : List Nat) (l : Bool) (hs : P a.sink) (hf : c.Frame a) :
    (a._CompressAndWrite lib x l).Leaves (c.Kept P) :=
  (Compressor.compressAndWrite_kept hk lib a x l hs).mono fun _ hd =>
    ⟨hd.1, Compressor.frame_trans hf hd.2⟩

theorem Compressor.putHeld_kept {P : Sink → Prop} (hk : Sink.Keeps P) (lib : Lib)
    (c : Compressor) (data : List Nat) (l : Bool) (h : P c.sink) :
    (c.putHeld lib data l).Leaves fun p => c.Kept P p.1 := by
  unfold Compressor.putHeld
  split
  · split
    · simp only []
      split
      · refine Outcome.Leaves.lift ?_
        refine (Compressor.compressAndWrite_kept_of hk lib c _ _ _ ?_ ?_).mono ?_
        · exact h
        · exact c.frame_refl
        · exact fun d hd => ⟨hd.1, hd.2⟩
      · exact ⟨h, c.frame_refl⟩
    · refine Outcome.Leaves.lift ?_
      exact (Compressor.compressAndWrite_kept hk lib c _ _ h).mono fun d hd => ⟨hd.1, hd.2⟩
  · exact Compressor.kept_refl h

theorem Compressor.putLoop_kept {P : Sink → Prop} (hk : Sink.Keeps P) (lib : Lib) (l : Bool) :
    ∀ (fuel : Nat) (c a : Compressor) (ptr : List Nat), c.Kept P a →
      (Compressor.putLoop lib l fuel a ptr).Leaves fun p => c.Kept P p.1
  | 0, c, a, ptr, h => by
    unfold Compressor.putLoop
    split
    · trivial
    · exact h
  | fuel + 1, c, a, ptr, h => by
    unfold Compressor.putLoop
    split
    · have hcw := Compressor.compressAndWrite_kept_of hk lib c a (ptr.take a.inputChunkSize)
        (l && decide (ptr.length ≤ a.inputChunkSize)) h.1 h.2
      revert hcw
      cases a._CompressAndWrite lib (ptr.take a.inputChunkSize)
          (l && decide (ptr.length ≤ a.inputChunkSize)) with
      | ok d => intro hd; exact Compressor.putLoop_kept hk lib l fuel c d _ hd
      | raise m d => intro hd; exact hd
      | hang => intro _; trivial
      | fault => intro _; trivial
    · exact h

theorem Compressor.putTail_kept {P : Sink → Prop} (hk : Sink.Keeps P) (lib : Lib) (l : Bool)
    (c a : Compressor) (ptr : List Nat) (h : c.Kept P a) :
    (Compressor.putTail lib l a ptr).Leaves (c.Kept P) := by
  unfold Compressor.putTail
  split
  · split
    · exact Compressor.compressAndWrite_kept_of hk lib c a ptr true h.1 h.2
    · exact ⟨h.1, h.2⟩
  · exact h

/-- A `Put` keeps every sink property that stores and flushes keep, writes
none of the framed members except the input count, and adds `size` to the
input count unless it throws "end_of_stream" at once. -/
theorem Compressor.Put_kept {P : Sink → Prop} (hk : Sink.Keeps P) (lib : Lib) (c : Compressor)
    (data : List Nat) (l : Bool) (h : P c.sink) :
    (c.Put lib data l).Leaves fun d =>
      (c.withTotal (if c.bEndOfStream = true ∨ data.length = 0 then c.totalInputSize
        else u64 (c.totalInputSize + data.length))).Kept P d := by
  by_cases hq : c.bEndOfStream = true ∨ data.length = 0
  · rw [if_pos hq]
    have hw : c.withTotal c.totalInputSize = c := rfl
    rw [hw]
    unfold Compressor.Put
    split
    · exact ⟨h, c.frame_refl⟩
    · rename_i he
      have hd : ¬ 0 < data.length := by
        rcases hq with h1 | h1
        · exact fun h2 => he ⟨h1, h2⟩
        · omega
      rw [if_neg hd]
      split
      · refine Outcome.Leaves.lift ?_
        exact (Compressor.compressAndWrite_kept hk lib c _ true h).mono fun d hd => ⟨hd.1, hd.2⟩
      · exact ⟨h, c.frame_refl⟩
  · rw [if_neg hq]
    have hd : 0 < data.length := by
      by_contra h0
      exact hq (Or.inr (by omega))
    have he : ¬ (c.bEndOfStream = true ∧ 0 < data.length) := fun h1 => hq (Or.inl h1.1)
    unfold Compressor.Put
    rw [if_neg he, if_pos hd]
    simp only []
    have h1 : (Compressor.thenPtr
        (Compressor.putHeld lib { c with totalInputSize := u64 (c.totalInputSize + data.length) }
          data l) (Compressor.putLoop lib l data.length)).Leaves fun p =>
          (c.withTotal (u64 (c.totalInputSize + data.length))).Kept P p.1 := by
      unfold Compressor.thenPtr
      have h0 : P (c.withTotal (u64 (c.totalInputSize + data.length))).sink := h
      exact (Compressor.putHeld_kept hk lib (c.withTotal _) data l h0).andThen fun p hp =>
        Compressor.putLoop_kept hk lib l data.length _ p.1 p.2 hp
    revert h1
    cases Compressor.thenPtr
        (Compressor.putHeld lib { c with totalInputSize := u64 (c.totalInputSize + data.length) }
          data l) (Compressor.putLoop lib l data.length) with
    | ok p => intro hp; exact Compressor.putTail_kept hk lib l _ p.1 p.2 hp
    | raise m p => intro hp; exact hp
    | hang => intro _; trivial
    | fault => intro _; trivial

/-- A `Close` that does its work returns with the state `e.closeHandle.release`
for a state `e` that kept the sink property and the frame. -/
theorem Compressor.Close_kept {P : Sink → Prop} (hk : Sink.Keeps P) (lib : Lib)
    (c d : Compressor) (h : P c.sink) (hc : c.bClosed = false)
    (hd : c.Close lib = Outcome.ok d) : ∃ e, c.Kept P e ∧ d = e.closeHandle.release := by
  unfold Compressor.Close at hd
  rw [if_neg (by rw [hc]; decide)] at hd
  simp only [] at hd
  obtain ⟨a, ha, hr⟩ := Outcome.andThen_eq_ok hd
  cases hr
  by_cases hn : c.sink.fHandle = Handle.null
  · rw [if_neg (by simp [hn])] at ha
    cases ha
    refine ⟨c, Compressor.kept_refl h, ?_⟩
    have : c.closeHandle = c := by
      cases c with
      | mk a1 a2 a3 a4 a5 a6 a7 a8 a9 a10 a11 a12 s a13 a14 a15 =>
        cases s
        simp only [Compressor.closeHandle]
        simp only at hn
        rw [hn]
    rw [this]
  · rw [if_pos hn] at ha
    obtain ⟨e, he, hr⟩ := Outcome.andThen_eq_ok ha
    cases hr
    by_cases hs : c.bEndOfStream = false
    · rw [if_pos hs] at he
      have hl := Compressor.endAndWrite_kept hk lib c h
      rw [he] at hl
      exact ⟨e, hl, rfl⟩
    · rw [if_neg hs] at he
      cases he
      exact ⟨c, Compressor.kept_refl h, rfl⟩

/-! ## Invariants along caught call sequences of an opened compressor -/

/-- A property of the state that every returning `Put` and `Close` keeps on a
state satisfying the bookkeeping invariant holds after every sequence of
calls, exceptions caught, and every such sequence returns. -/
theorem Inv.along_caught (lib : Lib) (Q : Compressor → Prop)
    (hput : ∀ (S : List Nat) (c d : Compressor) (data : List Nat) (l : Bool), Inv S c → Q c →
      c.Put lib data l = Outcome.ok d → Q d)
    (hclose : ∀ (S : List Nat) (c d : Compressor), Inv S c → Q c →
      c.Close lib = Outcome.ok d → Q d) :
    ∀ (ops : List Op) (S : List Nat) (c : Compressor), Inv S c → Q c →
      ∃ d T, runCaught lib (Outcome.ok c) ops = Outcome.ok d ∧ Inv T d ∧ Q d := by
  intro ops
  induction ops with
  | nil => intro S c h hq; exact ⟨c, S, rfl, h, hq⟩
  | cons op ops ih =>
    intro S c h hq
    rw [runCaught_ok_cons]
    cases op with
    | put data l =>
      rcases h.put lib data l with ⟨d, hd, hi, _⟩ | ⟨hr, _, _⟩
      · obtain ⟨e, T, he, hie, hqe⟩ := ih _ d hi (hput S c d data l h hq hd)
        refine ⟨e, T, ?_, hie, hqe⟩
        show runCaught lib ((c.Put lib data l).caught) ops = _
        rw [hd]; exact he
      · obtain ⟨e, T, he, hie, hqe⟩ := ih _ c h hq
        refine ⟨e, T, ?_, hie, hqe⟩
        show runCaught lib ((c.Put lib data l).caught) ops = _
        rw [hr]; exact he
    | close =>
      obtain ⟨d, hd, hi, _⟩ := h.close lib
      obtain ⟨e, T, he, hie, hqe⟩ := ih _ d hi (hclose S c d h hq hd)
      refine ⟨e, T, ?_, hie, hqe⟩
      show runCaught lib ((c.Close lib).caught) ops = _
      rw [hd]; exact he

/-- On a state satisfying the bookkeeping invariant the accepted input grows
by exactly the sizes of the `Put` calls that return. -/
theorem Inv.returned (lib : Lib) : ∀ (ops : List Op) (S : List Nat) (c : Compressor), Inv S c →
    ∃ d T, runCaught lib (Outcome.ok c) ops = Outcome.ok d ∧ Inv T d ∧
      T.length = S.length + returnedSize lib c ops := by
  intro ops
  induction ops with
  | nil => intro S c h; exact ⟨c, S, rfl, h, rfl⟩
  | cons op ops ih =>
    intro S c h
    rw [runCaught_ok_cons]
    cases op with
    | put data l =>
      rcases h.put lib data l with ⟨d, hd, hi, _⟩ | ⟨hr, _, _⟩
      · obtain ⟨e, T, he, hie, hl⟩ := ih _ d hi
        refine ⟨e, T, ?_, hie, ?_⟩
        · show runCaught lib ((c.Put lib data l).caught) ops = _
          rw [hd]; exact he
        · have hrs : returnedSize lib c (Op.put data l :: ops) =
              data.length + returnedSize lib d ops := by
            show (match c.Put lib data l with
              | Outcome.ok d => (Op.put data l).size + returnedSize lib d ops
              | Outcome.raise _ d => returnedSize lib d ops
              | Outcome.hang => 0
              | Outcome.fault => 0) = _
            rw [hd]
            rfl
          rw [hrs, hl, List.length_append]
          omega
      · obtain ⟨e, T, he, hie, hl⟩ := ih _ c h
        refine ⟨e, T, ?_, hie, ?_⟩
        · show runCaught lib ((c.Put lib data l).caught) ops = _
          rw [hr]; exact he
        · have hrs : returnedSize lib c (Op.put data l :: ops) = returnedSize lib c ops := by
            show (match c.Put lib data l with
              | Outcome.ok d => (Op.put data l).size + returnedSize lib d ops
              | Outcome.raise _ d => returnedSize lib d ops
              | Outcome.hang => 0
              | Outcome.fault => 0) = _
            rw [hr]
          rw [hrs, hl]
    | close =>
      obtain ⟨d, hd, hi, _⟩ := h.close lib
      obtain ⟨e, T, he, hie, hl⟩ := ih _ d hi
      refine ⟨e, T, ?_, hie, ?_⟩
      · show runCaught lib ((c.Close lib).caught) ops = _
        rw [hd]; exact he
      · have hrs : returnedSize lib c (Op.close :: ops) = returnedSize lib d ops := by
          show (match c.Close lib with
            | Outcome.ok d => Op.close.size + returnedSize lib d ops
            | Outcome.raise _ d => returnedSize lib d ops
            | Outcome.hang => 0
            | Outcome.fault => 0) = _
          rw [hd]
          show 0 + returnedSize lib d ops = _
          omega
        rw [hrs, hl]

theorem Sink.keeps_true : Sink.Keeps fun _ => True :=
  ⟨fun _ _ _ => trivial, fun s _ => by
    cases s._WriteAndReset true false <;> trivial, fun _ _ _ => trivial⟩

/-! ## The input count -/

/-- C21, counterexample (a `Put` that raises has been counted): on a
default-constructed compressor, which has no open file, `Put(data, 3)` adds 3
to the input count and then throws "FileHandle is null" from the first flush,
so `InputSize()` is 3 although no `Put` call returned normally. -/
theorem raising_put_is_counted :
    ((Compressor.newDefault demoWorld).Put demoLib [1, 2, 3] false).lift Compressor.InputSize =
        Outcome.raise "FileHandle is null" 3 ∧
      returnedSize demoLib (Compressor.newDefault demoWorld) [Op.put [1, 2, 3] false] = 0 ∧
      (runCaught demoLib (Outcome.ok (Compressor.newDefault demoWorld))
        [Op.put [1, 2, 3] false]).lift Compressor.InputSize = Outcome.ok 3 := by
  refine ⟨?_, ?_, ?_⟩ <;> decide

/-- C21, amended (`InputSize()` on an opened compressor): for every
successfully opened compressor and every sequence of `Put` and `Close` calls,
exceptions caught, every call returns or throws and `InputSize()` is the sum,
modulo `2^64`, of the sizes of the `Put` calls that returned normally. On any
compressor whatever, a `Put` that does not throw "end_of_stream" at once adds
its size to the count before any other work, also when it then throws. -/
theorem input_size_is_sum_of_returned_puts (lib : Lib) (outfile : String) (format : Format)
    (mode : Mode) (genMD5 : Bool) (w : World) (h : Opens lib outfile mode w) (ops : List Op) :
    (∃ c d, Compressor.new lib outfile format mode genMD5 w = Outcome.ok c ∧
        runCaught lib (Outcome.ok c) ops = Outcome.ok d ∧
        d.InputSize = returnedSize lib c ops % 2 ^ 64) ∧
      (∀ (c : Compressor) (data : List Nat) (l : Bool),
        (c.Put lib data l).Leaves fun d =>
          d.InputSize = if c.bEndOfStream = true ∨ data.length = 0 then c.InputSize
            else (c.InputSize + data.length) % 2 ^ 64) := by
  constructor
  · obtain ⟨c, hc, hinv, _⟩ := Compressor.new_ok lib outfile format mode genMD5 w h
    obtain ⟨d, T, hd, hid, hl⟩ := Inv.returned lib ops [] c hinv
    refine ⟨c, d, hc, hd, ?_⟩
    show d.totalInputSize = _
    rw [hid.2.2.1, hl]
    simp [u64]
  · intro c data l
    exact (Compressor.Put_kept Sink.keeps_true lib c data l trivial).mono fun d hd => hd.2.2.2.2.2.1

theorem input_size_is_sum_of_returned_puts_witness :
    Opens demoLib "out.zst" Mode.Write demoWorld ∧
    ((∃ c d, Compressor.new demoLib "out.zst" Format.ZStd Mode.Write false demoWorld =
          Outcome.ok c ∧
        runCaught demoLib (Outcome.ok c)
          [Op.put [1, 2, 3] true, Op.put [4] false, Op.put [] false] = Outcome.ok d ∧
        d.InputSize = returnedSize demoLib c
          [Op.put [1, 2, 3] true, Op.put [4] false, Op.put [] false] % 2 ^ 64) ∧
      (∀ (c : Compressor) (data : List Nat) (l : Bool),
        (c.Put demoLib data l).Leaves fun d =>
          d.InputSize = if c.bEndOfStream = true ∨ data.length = 0 then c.InputSize
            else (c.InputSize + data.length) % 2 ^ 64)) :=
  ⟨by decide, input_size_is_sum_of_returned_puts demoLib "out.zst" Format.ZStd Mode.Write false
    demoWorld (by decide) [Op.put [1, 2, 3] true, Op.put [4] false, Op.put [] false]⟩

/-! ## The recorded file size -/

theorem Sink.tallied_keeps (pre : Nat) : Sink.Keeps (Sink.Tallied pre) := by
  refine ⟨fun s b h => h, fun s h => ?_, fun s m h => h⟩
  obtain ⟨hv, hs⟩ := h
  unfold Sink._WriteAndReset
  split
  · exact ⟨hv, hs⟩
  · split
    · exact ⟨hv, hs⟩
    · split
      · exact ⟨hv, hs⟩
      · refine ⟨hv, ?_⟩
        show u64 (s.fSize + (if s.fHandle = Handle.valid then s.compressedBufferSize else 0)) =
          u64 (pre + ((s.written ++ [s.compressedBuffer]).map List.length).sum)
        rw [if_pos hv, hs, u64_add_u64, List.map_append, List.sum_append]
        simp [Sink.bytesWritten, Sink.compressedBufferSize, Nat.add_assoc]

/-- The set-up after the open keeps every sink property that stores and
flushes keep and that does not depend on the geometry of the output buffer. -/
theorem Compressor.setup_kept {P : Sink → Prop} (hk : Sink.Keeps P) (lib : Lib) (c : Compressor)
    (h : ∀ l k : Nat, P { c.sink with
      compressedBufferSizeLimit := l, compressedBufferCapacity := k, compressedBuffer := [] }) :
    (Compressor.setup lib c).Leaves fun d => P d.sink ∧ d.fName = c.fName ∧
      d.totalInputSize = c.totalInputSize ∧ d.bClosed = c.bClosed ∧ d.deleted = c.deleted := by
  unfold Compressor.setup
  split
  · simp only []
    refine Outcome.Leaves.bind (Outcome.Leaves.lift ?_) (fun _ ha => ha) fun a ha => ha
    exact (hk.2.1 _ (hk.1 _ _ (h _ _))).mono fun t ht => ⟨ht, rfl, rfl, rfl, rfl⟩
  · exact ⟨h _ _, rfl, rfl, rfl, rfl⟩

theorem Compressor.createFile_append (w : World) :
    (Compressor.CreateFileA Mode.Append w).2 = w.file := by
  unfold Compressor.CreateFileA
  simp only []
  split <;> rfl

theorem Compressor.new_tallied (lib : Lib) (outfile : String) (format : Format) (mode : Mode)
    (genMD5 : Bool) (w : World) (h : Opens lib outfile mode w)
    (hw : (w.file.getD []).length < 2 ^ 64) (c : Compressor)
    (hc : Compressor.new lib outfile format mode genMD5 w = Outcome.ok c) :
    Sink.Tallied (preSize mode w) c.sink ∧ c.bClosed = false ∧ c.deleted = 0 := by
  obtain ⟨hne, hm, hopen, _, _⟩ := h
  have hnn : ¬ (mode = Mode.None ∨ outfile = "") := by
    rintro (h | h)
    · rcases hm with hm | hm <;> simp [hm] at h
    · exact hne h
  have hni : ¬ ((Compressor.CreateFileA mode w).1 = Handle.invalid) := by
    rw [hopen]; decide
  have hl : (Compressor.new lib outfile format mode genMD5 w).Leaves
      fun d => Sink.Tallied (preSize mode w) d.sink ∧ d.bClosed = false ∧ d.deleted = 0 := by
    unfold Compressor.new
    simp only [hnn, if_false, hni, hm, if_true]
    refine (Compressor.setup_kept (Sink.tallied_keeps (preSize mode w)) lib _ ?_).mono ?_
    · intro l k
      rcases hm with hm | hm
      · subst hm
        exact ⟨hopen, rfl⟩
      · subst hm
        refine ⟨hopen, ?_⟩
        show ((Compressor.CreateFileA Mode.Append w).2.getD []).length =
          u64 ((w.file.getD []).length + 0)
        rw [Compressor.createFile_append, Nat.add_zero]
        exact (Nat.mod_eq_of_lt hw).symm
    · intro d hd
      refine ⟨hd.1, ?_, ?_⟩
      · rw [hd.2.2.2.1]
        split <;> rfl
      · rw [hd.2.2.2.2]
        split <;> rfl
  rw [hc] at hl
  exact hl

theorem Inv.put_closed {S : List Nat} {c d : Compressor} {lib : Lib} {data : List Nat} {l : Bool}
    (h : Inv S c) (hc : c.bClosed = true) (hd : c.Put lib data l = Outcome.ok d) : d = c := by
  rcases h.1 with hr | hf
  · have := hr.1.2.2.2.2.2.2.2
    rw [hc] at this
    exact absurd this (by decide)
  · obtain ⟨h1, h2⟩ := Compressor.Put_finished lib c data l hf
    by_cases h0 : 0 < data.length
    · rw [h1 h0] at hd
      cases hd
    · rw [h2 (by omega)] at hd
      cases hd
      rfl

theorem Compressor.Close_of_closed {c d : Compressor} {lib : Lib} (hc : c.bClosed = true)
    (hd : c.Close lib = Outcome.ok d) : d = c := by
  unfold Compressor.Close at hd
  rw [if_pos hc] at hd
  cases hd
  rfl

/-- The two ways the last part of `Close` ends: the file is kept with its
recorded size, or, no input having been counted, it is deleted and the
recorded size reset. -/
theorem Compressor.release_cases (c : Compressor) :
    c.release.sink.written = c.sink.written ∧ c.release.totalInputSize = c.totalInputSize ∧
      c.release.bClosed = true ∧
      ((c.release.deleted = c.deleted ∧ c.release.sink.fSize = c.sink.fSize ∧
          c.release.sink.file = c.sink.file) ∨
        (c.release.deleted = c.deleted + 1 ∧ c.release.sink.fSize = 0 ∧
          c.release.sink.file = none ∧ c.totalInputSize = 0)) := by
  unfold Compressor.release
  split
  · rename_i h
    exact ⟨rfl, rfl, rfl, Or.inr ⟨rfl, rfl, rfl, h.2.2⟩⟩
  · exact ⟨rfl, rfl, rfl, Or.inl ⟨rfl, rfl, rfl⟩⟩

/-- C22, counterexample (`Close` resets the recorded size): a gzip compressor
opened in Write mode on a new file and closed at once has written 20 bytes
through the sink (the 10 header bytes, then the final deflate output and the
trailer), yet after `Close()`, which deletes the file of the empty stream and
sets `fSize = 0`, `FileSize(false)` returns 0; before `Close()` it returned
10, the header. -/
theorem file_size_is_reset_by_close :
    (Compressor.new demoLib "out.gz" Format.GZip Mode.Write false demoWorld).lift
        (fun c => (c.FileSize false, c.sink.bytesWritten)) = Outcome.ok (10, 10) ∧
      ((Compressor.new demoLib "out.gz" Format.GZip Mode.Write false demoWorld).andThen
        fun c => c.Close demoLib).lift
        (fun d => (d.FileSize false, d.sink.bytesWritten, d.sink.file, d.deleted)) =
        Outcome.ok (0, 20, none, 1) := by
  constructor <;> decide

/-- C22, amended (`FileSize`): in every state `FileSize(true)` is 0 when the
mode is Write or Append and the input count is 0, and the recorded size
`fSize` otherwise, and `FileSize(false)` is `fSize`. On a successfully opened
compressor, after every sequence of `Put` and `Close` calls, exceptions
caught, `fSize` is the size the file had at the open (counted in Append mode,
else 0) plus the byte counts of all sink writes so far, modulo `2^64`, as
long as `Close()` has not deleted the file; once `Close()` has deleted the
file of a stream without input, `fSize` is 0 whatever was written. -/
theorem file_size_is_the_tally (lib : Lib) (outfile : String) (format : Format)
    (mode : Mode) (genMD5 : Bool) (w : World) (h : Opens lib outfile mode w)
    (hw : (w.file.getD []).length < 2 ^ 64) (ops : List Op) :
    (∀ c : Compressor,
        c.FileSize true = (if (c.sink.fMode = Mode.Write ∨ c.sink.fMode = Mode.Append) ∧
          c.InputSize = 0 then 0 else c.sink.fSize) ∧
        c.FileSize false = c.sink.fSize) ∧
      ∃ d, runCaught lib (Compressor.new lib outfile format mode genMD5 w) ops = Outcome.ok d ∧
        (d.deleted = 0 → d.FileSize false = (preSize mode w + d.sink.bytesWritten) % 2 ^ 64) ∧
        (d.deleted ≠ 0 → d.FileSize false = 0 ∧ d.bClosed = true ∧ d.InputSize = 0) := by
  constructor
  · intro c
    constructor
    · unfold Compressor.FileSize Compressor.InputSize
      simp
    · unfold Compressor.FileSize
      simp
  · obtain ⟨c, hc, hinv, _⟩ := Compressor.new_ok lib outfile format mode genMD5 w h
    obtain ⟨ht, hb, hdel⟩ := Compressor.new_tallied lib outfile format mode genMD5 w h hw c hc
    have hfs : ∀ x : Compressor, x.FileSize false = x.sink.fSize := by
      intro x
      unfold Compressor.FileSize
      simp
    obtain ⟨d, T, hd, _, hq⟩ := Inv.along_caught lib
      (fun x => (x.bClosed = false → Sink.Tallied (preSize mode w) x.sink ∧ x.deleted = 0) ∧
        (x.deleted = 0 → x.sink.fSize = u64 (preSize mode w + x.sink.bytesWritten)) ∧
        (x.deleted ≠ 0 → x.sink.fSize = 0 ∧ x.bClosed = true ∧ x.totalInputSize = 0))
      (fun S x y data l hi hx hy => by
        cases hcl : x.bClosed with
        | true =>
          rw [hi.put_closed hcl hy]
          exact hx
        | false =>
          obtain ⟨hs, h0⟩ := hx.1 hcl
          have hk := Compressor.Put_kept (Sink.tallied_keeps (preSize mode w)) lib x data l hs
          rw [hy] at hk
          have hyd : y.deleted = 0 := hk.2.2.2.2.2.2.2.trans h0
          exact ⟨fun _ => ⟨hk.1, hyd⟩, fun _ => hk.1.2, fun hne => absurd hyd hne⟩)
      (fun S x y hi hx hy => by
        cases hcl : x.bClosed with
        | true =>
          rw [Compressor.Close_of_closed hcl hy]
          exact hx
        | false =>
          obtain ⟨hs, h0⟩ := hx.1 hcl
          obtain ⟨e, hk, hye⟩ :=
            Compressor.Close_kept (Sink.tallied_keeps (preSize mode w)) lib x y hs hcl hy
          obtain ⟨r1, r2, r3, r4⟩ := e.closeHandle.release_cases
          rw [← hye] at r1 r2 r3 r4
          have hed : e.closeHandle.deleted = 0 := hk.2.2.2.2.2.2.2.trans h0
          refine ⟨fun hb => ?_, fun hy0 => ?_, fun hy0 => ?_⟩
          · rw [r3] at hb
            cases hb
          · rcases r4 with ⟨q1, q2, _⟩ | ⟨q1, _⟩
            · rw [q2]
              show e.sink.fSize = u64 (preSize mode w + (y.sink.written.map List.length).sum)
              rw [r1]
              exact hk.1.2
            · rw [q1, hed] at hy0
              cases hy0
          · rcases r4 with ⟨q1, _⟩ | ⟨_, q2, _, q4⟩
            · rw [q1, hed] at hy0
              exact absurd rfl hy0
            · exact ⟨q2, r3, by rw [r2]; exact q4⟩)
      ops [] c hinv ⟨fun _ => ⟨ht, hdel⟩, fun _ => ht.2, fun hne => absurd hdel hne⟩
    rw [hc]
    refine ⟨d, hd, fun h0 => ?_, fun h0 => ?_⟩
    · rw [hfs, hq.2.1 h0]
      rfl
    · rw [hfs]
      exact hq.2.2 h0

theorem file_size_is_the_tally_witness :
    Opens demoLib "out.gz" Mode.Append
        { file := some [9, 9], openOk := true, md5Buffer := [], md5Digest := [] } ∧
    (([9, 9] : List Nat)).length < 2 ^ 64 ∧
    ((∀ c : Compressor,
        c.FileSize true = (if (c.sink.fMode = Mode.Write ∨ c.sink.fMode = Mode.Append) ∧
          c.InputSize = 0 then 0 else c.sink.fSize) ∧
        c.FileSize false = c.sink.fSize) ∧
      ∃ d, runCaught demoLib (Compressor.new demoLib "out.gz" Format.GZip Mode.Append true
          { file := some [9, 9], openOk := true, md5Buffer := [], md5Digest := [] })
          [Op.put [1, 2, 3] true] = Outcome.ok d ∧
        (d.deleted = 0 → d.FileSize false = (preSize Mode.Append
          { file := some [9, 9], openOk := true, md5Buffer := [], md5Digest := [] } +
            d.sink.bytesWritten) % 2 ^ 64) ∧
        (d.deleted ≠ 0 → d.FileSize false = 0 ∧ d.bClosed = true ∧ d.InputSize = 0)) :=
  ⟨by decide, by decide, file_size_is_the_tally demoLib "out.gz" Format.GZip Mode.Append true
    { file := some [9, 9], openOk := true, md5Buffer := [], md5Digest := [] }
    (by decide) (by decide) [Op.put [1, 2, 3] true]⟩

/-! ## The digest string -/

theorem MD5.final_of_finished (m : MD5) (h : m._finished = true) : m.Final = m := by
  unfold MD5.Final
  rw [if_pos h]

theorem MD5.toHexString_eq (m : MD5) (u : Bool) :
    m.ToHexString u = (m, MD5._BytesToHexString m._digest 16 u) := by
  unfold MD5.ToHexString
  by_cases h : m._finished = true
  · simp only [h, if_true, MD5.final_of_finished m h]
  · simp only [h, if_false]
    rfl

theorem MD5.hex_length (d : List Nat) (u : Bool) :
    (MD5._BytesToHexString d 16 u).length = 32 := by
  unfold MD5._BytesToHexString
  cases u <;> simp [List.range, List.range.loop, String.length]

theorem hex_lower_mem (n : Nat) (h : n < 16) :
    HEX_LOWER_CASE.getD n '0' ∈ HEX_LOWER_CASE := by
  have : ∀ k : Fin 16, HEX_LOWER_CASE.getD k.val '0' ∈ HEX_LOWER_CASE := by decide
  exact this ⟨n, h⟩

theorem MD5.hex_lower (d : List Nat) :
    ∀ ch ∈ (MD5._BytesToHexString d 16 false).toList, ch ∈ HEX_LOWER_CASE := by
  intro ch hch
  unfold MD5._BytesToHexString at hch
  simp only [String.toList, List.mem_flatMap] at hch
  obtain ⟨i, _, hi⟩ := hch
  simp only [Bool.false_eq_true, if_false, List.mem_cons, List.mem_singleton,
    List.not_mem_nil, or_false] at hi
  have hb : byteAt d i < 256 := Nat.mod_lt _ (by decide)
  rcases hi with hi | hi
  · rw [hi]
    exact hex_lower_mem _ (by omega)
  · rw [hi]
    exact hex_lower_mem _ (Nat.mod_lt _ (by decide))

/-- C23 (`GetHashStr`): the result is the empty string exactly when
digesting is disabled or the file name is empty; otherwise it is the hex
string of the 16 bytes of `md5x._digest`, followed, when `md5fx` is set, by
`delim` and the base name and extension that `_splitpath_s` delivers for the
file name, and by nothing when `md5fx` is not set. The hex string has 32
characters, two per byte (high nibble first), all of them among
`0123456789abcdef`. -/
theorem get_hash_str_is_hex_and_name (crt : Crt) (c : Compressor) (md5fx : Bool)
    (delim : String) :
    ((c.GetHashStr crt md5fx delim).2 = "" ↔ (c.sink.bGenMD5 = false ∨ c.fName = "")) ∧
      (c.GetHashStr crt md5fx delim).2 =
        (if c.sink.bGenMD5 = true ∧ c.fName ≠ "" then
          MD5._BytesToHexString c.sink.md5x._digest 16 false ++
            (if md5fx then
              delim ++ ((crt._splitpath_s c.fName).2.2.1 ++ (crt._splitpath_s c.fName).2.2.2)
            else "")
        else "") ∧
      (MD5._BytesToHexString c.sink.md5x._digest 16 false).length = 32 ∧
      (∀ ch ∈ (MD5._BytesToHexString c.sink.md5x._digest 16 false).toList,
        ch ∈ "0123456789abcdef".toList) ∧
      (MD5._BytesToHexString c.sink.md5x._digest 16 false).toList =
        (List.range 16).flatMap fun i =>
          [HEX_LOWER_CASE.getD (byteAt c.sink.md5x._digest i / 16) '0',
            HEX_LOWER_CASE.getD (byteAt c.sink.md5x._digest i % 16) '0'] := by
  have hval : (c.GetHashStr crt md5fx delim).2 =
      (if c.sink.bGenMD5 = true ∧ c.fName ≠ "" then
        MD5._BytesToHexString c.sink.md5x._digest 16 false ++
          (if md5fx then
            delim ++ ((crt._splitpath_s c.fName).2.2.1 ++ (crt._splitpath_s c.fName).2.2.2)
          else "")
      else "") := by
    unfold Compressor.GetHashStr
    by_cases hcond : c.sink.bGenMD5 = true ∧ c.fName ≠ ""
    · rw [if_pos hcond, if_pos hcond, MD5.toHexString_eq]
      cases md5fx
      · simp
      · simp [String.append_assoc]
    · rw [if_neg hcond, if_neg hcond]
  have hlen := MD5.hex_length c.sink.md5x._digest false
  refine ⟨?_, hval, hlen, MD5.hex_lower c.sink.md5x._digest, rfl⟩
  rw [hval]
  constructor
  · intro he
    by_contra hn
    have hcond : c.sink.bGenMD5 = true ∧ c.fName ≠ "" := by
      constructor
      · cases hb : c.sink.bGenMD5
        · exact absurd (Or.inl hb) hn
        · rfl
      · exact fun h0 => hn (Or.inr h0)
    rw [if_pos hcond] at he
    have hl := congrArg String.length he
    rw [String.length_append, hlen] at hl
    have : ("" : String).length = 0 := rfl
    omega
  · intro hc
    rw [if_neg]
    rintro ⟨h1, h2⟩
    rcases hc with hc | hc
    · rw [hc] at h1
      cases h1
    · exact h2 hc

/-! ## The drain loop of `ZStd2GZip` -/

/-- When the drain loop of `ZStd2GZip` returns, it has submitted the chunk
once per iteration and counted it into `totalSize` as often. -/
theorem Transcoder.drain_ok (lib : Lib) (W : Nat) (chunk : List Nat) (l : Bool) :
    ∀ (fuel : Nat) (t r : Transcoder), Transcoder.drain lib W chunk l fuel t = Outcome.ok r →
      ∃ more : List Feed, r.igzStream = t.igzStream ++ (chunk, l) :: more ∧
        (∀ f ∈ more, f = (chunk, l)) ∧
        r.totalSize = u64 (t.totalSize + (more.length + 1) * chunk.length) ∧
        r.decoded = t.decoded ∧ r.crc = t.crc
  | 0, t, r, h => by
    unfold Transcoder.drain at h
    cases h
  | fuel + 1, t, r, h => by
    unfold Transcoder.drain at h
    simp only [] at h
    split at h
    · obtain ⟨more, h1, h2, h3, h4, h5⟩ := Transcoder.drain_ok lib W chunk l fuel _ r h
      refine ⟨(chunk, l) :: more, ?_, ?_, ?_, h4, h5⟩
      · rw [h1]
        simp
      · intro f hf
        rcases List.mem_cons.mp hf with hf | hf
        · exact hf
        · exact h2 f hf
      · rw [h3]
        show u64 (u64 (t.totalSize + chunk.length) + (more.length + 1) * chunk.length) = _
        rw [u64_add_u64, List.length_cons]
        congr 1
        ring
    · cases h
      exact ⟨[], by simp, by simp, by simp, rfl, rfl⟩

/-- A call of `isal_deflate` that fills the whole output window makes the
drain loop of `ZStd2GZip` submit the chunk again. -/
theorem Transcoder.drain_again (lib : Lib) (W : Nat) (chunk : List Nat) (l : Bool)
    (fuel : Nat) (t r : Transcoder)
    (hfull : W ≤ (t.pending ++ lib.isal_deflate (t.igzStream ++ [(chunk, l)])).length)
    (h : Transcoder.drain lib W chunk l fuel t = Outcome.ok r) :
    ∃ more : List Feed, r.igzStream = t.igzStream ++ (chunk, l) :: (chunk, l) :: more ∧
      r.totalSize = u64 (t.totalSize + (more.length + 2) * chunk.length) := by
  cases fuel with
  | zero =>
    unfold Transcoder.drain at h
    cases h
  | succ fuel =>
    unfold Transcoder.drain at h
    simp only [] at h
    rw [if_pos (by rw [List.length_take]; omega)] at h
    obtain ⟨more, h1, _, h3, _⟩ := Transcoder.drain_ok lib W chunk l fuel _ r h
    refine ⟨more, ?_, ?_⟩
    · rw [h1]
      simp
    · rw [h3]
      show u64 (u64 (t.totalSize + chunk.length) + (more.length + 1) * chunk.length) = _
      rw [u64_add_u64]
      congr 1
      ring

/-- C24 (the size field of `ZStd2GZip` counts resubmitted chunks): the toy
decoder delivers the file `[1, 2, 3, 4, 5]` as the chunks `[1, 2, 3, 4]` and
`[5]`; the toy deflate engine fills the 4-byte output window on the first
chunk, so the drain loop runs twice and adds the chunk length to `totalSize`
twice: the function returns `true` with the size field 9 in the last four
bytes of the output, after the CRC-32 of the 5 decoded bytes. Whatever the
library, a drain loop whose first `isal_deflate` call fills the output window
has counted the chunk at least twice when it returns. -/
theorem zstd2gzip_size_field_counts_resubmissions :
    (ZStd2GZip demoLib2 demoDecoder 10 (some [1, 2, 3, 4, 5]) true).lift
        (fun r => (r.1, r.2.decoded, r.2.totalSize, r.2.ofile.drop (r.2.ofile.length - 8))) =
        Outcome.ok (true, [1, 2, 3, 4, 5], 9,
          le32 (crc32_gzip_refl 0 [1, 2, 3, 4, 5]) ++ [9, 0, 0, 0]) ∧
      ∀ (lib : Lib) (W : Nat) (chunk : List Nat) (l : Bool) (fuel : Nat) (t r : Transcoder),
        W ≤ (t.pending ++ lib.isal_deflate (t.igzStream ++ [(chunk, l)])).length →
        Transcoder.drain lib W chunk l fuel t = Outcome.ok r →
        ∃ n, 2 ≤ n ∧ r.totalSize = (t.totalSize + n * chunk.length) % 2 ^ 64 := by
  constructor
  · decide
  · intro lib W chunk l fuel t r hfull h
    obtain ⟨more, _, h2⟩ := Transcoder.drain_again lib W chunk l fuel t r hfull h
    exact ⟨more.length + 2, by omega, h2⟩

/-- C25 (`ZStd2GZip` resubmits a chunk when the drain loop repeats): on the
same input the ranges submitted to the deflate engine are `[1, 2, 3, 4]`,
`[1, 2, 3, 4]` again and `[5]`, which concatenate to 9 bytes, not to the 5
decoded bytes. Whatever the library, a drain loop whose first `isal_deflate`
call fills the output window has submitted the chunk at least twice when it
returns, and with the end-of-stream flag each time if the chunk is the last. -/
theorem zstd2gzip_resubmits_chunk :
    (ZStd2GZip demoLib2 demoDecoder 10 (some [1, 2, 3, 4, 5]) true).lift
        (fun r => (r.1, r.2.decoded, r.2.igzStream, feedBytes r.2.igzStream)) =
        Outcome.ok (true, [1, 2, 3, 4, 5],
          [([1, 2, 3, 4], false), ([1, 2, 3, 4], false), ([5], true)],
          [1, 2, 3, 4, 1, 2, 3, 4, 5]) ∧
      ∀ (lib : Lib) (W : Nat) (chunk : List Nat) (l : Bool) (fuel : Nat) (t r : Transcoder),
        W ≤ (t.pending ++ lib.isal_deflate (t.igzStream ++ [(chunk, l)])).length →
        Transcoder.drain lib W chunk l fuel t = Outcome.ok r →
        ∃ more, r.igzStream = t.igzStream ++ (chunk, l) :: (chunk, l) :: more := by
  constructor
  · decide
  · intro lib W chunk l fuel t r hfull h
    obtain ⟨more, h1, _⟩ := Transcoder.drain_again lib W chunk l fuel t r hfull h
    exact ⟨more, h1⟩

/-! ## Reuse of a hasher after `Reset` -/

theorem memcpy_length (dst src : List Nat) (off : Nat) (h : off + src.length ≤ dst.length) :
    (memcpy dst off src).length = dst.length := by
  unfold memcpy
  simp only [List.length_append, List.length_take, List.length_drop]
  omega

theorem md5_index_lt (c : Nat) : (c >>> 3) &&& 0x3f < 64 := by
  have h : (c >>> 3) &&& 0x3f ≤ 0x3f := Nat.and_le_right
  omega

theorem MD5.updateLoop_rest : ∀ (fuel : Nat) (st : Words) (buff : List Nat), buff.length ≤ fuel →
    (MD5.updateLoop fuel st buff).2.length < 64
  | 0, st, buff, h => by
    unfold MD5.updateLoop
    show buff.length < 64
    omega
  | fuel + 1, st, buff, h => by
    unfold MD5.updateLoop
    split
    · rename_i hge
      have h64 : MD5_BLOCK_SIZE = 64 := rfl
      rw [h64] at hge
      exact MD5.updateLoop_rest fuel _ _ (by rw [List.length_drop, h64]; omega)
    · rename_i hlt
      have h64 : MD5_BLOCK_SIZE = 64 := rfl
      rw [h64] at hlt
      show buff.length < 64
      omega

theorem u64_of_lt (n : Nat) (h : n < 2 ^ 64) : u64 n = n := Nat.mod_eq_of_lt h

theorem MD5.update_buffer_length (m : MD5) (x : List Nat) (hb : m._buffer.length = 64)
    (hx : x.length < 2 ^ 64) : (m.Update x)._buffer.length = 64 := by
  have hi := md5_index_lt m._count0
  have h64 : MD5_BLOCK_SIZE = 64 := rfl
  unfold MD5.Update
  simp only [u64_of_lt _ hx, h64]
  split
  · rename_i hp
    have h1 : (memcpy m._buffer ((m._count0 >>> 3) &&& 0x3f)
        (x.take (64 - ((m._count0 >>> 3) &&& 0x3f)))).length = 64 := by
      rw [memcpy_length _ _ _ (by rw [List.length_take]; omega), hb]
    show (if _ then _ else _ : List Nat).length = 64
    split
    · rw [memcpy_length _ _ _ ?_, h1]
      rw [h1]
      have := MD5.updateLoop_rest (x.drop (64 - ((m._count0 >>> 3) &&& 0x3f))).length
        (_Transform m._state (memcpy m._buffer ((m._count0 >>> 3) &&& 0x3f)
          (x.take (64 - ((m._count0 >>> 3) &&& 0x3f)))))
        (x.drop (64 - ((m._count0 >>> 3) &&& 0x3f))) (Nat.le_refl _)
      omega
    · exact h1
  · rename_i hp
    show (memcpy _ _ _).length = 64
    rw [memcpy_length _ _ _ (by omega), hb]

theorem and_mask6 (x : Nat) : x &&& 0x3f = x % 64 := by
  have := Nat.and_pow_two_sub_one_eq_mod x 6
  simpa using this

theorem md5_index_advance (c n : Nat) (hn : ((c >>> 3) &&& 0x3f) + n < 64) :
    (u64 (c + u64 (u64 n <<< 3)) >>> 3) &&& 0x3f = ((c >>> 3) &&& 0x3f) + n := by
  rw [and_mask6] at hn ⊢
  rw [and_mask6]
  simp only [Nat.shiftRight_eq_div_pow, Nat.shiftLeft_eq, u64] at hn ⊢
  omega

theorem memcpy_to_end (dst src : List Nat) (off : Nat) (h : dst.length ≤ off + src.length) :
    memcpy dst off src = dst.take off ++ src := by
  unfold memcpy
  rw [List.drop_eq_nil_of_le h, List.append_nil]

theorem md5_update_state (m : MD5) (x : List Nat) :
    (m.Update x)._state =
      if MD5_BLOCK_SIZE - ((m._count0 >>> 3) &&& 0x3f) ≤ u64 x.length then
        (MD5.updateLoop (x.drop (MD5_BLOCK_SIZE - ((m._count0 >>> 3) &&& 0x3f))).length
          (_Transform m._state (memcpy m._buffer ((m._count0 >>> 3) &&& 0x3f)
            (x.take (MD5_BLOCK_SIZE - ((m._count0 >>> 3) &&& 0x3f)))))
          (x.drop (MD5_BLOCK_SIZE - ((m._count0 >>> 3) &&& 0x3f)))).1
      else m._state := by
  unfold MD5.Update
  simp only []
  split <;> rfl

theorem md5_update_buffer (m : MD5) (x : List Nat) :
    (m.Update x)._buffer =
      if MD5_BLOCK_SIZE - ((m._count0 >>> 3) &&& 0x3f) ≤ u64 x.length then
        (if 0 < (MD5.updateLoop (x.drop (MD5_BLOCK_SIZE - ((m._count0 >>> 3) &&& 0x3f))).length
            (_Transform m._state (memcpy m._buffer ((m._count0 >>> 3) &&& 0x3f)
              (x.take (MD5_BLOCK_SIZE - ((m._count0 >>> 3) &&& 0x3f)))))
            (x.drop (MD5_BLOCK_SIZE - ((m._count0 >>> 3) &&& 0x3f)))).2.length then
          memcpy (memcpy m._buffer ((m._count0 >>> 3) &&& 0x3f)
              (x.take (MD5_BLOCK_SIZE - ((m._count0 >>> 3) &&& 0x3f)))) 0
            (MD5.updateLoop (x.drop (MD5_BLOCK_SIZE - ((m._count0 >>> 3) &&& 0x3f))).length
              (_Transform m._state (memcpy m._buffer ((m._count0 >>> 3) &&& 0x3f)
                (x.take (MD5_BLOCK_SIZE - ((m._count0 >>> 3) &&& 0x3f)))))
              (x.drop (MD5_BLOCK_SIZE - ((m._count0 >>> 3) &&& 0x3f)))).2
        else memcpy m._buffer ((m._count0 >>> 3) &&& 0x3f)
          (x.take (MD5_BLOCK_SIZE - ((m._count0 >>> 3) &&& 0x3f))))
      else memcpy m._buffer ((m._count0 >>> 3) &&& 0x3f) x := by
  unfold MD5.Update
  simp only []
  split <;> rfl

theorem md5_update_finished (m : MD5) (x : List Nat) : (m.Update x)._finished = false := by
  unfold MD5.Update
  simp only []
  split <;> rfl

/-- `Update` on hashers that agree on what it reads leaves hashers that agree
on what the next call reads. -/
theorem MD5.alike_update {a b : MD5} (h : MD5.Alike a b) (x : List Nat)
    (hx : x.length < 2 ^ 64) : MD5.Alike (a.Update x) (b.Update x) := by
  obtain ⟨hs, hc0, hc1, hla, hlb, ht⟩ := h
  have hi := md5_index_lt a._count0
  have h64 : MD5_BLOCK_SIZE = 64 := rfl
  have hlen_a := MD5.update_buffer_length a x hla hx
  have hlen_b := MD5.update_buffer_length b x hlb hx
  have hcount0 : (a.Update x)._count0 = (b.Update x)._count0 := by
    rw [md5_update_count0, md5_update_count0, hc0]
  have hcount1 : (a.Update x)._count1 = (b.Update x)._count1 := by
    rw [md5_update_count1, md5_update_count1, hc0, hc1]
  by_cases hp : 64 - ((a._count0 >>> 3) &&& 0x3f) ≤ x.length
  · have hB : memcpy a._buffer ((a._count0 >>> 3) &&& 0x3f)
          (x.take (64 - ((a._count0 >>> 3) &&& 0x3f))) =
        memcpy b._buffer ((a._count0 >>> 3) &&& 0x3f)
          (x.take (64 - ((a._count0 >>> 3) &&& 0x3f))) := by
      rw [memcpy_to_end _ _ _ (by rw [List.length_take]; omega),
        memcpy_to_end _ _ _ (by rw [List.length_take]; omega), ht]
    have hst : (a.Update x)._state = (b.Update x)._state := by
      rw [md5_update_state, md5_update_state, ← hc0, ← hs, h64, hB]
    have hpu : 64 - ((a._count0 >>> 3) &&& 0x3f) ≤ u64 x.length := by
      rw [u64_of_lt _ hx]
      exact hp
    have hbuf : (a.Update x)._buffer = (b.Update x)._buffer := by
      rw [md5_update_buffer, md5_update_buffer, ← hc0, ← hs, h64, if_pos hpu, if_pos hpu, hB]
    exact ⟨hst, hcount0, hcount1, hlen_a, hlen_b, by rw [hbuf]⟩
  · have hnp : ¬ MD5_BLOCK_SIZE - ((a._count0 >>> 3) &&& 0x3f) ≤ u64 x.length := by
      rw [h64, u64_of_lt _ hx]
      exact hp
    have hst : (a.Update x)._state = (b.Update x)._state := by
      rw [md5_update_state, md5_update_state, ← hc0, if_neg hnp, if_neg hnp, hs]
    refine ⟨hst, hcount0, hcount1, hlen_a, hlen_b, ?_⟩
    have hidx : ((a.Update x)._count0 >>> 3) &&& 0x3f = ((a._count0 >>> 3) &&& 0x3f) + x.length := by
      rw [md5_update_count0]
      exact md5_index_advance _ _ (by omega)
    have key : ∀ buf : List Nat, buf.length = 64 →
        (memcpy buf ((a._count0 >>> 3) &&& 0x3f) x).take
            (((a._count0 >>> 3) &&& 0x3f) + x.length) =
          buf.take ((a._count0 >>> 3) &&& 0x3f) ++ x := by
      intro buf hb
      unfold memcpy
      rw [List.take_append_of_le_length (by
        rw [List.length_append, List.length_take]; omega)]
      rw [List.take_of_length_le (by rw [List.length_append, List.length_take]; omega)]
    rw [hidx, md5_update_buffer, md5_update_buffer, ← hc0, if_neg hnp, if_neg hnp,
      key _ hla, key _ hlb, ht]

theorem padding_take_length (n : Nat) : (PADDING.take n).length < 2 ^ 64 := by
  rw [List.length_take]
  have : PADDING.length = 64 := rfl
  omega

theorem MD5.encode_length (ws : List Nat) : (_Encode ws 8).length = 8 := by
  unfold _Encode
  simp [List.range, List.range.loop]

theorem MD5.final_buffer_length (m : MD5) (hb : m._buffer.length = 64) :
    m.Final._buffer.length = 64 := by
  unfold MD5.Final
  split
  · exact hb
  · simp only []
    show ((m.Update _).Update _)._buffer.length = 64
    apply MD5.update_buffer_length
    · exact MD5.update_buffer_length _ _ hb (padding_take_length _)
    · rw [MD5.encode_length]
      decide

theorem MD5.reached_buffer {m : MD5} (h : MD5.Reached m) : m._buffer.length = 64 := by
  induction h with
  | fresh buffer digest hb => exact hb
  | update input _ hx ih => exact MD5.update_buffer_length _ _ ih hx
  | final _ ih => exact MD5.final_buffer_length _ ih
  | reset _ ih => exact ih

/-- `Final` on hashers that are not finalised and agree on what it reads
computes the same digest. -/
theorem MD5.alike_final {a b : MD5} (h : MD5.Alike a b) (ha : a._finished = false)
    (hb : b._finished = false) : a.Final._digest = b.Final._digest := by
  have hc0 := h.2.1
  have hc1 := h.2.2.1
  unfold MD5.Final
  rw [if_neg (by rw [ha]; decide), if_neg (by rw [hb]; decide)]
  simp only []
  show _Encode ((a.Update _).Update _)._state.toList 16 =
    _Encode ((b.Update _).Update _)._state.toList 16
  rw [← hc0, ← hc1]
  have h1 := MD5.alike_update h (PADDING.take (if ((a._count0 >>> 3) &&& 0x3f) < MD5_BLOCK_SIZE - 8
      then MD5_BLOCK_SIZE - 8 - ((a._count0 >>> 3) &&& 0x3f)
      else MD5_BLOCK_SIZE + (MD5_BLOCK_SIZE - 8) - ((a._count0 >>> 3) &&& 0x3f)))
    (padding_take_length _)
  have h2 := MD5.alike_update h1 (_Encode [a._count0, a._count1] 8) (by
    rw [MD5.encode_length]; decide)
  rw [h2.1]

/-- C26 (`Reset` makes a hasher reusable): for every hasher state reached by
`Update`, `Final` and `Reset` calls from a freshly constructed hasher and
every byte sequence, `Reset(); Update(m); Final()` leaves the same digest as
the same calls on any freshly constructed hasher (which is the digest of
`Update(m); Final()` there, the constructor having called `Reset()`),
although `Reset()` leaves the block buffer and the previous digest as they
were. -/
theorem md5_reset_gives_fresh_digest (s : MD5) (hs : MD5.Reached s) (buffer digest : List Nat)
    (hb : buffer.length = 64) (m : List Nat) (hm : m.length < 2 ^ 64) :
    (s.Reset.Update m).Final._digest =
        ((MD5.new buffer digest).Reset.Update m).Final._digest ∧
      (s.Reset.Update m).Final._digest = ((MD5.new buffer digest).Update m).Final._digest ∧
      s.Reset._buffer = s._buffer ∧ s.Reset._digest = s._digest := by
  have hal : MD5.Alike s.Reset (MD5.new buffer digest).Reset := by
    refine ⟨rfl, rfl, rfl, MD5.reached_buffer (MD5.Reached.reset hs), hb, ?_⟩
    show List.take ((0 >>> 3) &&& 0x3f) _ = List.take ((0 >>> 3) &&& 0x3f) _
    have h0 : (0 >>> 3) &&& 0x3f = 0 := by decide
    rw [h0, List.take_zero, List.take_zero]
  have hd := MD5.alike_final (MD5.alike_update hal m hm) (md5_update_finished _ _)
    (md5_update_finished _ _)
  exact ⟨hd, hd, rfl, rfl⟩

theorem md5_reset_gives_fresh_digest_witness :
    MD5.Reached ((MD5.new (List.replicate 64 7) (List.replicate 16 7)).Update [1, 2, 3]).Final ∧
    (List.replicate 64 0).length = 64 ∧ ([4, 5] : List Nat).length < 2 ^ 64 ∧
    ((((MD5.new (List.replicate 64 7) (List.replicate 16 7)).Update [1, 2, 3]).Final.Reset.Update
          [4, 5]).Final._digest =
        ((MD5.new (List.replicate 64 0) (List.replicate 16 0)).Reset.Update [4, 5]).Final._digest ∧
      (((MD5.new (List.replicate 64 7) (List.replicate 16 7)).Update [1, 2, 3]).Final.Reset.Update
          [4, 5]).Final._digest =
        ((MD5.new (List.replicate 64 0) (List.replicate 16 0)).Update [4, 5]).Final._digest ∧
      ((MD5.new (List.replicate 64 7) (List.replicate 16 7)).Update [1, 2, 3]).Final.Reset._buffer =
        ((MD5.new (List.replicate 64 7) (List.replicate 16 7)).Update [1, 2, 3]).Final._buffer ∧
      ((MD5.new (List.replicate 64 7) (List.replicate 16 7)).Update [1, 2, 3]).Final.Reset._digest =
        ((MD5.new (List.replicate 64 7) (List.replicate 16 7)).Update [1, 2, 3]).Final._digest) :=
  ⟨MD5.Reached.final (MD5.Reached.update [1, 2, 3]
      (MD5.Reached.fresh (List.replicate 64 7) (List.replicate 16 7) (by decide)) (by decide)),
    by decide, by decide,
    md5_reset_gives_fresh_digest _
      (MD5.Reached.final (MD5.Reached.update [1, 2, 3]
        (MD5.Reached.fresh (List.replicate 64 7) (List.replicate 16 7) (by decide)) (by decide)))
      (List.replicate 64 0) (List.replicate 16 0) (by decide) [4, 5] (by decide)⟩

/-! ## The content of a file opened in Append mode -/

theorem Sink.appended_keeps (P : List Nat) : Sink.Keeps (Sink.Appended P) := by
  refine ⟨fun s b h => h, fun s h => ?_, fun s m h => h⟩
  obtain ⟨hv, hf⟩ := h
  unfold Sink._WriteAndReset
  split
  · exact ⟨hv, hf⟩
  · split
    · exact ⟨hv, hf⟩
    · split
      · exact ⟨hv, hf⟩
      · refine ⟨hv, ?_⟩
        show (if s.fHandle = Handle.valid then
            some ((s.file.getD []).take (s.file.getD []).length ++ s.compressedBuffer ++
              (s.file.getD []).drop ((s.file.getD []).length + s.compressedBufferSize))
          else s.file) = some (P ++ (s.written ++ [s.compressedBuffer]).flatten)
        rw [if_pos hv, hf, Option.getD_some, List.take_length,
          List.drop_eq_nil_of_le (Nat.le_add_right _ _), List.append_nil, List.flatten_append,
          List.append_assoc]
        simp

theorem Compressor.new_appended (lib : Lib) (outfile : String) (format : Format)
    (genMD5 : Bool) (w : World) (P : List Nat) (h : Opens lib outfile Mode.Append w)
    (hP : w.file = some P) (c : Compressor)
    (hc : Compressor.new lib outfile format Mode.Append genMD5 w = Outcome.ok c) :
    Sink.Appended P c.sink ∧ c.bClosed = false ∧ c.deleted = 0 := by
  obtain ⟨hne, _, hopen, _, _⟩ := h
  have hnn : ¬ (Mode.Append = Mode.None ∨ outfile = "") := by
    rintro (h | h)
    · cases h
    · exact hne h
  have hni : ¬ ((Compressor.CreateFileA Mode.Append w).1 = Handle.invalid) := by
    rw [hopen]; decide
  have hl : (Compressor.new lib outfile format Mode.Append genMD5 w).Leaves
      fun d => Sink.Appended P d.sink ∧ d.bClosed = false ∧ d.deleted = 0 := by
    unfold Compressor.new
    simp only [hnn, if_false, hni, if_true, or_true]
    refine (Compressor.setup_kept (Sink.appended_keeps P) lib _ ?_).mono ?_
    · intro l k
      refine ⟨hopen, ?_⟩
      show (Compressor.CreateFileA Mode.Append w).2 = some (P ++ [])
      rw [Compressor.createFile_append, hP, List.append_nil]
    · intro d hd
      exact ⟨hd.1, hd.2.2.2.1, hd.2.2.2.2⟩
  rw [hc] at hl
  exact hl

/-- C27, counterexample (Append mode without input): a compressor opened in
Append mode on an existing file with content `[9, 9]` and closed without any
`Put` has deleted the file: `Close()` calls `DeleteFileA` whenever the input
count is 0, in Append mode as in Write mode. -/
theorem append_without_input_deletes_file :
    ((Compressor.new demoLib "out.zst" Format.ZStd Mode.Append false
        { file := some [9, 9], openOk := true, md5Buffer := [], md5Digest := [] }).andThen
      fun c => c.Close demoLib).lift (fun d => (d.sink.file, d.deleted, d.InputSize)) =
      Outcome.ok (none, 1, 0) := by
  decide

/-- C27, amended (Append mode preserves the existing content once input was
accepted): on a compressor successfully opened in Append mode on an existing
file with content `P`, after every sequence of `Put` and `Close` calls,
exceptions caught, as long as `Close()` has not deleted the file, the file
exists and its content is `P` followed by the ranges the instance wrote, in
order; and `Close()` has deleted the file only if the input count is 0. -/
theorem append_keeps_existing_content (lib : Lib) (outfile : String) (format : Format)
    (genMD5 : Bool) (w : World) (P : List Nat) (h : Opens lib outfile Mode.Append w)
    (hP : w.file = some P) (ops : List Op) :
    ∃ d, runCaught lib (Compressor.new lib outfile format Mode.Append genMD5 w) ops =
        Outcome.ok d ∧
      (d.deleted = 0 → d.sink.file = some (P ++ d.sink.written.flatten)) ∧
      (d.InputSize ≠ 0 → d.deleted = 0) ∧
      (d.deleted ≠ 0 → d.sink.file = none ∧ d.bClosed = true) := by
  obtain ⟨c, hc, hinv, _⟩ := Compressor.new_ok lib outfile format Mode.Append genMD5 w h
  obtain ⟨ht, hb, hdel⟩ := Compressor.new_appended lib outfile format genMD5 w P h hP c hc
  obtain ⟨d, T, hd, _, hq⟩ := Inv.along_caught lib
    (fun x => (x.bClosed = false → Sink.Appended P x.sink ∧ x.deleted = 0) ∧
      (x.deleted = 0 → x.sink.file = some (P ++ x.sink.written.flatten)) ∧
      (x.deleted ≠ 0 → x.sink.file = none ∧ x.bClosed = true ∧ x.totalInputSize = 0))
    (fun S x y data l hi hx hy => by
      cases hcl : x.bClosed with
      | true =>
        rw [hi.put_closed hcl hy]
        exact hx
      | false =>
        obtain ⟨hs, h0⟩ := hx.1 hcl
        have hk := Compressor.Put_kept (Sink.appended_keeps P) lib x data l hs
        rw [hy] at hk
        have hyd : y.deleted = 0 := hk.2.2.2.2.2.2.2.trans h0
        exact ⟨fun _ => ⟨hk.1, hyd⟩, fun _ => hk.1.2, fun hne => absurd hyd hne⟩)
    (fun S x y hi hx hy => by
      cases hcl : x.bClosed with
      | true =>
        rw [Compressor.Close_of_closed hcl hy]
        exact hx
      | false =>
        obtain ⟨hs, h0⟩ := hx.1 hcl
        obtain ⟨e, hk, hye⟩ :=
          Compressor.Close_kept (Sink.appended_keeps P) lib x y hs hcl hy
        obtain ⟨r1, r2, r3, r4⟩ := e.closeHandle.release_cases
        rw [← hye] at r1 r2 r3 r4
        have hed : e.closeHandle.deleted = 0 := hk.2.2.2.2.2.2.2.trans h0
        refine ⟨fun hb => ?_, fun hy0 => ?_, fun hy0 => ?_⟩
        · rw [r3] at hb
          cases hb
        · rcases r4 with ⟨_, _, q3⟩ | ⟨q1, _⟩
          · rw [q3, r1]
            exact hk.1.2
          · rw [q1, hed] at hy0
            cases hy0
        · rcases r4 with ⟨q1, _⟩ | ⟨_, _, q3, q4⟩
          · rw [q1, hed] at hy0
            exact absurd rfl hy0
          · exact ⟨q3, r3, by rw [r2]; exact q4⟩)
    ops [] c hinv ⟨fun _ => ⟨ht, hdel⟩, fun _ => ht.2, fun hne => absurd hdel hne⟩
  rw [hc]
  refine ⟨d, hd, hq.2.1, fun hn => ?_, fun hn => ⟨(hq.2.2 hn).1, (hq.2.2 hn).2.1⟩⟩
  by_contra hdne
  exact hn (hq.2.2 hdne).2.2

theorem append_keeps_existing_content_witness :
    Opens demoLib "out.zst" Mode.Append
        { file := some [9, 9], openOk := true, md5Buffer := [], md5Digest := [] } ∧
    ∃ d, runCaught demoLib (Compressor.new demoLib "out.zst" Format.ZStd Mode.Append false
          { file := some [9, 9], openOk := true, md5Buffer := [], md5Digest := [] })
          [Op.put [1, 2, 3] false, Op.close] = Outcome.ok d ∧
      (d.deleted = 0 → d.sink.file = some ([9, 9] ++ d.sink.written.flatten)) ∧
      (d.InputSize ≠ 0 → d.deleted = 0) ∧
      (d.deleted ≠ 0 → d.sink.file = none ∧ d.bClosed = true) :=
  ⟨by decide, append_keeps_existing_content demoLib "out.zst" Format.ZStd false
    { file := some [9, 9], openOk := true, md5Buffer := [], md5Digest := [] } [9, 9]
    (by decide) rfl [Op.put [1, 2, 3] false, Op.close]⟩

/-! ## The length bytes of `Final` -/

/-- C28, evaluated on the code: after two `Update` calls of `2^28` bytes each
on a fresh hasher (`2^32` bits in all) the eight length bytes that `Final()`
appends are all zero, so the high half is 0 and not 1; after one `Update`
call of the same `2^29` bytes they are `00 00 00 00 01 00 00 00`. The bytes
are the low 32 bits of `_count[0]` and of `_count[1]`, and `_count[0]`, a
`uint64_t`, never carries into `_count[1]`, which only receives `size >> 29`
of each call. `Final()` hashes these bytes after the padding. -/
theorem md5_length_bytes_miss_the_carry :
    MD5.bits (((MD5.new (List.replicate 64 0) (List.replicate 16 0)).Update
        (List.replicate (2 ^ 28) 0)).Update (List.replicate (2 ^ 28) 0)) =
        [0, 0, 0, 0, 0, 0, 0, 0] ∧
      MD5.bits ((MD5.new (List.replicate 64 0) (List.replicate 16 0)).Update
        (List.replicate (2 ^ 28) 0 ++ List.replicate (2 ^ 28) 0)) =
        [0, 0, 0, 0, 1, 0, 0, 0] ∧
      ∀ m : MD5, m._finished = false →
        m.Final._digest = _Encode ((m.Update (PADDING.take
          (if ((m._count0 >>> 3) &&& 0x3f) < MD5_BLOCK_SIZE - 8
            then MD5_BLOCK_SIZE - 8 - ((m._count0 >>> 3) &&& 0x3f)
            else MD5_BLOCK_SIZE + (MD5_BLOCK_SIZE - 8) - ((m._count0 >>> 3) &&& 0x3f)))).Update
          (MD5.bits m))._state.toList 16 := by
  refine ⟨?_, ?_, ?_⟩
  · unfold MD5.bits
    rw [md5_update_count1, md5_update_count0, md5_update_count0, md5_update_count1]
    simp only [List.length_replicate]
    decide
  · unfold MD5.bits
    rw [md5_update_count1, md5_update_count0]
    simp only [List.length_append, List.length_replicate]
    decide
  · intro m hm
    unfold MD5.Final
    rw [if_neg (by rw [hm]; decide)]
    rfl

/-! ## The held bytes -/

theorem chunkFeeds_len (C : Nat) (hC : 0 < C) (l : Bool) : ∀ (n : Nat) (xs : List Nat),
    xs.length ≤ n → ∀ f ∈ chunkFeeds C l xs, f.1.length = C := by
  intro n
  induction n with
  | zero =>
    intro xs hn f hf
    have : xs = [] := List.length_eq_zero.mp (Nat.le_zero.mp hn)
    subst this
    rw [chunkFeeds_of_lt C l [] hC] at hf
    cases hf
  | succ n ih =>
    intro xs hn f hf
    by_cases hge : C ≤ xs.length
    · rw [chunkFeeds_of_ge C hC l xs hge] at hf
      rcases List.mem_cons.mp hf with h1 | h1
      · subst h1
        show (xs.take C).length = C
        rw [List.length_take]
        omega
      · exact ih (xs.drop C) (by rw [List.length_drop]; omega) f h1
    · rw [chunkFeeds_of_lt C l xs (by omega)] at hf
      cases hf

/-- Every invocation of a `Put` on a ready compressor that does not carry the
end-of-stream flag hands over a full chunk. -/
theorem putFeeds_open_full (C : Nat) (hC : 0 < C) (h x : List Nat) (l : Bool)
    (hh : h.length < C) : ∀ f ∈ (putFeeds C h x l).1, f.2 = false → f.1.length = C := by
  intro f hf hfl
  cases l with
  | false =>
    rw [putFeeds_false C hC h x hh] at hf
    exact (chunkFeeds_mem C hC (h ++ x).length (h ++ x) (Nat.le_refl _) f hf).1
  | true =>
    by_cases hne : h ++ x = []
    · obtain ⟨h1, h2⟩ := List.append_eq_nil.mp hne
      subst h1
      subst h2
      simp [putFeeds] at hf
    · rw [putFeeds_true C hC h x hh hne] at hf
      unfold finalFeeds at hf
      rcases List.mem_append.mp hf with h1 | h1
      · exact chunkFeeds_len C hC true (h ++ x).length (h ++ x) (Nat.le_refl _) f h1
      · split at h1
        · rw [List.mem_singleton] at h1
          rw [h1] at hfl
          cases hfl
        · cases h1

theorem Compressor.release_chunk (c : Compressor) :
    c.closeHandle.release.inputChunkSize = c.inputChunkSize := by
  unfold Compressor.release
  split <;> rfl

/-- C29 (held-buffer invariant): on a successfully opened compressor, whose
chunk capacity `C` is positive, after the constructor and after every
sequence of `Put` and `Close` calls, exceptions caught, `inputChunkSize` is
still `C`, fewer than `C` bytes are held, and none once the stream is
finalised; so the guard `currentInputSize >= inputChunkSize` of the branch of
`Put` that compresses a full held buffer is false on entry of every `Put`.
Every call `_CompressAndWrite` that a `Put` on a stream not yet finalised
makes is a codec invocation, none being skipped, and each of them that does
not carry the end-of-stream flag hands over exactly `C` bytes. -/
theorem held_bytes_below_chunk_capacity (lib : Lib) (outfile : String) (format : Format)
    (mode : Mode) (genMD5 : Bool) (w : World) (h : Opens lib outfile mode w) (ops : List Op) :
    ∃ d, runCaught lib (Compressor.new lib outfile format mode genMD5 w) ops = Outcome.ok d ∧
      d.inputChunkSize = chunkCapacity lib format ∧ 0 < d.inputChunkSize ∧
      d.currentInputSize < d.inputChunkSize ∧
      (d.bEndOfStream = true → d.currentInputSize = 0) ∧
      ¬ (0 < d.currentInputSize ∧ ¬ d.currentInputSize < d.inputChunkSize) ∧
      ∀ (data : List Nat) (l : Bool), d.bEndOfStream = false →
        ∃ e, d.Put lib data l = Outcome.ok e ∧
          FedAll lib (d.accept data.length).dropHeld
            (putFeeds d.inputChunkSize d.currentInputBuffer data l).1 e.dropHeld ∧
          e.fed = d.fed ++ (putFeeds d.inputChunkSize d.currentInputBuffer data l).1 ∧
          ∀ f ∈ (putFeeds d.inputChunkSize d.currentInputBuffer data l).1,
            f.2 = false → f.1.length = d.inputChunkSize := by
  obtain ⟨c, hc, hinv, _, _, _, _, _, _, _, _, hchunk⟩ :=
    Compressor.new_ok lib outfile format mode genMD5 w h
  have hcap : c.inputChunkSize = chunkCapacity lib format := by
    rw [hchunk]
    cases format <;> rfl
  have hpos : 0 < chunkCapacity lib format := by
    cases format
    · exact igz_pos
    · exact h.2.2.2.1
  obtain ⟨d, T, hd, hid, hq⟩ := Inv.along_caught lib
    (fun x => x.inputChunkSize = chunkCapacity lib format)
    (fun S x y data l _ hx hy => by
      have hk := Compressor.Put_kept Sink.keeps_true lib x data l trivial
      rw [hy] at hk
      exact hk.2.2.2.1.trans hx)
    (fun S x y hi hx hy => by
      cases hcl : x.bClosed with
      | true =>
        rw [Compressor.Close_of_closed hcl hy]
        exact hx
      | false =>
        obtain ⟨e, hk, hye⟩ := Compressor.Close_kept Sink.keeps_true lib x y trivial hcl hy
        rw [hye, Compressor.release_chunk]
        exact hk.2.2.2.1.trans hx)
    ops [] c hinv hcap
  rw [hc]
  have hdpos : 0 < d.inputChunkSize := by rw [hq]; exact hpos
  have hlt : d.currentInputSize < d.inputChunkSize := by
    rcases hid.1 with hr | hf
    · exact hr.2
    · show d.currentInputBuffer.length < _
      rw [hf.2]
      exact hdpos
  refine ⟨d, hd, hq, hdpos, hlt, fun he => ?_, fun hn => hn.2 hlt, fun data l he => ?_⟩
  · show d.currentInputBuffer.length = 0
    rw [(hid.finished he).2]
    rfl
  · have hr := hid.ready he
    obtain ⟨e, hput, hfed, _⟩ := Compressor.Put_ready lib d data l hr
    refine ⟨e, hput, hfed, ?_, putFeeds_open_full _ hdpos _ _ _ hr.2⟩
    have ha : (d.accept data.length).dropHeld.fed = d.fed := by
      unfold Compressor.accept
      split <;> rfl
    have hl := hfed.log_all
    rw [ha] at hl
    exact hl

theorem held_bytes_below_chunk_capacity_witness :
    Opens demoLib "out.zst" Mode.Write demoWorld ∧
    ∃ d, runCaught demoLib
        (Compressor.new demoLib "out.zst" Format.ZStd Mode.Write false demoWorld)
        [Op.put [1, 2, 3, 4, 5, 6] false, Op.put [7] true, Op.put [8] false] = Outcome.ok d ∧
      d.inputChunkSize = chunkCapacity demoLib Format.ZStd ∧ 0 < d.inputChunkSize ∧
      d.currentInputSize < d.inputChunkSize ∧
      (d.bEndOfStream = true → d.currentInputSize = 0) ∧
      ¬ (0 < d.currentInputSize ∧ ¬ d.currentInputSize < d.inputChunkSize) ∧
      ∀ (data : List Nat) (l : Bool), d.bEndOfStream = false →
        ∃ e, d.Put demoLib data l = Outcome.ok e ∧
          FedAll demoLib (d.accept data.length).dropHeld
            (putFeeds d.inputChunkSize d.currentInputBuffer data l).1 e.dropHeld ∧
          e.fed = d.fed ++ (putFeeds d.inputChunkSize d.currentInputBuffer data l).1 ∧
          ∀ f ∈ (putFeeds d.inputChunkSize d.currentInputBuffer data l).1,
            f.2 = false → f.1.length = d.inputChunkSize :=
  ⟨by decide, held_bytes_below_chunk_capacity demoLib "out.zst" Format.ZStd Mode.Write false
    demoWorld (by decide) [Op.put [1, 2, 3, 4, 5, 6] false, Op.put [7] true, Op.put [8] false]⟩

/-! ## Independence of the split -/

theorem chunkFeeds_eq_slices (C : Nat) (hC : 0 < C) : ∀ (n : Nat) (xs : List Nat),
    xs.length ≤ n → chunkFeeds C false xs =
      (List.range (xs.length / C)).map fun i => ((xs.drop (i * C)).take C, false) := by
  intro n
  induction n with
  | zero =>
    intro xs hn
    have : xs = [] := List.length_eq_zero.mp (Nat.le_zero.mp hn)
    subst this
    rw [chunkFeeds_of_lt C false [] hC]
    simp
  | succ n ih =>
    intro xs hn
    by_cases hge : C ≤ xs.length
    · rw [chunkFeeds_of_ge C hC false xs hge, ih (xs.drop C) (by rw [List.length_drop]; omega),
        List.length_drop]
      have hdiv : xs.length / C = (xs.length - C) / C + 1 := Nat.div_eq_sub_div hC hge
      rw [hdiv, List.range_succ_eq_map, List.map_cons, List.map_map]
      congr 1
      · simp
      · apply List.map_congr_left
        intro i _
        show (((xs.drop C).drop (i * C)).take C, false) = ((xs.drop ((i + 1) * C)).take C, false)
        rw [List.drop_drop, Nat.succ_mul, Nat.add_comm C]
    · rw [chunkFeeds_of_lt C false xs (by omega), Nat.div_eq_of_lt (by omega)]
      simp

theorem Compressor.release_fed (c : Compressor) : c.closeHandle.release.fed = c.fed ∧
    c.closeHandle.release.bEndOfStream = c.bEndOfStream := by
  unfold Compressor.release
  split <;> exact ⟨rfl, rfl⟩

/-- On a freshly opened compressor, `Put` calls without `isLast` followed by
`Close` make exactly the invocations the claim words, whatever the split. -/
theorem run_puts_then_close (lib : Lib) (outfile : String) (format : Format) (mode : Mode)
    (genMD5 : Bool) (w : World) (h : Opens lib outfile mode w) (pieces : List (List Nat)) :
    ∃ d, run lib (Compressor.new lib outfile format mode genMD5 w)
        (putsOf pieces ++ [Op.close]) = Outcome.ok d ∧
      d.fed = claimedInvocations (chunkCapacity lib format) pieces.flatten ∧
      d.bEndOfStream = true := by
  obtain ⟨c, hc, _, hr, _, _, hfed, hheld, _, _, _, hchunk⟩ :=
    Compressor.new_ok lib outfile format mode genMD5 w h
  have hcap : c.inputChunkSize = chunkCapacity lib format := hchunk
  have hC : 0 < chunkCapacity lib format := hcap ▸ hr.1.2.2.1
  rw [hc, run_append, run_putsOf_merge lib pieces c hr]
  obtain ⟨d, hd, hfa, hheld_d, _, hopen⟩ := Compressor.Put_ready lib c pieces.flatten false hr
  have hrd : Ready d := (hopen (fun hh => absurd hh.1 (by decide))).2
  obtain ⟨e, _, hfe, hcl⟩ := Compressor.Close_ready lib d hrd
  rw [hd]
  refine ⟨e.closeHandle.release, hcl, ?_, ?_⟩
  · have hlog := hfa.log_all
    rw [hcap, hheld, putFeeds_false _ hC [] _ (by simpa using hC), Compressor.accept_eq] at hlog
    have hlog' : d.fed = c.fed ++ chunkFeeds (chunkCapacity lib format) false
        ([] ++ pieces.flatten) := hlog
    rw [hfed, List.nil_append, List.nil_append] at hlog'
    have hrest : d.currentInputBuffer = chunkRest (chunkCapacity lib format) pieces.flatten := by
      rw [hheld_d, hcap, hheld, putFeeds_false _ hC [] _ (by simpa using hC)]
      rfl
    rw [e.release_fed.1, hfe.log, hlog', hrest,
      chunkFeeds_eq_slices _ hC _ _ (Nat.le_refl _),
      chunkRest_eq_drop _ hC _ _ (Nat.le_refl _)]
    unfold claimedInvocations
    have hm := Nat.div_add_mod pieces.flatten.length (chunkCapacity lib format)
    have he : pieces.flatten.length - pieces.flatten.length % chunkCapacity lib format =
        pieces.flatten.length / chunkCapacity lib format * chunkCapacity lib format := by
      rw [Nat.mul_comm]
      omega
    rw [he]
  · rw [e.release_fed.2]
    exact hfe.eos

theorem claimed_slice_length (C : Nat) (S : List Nat) (i : Nat) (hi : i < S.length / C) :
    ((S.drop (i * C)).take C).length = C := by
  rw [List.length_take, List.length_drop]
  have h1 : (i + 1) * C ≤ S.length / C * C := Nat.mul_le_mul_right C hi
  have h2 : S.length / C * C ≤ S.length := Nat.div_mul_le_self S.length C
  rw [Nat.succ_mul] at h1
  omega

theorem claimed_rest_length (C : Nat) (S : List Nat) :
    (S.drop (S.length / C * C)).length = S.length % C := by
  rw [List.length_drop]
  have hm := Nat.div_add_mod S.length C
  rw [Nat.mul_comm] at hm
  omega

/-- C30 (split independence for non-final Puts): on a freshly opened
compressor with chunk capacity `C`, for any two ways of splitting the same
input `S` into `Put` calls without `isLast`, each followed by `Close`, both
runs return and their sequences of codec invocations are the same, namely
`⌊|S| / C⌋` consecutive slices of `S` of `C` bytes each, none flagged, then one
invocation flagged as the end of the stream that carries the remaining
`|S| mod C` bytes. -/
theorem split_independent_invocations (lib : Lib) (outfile : String) (format : Format)
    (mode : Mode) (genMD5 : Bool) (w : World) (h : Opens lib outfile mode w)
    (pieces pieces' : List (List Nat)) (hs : pieces'.flatten = pieces.flatten) :
    ∃ d d', run lib (Compressor.new lib outfile format mode genMD5 w)
        (putsOf pieces ++ [Op.close]) = Outcome.ok d ∧
      run lib (Compressor.new lib outfile format mode genMD5 w)
        (putsOf pieces' ++ [Op.close]) = Outcome.ok d' ∧
      d'.fed = d.fed ∧
      d.fed = claimedInvocations (chunkCapacity lib format) pieces.flatten ∧
      (∀ i, i < pieces.flatten.length / chunkCapacity lib format →
        ((pieces.flatten.drop (i * chunkCapacity lib format)).take
          (chunkCapacity lib format)).length = chunkCapacity lib format) ∧
      (pieces.flatten.drop (pieces.flatten.length / chunkCapacity lib format *
        chunkCapacity lib format)).length = pieces.flatten.length % chunkCapacity lib format := by
  obtain ⟨d, hd, hf, _⟩ := run_puts_then_close lib outfile format mode genMD5 w h pieces
  obtain ⟨d', hd', hf', _⟩ := run_puts_then_close lib outfile format mode genMD5 w h pieces'
  refine ⟨d, d', hd, hd', ?_, hf, fun i hi => claimed_slice_length _ _ i hi,
    claimed_rest_length _ _⟩
  rw [hf', hf, hs]

theorem split_independent_invocations_witness :
    Opens demoLib "out.zst" Mode.Write demoWorld ∧
    [[1, 2, 3, 4, 5], [6, 7, 8, 9]].flatten = [[1], [2, 3, 4, 5, 6, 7, 8], [], [9]].flatten ∧
    ∃ d d', run demoLib (Compressor.new demoLib "out.zst" Format.ZStd Mode.Write false demoWorld)
        (putsOf [[1], [2, 3, 4, 5, 6, 7, 8], [], [9]] ++ [Op.close]) = Outcome.ok d ∧
      run demoLib (Compressor.new demoLib "out.zst" Format.ZStd Mode.Write false demoWorld)
        (putsOf [[1, 2, 3, 4, 5], [6, 7, 8, 9]] ++ [Op.close]) = Outcome.ok d' ∧
      d'.fed = d.fed ∧
      d.fed = claimedInvocations (chunkCapacity demoLib Format.ZStd)
        [[1], [2, 3, 4, 5, 6, 7, 8], [], [9]].flatten ∧
      (∀ i, i < [[1], [2, 3, 4, 5, 6, 7, 8], [], [9]].flatten.length /
          chunkCapacity demoLib Format.ZStd →
        (([[1], [2, 3, 4, 5, 6, 7, 8], [], [9]].flatten.drop
          (i * chunkCapacity demoLib Format.ZStd)).take
          (chunkCapacity demoLib Format.ZStd)).length = chunkCapacity demoLib Format.ZStd) ∧
      ([[1], [2, 3, 4, 5, 6, 7, 8], [], [9]].flatten.drop
        ([[1], [2, 3, 4, 5, 6, 7, 8], [], [9]].flatten.length /
          chunkCapacity demoLib Format.ZStd * chunkCapacity demoLib Format.ZStd)).length =
        [[1], [2, 3, 4, 5, 6, 7, 8], [], [9]].flatten.length %
          chunkCapacity demoLib Format.ZStd :=
  ⟨by decide, by decide, split_independent_invocations demoLib "out.zst" Format.ZStd Mode.Write
    false demoWorld (by decide) [[1], [2, 3, 4, 5, 6, 7, 8], [], [9]]
    [[1, 2, 3, 4, 5], [6, 7, 8, 9]] (by decide)⟩

/-! ## Conversions of `Format` -/

theorem restAreDigits_eq_all : ∀ cs : List Char, restAreDigits cs = cs.all isdigit
  | [] => rfl
  | c :: cs => by
    unfold restAreDigits
    rw [List.all_cons, restAreDigits_eq_all cs]
    cases isdigit c <;> simp

theorem stricmp_eq_zero (s t : String) :
    _stricmp s t = 0 ↔ (c_str s).map Char.toLower = (c_str t).map Char.toLower := by
  unfold _stricmp
  constructor
  · intro h
    by_contra hne
    rw [if_neg hne] at h
    split at h <;> simp at h
  · intro h
    rw [if_pos h]

/-- C32, counterexample (the names are compared as C strings): the string of
the six characters `z`, `s`, `t`, `d`, NUL, `x` is not empty, is neither
`gzip` nor `zstd` ignoring case and is not made of decimal digits, yet the
string overload of `Convert` returns `ZStd` for it: `_stricmp` reads
`format.c_str()` up to the first NUL, which is `zstd`. -/
theorem convert_compares_up_to_nul :
    ConvertStr "zstd\x00x" = Format.ZStd ∧ "zstd\x00x" ≠ "" ∧
      "zstd\x00x".toList.map Char.toLower ≠ "gzip".toList ∧
      "zstd\x00x".toList.map Char.toLower ≠ "zstd".toList ∧
      ¬ ("zstd\x00x".toList.all isdigit = true) ∧ "zstd\x00x".length = 6 ∧
      c_str "zstd\x00x" = "zstd".toList := by
  refine ⟨?_, ?_, ?_, ?_, ?_, ?_, ?_⟩ <;> decide

/-- C32 (format conversion is total and round-trips), with the names compared
as C strings: `Convert(ToString(f))` and `Convert((int) f)` give back `f` for
both formats; `Convert(n)` is `GZip` for every `int` below 0 or above 1; the
string overload returns `GZip` for the empty string and for every string
whose part before the first NUL is neither `gzip` nor `zstd` ignoring case and
that is not made of decimal digits only; that part is the whole string when
the string holds no NUL; and both overloads, total functions, return `GZip`
or `ZStd` on every argument. -/
theorem format_conversion_round_trips :
    (∀ f : Format, ConvertStr f.ToString = f ∧ Convert f.toInt = f) ∧
      (∀ n : Int, n < 0 ∨ 1 < n → Convert n = Format.GZip) ∧
      (∀ s : String, s = "" ∨ ((c_str s).map Char.toLower ≠ "gzip".toList ∧
          (c_str s).map Char.toLower ≠ "zstd".toList ∧
          ¬ (s.toList.all isdigit = true)) → ConvertStr s = Format.GZip) ∧
      (∀ s : String, (∀ c ∈ s.toList, c.toNat ≠ 0) → c_str s = s.toList) ∧
      (∀ s : String, ConvertStr s = Format.GZip ∨ ConvertStr s = Format.ZStd) ∧
      (∀ n : Int, Convert n = Format.GZip ∨ Convert n = Format.ZStd) := by
  refine ⟨?_, ?_, ?_, ?_, ?_, ?_⟩
  · intro f
    cases f <;> constructor <;> decide
  · intro n hn
    have hn' : n < Format.MIN ∨ n > Format.MAX := hn
    unfold Convert
    rw [if_pos hn']
    rfl
  · intro s hs
    unfold ConvertStr
    rcases hs with hs | ⟨h1, h2, h3⟩
    · rw [if_pos hs]
      rfl
    · have e1 : (c_str "gzip").map Char.toLower = "gzip".toList := by decide
      have e2 : (c_str "zstd").map Char.toLower = "zstd".toList := by decide
      have h1' : ¬ (_stricmp s "gzip" = 0) := fun h =>
        h1 (((stricmp_eq_zero s "gzip").1 h).trans e1)
      have h2' : ¬ (_stricmp s "zstd" = 0) := fun h =>
        h2 (((stricmp_eq_zero s "zstd").1 h).trans e2)
      by_cases he : s = ""
      · rw [if_pos he]
        rfl
      · rw [if_neg he, if_neg h1', if_neg h2']
        split
        · rfl
        · rename_i c cs hcs
          rw [hcs, List.all_cons] at h3
          by_cases hc : isdigit c = true
          · rw [if_pos hc]
            rw [hc, Bool.true_and] at h3
            rw [restAreDigits_eq_all, if_neg h3]
            rfl
          · rw [if_neg hc]
            rfl
  · intro s hs
    unfold c_str
    rw [List.takeWhile_eq_self_iff]
    intro c hc
    simpa using hs c hc
  · intro s
    cases ConvertStr s
    · exact Or.inl rfl
    · exact Or.inr rfl
  · intro n
    cases Convert n
    · exact Or.inl rfl
    · exact Or.inr rfl

theorem format_conversion_round_trips_witness :
    ("1a" = "" ∨ ((c_str "1a").map Char.toLower ≠ "gzip".toList ∧
        (c_str "1a").map Char.toLower ≠ "zstd".toList ∧
        ¬ ("1a".toList.all isdigit = true))) ∧
      ConvertStr "1a" = Format.GZip ∧ ConvertStr "ZsTd" = Format.ZStd ∧
      ConvertStr "1" = Format.ZStd ∧ ConvertStr "7" = Format.GZip :=
  ⟨by decide, format_conversion_round_trips.2.2.1 "1a" (by decide), by decide, by decide,
    by decide⟩

/-! ## `Final` in the middle of a hash -/

/-- C31, evaluated on the code: on a fresh hasher `Update("a"); Final();
Update("b"); Final()` leaves a digest other than the one of `Update("ab");
Final()`. `Final()` restores `_state[0]`, `_state[1]` and `_count[0]` only
(its `memcpy` calls copy 16 and 8 bytes of `uint64_t` arrays), so after the
first `Final()` the words `_state[2]` and `_state[3]` are those of the padded
hash, not the ones saved. And with 56 pending bytes or more the padding that
`Final()` feeds through `Update` is copied over the pending bytes: after
`Update` of 56 bytes `01` and `Final()`, the first 56 bytes of the block
buffer are zero. -/
theorem md5_final_disturbs_ongoing_hash :
    ((((MD5.new (List.replicate 64 0) (List.replicate 16 0)).Update [0x61]).Final.Update
        [0x62]).Final)._digest =
        [236, 35, 42, 43, 96, 74, 28, 174, 197, 156, 182, 160, 28, 42, 8, 220] ∧
      (((MD5.new (List.replicate 64 0) (List.replicate 16 0)).Update [0x61, 0x62]).Final)._digest =
        [245, 97, 253, 254, 89, 70, 70, 89, 197, 128, 73, 10, 83, 45, 209, 133] ∧
      ((MD5.new (List.replicate 64 0) (List.replicate 16 0)).Update [0x61])._state =
        { s0 := 0x67452301, s1 := 0xefcdab89, s2 := 0x98badcfe, s3 := 0x10325476 } ∧
      ((MD5.new (List.replicate 64 0) (List.replicate 16 0)).Update [0x61]).Final._state =
        { s0 := 0x67452301, s1 := 0xefcdab89, s2 := 1601659566730683503,
          s3 := 17508245922413816302 } ∧
      (((MD5.new (List.replicate 64 0) (List.replicate 16 0)).Update
          (List.replicate 56 1))._buffer.take 56 = List.replicate 56 1 ∧
        ((MD5.new (List.replicate 64 0) (List.replicate 16 0)).Update
          (List.replicate 56 1)).Final._buffer.take 56 = List.replicate 56 0) ∧
      ∀ m : MD5, m.Final._state.s0 = m._state.s0 ∧ m.Final._state.s1 = m._state.s1 ∧
        m.Final._count0 = m._count0 := by
  refine ⟨?_, ?_, ?_, ?_, ⟨?_, ?_⟩, ?_⟩
  · decide
  · decide
  · decide
  · decide
  · decide
  · decide
  · intro m
    unfold MD5.Final
    split
    · exact ⟨rfl, rfl, rfl⟩
    · exact ⟨rfl, rfl, rfl⟩

/-! ## The number of codec invocations of a `Put` -/

theorem Compressor.within_refl (c : Compressor) (n : Nat) : c.Within n c :=
  ⟨Nat.le_add_right _ _, rfl⟩

theorem Compressor.within_trans {c d e : Compressor} {m n : Nat} (h₁ : c.Within m d)
    (h₂ : d.Within n e) : c.Within (m + n) e :=
  ⟨by have := h₁.1; have := h₂.1; omega, h₂.2.trans h₁.2⟩

theorem Compressor.within_mono {c d : Compressor} {m n : Nat} (h : c.Within m d) (hmn : m ≤ n) :
    c.Within n d :=
  ⟨by have := h.1; omega, h.2⟩

/-- Sequencing of two parts that make at most `m` and `n` invocations. -/
theorem Compressor.within_step (m n : Nat) {k : Nat} (hk : m + n ≤ k) {c : Compressor}
    {o : Outcome Compressor} {f : Compressor → Outcome Compressor} (h : o.Leaves (c.Within m))
    (hf : ∀ a, c.Within m a → (f a).Leaves (a.Within n)) :
    (o.andThen f).Leaves (c.Within k) :=
  h.bind (fun _ ha => Compressor.within_mono ha (by omega)) fun a ha =>
    (hf a ha).mono fun _ hb => Compressor.within_mono (Compressor.within_trans ha hb) hk

theorem Compressor.withSink_within (c : Compressor) (o : Outcome Sink) :
    (o.lift c.withSink).Leaves (c.Within 0) := by
  cases o with
  | ok a => exact ⟨Nat.le_refl _, rfl⟩
  | raise m a => exact ⟨Nat.le_refl _, rfl⟩
  | hang => trivial
  | fault => trivial

theorem Compressor.deflateAll_within (lib : Lib) (c : Compressor) (x : List Nat) (l : Bool) :
    (Compressor.deflateAll lib c x l).Leaves (c.Within 1) := by
  unfold Compressor.deflateAll
  split
  · trivial
  · simp only []
    refine Outcome.Leaves.lift ?_
    generalize Sink.drainGZIP _ _ _ = o
    cases o with
    | ok a => exact ⟨by simp [Compressor.withSink], rfl⟩
    | raise m a => exact ⟨by simp [Compressor.withSink], rfl⟩
    | hang => trivial
    | fault => trivial

theorem Compressor.zstdAll_within (lib : Lib) (c : Compressor) (x : List Nat) (l : Bool) :
    (Compressor.zstdAll lib c x l).Leaves (c.Within 1) := by
  unfold Compressor.zstdAll
  split
  · trivial
  · simp only []
    refine Outcome.Leaves.lift ?_
    generalize Sink.drainZSTD _ _ _ _ = o
    cases o with
    | ok a => exact ⟨by simp [Compressor.withSink], rfl⟩
    | raise m a => exact ⟨by simp [Compressor.withSink], rfl⟩
    | hang => trivial
    | fault => trivial

theorem Compressor.zstdEnd_within (c : Compressor) : c.zstdEnd.Leaves (c.Within 0) := by
  unfold Compressor.zstdEnd
  refine Compressor.within_step 0 0 (Nat.le_refl _) (Compressor.withSink_within c _) fun a _ => ?_
  exact ⟨Nat.le_refl _, rfl⟩

theorem Compressor.gzipTrailer_within (c : Compressor) : c.gzipTrailer.Leaves (c.Within 0) := by
  unfold Compressor.gzipTrailer
  refine Compressor.within_step 0 0 (Nat.le_refl _) (Compressor.withSink_within c _) fun a _ => ?_
  simp only []
  refine Compressor.within_step 0 0 (Nat.le_refl _) ?_ fun b _ => ?_
  swap
  · exact ⟨Nat.le_refl _, rfl⟩
  refine Outcome.Leaves.lift ?_
  generalize Sink._WriteAndReset _ _ _ = o
  cases o with
  | ok s => exact ⟨Nat.le_refl _, rfl⟩
  | raise m s => exact ⟨Nat.le_refl _, rfl⟩
  | hang => trivial
  | fault => trivial

/-- One call of `_CompressAndWrite` makes at most one codec invocation and
leaves the chunk capacity as it was. -/
theorem Compressor.compressAndWrite_within (lib : Lib) (c : Compressor) (x : List Nat)
    (l : Bool) : (c._CompressAndWrite lib x l).Leaves (c.Within 1) := by
  unfold Compressor._CompressAndWrite
  split
  · unfold Compressor._CompressAndWriteGZIP
    refine Compressor.within_step 0 1 (Nat.le_refl _) (Compressor.withSink_within c _)
      fun a _ => ?_
    split
    · exact a.within_refl 1
    · simp only []
      refine Compressor.within_step 1 0 (Nat.le_refl _) ?_ fun b _ => ?_
      · exact (Compressor.deflateAll_within lib _ x _).mono fun _ hd => ⟨hd.1, hd.2⟩
      · split
        · exact Compressor.gzipTrailer_within b
        · exact b.within_refl 0
  · unfold Compressor._CompressAndWriteZSTD
    refine Compressor.within_step 0 1 (Nat.le_refl _) (Compressor.withSink_within c _)
      fun a _ => ?_
    split
    · exact a.within_refl 1
    · refine Compressor.within_step 1 0 (Nat.le_refl _) (Compressor.zstdAll_within lib a x _)
        fun b _ => ?_
      split
      · exact Compressor.zstdEnd_within b
      · exact b.within_refl 0

theorem Compressor.compressAndWrite_within_of (lib : Lib) (c a : Compressor) (n : Nat)
    (x : List Nat) (l : Bool) (h : c.Within n a) :
    (a._CompressAndWrite lib x l).Leaves (c.Within (n + 1)) :=
  (Compressor.compressAndWrite_within lib a x l).mono fun _ hd => Compressor.within_trans h hd

theorem Compressor.putHeld_within (lib : Lib) (c : Compressor) (data : List Nat) (l : Bool) :
    (c.putHeld lib data l).Leaves fun p => c.Within 1 p.1 ∧ p.2.length ≤ data.length := by
  unfold Compressor.putHeld
  split
  · split
    · simp only []
      split
      · refine Outcome.Leaves.lift ?_
        refine (Compressor.compressAndWrite_within_of lib c _ 0 _ _ ?_).mono ?_
        · exact ⟨Nat.le_refl _, rfl⟩
        · intro d hd
          exact ⟨⟨hd.1, hd.2⟩, by
            show (data.drop _).length ≤ data.length
            rw [List.length_drop]
            omega⟩
      · exact ⟨⟨Nat.le_add_right _ _, rfl⟩, by
          show (data.drop _).length ≤ data.length
          rw [List.length_drop]
          omega⟩
    · refine Outcome.Leaves.lift ?_
      exact (Compressor.compressAndWrite_within lib c _ _).mono fun d hd =>
        ⟨⟨hd.1, hd.2⟩, Nat.le_refl _⟩
  · exact ⟨c.within_refl 1, Nat.le_refl _⟩

theorem Compressor.putLoop_within (lib : Lib) (l : Bool) : ∀ (fuel : Nat) (c a : Compressor)
    (n : Nat) (ptr : List Nat), 0 < c.inputChunkSize → c.Within n a →
      (Compressor.putLoop lib l fuel a ptr).Leaves fun p =>
        c.Within (n + ptr.length / c.inputChunkSize) p.1
  | 0, c, a, n, ptr, _, h => by
    unfold Compressor.putLoop
    split
    · trivial
    · exact Compressor.within_mono h (Nat.le_add_right _ _)
  | fuel + 1, c, a, n, ptr, hC, h => by
    unfold Compressor.putLoop
    split
    · rename_i hge
      rw [h.2] at hge
      have hcw := Compressor.compressAndWrite_within_of lib c a n (ptr.take a.inputChunkSize)
        (l && decide (ptr.length ≤ a.inputChunkSize)) h
      revert hcw
      cases a._CompressAndWrite lib (ptr.take a.inputChunkSize)
          (l && decide (ptr.length ≤ a.inputChunkSize)) with
      | ok d =>
        intro hd
        have hrec := Compressor.putLoop_within lib l fuel c d (n + 1)
          (ptr.drop d.inputChunkSize) hC hd
        refine hrec.mono fun p hp => Compressor.within_mono hp ?_
        rw [hd.2, List.length_drop, Nat.div_eq_sub_div hC hge]
        omega
      | raise m d =>
        intro hd
        refine Compressor.within_mono hd ?_
        have : 1 ≤ ptr.length / c.inputChunkSize := by
          rw [Nat.div_eq_sub_div hC hge]
          exact Nat.succ_le_succ (Nat.zero_le _)
        omega
      | hang => intro _; trivial
      | fault => intro _; trivial
    · exact Compressor.within_mono h (Nat.le_add_right _ _)

theorem Compressor.putTail_within (lib : Lib) (l : Bool) (c a : Compressor) (n : Nat)
    (ptr : List Nat) (h : c.Within n a) :
    (Compressor.putTail lib l a ptr).Leaves (c.Within (n + 1)) := by
  unfold Compressor.putTail
  split
  · split
    · exact Compressor.compressAndWrite_within_of lib c a n ptr true h
    · exact ⟨by have := h.1; show a.fed.length ≤ _; omega, h.2⟩
  · exact Compressor.within_mono h (Nat.le_add_right _ _)

/-- A `Put` that returns or throws has made at most `⌊size / inputChunkSize⌋ + 2`
codec invocations. -/
theorem Compressor.Put_within (lib : Lib) (c : Compressor) (data : List Nat) (l : Bool)
    (hC : 0 < c.inputChunkSize) :
    (c.Put lib data l).Leaves (c.Within (data.length / c.inputChunkSize + 2)) := by
  unfold Compressor.Put
  split
  · exact c.within_refl _
  · split
    · simp only []
      have h1 : (Compressor.thenPtr
          (Compressor.putHeld lib { c with totalInputSize := u64 (c.totalInputSize + data.length) }
            data l) (Compressor.putLoop lib l data.length)).Leaves fun p =>
            c.Within (1 + data.length / c.inputChunkSize) p.1 := by
        unfold Compressor.thenPtr
        refine Outcome.Leaves.bind
          (Compressor.putHeld_within lib (c.withTotal (u64 (c.totalInputSize + data.length)))
            data l) ?_ ?_
        · intro p hp
          exact Compressor.within_mono ⟨hp.1.1, hp.1.2⟩ (Nat.le_add_right _ _)
        · intro p hp
          have hw : c.Within 1 p.1 := ⟨hp.1.1, hp.1.2⟩
          refine (Compressor.putLoop_within lib l data.length c p.1 1 p.2 hC hw).mono ?_
          intro q hq
          refine Compressor.within_mono hq ?_
          have := Nat.div_le_div_right (c := c.inputChunkSize) hp.2
          omega
      revert h1
      cases Compressor.thenPtr
          (Compressor.putHeld lib { c with totalInputSize := u64 (c.totalInputSize + data.length) }
            data l) (Compressor.putLoop lib l data.length) with
      | ok p =>
        intro hp
        refine (Compressor.putTail_within lib l c p.1 _ p.2 hp).mono fun d hd =>
          Compressor.within_mono hd (by omega)
      | raise m p => intro hp; exact Compressor.within_mono hp (by omega)
      | hang => intro _; trivial
      | fault => intro _; trivial
    · split
      · refine Outcome.Leaves.lift ?_
        exact (Compressor.compressAndWrite_within lib c _ true).mono fun d hd =>
          Compressor.within_mono ⟨hd.1, hd.2⟩ (Nat.le_add_left 1 _)
      · exact c.within_refl _

/-- With a positive chunk capacity the slicing loop of `Put` ends within
`⌊residue / inputChunkSize⌋` iterations: more fuel than that does not change
its outcome. -/
theorem Compressor.putLoop_fuel (lib : Lib) (l : Bool) : ∀ (k : Nat) (c : Compressor)
    (ptr : List Nat) (fuel : Nat), 0 < c.inputChunkSize →
      ptr.length / c.inputChunkSize ≤ k → k ≤ fuel →
      Compressor.putLoop lib l fuel c ptr = Compressor.putLoop lib l k c ptr
  | 0, c, ptr, fuel, hC, hk, _ => by
    have hlt : ¬ c.inputChunkSize ≤ ptr.length := by
      intro hge
      have := Nat.div_pos hge hC
      omega
    cases fuel with
    | zero => rfl
    | succ f =>
      unfold Compressor.putLoop
      rw [if_neg hlt, if_neg hlt]
  | k + 1, c, ptr, fuel, hC, hk, hf => by
    obtain ⟨f, rfl⟩ : ∃ f, fuel = f + 1 := ⟨fuel - 1, by omega⟩
    unfold Compressor.putLoop
    by_cases hge : c.inputChunkSize ≤ ptr.length
    · rw [if_pos hge, if_pos hge]
      have hw := Compressor.compressAndWrite_within lib c (ptr.take c.inputChunkSize)
        (l && decide (ptr.length ≤ c.inputChunkSize))
      revert hw
      cases c._CompressAndWrite lib (ptr.take c.inputChunkSize)
          (l && decide (ptr.length ≤ c.inputChunkSize)) with
      | ok d =>
        intro hw
        have hd : d.inputChunkSize = c.inputChunkSize := hw.2
        show Compressor.putLoop lib l f d (ptr.drop d.inputChunkSize) =
          Compressor.putLoop lib l k d (ptr.drop d.inputChunkSize)
        refine Compressor.putLoop_fuel lib l k d _ f (by rw [hd]; exact hC) ?_ (by omega)
        rw [hd, List.length_drop]
        have := Nat.div_eq_sub_div hC hge
        omega
      | raise m d => intro _; rfl
      | hang => intro _; rfl
      | fault => intro _; rfl
    · rw [if_neg hge, if_neg hge]

/-- With chunk capacity 0 on a compressor whose handle is not null (the open
failed) and whose output buffer is empty, every call of `_CompressAndWrite`
with no bytes returns at once with the state unchanged. -/
theorem Compressor.compressAndWrite_nothing (lib : Lib) (c : Compressor) (l : Bool)
    (hh : c.sink.fHandle ≠ Handle.null)
    (hm : c.sink.fMode = Mode.Write ∨ c.sink.fMode = Mode.Append)
    (hb : c.sink.compressedBuffer = []) : c._CompressAndWrite lib [] l = Outcome.ok c := by
  have hfl : c.sink.flushIfFull = Outcome.ok c.sink := by
    unfold Sink.flushIfFull
    split
    · unfold Sink._WriteAndReset
      rw [if_neg hh, if_neg (by rcases hm with h | h <;> simp [h]),
        if_pos (by simp [Sink.compressedBufferSize, hb])]
    · rfl
  unfold Compressor._CompressAndWrite
  split
  · unfold Compressor._CompressAndWriteGZIP
    rw [hfl]
    simp [Compressor.withSink]
  · unfold Compressor._CompressAndWriteZSTD
    rw [hfl]
    simp [Compressor.withSink]

/-- With chunk capacity 0 the slicing loop of `Put` does not end on such a
compressor, whatever the number of iterations granted. -/
theorem Compressor.putLoop_stuck (lib : Lib) (l : Bool) (c : Compressor) (ptr : List Nat)
    (hC : c.inputChunkSize = 0) (hh : c.sink.fHandle ≠ Handle.null)
    (hm : c.sink.fMode = Mode.Write ∨ c.sink.fMode = Mode.Append)
    (hb : c.sink.compressedBuffer = []) :
    ∀ fuel : Nat, Compressor.putLoop lib l fuel c ptr = Outcome.hang
  | 0 => by
    unfold Compressor.putLoop
    rw [if_pos (by rw [hC]; exact Nat.zero_le _)]
  | fuel + 1 => by
    unfold Compressor.putLoop
    rw [if_pos (by rw [hC]; exact Nat.zero_le _)]
    have ht : ptr.take c.inputChunkSize = [] := by rw [hC]; rfl
    rw [ht, Compressor.compressAndWrite_nothing lib c _ hh hm hb]
    show Compressor.putLoop lib l fuel c (ptr.drop c.inputChunkSize) = Outcome.hang
    rw [hC, List.drop_zero]
    exact Compressor.putLoop_stuck lib l c ptr hC hh hm hb fuel

theorem Compressor.Put_stuck (lib : Lib) (c : Compressor) (data : List Nat) (l : Bool)
    (hC : c.inputChunkSize = 0) (hh : c.sink.fHandle ≠ Handle.null)
    (hm : c.sink.fMode = Mode.Write ∨ c.sink.fMode = Mode.Append)
    (hb : c.sink.compressedBuffer = []) (hheld : c.currentInputBuffer = [])
    (heos : c.bEndOfStream = false) (hd : 0 < data.length) :
    c.Put lib data l = Outcome.hang := by
  unfold Compressor.Put
  rw [if_neg (by rw [heos]; exact fun h => absurd h.1 (by decide)), if_pos hd]
  simp only []
  have hph : Compressor.putHeld lib
      { c with totalInputSize := u64 (c.totalInputSize + data.length) } data l =
      Outcome.ok ({ c with totalInputSize := u64 (c.totalInputSize + data.length) }, data) := by
    unfold Compressor.putHeld
    rw [if_neg (by simp [Compressor.currentInputSize, hheld])]
  have hl := Compressor.putLoop_stuck lib l
    { c with totalInputSize := u64 (c.totalInputSize + data.length) } data hC hh hm hb data.length
  unfold Compressor.thenPtr
  rw [hph, Outcome.andThen_ok, hl]

theorem Compressor.new_failed (lib : Lib) (outfile : String) (format : Format) (mode : Mode)
    (genMD5 : Bool) (w : World) (hne : outfile ≠ "")
    (hm : mode = Mode.Write ∨ mode = Mode.Append)
    (hf : (Compressor.CreateFileA mode w).1 = Handle.invalid) :
    ∃ c, Compressor.new lib outfile format mode genMD5 w = Outcome.ok c ∧
      c.inputChunkSize = 0 ∧ c.sink.fHandle = Handle.invalid ∧ c.sink.fMode = mode ∧
      c.sink.compressedBuffer = [] ∧ c.currentInputBuffer = [] ∧ c.bEndOfStream = false := by
  have hnn : ¬ (mode = Mode.None ∨ outfile = "") := by
    rintro (h | h)
    · rcases hm with hm | hm <;> simp [hm] at h
    · exact hne h
  refine ⟨
    { Compressor.init outfile format mode genMD5 w with
      sink :=
        { (Compressor.init outfile format mode genMD5 w).sink with
          fHandle := (Compressor.CreateFileA mode w).1
          file := (Compressor.CreateFileA mode w).2 } }, ?_, rfl, hf, rfl, rfl, rfl, rfl⟩
  unfold Compressor.new
  simp only [hnn, if_false, hf, if_true]

theorem Compressor.release_chunk_size (c : Compressor) :
    c.closeHandle.release.inputChunkSize = c.inputChunkSize := by
  unfold Compressor.release
  split <;> rfl

/-- Every sequence of calls on a successfully opened compressor, exceptions
caught, returns, in a state that satisfies the bookkeeping invariant and has
a positive chunk capacity. -/
theorem Compressor.reach_chunk (lib : Lib) (outfile : String) (format : Format) (mode : Mode)
    (genMD5 : Bool) (w : World) (ho : Opens lib outfile mode w) (ops : List Op) :
    ∃ d T, runCaught lib (Compressor.new lib outfile format mode genMD5 w) ops = Outcome.ok d ∧
      Inv T d ∧ 0 < d.inputChunkSize := by
  obtain ⟨c, hc, hinv, hr, _⟩ := Compressor.new_ok lib outfile format mode genMD5 w ho
  rw [hc]
  refine Inv.along_caught lib (fun d => 0 < d.inputChunkSize) ?_ ?_ ops [] c hinv hr.1.2.2.1
  · intro S c d data l _ hq hd
    have hw := Compressor.Put_within lib c data l hq
    rw [hd] at hw
    show 0 < d.inputChunkSize
    rw [hw.2]
    exact hq
  · intro S c d _ hq hd
    show 0 < d.inputChunkSize
    by_cases hb : c.bClosed = true
    · rw [Compressor.Close_of_closed hb hd]
      exact hq
    · obtain ⟨e, hke, he⟩ := Compressor.Close_kept Sink.keeps_true lib c d trivial
        (by simpa using hb) hd
      rw [he, Compressor.release_chunk_size, hke.2.2.2.1]
      exact hq

/-- C33 (Put terminates): each call of the codec engine returning with its
output, a `Put` on a compressor with a positive chunk capacity that returns
or throws has handed at most `⌊size / inputChunkSize⌋ + 2` chunks to the
codec (one invocation per chunk, the draining of its output included); its
slicing loop ends within `⌊residue / inputChunkSize⌋` iterations (granting
more iterations does not change its outcome), the residue getting strictly
smaller in each; and on a compressor that is ready or finalised the `Put`
does return, or throws "end_of_stream". Every state that a sequence of `Put`
and `Close` calls, exceptions caught, leaves of a successfully opened
compressor is such a state with a positive chunk capacity. An instance whose
file could not be opened has chunk capacity 0, and on it the slicing loop
does not end within any number of iterations, so that a `Put` with `size > 0`
never returns. -/
theorem put_terminates_within_bound (lib : Lib) (c : Compressor) (data : List Nat) (l : Bool)
    (hC : 0 < c.inputChunkSize) :
    (c.Put lib data l).Leaves (fun d =>
        d.fed.length ≤ c.fed.length + (data.length / c.inputChunkSize + 2)) ∧
      (∀ (ptr : List Nat) (fuel : Nat), ptr.length / c.inputChunkSize ≤ fuel →
        Compressor.putLoop lib l fuel c ptr =
          Compressor.putLoop lib l (ptr.length / c.inputChunkSize) c ptr) ∧
      (∀ ptr : List Nat, c.inputChunkSize ≤ ptr.length →
        (ptr.drop c.inputChunkSize).length < ptr.length) ∧
      (Ready c ∨ Finished c → ∃ d, c.Put lib data l = Outcome.ok d ∨
        c.Put lib data l = Outcome.raise "end_of_stream" d) ∧
      (∀ (outfile : String) (format : Format) (mode : Mode) (genMD5 : Bool) (w : World)
        (ops : List Op), Opens lib outfile mode w →
        ∃ x, runCaught lib (Compressor.new lib outfile format mode genMD5 w) ops =
            Outcome.ok x ∧
          0 < x.inputChunkSize ∧ (Ready x ∨ Finished x) ∧
          (∃ d, (x.Put lib data l = Outcome.ok d ∨
              x.Put lib data l = Outcome.raise "end_of_stream" d) ∧
            d.fed.length ≤ x.fed.length + (data.length / x.inputChunkSize + 2))) ∧
      (∀ (outfile : String) (format : Format) (mode : Mode) (genMD5 : Bool) (w : World),
        outfile ≠ "" → mode = Mode.Write ∨ mode = Mode.Append →
        (Compressor.CreateFileA mode w).1 = Handle.invalid →
        ∃ x, Compressor.new lib outfile format mode genMD5 w = Outcome.ok x ∧
          x.inputChunkSize = 0 ∧
          (∀ (ptr : List Nat) (fuel : Nat),
            Compressor.putLoop lib l fuel x ptr = Outcome.hang) ∧
          (0 < data.length → x.Put lib data l = Outcome.hang)) := by
  have total : ∀ x : Compressor, Ready x ∨ Finished x →
      ∃ d, x.Put lib data l = Outcome.ok d ∨
        x.Put lib data l = Outcome.raise "end_of_stream" d := by
    rintro x (hr | hf)
    · obtain ⟨d, hd, _⟩ := Compressor.Put_ready lib x data l hr
      exact ⟨d, Or.inl hd⟩
    · obtain ⟨h1, h2⟩ := Compressor.Put_finished lib x data l hf
      by_cases h0 : 0 < data.length
      · exact ⟨x, Or.inr (h1 h0)⟩
      · exact ⟨x, Or.inl (h2 (by omega))⟩
  refine ⟨?_, ?_, ?_, total c, ?_, ?_⟩
  · exact (Compressor.Put_within lib c data l hC).mono fun d hd => hd.1
  · intro ptr fuel hf
    exact Compressor.putLoop_fuel lib l _ c ptr fuel hC (Nat.le_refl _) hf
  · intro ptr hge
    rw [List.length_drop]
    omega
  · intro outfile format mode genMD5 w ops ho
    obtain ⟨x, T, hx, hinv, hpos⟩ :=
      Compressor.reach_chunk lib outfile format mode genMD5 w ho ops
    obtain ⟨d, hd⟩ := total x hinv.1
    have hw := Compressor.Put_within lib x data l hpos
    refine ⟨x, hx, hpos, hinv.1, d, hd, ?_⟩
    rcases hd with hd | hd
    · rw [hd] at hw
      exact hw.1
    · rw [hd] at hw
      exact hw.1
  · intro outfile format mode genMD5 w hne hm hf
    obtain ⟨x, hx, x1, x2, x3, x4, x5, x6⟩ :=
      Compressor.new_failed lib outfile format mode genMD5 w hne hm hf
    have hh : x.sink.fHandle ≠ Handle.null := by rw [x2]; decide
    have hmode : x.sink.fMode = Mode.Write ∨ x.sink.fMode = Mode.Append := by rw [x3]; exact hm
    exact ⟨x, hx, x1, fun ptr fuel => Compressor.putLoop_stuck lib l x ptr x1 hh hmode x4 fuel,
      fun hd => Compressor.Put_stuck lib x data l x1 hh hmode x4 x5 x6 hd⟩

theorem put_terminates_within_bound_witness :
    0 < demoOpen.inputChunkSize ∧
    ((demoOpen.Put demoLib [1, 2, 3, 4, 5, 6, 7, 8, 9] true).Leaves (fun d =>
        d.fed.length ≤ demoOpen.fed.length +
          (([1, 2, 3, 4, 5, 6, 7, 8, 9] : List Nat).length / demoOpen.inputChunkSize + 2)) ∧
      (∀ (ptr : List Nat) (fuel : Nat), ptr.length / demoOpen.inputChunkSize ≤ fuel →
        Compressor.putLoop demoLib true fuel demoOpen ptr =
          Compressor.putLoop demoLib true (ptr.length / demoOpen.inputChunkSize) demoOpen ptr) ∧
      (∀ ptr : List Nat, demoOpen.inputChunkSize ≤ ptr.length →
        (ptr.drop demoOpen.inputChunkSize).length < ptr.length) ∧
      (Ready demoOpen ∨ Finished demoOpen →
        ∃ d, demoOpen.Put demoLib [1, 2, 3, 4, 5, 6, 7, 8, 9] true = Outcome.ok d ∨
          demoOpen.Put demoLib [1, 2, 3, 4, 5, 6, 7, 8, 9] true =
            Outcome.raise "end_of_stream" d) ∧
      (∀ (outfile : String) (format : Format) (mode : Mode) (genMD5 : Bool) (w : World)
        (ops : List Op), Opens demoLib outfile mode w →
        ∃ x, runCaught demoLib (Compressor.new demoLib outfile format mode genMD5 w) ops =
            Outcome.ok x ∧
          0 < x.inputChunkSize ∧ (Ready x ∨ Finished x) ∧
          (∃ d, (x.Put demoLib [1, 2, 3, 4, 5, 6, 7, 8, 9] true = Outcome.ok d ∨
              x.Put demoLib [1, 2, 3, 4, 5, 6, 7, 8, 9] true =
                Outcome.raise "end_of_stream" d) ∧
            d.fed.length ≤ x.fed.length +
              (([1, 2, 3, 4, 5, 6, 7, 8, 9] : List Nat).length / x.inputChunkSize + 2))) ∧
      (∀ (outfile : String) (format : Format) (mode : Mode) (genMD5 : Bool) (w : World),
        outfile ≠ "" → mode = Mode.Write ∨ mode = Mode.Append →
        (Compressor.CreateFileA mode w).1 = Handle.invalid →
        ∃ x, Compressor.new demoLib outfile format mode genMD5 w = Outcome.ok x ∧
          x.inputChunkSize = 0 ∧
          (∀ (ptr : List Nat) (fuel : Nat),
            Compressor.putLoop demoLib true fuel x ptr = Outcome.hang) ∧
          (0 < ([1, 2, 3, 4, 5, 6, 7, 8, 9] : List Nat).length →
            x.Put demoLib [1, 2, 3, 4, 5, 6, 7, 8, 9] true = Outcome.hang))) :=
  ⟨by decide, put_terminates_within_bound demoLib demoOpen [1, 2, 3, 4, 5, 6, 7, 8, 9] true
    (by decide)⟩

end compression
end zio
